import Mathlib

/-!
# Graph orchestration core of the node-based image editor

A shallow embedding of `GraphManager`, `Node`, `NodeConnector` and `Connection`
(`src/GraphManager.cpp`, `src/nodes/Node.cpp`, `src/connections/*.cpp`).

Pointers are modelled as follows.

* `Node*` is an index into the heap of node objects (`State.heap`); a deleted
  node leaves an empty slot, so addresses are never reused.
* `NodeConnector*` is the triple (owning node, direction, index).  The three
  fields `parent_`, `type_`, `index_` of a connector are written once, by
  `Node::addInputConnector` / `Node::addOutputConnector`, and always equal the
  position of the connector inside its node, so `getParentNode`, `getType` and
  `getIndex` read them off the pointer.
* `Connection*` is the connection record itself, tagged with the address it was
  allocated at; `source_` and `destination_` are never changed by the graph
  operations.

Dereferencing a pointer to a node or connector that does not exist (undefined in
C++) yields no connectors and no connections.
-/

/-! ## Data model -/

/-- The enum `NodeType` of `Node.h`. -/
inductive NodeType where
  | Input
  | Processing
  | Output
deriving DecidableEq, Repr

/-- The enum `ConnectorType` of `Node.h`. -/
inductive ConnectorType where
  | Input
  | Output
deriving DecidableEq, Repr

/-- A `Node*`: the address of a node object. -/
abbrev NodePtr := Nat

/-- A `NodeConnector*`. -/
structure ConnectorPtr where
  parent_ : NodePtr
  type_ : ConnectorType
  index_ : Nat
deriving DecidableEq, Repr

/-- A `Connection` object together with its address. -/
structure Connection where
  addr : Nat
  source_ : ConnectorPtr
  destination_ : ConnectorPtr
deriving DecidableEq, Repr

/-- The mutable part of a `NodeConnector` object. -/
structure NodeConnector where
  name_ : String
  connections_ : List Connection
deriving DecidableEq, Repr

/-- A C++ `double`, kept as its IEEE-754 binary64 bit pattern. -/
structure Double where
  bits : Nat
deriving DecidableEq, Repr

/-- A `QPointF`. -/
structure QPointF where
  xp : Double
  yp : Double
deriving DecidableEq, Repr

/-- A `cv::Mat`, kept as the list of its elements; `empty()` is the empty list. -/
abbrev Mat := List Nat

/-- The concrete classes derived from `Node`. -/
inductive NodeKind where
  | InputNode
  | OutputNode
  | BrightnessContrastNode
  | BlurNode
  | ThresholdNode
  | BlendNode
  | EdgeDetectionNode
  | ChannelSplitterNode
deriving DecidableEq, Repr

/-- A node object: the fields of `Node` and the fields of the derived classes
that the graph core reads or writes. -/
structure Node where
  kind : NodeKind
  name_ : String
  type_ : NodeType
  id_ : Int
  dirty_ : Bool
  pos : QPointF
  inputConnectors_ : List NodeConnector
  outputConnectors_ : List NodeConnector
  outputImages_ : List Mat
  imagePath_ : String
  originalImage_ : Mat
  processedImage_ : Mat
  brightness_ : Int
  contrast_ : Double
deriving DecidableEq, Repr

/-- The program state: the heap of node objects, the allocation counters, and
the fields of the `GraphManager` instance. -/
structure State where
  heap : List (Option Node)
  nextId_ : Int
  nextConn : Nat
  nodes_ : List NodePtr
  connections_ : List Connection
  selectedNode_ : Option NodePtr
  currentFilePath_ : String
  dirty_ : Bool
deriving DecidableEq, Repr

/-- The state right after `GraphManager::GraphManager`, with no node allocated. -/
def State.init : State :=
  { heap := [], nextId_ := 0, nextConn := 0, nodes_ := [], connections_ := [],
    selectedNode_ := none, currentFilePath_ := "", dirty_ := false }

/-! ## Heap access -/

/-- Dereference a `Node*`. -/
def State.node? (s : State) (p : NodePtr) : Option Node :=
  match s.heap[p]? with
  | some (some n) => some n
  | _ => none

/-- `Node::getInputConnectors` / `Node::getOutputConnectors`, selected by direction. -/
def Node.connectors (n : Node) : ConnectorType → List NodeConnector
  | .Input => n.inputConnectors_
  | .Output => n.outputConnectors_

/-- Dereference a `NodeConnector*`. -/
def State.connector? (s : State) (c : ConnectorPtr) : Option NodeConnector :=
  match s.node? c.parent_ with
  | none => none
  | some n => (n.connectors c.type_)[c.index_]?

/-- `NodeConnector::getConnections`. -/
def State.getConnections (s : State) (c : ConnectorPtr) : List Connection :=
  match s.connector? c with
  | some k => k.connections_
  | none => []

/-- Overwrite the connector list of one direction. -/
def Node.setConnectors (n : Node) (t : ConnectorType) (l : List NodeConnector) : Node :=
  match t with
  | .Input => { n with inputConnectors_ := l }
  | .Output => { n with outputConnectors_ := l }

/-- Apply `f` to the node object at `p` (nothing happens when there is none). -/
def State.modifyNode (s : State) (p : NodePtr) (f : Node → Node) : State :=
  match s.node? p with
  | some n => { s with heap := s.heap.set p (some (f n)) }
  | none => s

/-- Apply `f` to the connection list of the connector `c`. -/
def State.modifyConnector (s : State) (c : ConnectorPtr)
    (f : List Connection → List Connection) : State :=
  s.modifyNode c.parent_ (fun n =>
    n.setConnectors c.type_
      (List.modify (fun k => { k with connections_ := f k.connections_ }) c.index_
        (n.connectors c.type_)))

/-- `NodeConnector::addConnection`: `connections_.push_back(connection)`. -/
def NodeConnector.addConnection (s : State) (c : ConnectorPtr) (connection : Connection) :
    State :=
  s.modifyConnector c (fun l => l ++ [connection])

/-- `NodeConnector::removeConnection`: erase the first occurrence found by `std::find`. -/
def NodeConnector.removeConnection (s : State) (c : ConnectorPtr) (connection : Connection) :
    State :=
  s.modifyConnector c (fun l => l.erase connection)

/-- Modelled from the spec: `Node::markDirty` is called by `GraphManager` but is
not declared in `Node.h`; the spec says the call marks the node dirty. -/
def Node.markDirty (s : State) (p : NodePtr) : State :=
  s.modifyNode p (fun n => { n with dirty_ := true })

/-- Modelled from the spec: `Node::isDirty` is called by `GraphManager::processAll`
but is not declared in `Node.h`; it reads the dirty flag. -/
def Node.isDirty (s : State) (p : NodePtr) : Bool :=
  match s.node? p with
  | some n => n.dirty_
  | none => false

/-! ## `GraphManager::canConnect` -/

/-- The nodes visited by the two nested `for` loops of `canConnect` for the node
`current`, in visiting order: the parent of the destination of every connection
of every output connector. -/
def State.successors (s : State) (current : NodePtr) : List NodePtr :=
  match s.node? current with
  | none => []
  | some n =>
    n.outputConnectors_.flatMap (fun outputConnector =>
      outputConnector.connections_.map (fun conn => conn.destination_.parent_))

/-- The body of the two nested `for` loops for one dequeued node.  `none` is the
early `return false` (the source node was reached); otherwise the updated queue
and visited set. -/
def visitNext (sourceNode : NodePtr) :
    List NodePtr → List NodePtr → List NodePtr → Option (List NodePtr × List NodePtr)
  | [], queue, visited => some (queue, visited)
  | nextNode :: rest, queue, visited =>
    if nextNode = sourceNode then none
    else if nextNode ∈ visited then visitNext sourceNode rest queue visited
    else visitNext sourceNode rest (queue ++ [nextNode]) (nextNode :: visited)

/-- The `while (!queue.empty())` loop of `canConnect`; one unit of fuel per
dequeued node, `none` when the fuel runs out. -/
def bfsLoop (succ : NodePtr → List NodePtr) (sourceNode : NodePtr) :
    Nat → List NodePtr → List NodePtr → Option Bool
  | 0, _, _ => none
  | _ + 1, [], _ => some true
  | fuel + 1, current :: queue, visited =>
    match visitNext sourceNode (succ current) queue visited with
    | none => some false
    | some (queue', visited') => bfsLoop succ sourceNode fuel queue' visited'

/-- Every destination node of a connection registered on an output connector of
a live node. -/
def State.allTargets (s : State) : List NodePtr :=
  (List.range s.heap.length).flatMap (fun p => s.successors p)

/-- The number of loop iterations granted to the traversal: more than the number
of nodes that can ever be enqueued (see `bfsLoop_fuel`). -/
def State.bfsFuel (s : State) : Nat := s.allTargets.length + 2

/-- `GraphManager::canConnect`. -/
def GraphManager.canConnect (s : State) (source destination : Option ConnectorPtr) : Bool :=
  match source, destination with
  | some source, some destination =>
    if source.type_ ≠ ConnectorType.Output ∨ destination.type_ ≠ ConnectorType.Input then false
    else if s.getConnections destination ≠ [] then false
    else if source.parent_ = destination.parent_ then false
    else
      match bfsLoop s.successors source.parent_ s.bfsFuel
          [destination.parent_] [destination.parent_] with
      | some b => b
      | none => false
  | _, _ => false

/-- `GraphManager::connect`. -/
def GraphManager.connect (s : State) (source destination : Option ConnectorPtr) :
    Bool × State :=
  if !GraphManager.canConnect s source destination then (false, s)
  else
    match source, destination with
    | some source, some destination =>
      let connection : Connection :=
        { addr := s.nextConn, source_ := source, destination_ := destination }
      let s1 := { s with nextConn := s.nextConn + 1,
                         connections_ := s.connections_ ++ [connection] }
      let s2 := NodeConnector.addConnection s1 source connection
      let s3 := NodeConnector.addConnection s2 destination connection
      let s4 := Node.markDirty s3 destination.parent_
      (true, { s4 with dirty_ := true })
    | _, _ => (false, s)

/-! ## Predicates on states used by the specifications -/

/-- Every connector pointer that refers to an existing connector of a live node. -/
def State.connectorPtrs (s : State) : List ConnectorPtr :=
  (List.range s.heap.length).flatMap (fun p =>
    match s.node? p with
    | none => []
    | some n =>
      (List.range n.inputConnectors_.length).map (fun i => ConnectorPtr.mk p .Input i) ++
      (List.range n.outputConnectors_.length).map (fun i => ConnectorPtr.mk p .Output i))

/-- The induced node graph: `u → v` when an edge of `connections_` leads from a
connector of `u` to a connector of `v`. -/
def State.NodeEdge (s : State) (u v : NodePtr) : Prop :=
  ∃ c ∈ s.connections_, c.source_.parent_ = u ∧ c.destination_.parent_ = v

/-- Every port's incident-edge list agrees with the graph's edge list: an edge
of `connections_` is registered on both of its end points, and a connection
registered on a connector is an edge of `connections_` that has this connector
as an end point. -/
def State.PortsAgree (s : State) : Prop :=
  (∀ c ∈ s.connections_, c ∈ s.getConnections c.source_ ∧ c ∈ s.getConnections c.destination_) ∧
  (∀ p ∈ s.connectorPtrs, ∀ c ∈ s.getConnections p,
      c ∈ s.connections_ ∧ (c.source_ = p ∨ c.destination_ = p))

/-- Every edge leads from an output connector to an input connector, as every
`Connection` built by `GraphManager::connect` or `Node::connectTo` does. -/
def State.EdgesTyped (s : State) : Prop :=
  ∀ c ∈ s.connections_,
    c.source_.type_ = ConnectorType.Output ∧ c.destination_.type_ = ConnectorType.Input

instance (s : State) : Decidable s.PortsAgree := by
  unfold State.PortsAgree; infer_instance

instance (s : State) : Decidable s.EdgesTyped := by
  unfold State.EdgesTyped; infer_instance

/-! ## Numbers and points -/

/-- The position of the highest set bit of `m`, for `m < 2 ^ 64`. -/
def highBit : Nat → Nat → Nat
  | 0, _ => 0
  | fuel + 1, m => if m < 2 then 0 else highBit fuel (m / 2) + 1

/-- Conversion of a C++ `int` to `double` (exact for 32-bit integers). -/
def Double.ofInt (i : Int) : Double :=
  if i = 0 then ⟨0⟩
  else
    let m := i.natAbs
    let e := highBit 64 m
    let frac := (m - 2 ^ e) * 2 ^ (52 - e)
    let sign := if i < 0 then 2 ^ 63 else 0
    ⟨sign + (1023 + e) * 2 ^ 52 + frac⟩

/-- The comparison `d == 0` on doubles: true for `+0.0` and `-0.0`. -/
def Double.isZero (d : Double) : Bool := d.bits = 0 || d.bits = 2 ^ 63

/-- The C++ conversion of an unsigned value to a 32-bit `int`. -/
def toInt32 (n : Nat) : Int :=
  let r : Nat := n % 2 ^ 32
  if r < 2 ^ 31 then (r : Int) else (r : Int) - 2 ^ 32

/-- A `QPoint` converted to `QPointF`. -/
def QPointF.ofInts (x y : Int) : QPointF := ⟨Double.ofInt x, Double.ofInt y⟩

/-! ## Construction of nodes -/

/-- `Node::Node(name, type)` with the defaults of the members that the derived
classes initialise; `id_(nextId_++)`, `dirty_(true)`, position `(0, 0)`. -/
def Node.base (kind : NodeKind) (name : String) (type : NodeType) (id : Int) : Node :=
  { kind := kind, name_ := name, type_ := type, id_ := id, dirty_ := true,
    pos := ⟨⟨0⟩, ⟨0⟩⟩, inputConnectors_ := [], outputConnectors_ := [],
    outputImages_ := [], imagePath_ := "", originalImage_ := [], processedImage_ := [],
    brightness_ := 0, contrast_ := ⟨0x3FF0000000000000⟩ }

/-- `Node::addInputConnector`. -/
def Node.addInputConnector (n : Node) (name : String) : Node :=
  { n with inputConnectors_ := n.inputConnectors_ ++ [⟨name, []⟩] }

/-- `Node::addOutputConnector`: also pushes a placeholder output image. -/
def Node.addOutputConnector (n : Node) (name : String) : Node :=
  { n with outputConnectors_ := n.outputConnectors_ ++ [⟨name, []⟩],
           outputImages_ := n.outputImages_ ++ [[]] }

/-- The constructors of the derived node classes. -/
def Node.construct (kind : NodeKind) (id : Int) : Node :=
  match kind with
  | .InputNode =>
    (Node.base kind "Image Input" .Input id).addOutputConnector "Image"
  | .OutputNode =>
    (Node.base kind "Output" .Output id).addInputConnector "Image"
  | .BrightnessContrastNode =>
    ((Node.base kind "Brightness/Contrast" .Processing id).addInputConnector
      "Image").addOutputConnector "Image"
  | .BlurNode =>
    ((Node.base kind "Blur" .Processing id).addInputConnector "Image").addOutputConnector
      "Image"
  | .ThresholdNode =>
    ((Node.base kind "Threshold" .Processing id).addInputConnector
      "Image").addOutputConnector "Image"
  | .BlendNode =>
    (((Node.base kind "Blend" .Processing id).addInputConnector
      "Foreground").addInputConnector "Background").addOutputConnector "Image"
  | .EdgeDetectionNode =>
    ((Node.base kind "Edge Detection" .Processing id).addInputConnector
      "Image").addOutputConnector "Image"
  | .ChannelSplitterNode =>
    (((((Node.base kind "Channel Splitter" .Processing id).addInputConnector
      "Image").addOutputConnector "Red/Gray").addOutputConnector
      "Green").addOutputConnector "Blue").addOutputConnector "Alpha"

/-- The expression `new T()` for a node class `T`: allocates the object at a
fresh address and runs the constructor. -/
def State.newNode (s : State) (kind : NodeKind) : NodePtr × State :=
  (s.heap.length,
   { s with heap := s.heap ++ [some (Node.construct kind s.nextId_)],
            nextId_ := s.nextId_ + 1 })

/-! ## Structural mutation -/

/-- `GraphManager::selectNode`. -/
def GraphManager.selectNode (s : State) (node : Option NodePtr) : State :=
  if s.selectedNode_ = node then s else { s with selectedNode_ := node }

/-- `GraphManager::addNode`. -/
def GraphManager.addNode (s : State) (node : Option NodePtr) : State :=
  match node with
  | none => s
  | some node =>
    let s1 := { s with nodes_ := s.nodes_ ++ [node] }
    let s2 :=
      match s1.node? node with
      | none => s1
      | some n =>
        if n.pos.xp.isZero && n.pos.yp.isZero then
          let x := toInt32 ((100 + (s1.nodes_.length % 5) * 220) % 2 ^ 64)
          let y := toInt32 ((100 + (s1.nodes_.length / 5) * 150) % 2 ^ 64)
          s1.modifyNode node (fun n => { n with pos := QPointF.ofInts x y })
        else s1
    { s2 with dirty_ := true }

/-- `NodeConnector::~NodeConnector`: the loop `while (!connections_.empty())`.
Every iteration pops the last connection, so the length of the list at entry
bounds the number of iterations. -/
def NodeConnector.destroyLoop : Nat → ConnectorPtr → State → State
  | 0, _, s => s
  | fuel + 1, c, s =>
    match (s.getConnections c).getLast? with
    | none => s
    | some conn =>
      let s1 :=
        if conn.source_ = c then NodeConnector.removeConnection s conn.destination_ conn
        else NodeConnector.removeConnection s conn.source_ conn
      let s2 := s1.modifyConnector c List.dropLast
      NodeConnector.destroyLoop fuel c s2

/-- `NodeConnector::~NodeConnector`. -/
def NodeConnector.destroy (s : State) (c : ConnectorPtr) : State :=
  NodeConnector.destroyLoop (s.getConnections c).length c s

/-- `delete node`: `Node::~Node` deletes the input connectors, then the output
connectors; the object is then released. -/
def Node.delete (s : State) (node : NodePtr) : State :=
  match s.node? node with
  | none => s
  | some n =>
    let s1 := (List.range n.inputConnectors_.length).foldl
      (fun st i => NodeConnector.destroy st ⟨node, .Input, i⟩) s
    let s2 := (List.range n.outputConnectors_.length).foldl
      (fun st i => NodeConnector.destroy st ⟨node, .Output, i⟩) s1
    { s2 with heap := s2.heap.set node none }

/-- The first loop of `GraphManager::removeNode`.  `kept` holds the connections
before the iterator, the second list those from the iterator on. -/
def GraphManager.removeNodeLoop (node : NodePtr) :
    List Connection → List Connection → State → State
  | kept, [], s => { s with connections_ := kept }
  | kept, connection :: rest, s =>
    if connection.source_.parent_ = node ∨ connection.destination_.parent_ = node then
      let s1 :=
        if connection.destination_.parent_ ≠ node then
          Node.markDirty s connection.destination_.parent_
        else s
      let s2 := NodeConnector.removeConnection s1 connection.source_ connection
      let s3 := NodeConnector.removeConnection s2 connection.destination_ connection
      GraphManager.removeNodeLoop node kept rest { s3 with connections_ := kept ++ rest }
    else
      GraphManager.removeNodeLoop node (kept ++ [connection]) rest s

/-- `GraphManager::removeNode`. -/
def GraphManager.removeNode (s : State) (node : Option NodePtr) : State :=
  match node with
  | none => s
  | some node =>
    let s1 := GraphManager.removeNodeLoop node [] s.connections_ s
    let s2 := { s1 with nodes_ := s1.nodes_.erase node }
    let s3 := if s2.selectedNode_ = some node then GraphManager.selectNode s2 none else s2
    let s4 := Node.delete s3 node
    { s4 with dirty_ := true }

/-- `GraphManager::disconnect`. -/
def GraphManager.disconnect (s : State) (connection : Option Connection) : State :=
  match connection with
  | none => s
  | some connection =>
    if connection ∈ s.connections_ then
      let s1 := NodeConnector.removeConnection s connection.source_ connection
      let s2 := NodeConnector.removeConnection s1 connection.destination_ connection
      let s3 := Node.markDirty s2 connection.destination_.parent_
      { s3 with connections_ := s3.connections_.erase connection, dirty_ := true }
    else s

/-- The statements of `GraphManager::clear` in order, for a call in which every
`delete` is defined: the selection is dropped, the connections of the edge list
are deleted and the list is emptied, every listed node is deleted (its
connectors take the connections they still hold off the other end), the node
list is emptied, the file path and the dirty flag are reset. -/
def GraphManager.clearBody (s : State) : State :=
  let s1 := GraphManager.selectNode s none
  let s2 := { s1 with connections_ := [] }
  let s3 := s2.nodes_.foldl (fun st node => Node.delete st node) s2
  { s3 with nodes_ := [], currentFilePath_ := "", dirty_ := false }

/-- Every `delete` of `GraphManager::clear` is defined.  The loop over
`connections_` deletes each connection of the edge list and leaves it registered
on its connectors; `delete node` then runs `~NodeConnector` for every connector
of every listed node, which reads every connection the connector still holds and
deletes it.  So the call is defined only when no connection and no node is listed
twice, every listed node is a live object, and no connector of a listed node
holds a connection of the edge list. -/
def GraphManager.clearDefined (s : State) : Prop :=
  s.connections_.Nodup ∧ s.nodes_.Nodup ∧
  (∀ node ∈ s.nodes_, (s.node? node).isSome = true) ∧
  ∀ p ∈ s.connectorPtrs, p.parent_ ∈ s.nodes_ →
    ∀ c ∈ s.getConnections p, c ∉ s.connections_

instance (s : State) : Decidable (GraphManager.clearDefined s) := by
  unfold GraphManager.clearDefined; infer_instance

/-- `GraphManager::clear`; `none` when the call reads or deletes an object that
was deleted before (undefined behaviour). -/
def GraphManager.clear (s : State) : Option State :=
  if GraphManager.clearDefined s then some (GraphManager.clearBody s) else none

/-! ## External collaborators -/

/-- The collaborators outside the graph core: the pixel algorithms (OpenCV),
the image files, the iteration order of `std::unordered_map<Node*, int>` as a
function of the sequence of keys inserted into it, and the text of the `k`-th
identifier produced by `QUuid::createUuid().toString()` during a save. -/
structure Platform where
  imread : String → Mat
  brightnessContrast : Double → Int → Mat → Mat
  filter : Node → Mat → Mat
  blend : Node → Mat → Mat → Mat
  channel : Node → Mat → Nat → Mat
  mapOrder : List NodePtr → List NodePtr
  createUuid : Nat → String

/-- The iteration of an `unordered_map` visits every key exactly once. -/
def Platform.MapOrderOk (pf : Platform) : Prop :=
  ∀ keys : List NodePtr, (pf.mapOrder keys).Nodup ∧ ∀ k, k ∈ pf.mapOrder keys ↔ k ∈ keys

/-! ## Node state and processing callbacks -/

/-- `Node::getOutputImage`. -/
def Node.getOutputImage (s : State) (node : NodePtr) (outputIndex : Nat) : Mat :=
  match s.node? node with
  | none => []
  | some n => (n.outputImages_[outputIndex]?).getD []

/-- `Node::setOutputImage`. -/
def Node.setOutputImage (n : Node) (image : Mat) (outputIndex : Nat) : Node :=
  if outputIndex < n.outputImages_.length then
    { n with outputImages_ := n.outputImages_.set outputIndex image }
  else n

/-- The default `Node::isReady`. -/
def Node.isReadyDefault (s : State) (n : Node) : Bool :=
  n.inputConnectors_.all (fun connector =>
    !connector.connections_.isEmpty &&
    connector.connections_.all (fun connection =>
      !(Node.getOutputImage s connection.source_.parent_ connection.source_.index_).isEmpty))

/-- The image read through the first connection of input connector `i`:
`inputConnectors_[i]->getConnections()[0]->getSource()` and `getOutputImage`. -/
def Node.inputImage (s : State) (n : Node) (i : Nat) : Mat :=
  match n.inputConnectors_[i]? with
  | none => []
  | some connector =>
    match connector.connections_.head? with
    | none => []
    | some connection =>
      Node.getOutputImage s connection.source_.parent_ connection.source_.index_

/-- `BlendNode::isReady`. -/
def Node.isReadyBlend (s : State) (n : Node) : Bool :=
  if n.inputConnectors_.length < 2 then false
  else
    match n.inputConnectors_[0]?, n.inputConnectors_[1]? with
    | some fg, some bg =>
      if fg.connections_.isEmpty then false
      else if bg.connections_.isEmpty then false
      else if (Node.inputImage s n 0).isEmpty || (Node.inputImage s n 1).isEmpty then false
      else true
    | _, _ => false

/-- The function `isReady()` of the class of the object `n`: `InputNode` and
`BlendNode` override the default. -/
def Node.isReadyObject (s : State) (n : Node) : Bool :=
  match n.kind with
  | .InputNode => !n.originalImage_.isEmpty
  | .BlendNode => Node.isReadyBlend s n
  | _ => Node.isReadyDefault s n

/-- The virtual call `node->isReady()`. -/
def Node.isReady (s : State) (node : NodePtr) : Bool :=
  match s.node? node with
  | none => false
  | some n => Node.isReadyObject s n

/-- `BrightnessContrastNode::applyBrightnessContrast`. -/
def Node.applyBrightnessContrast (pf : Platform) (n : Node) (input : Mat) : Mat :=
  if input.isEmpty then [] else pf.brightnessContrast n.contrast_ n.brightness_ input

/-- The node as the pixel algorithms of the derived classes read it: they use
the parameter members only, never the cached results or the dirty flag. -/
def Node.parameters (n : Node) : Node :=
  { n with dirty_ := false, outputImages_ := [], processedImage_ := [] }

/-- `ChannelSplitterNode::process` when not ready: every output is cleared. -/
def Node.clearOutputs (n : Node) : Node :=
  (List.range n.outputConnectors_.length).foldl (fun m i => m.setOutputImage [] i) n

/-- The body of the virtual function `process()` of the class of `n`, acting on
the object `n` at address `node`; upstream results are read from `s`. -/
def Node.processSelf (pf : Platform) (s : State) (node : NodePtr) (n : Node) : Node :=
  match n.kind with
  | .InputNode =>
    if !n.originalImage_.isEmpty then
      { n.setOutputImage n.originalImage_ 0 with dirty_ := false }
    else n
  | .OutputNode =>
    if !Node.isReady s node then { n with processedImage_ := [] }
    else { n with processedImage_ := Node.inputImage s n 0, dirty_ := false }
  | .BrightnessContrastNode =>
    if !Node.isReady s node then n.setOutputImage [] 0
    else
      let outputImage := Node.applyBrightnessContrast pf n (Node.inputImage s n 0)
      { n.setOutputImage outputImage 0 with dirty_ := false }
  | .BlendNode =>
    if !Node.isReady s node then n.setOutputImage [] 0
    else
      let outputImage :=
        pf.blend n.parameters (Node.inputImage s n 0) (Node.inputImage s n 1)
      { n.setOutputImage outputImage 0 with dirty_ := false }
  | .ChannelSplitterNode =>
    if !Node.isReady s node then n.clearOutputs
    else
      let inputImage := Node.inputImage s n 0
      { (List.range n.outputConnectors_.length).foldl
          (fun m i => m.setOutputImage (pf.channel n.parameters inputImage i) i) n
        with dirty_ := false }
  | _ =>
    if !Node.isReady s node then n.setOutputImage [] 0
    else
      let outputImage := pf.filter n.parameters (Node.inputImage s n 0)
      { n.setOutputImage outputImage 0 with dirty_ := false }

/-- The virtual call `node->process()`. -/
def Node.process (pf : Platform) (s : State) (node : NodePtr) : State :=
  s.modifyNode node (Node.processSelf pf s node)

/-- `BrightnessContrastNode::setBrightness`. -/
def Node.setBrightness (s : State) (node : NodePtr) (brightness : Int) : State :=
  s.modifyNode node (fun n =>
    { n with brightness_ := max (-100) (min 100 brightness), dirty_ := true })

/-- `InputNode::loadImage`. -/
def Node.loadImage (pf : Platform) (s : State) (node : NodePtr) (filePath : String) :
    Bool × State :=
  let loadedImage := pf.imread filePath
  if loadedImage.isEmpty then (false, s)
  else
    let s1 := s.modifyNode node (fun n =>
      { n with originalImage_ := loadedImage, imagePath_ := filePath, dirty_ := true })
    (true, Node.process pf s1 node)

/-! ## Scheduling -/

/-- The map `graph` after the loop over `connections_`: the destination nodes
of the connections leaving `u`, in list order. -/
def State.graph (s : State) (u : NodePtr) : List NodePtr :=
  (s.connections_.filter (fun c => c.source_.parent_ = u)).map
    (fun c => c.destination_.parent_)

/-- The map `inDegree` after the loop over `connections_`. -/
def State.inDegree (s : State) (v : NodePtr) : Int :=
  s.connections_.foldl
    (fun d c => if c.destination_.parent_ = v then d + 1 else d) 0

/-- The keys inserted into `inDegree`, in insertion order: the nodes of
`nodes_`, then the destination node of every connection. -/
def State.inDegreeKeys (s : State) : List NodePtr :=
  s.nodes_ ++ s.connections_.map (fun c => c.destination_.parent_)

/-- The `for (Node* neighbor : graph[current])` loop of Kahn's algorithm. -/
def relaxNeighbors :
    List NodePtr → (NodePtr → Int) → List NodePtr → (NodePtr → Int) × List NodePtr
  | [], inDegree, queue => (inDegree, queue)
  | neighbor :: rest, inDegree, queue =>
    let inDegree' := Function.update inDegree neighbor (inDegree neighbor - 1)
    if inDegree' neighbor = 0 then relaxNeighbors rest inDegree' (queue ++ [neighbor])
    else relaxNeighbors rest inDegree' queue

/-- The `while (!queue.empty())` loop of `calculateProcessingOrder`; one unit of
fuel per dequeued node, `none` when the fuel runs out. -/
def kahnLoop (graph : NodePtr → List NodePtr) :
    Nat → List NodePtr → (NodePtr → Int) → List NodePtr → Option (List NodePtr)
  | 0, _, _, _ => none
  | _ + 1, [], _, result => some result
  | fuel + 1, current :: queue, inDegree, result =>
    let r := relaxNeighbors (graph current) inDegree queue
    kahnLoop graph fuel r.2 r.1 (result ++ [current])

/-- The queue of `calculateProcessingOrder` before the main loop. -/
def State.initialQueue (pf : Platform) (s : State) : List NodePtr :=
  (pf.mapOrder s.inDegreeKeys).filter (fun k => s.inDegree k = 0)

/-- `GraphManager::calculateProcessingOrder`.  The fuel exceeds the number of
iterations the loop can make (see `kahnLoop_fuel`). -/
def GraphManager.calculateProcessingOrder (pf : Platform) (s : State) : List NodePtr :=
  match kahnLoop s.graph ((s.initialQueue pf).length + s.connections_.length + 1)
      (s.initialQueue pf) s.inDegree [] with
  | some result => result
  | none => []

/-- The loop of `GraphManager::processAll` over the processing order; the
second component records the nodes whose `process()` was invoked, in order. -/
def GraphManager.processNodes (pf : Platform) :
    List NodePtr → State × List NodePtr → State × List NodePtr
  | [], r => r
  | node :: rest, (s, calls) =>
    if Node.isDirty s node then
      GraphManager.processNodes pf rest (Node.process pf s node, calls ++ [node])
    else GraphManager.processNodes pf rest (s, calls)

/-- `GraphManager::processAll`, with the list of callback invocations. -/
def GraphManager.processAllCalls (pf : Platform) (s : State) : State × List NodePtr :=
  GraphManager.processNodes pf (GraphManager.calculateProcessingOrder pf s) (s, [])

/-- `GraphManager::processAll`. -/
def GraphManager.processAll (pf : Platform) (s : State) : State :=
  (GraphManager.processAllCalls pf s).1

/-! ## States reachable through the mutation interface -/

/-- A call of the mutation interface of `GraphManager`, or the creation of a
node object by the caller. -/
inductive GraphOp where
  | newNode (kind : NodeKind)
  | addNode (node : Option NodePtr)
  | removeNode (node : Option NodePtr)
  | connect (source destination : Option ConnectorPtr)
  | disconnect (connection : Option Connection)
  | clear

/-- The state after the call; a call of `clear()` that is not defined has no
state after it and leaves the state as it is here (`GraphOp.Valid` excludes it). -/
def GraphOp.run (s : State) : GraphOp → State
  | .newNode kind => (s.newNode kind).2
  | .addNode node => GraphManager.addNode s node
  | .removeNode node => GraphManager.removeNode s node
  | .connect source destination => (GraphManager.connect s source destination).2
  | .disconnect connection => GraphManager.disconnect s connection
  | .clear => (GraphManager.clear s).getD s

/-- The pointer arguments of the call are null or refer to live objects, and a
call of `clear()` is defined and leaves no connector of a live node with a
pointer to a deleted connection. -/
def GraphOp.Valid (s : State) : GraphOp → Prop
  | .newNode _ => True
  | .addNode node => ∀ p, node = some p → (s.node? p).isSome
  | .removeNode node => ∀ p, node = some p → (s.node? p).isSome
  | .connect source destination =>
    (∀ c, source = some c → (s.connector? c).isSome) ∧
    (∀ c, destination = some c → (s.connector? c).isSome)
  | .disconnect _ => True
  | .clear => GraphManager.clearDefined s ∧
    ∀ p ∈ s.connectorPtrs, ∀ c ∈ s.getConnections p, c ∉ s.connections_

/-- The states reached from the empty graph by `addNode`, `removeNode`,
`connect`, `disconnect` and `clear` on nodes created by the caller. -/
inductive State.Reachable : State → Prop where
  | init : State.Reachable State.init
  | step (s : State) (op : GraphOp) :
      State.Reachable s → op.Valid s → State.Reachable (op.run s)

/-- The induced node graph has no directed cycle. -/
def State.Acyclic (s : State) : Prop :=
  ∀ u, ¬ Relation.TransGen s.NodeEdge u u

/-- A connection is incident to a node. -/
def Connection.Incident (c : Connection) (node : NodePtr) : Prop :=
  c.source_.parent_ = node ∨ c.destination_.parent_ = node

instance (c : Connection) (node : NodePtr) : Decidable (c.Incident node) := by
  unfold Connection.Incident; infer_instance

/-- Every edge is registered on its source connector, an output connector. -/
def State.EdgesRegistered (s : State) : Prop :=
  ∀ c ∈ s.connections_,
    c.source_.type_ = ConnectorType.Output ∧ c ∈ s.getConnections c.source_

/-- A connection registered on a connector has this connector as an end point. -/
def State.PortIncident (s : State) : Prop :=
  ∀ p k, k ∈ s.getConnections p → k.source_ = p ∨ k.destination_ = p

/-- Connection objects in the edge list are distinct and were allocated before
the next free address. -/
def State.EdgesFresh (s : State) : Prop :=
  s.connections_.Nodup ∧ ∀ c ∈ s.connections_, c.addr < s.nextConn

/-- The state `s'` differs from `s` in the heap only. -/
def State.HeapOnly (s s' : State) : Prop := s' = { s with heap := s'.heap }

/-- The invariant of the reachable states. -/
def State.Inv (s : State) : Prop :=
  s.EdgesRegistered ∧ s.PortIncident ∧ s.EdgesFresh ∧ s.Acyclic

/-- The number of edges into `v` whose source node is not in `done`. -/
def State.pendingIn (s : State) (done : List NodePtr) (v : NodePtr) : Nat :=
  (s.connections_.filter
    (fun c => decide (c.destination_.parent_ = v ∧ c.source_.parent_ ∉ done))).length

/-- The node `u` occurs at an earlier position of `l` than the node `v`. -/
def Before (l : List NodePtr) (u v : NodePtr) : Prop :=
  ∃ i j : Nat, i < j ∧ l[i]? = some u ∧ l[j]? = some v

/-- Every node whose callback `processAll` invokes on the list is ready at the
moment the callback runs. -/
def GraphManager.AllReady (pf : Platform) : List NodePtr → State → Prop
  | [], _ => True
  | node :: rest, s =>
    if Node.isDirty s node then
      Node.isReady s node = true ∧ GraphManager.AllReady pf rest (Node.process pf s node)
    else GraphManager.AllReady pf rest s

instance GraphManager.decidableAllReady (pf : Platform) :
    (l : List NodePtr) → (s : State) → Decidable (GraphManager.AllReady pf l s)
  | [], _ => isTrue trivial
  | node :: rest, s =>
    if h : Node.isDirty s node = true then
      match decEq (Node.isReady s node) true,
          GraphManager.decidableAllReady pf rest (Node.process pf s node) with
      | isTrue h1, isTrue h2 =>
        isTrue (by unfold GraphManager.AllReady; rw [if_pos h]; exact ⟨h1, h2⟩)
      | isFalse h1, _ =>
        isFalse (by unfold GraphManager.AllReady; rw [if_pos h]; exact fun hh => h1 hh.1)
      | _, isFalse h2 =>
        isFalse (by unfold GraphManager.AllReady; rw [if_pos h]; exact fun hh => h2 hh.2)
    else
      match GraphManager.decidableAllReady pf rest s with
      | isTrue h2 => isTrue (by unfold GraphManager.AllReady; rw [if_neg h]; exact h2)
      | isFalse h2 => isFalse (by unfold GraphManager.AllReady; rw [if_neg h]; exact h2)

/-- The output slots of a node. -/
def Node.outputs (s : State) (node : NodePtr) : Option (List Mat) :=
  (s.node? node).map (fun n => n.outputImages_)

/-- The output slots of the node hold what its callback produces from the
current outputs of its upstream nodes and its current parameters: running the
callback now leaves them as they are. -/
def Node.Fresh (pf : Platform) (s : State) (node : NodePtr) : Prop :=
  Node.outputs (Node.process pf s node) node = Node.outputs s node

/-- No node is listed twice in the node list and no connection twice on a port. -/
def State.Distinct (s : State) : Prop :=
  s.nodes_.Nodup ∧ ∀ p ∈ s.connectorPtrs, (s.getConnections p).Nodup

instance (s : State) : Decidable s.Distinct := by
  unfold State.Distinct; infer_instance

/-- The states `s` and `t` show the same upstream results to the object `n`:
every connection on an input connector of `n` leads to the same output image. -/
def State.SameInputs (s t : State) (n : Node) : Prop :=
  ∀ k ∈ n.inputConnectors_, ∀ c ∈ k.connections_,
    Node.getOutputImage t c.source_.parent_ c.source_.index_ =
      Node.getOutputImage s c.source_.parent_ c.source_.index_

/-- The output slots after a callback that found its node ready: `o` are the
slots before, `p` the node as the pixel algorithms read it, `in0` and `in1` the
images read through the first two input connectors. -/
def Node.newOutputs (pf : Platform) (p : Node) (in0 in1 : Mat) (o : List Mat) : List Mat :=
  match p.kind with
  | .InputNode => o.set 0 p.originalImage_
  | .OutputNode => o
  | .BrightnessContrastNode => o.set 0 (Node.applyBrightnessContrast pf p in0)
  | .BlendNode => o.set 0 (pf.blend p in0 in1)
  | .ChannelSplitterNode =>
    (List.range p.outputConnectors_.length).foldl (fun o i => o.set i (pf.channel p in0 i)) o
  | _ => o.set 0 (pf.filter p in0)

/-! ## The persisted project format

`QDataStream` with `setVersion(QDataStream::Qt_5_15)`: big-endian integers,
doubles as their 8 bytes, a `QString` as its length in bytes followed by its
UTF-16 code units.  A read that finds fewer bytes than it needs consumes what is
left and yields zero (or the empty string); the stream keeps being read after
such a failure. -/

/-- A `QString`: its UTF-16 code units. -/
abbrev QString := List Nat

/-- `QString::fromStdString` (also the conversion of a string literal). -/
def QString.fromStdString (s : String) : QString :=
  s.toList.flatMap (fun c =>
    let v := c.val.toNat
    if v < 0x10000 then [v]
    else [0xD800 + (v - 0x10000) / 0x400, 0xDC00 + (v - 0x10000) % 0x400])

/-- The character of one UTF-16 code unit; a lone surrogate is replaced. -/
def QString.decodeUnit (u : Nat) : Char :=
  if 0xD800 ≤ u ∧ u < 0xE000 then Char.ofNat 0xFFFD else Char.ofNat u

/-- The characters of a sequence of UTF-16 code units; the first argument is a
high surrogate waiting for its low surrogate. -/
def QString.decode : Option Nat → List Nat → List Char
  | none, [] => []
  | some _, [] => [Char.ofNat 0xFFFD]
  | none, u :: rest =>
    if 0xD800 ≤ u ∧ u < 0xDC00 then QString.decode (some u) rest
    else QString.decodeUnit u :: QString.decode none rest
  | some h, u :: rest =>
    if 0xDC00 ≤ u ∧ u < 0xE000 then
      Char.ofNat (0x10000 + (h - 0xD800) * 0x400 + (u - 0xDC00)) :: QString.decode none rest
    else if 0xD800 ≤ u ∧ u < 0xDC00 then Char.ofNat 0xFFFD :: QString.decode (some u) rest
    else Char.ofNat 0xFFFD :: QString.decodeUnit u :: QString.decode none rest

/-- `QString::toStdString`. -/
def QString.toStdString (q : QString) : String := String.mk (QString.decode none q)

/-- `stream << quint32(n)`. -/
def putU32 (n : Nat) : List Nat :=
  [n / 2 ^ 24 % 256, n / 2 ^ 16 % 256, n / 2 ^ 8 % 256, n % 256]

/-- `stream << qint32(i)`. -/
def putI32 (i : Int) : List Nat := putU32 (i % 2 ^ 32).toNat

/-- `stream << d` for a `double` or `qreal`. -/
def putDouble (d : Double) : List Nat :=
  (List.range 8).map (fun k => d.bits / 2 ^ (8 * (7 - k)) % 256)

/-- `stream << q` for a `QString`. -/
def putQString (q : QString) : List Nat :=
  putU32 (2 * q.length) ++ q.flatMap (fun u => [u / 256 % 256, u % 256])

/-- `stream << p` for a `QPointF`: two doubles. -/
def putQPointF (p : QPointF) : List Nat := putDouble p.xp ++ putDouble p.yp

/-- The big-endian value of a byte sequence. -/
def beValue (l : List Nat) : Nat := l.foldl (fun a b => a * 256 + b) 0

/-- A raw read of `n` bytes: the bytes and the rest of the stream, or nothing and
the exhausted stream when fewer than `n` bytes are left. -/
def getBytes (n : Nat) (bs : List Nat) : Option (List Nat) × List Nat :=
  if n ≤ bs.length then (some (bs.take n), bs.drop n) else (none, [])

/-- `stream >> v` for a `quint32`. -/
def getU32 (bs : List Nat) : Nat × List Nat :=
  match getBytes 4 bs with
  | (some l, rest) => (beValue l, rest)
  | (none, rest) => (0, rest)

/-- `stream >> v` for a `qint32`. -/
def getI32 (bs : List Nat) : Int × List Nat :=
  ((toInt32 (getU32 bs).1), (getU32 bs).2)

/-- `stream >> v` for a `qreal`. -/
def getDouble (bs : List Nat) : Double × List Nat :=
  match getBytes 8 bs with
  | (some l, rest) => (⟨beValue l⟩, rest)
  | (none, rest) => (⟨0⟩, rest)

/-- The 16-bit units of a byte sequence. -/
def units16 : List Nat → List Nat
  | hi :: lo :: rest => (hi * 256 + lo) :: units16 rest
  | _ => []

/-- `stream >> q` for a `QString`. -/
def getQString (bs : List Nat) : QString × List Nat :=
  let bytes := (getU32 bs).1
  let rest := (getU32 bs).2
  if bytes = 0xFFFFFFFF then ([], rest)
  else if bytes = 0 then ([], rest)
  else if bytes % 2 = 1 then ([], rest)
  else
    match getBytes bytes rest with
    | (some l, rest') => (units16 l, rest')
    | (none, rest') => ([], rest')

/-- `stream >> p` for a `QPoint`: two 32-bit integers. -/
def getQPoint (bs : List Nat) : (Int × Int) × List Nat :=
  (((getI32 bs).1, (getI32 (getI32 bs).2).1), (getI32 (getI32 bs).2).2)

/-- The value of `static_cast<int>(node->getType())`. -/
def NodeType.code : NodeType → Nat
  | .Input => 0
  | .Processing => 1
  | .Output => 2

/-- The record written by `writeNodes` for the `k`-th node of `nodes_`. -/
def GraphManager.writeNode (pf : Platform) (s : State) (k : Nat) (node : NodePtr) :
    List Nat :=
  match s.node? node with
  | none => []
  | some n =>
    putQString (QString.fromStdString (pf.createUuid k)) ++
    putU32 n.type_.code ++
    putQString (QString.fromStdString n.name_) ++
    putQPointF n.pos ++
    (match n.type_ with
     | .Input => putQString (QString.fromStdString n.imagePath_)
     | .Output => []
     | .Processing =>
       if n.kind = NodeKind.BrightnessContrastNode then
         putI32 n.brightness_ ++ putDouble n.contrast_
       else [])

/-- `GraphManager::writeNodes`. -/
def GraphManager.writeNodes (pf : Platform) (s : State) : List Nat :=
  putU32 s.nodes_.length ++
    (s.nodes_.enum.flatMap (fun kn => GraphManager.writeNode pf s kn.1 kn.2))

/-- The map `nodeIndices` of `writeConnections`: the last position of the node
in `nodes_`; `operator[]` yields 0 for a node that is not in the list. -/
def State.nodeIndex (s : State) (node : NodePtr) : Nat :=
  match (s.nodes_.enum.filter (fun kn => kn.2 = node)).getLast? with
  | some kn => kn.1
  | none => 0

/-- The connector index found by the search loops of `writeConnections`, `-1`
when the connector is not in the list searched. -/
def State.connectorIndex (s : State) (c : ConnectorPtr) (t : ConnectorType) : Int :=
  match s.node? c.parent_ with
  | none => -1
  | some n =>
    if c.type_ = t ∧ c.index_ < (n.connectors t).length then (c.index_ : Int) else -1

/-- `GraphManager::writeConnections`. -/
def GraphManager.writeConnections (s : State) : List Nat :=
  putU32 s.connections_.length ++
    (s.connections_.flatMap (fun connection =>
      putI32 (s.nodeIndex connection.source_.parent_) ++
      putI32 (s.connectorIndex connection.source_ .Output) ++
      putI32 (s.nodeIndex connection.destination_.parent_) ++
      putI32 (s.connectorIndex connection.destination_ .Input)))

/-- The bytes written by a successful `GraphManager::saveToFile`. -/
def GraphManager.fileContents (pf : Platform) (s : State) : List Nat :=
  putQString (QString.fromStdString "NIP") ++ putU32 1 ++
    GraphManager.writeNodes pf s ++ GraphManager.writeConnections s

/-- `GraphManager::saveToFile`; `writable` tells whether the file can be opened
for writing.  The file then holds `GraphManager.fileContents`. -/
def GraphManager.saveToFile (s : State) (filePath : String) (writable : Bool) :
    Bool × State :=
  if !writable then (false, s)
  else (true, { s with currentFilePath_ := filePath, dirty_ := false })

/-- A `double` is a NaN. -/
def Double.isNaN (d : Double) : Bool :=
  d.bits / 2 ^ 52 % 2 ^ 11 = 2047 && d.bits % 2 ^ 52 ≠ 0

/-- The order key of a non-NaN `double`: sign and magnitude. -/
def Double.key (d : Double) : Int :=
  if d.bits / 2 ^ 63 % 2 = 1 then -((d.bits % 2 ^ 63 : Nat) : Int)
  else ((d.bits % 2 ^ 63 : Nat) : Int)

/-- The comparison `a < b` on doubles. -/
def Double.lt (a b : Double) : Bool :=
  !a.isNaN && !b.isNaN && decide (a.key < b.key)

/-- `BrightnessContrastNode::setContrast`:
`contrast_ = std::max(0.0, std::min(3.0, contrast))`. -/
def Node.setContrast (s : State) (node : NodePtr) (contrast : Double) : State :=
  let m : Double := if contrast.lt ⟨0x4008000000000000⟩ then contrast else ⟨0x4008000000000000⟩
  let c : Double := if (Double.mk 0).lt m then m else ⟨0⟩
  s.modifyNode node (fun n => { n with contrast_ := c, dirty_ := true })

/-- Modelled from the spec: `Node::setName` is called by `GraphManager::readNodes`
but is not declared in `Node.h`; it stores the display name. -/
def Node.setName (s : State) (node : NodePtr) (name : String) : State :=
  s.modifyNode node (fun n => { n with name_ := name })

/-- `Node::setPosition` applied to a `QPoint`. -/
def Node.setPosition (s : State) (node : NodePtr) (x y : Int) : State :=
  s.modifyNode node (fun n => { n with pos := QPointF.ofInts x y })

/-- The tail of one iteration of `readNodes`: `if (node) { setName; setPosition;
addNode }`. -/
def GraphManager.finishNode (s : State) (node : NodePtr) (nodeName : QString)
    (position : Int × Int) : State :=
  GraphManager.addNode
    (Node.setPosition (Node.setName s node nodeName.toStdString) node position.1 position.2)
    (some node)

/-- One iteration of the loop of `GraphManager::readNodes`. -/
def GraphManager.readNode (pf : Platform) (s : State) (bs : List Nat) : State × List Nat :=
  let bs1 := (getQString bs).2
  let typeInt := (getU32 bs1).1
  let bs2 := (getU32 bs1).2
  let nodeName := (getQString bs2).1
  let bs3 := (getQString bs2).2
  let position := (getQPoint bs3).1
  let bs4 := (getQPoint bs3).2
  if typeInt = 0 then
    let r := s.newNode .InputNode
    let imagePath := (getQString bs4).1
    let bs5 := (getQString bs4).2
    let s1 :=
      if imagePath ≠ [] then (Node.loadImage pf r.2 r.1 imagePath.toStdString).2 else r.2
    (GraphManager.finishNode s1 r.1 nodeName position, bs5)
  else if typeInt = 2 then
    let r := s.newNode .OutputNode
    (GraphManager.finishNode r.2 r.1 nodeName position, bs4)
  else if typeInt = 1 then
    if nodeName = QString.fromStdString "Brightness/Contrast" then
      let r := s.newNode .BrightnessContrastNode
      let brightness := (getI32 bs4).1
      let bs5 := (getI32 bs4).2
      let contrast := (getDouble bs5).1
      let bs6 := (getDouble bs5).2
      let s1 := Node.setContrast (Node.setBrightness r.2 r.1 brightness) r.1 contrast
      (GraphManager.finishNode s1 r.1 nodeName position, bs6)
    else (s, bs4)
  else (s, bs4)

/-- The loop `for (quint32 i = 0; i < nodeCount; i++)` of `readNodes`. -/
def GraphManager.readNodesLoop (pf : Platform) : Nat → State → List Nat → State × List Nat
  | 0, s, bs => (s, bs)
  | count + 1, s, bs =>
    GraphManager.readNodesLoop pf count (GraphManager.readNode pf s bs).1
      (GraphManager.readNode pf s bs).2

/-- `GraphManager::readNodes`. -/
def GraphManager.readNodes (pf : Platform) (s : State) (bs : List Nat) : State × List Nat :=
  GraphManager.readNodesLoop pf (getU32 bs).1 s (getU32 bs).2

/-- One iteration of the loop of `GraphManager::readConnections`. -/
def GraphManager.readConnection (s : State) (bs : List Nat) : State × List Nat :=
  let sourceNodeIndex := (getI32 bs).1
  let bs1 := (getI32 bs).2
  let sourceConnectorIndex := (getI32 bs1).1
  let bs2 := (getI32 bs1).2
  let destNodeIndex := (getI32 bs2).1
  let bs3 := (getI32 bs2).2
  let destConnectorIndex := (getI32 bs3).1
  let bs4 := (getI32 bs3).2
  if sourceNodeIndex < 0 ∨ sourceNodeIndex ≥ toInt32 s.nodes_.length ∨
      destNodeIndex < 0 ∨ destNodeIndex ≥ toInt32 s.nodes_.length then (s, bs4)
  else
    match s.nodes_[sourceNodeIndex.toNat]?, s.nodes_[destNodeIndex.toNat]? with
    | some sourceNode, some destNode =>
      match s.node? sourceNode, s.node? destNode with
      | some sn, some dn =>
        if sourceConnectorIndex < 0 ∨
            sourceConnectorIndex ≥ toInt32 sn.outputConnectors_.length ∨
            destConnectorIndex < 0 ∨
            destConnectorIndex ≥ toInt32 dn.inputConnectors_.length then (s, bs4)
        else
          ((GraphManager.connect s
              (some ⟨sourceNode, .Output, sourceConnectorIndex.toNat⟩)
              (some ⟨destNode, .Input, destConnectorIndex.toNat⟩)).2, bs4)
      | _, _ => (s, bs4)
    | _, _ => (s, bs4)

/-- The loop `for (quint32 i = 0; i < connectionCount; i++)` of `readConnections`. -/
def GraphManager.readConnectionsLoop : Nat → State → List Nat → State × List Nat
  | 0, s, bs => (s, bs)
  | count + 1, s, bs =>
    GraphManager.readConnectionsLoop count (GraphManager.readConnection s bs).1
      (GraphManager.readConnection s bs).2

/-- `GraphManager::readConnections`. -/
def GraphManager.readConnections (s : State) (bs : List Nat) : State × List Nat :=
  GraphManager.readConnectionsLoop (getU32 bs).1 s (getU32 bs).2

/-- `GraphManager::loadFromFile`; `file` holds the bytes of the file, or nothing
when the file cannot be opened.  The result is `none` when the call of `clear()`
is not defined. -/
def GraphManager.loadFromFile (pf : Platform) (s : State) (filePath : String)
    (file : Option (List Nat)) : Option (Bool × State) :=
  match file with
  | none => some (false, s)
  | some bs =>
    if (getQString bs).1 ≠ QString.fromStdString "NIP" then some (false, s)
    else if (getU32 (getQString bs).2).1 ≠ 1 then some (false, s)
    else
      match GraphManager.clear s with
      | none => none
      | some s1 =>
        let r := GraphManager.readNodes pf s1 (getU32 (getQString bs).2).2
        let s3 := (GraphManager.readConnections r.1 r.2).1
        let s4 := GraphManager.processAll pf s3
        some (true, { s4 with currentFilePath_ := filePath, dirty_ := false })

/-! ## Edge records of the persisted format -/

/-- The four integers of one edge record, as one iteration of
`GraphManager::readConnections` reads them. -/
structure EdgeRecord where
  sourceNodeIndex : Int
  sourceConnectorIndex : Int
  destNodeIndex : Int
  destConnectorIndex : Int
deriving DecidableEq, Repr

/-- The four `stream >> qint32` reads at the head of one iteration of
`GraphManager::readConnections`, and the stream behind them. -/
def getEdgeRecord (bs : List Nat) : EdgeRecord × List Nat :=
  ({ sourceNodeIndex := (getI32 bs).1,
     sourceConnectorIndex := (getI32 (getI32 bs).2).1,
     destNodeIndex := (getI32 (getI32 (getI32 bs).2).2).1,
     destConnectorIndex := (getI32 (getI32 (getI32 (getI32 bs).2).2).2).1 },
   (getI32 (getI32 (getI32 (getI32 bs).2).2).2).2)

/-- The node object addressed by position `i` of the node list. -/
def State.nodeAt? (s : State) (i : Int) : Option Node :=
  if i < 0 then none else (s.nodes_[i.toNat]?).bind s.node?

/-- The wording of the specification for an edge record that is in range: both
node indices lie in `[0, number of loaded nodes)`, the source ordinal addresses
an output port of the source node and the destination ordinal an input port of
the destination node. -/
def EdgeRecord.InRange (s : State) (r : EdgeRecord) : Prop :=
  0 ≤ r.sourceNodeIndex ∧ r.sourceNodeIndex < s.nodes_.length ∧
  0 ≤ r.destNodeIndex ∧ r.destNodeIndex < s.nodes_.length ∧
  ∃ sn dn, s.nodeAt? r.sourceNodeIndex = some sn ∧ s.nodeAt? r.destNodeIndex = some dn ∧
    0 ≤ r.sourceConnectorIndex ∧ r.sourceConnectorIndex < sn.outputConnectors_.length ∧
    0 ≤ r.destConnectorIndex ∧ r.destConnectorIndex < dn.inputConnectors_.length

/-- The sizes compared with 32-bit integers by `readConnections` fit into a
32-bit `int`: the node list and the connector lists of its nodes. -/
def State.SizesFit (s : State) : Prop :=
  s.nodes_.length < 2 ^ 31 ∧
  ∀ p ∈ s.nodes_, ∀ n ∈ s.node? p,
    n.outputConnectors_.length < 2 ^ 31 ∧ n.inputConnectors_.length < 2 ^ 31

instance (s : State) : Decidable s.SizesFit := by
  unfold State.SizesFit; infer_instance

/-- The header that `saveToFile` writes and `loadFromFile` accepts: the magic tag
`NIP` and the version number 1. -/
def GraphManager.fileHeader : List Nat :=
  putQString (QString.fromStdString "NIP") ++ putU32 1

instance (s : State) (u v : NodePtr) : Decidable (s.NodeEdge u v) := by
  unfold State.NodeEdge; infer_instance

/-- The ports handed to `connect` belong to nodes of the node list. -/
def GraphOp.Inside (s : State) : GraphOp → Prop
  | .connect source destination =>
    (∀ c, source = some c → c.parent_ ∈ s.nodes_) ∧
    (∀ c, destination = some c → c.parent_ ∈ s.nodes_)
  | _ => True

/-- The states reached from the empty graph by `addNode`, `removeNode`,
`connect`, `disconnect` and `clear` when `connect` is only applied to ports of
nodes that are in the node list. -/
inductive State.ReachableInside : State → Prop where
  | init : State.ReachableInside State.init
  | step (s : State) (op : GraphOp) :
      State.ReachableInside s → op.Valid s → op.Inside s → State.ReachableInside (op.run s)

/-! ## The connection interface of `Node` -/

/-- `Node::connectTo`, called on the object `self`.  The connection is registered
on both connectors and nowhere else; a call through a pointer to a released
object is left out of the model (nothing happens). -/
def Node.connectTo (s : State) (self target : NodePtr) (outputIndex inputIndex : Int) :
    Bool × State :=
  match s.node? self, s.node? target with
  | some n, some t =>
    if outputIndex < 0 ∨ outputIndex ≥ n.outputConnectors_.length ∨
        inputIndex < 0 ∨ inputIndex ≥ t.inputConnectors_.length then (false, s)
    else
      let output : ConnectorPtr := ⟨self, .Output, outputIndex.toNat⟩
      let input : ConnectorPtr := ⟨target, .Input, inputIndex.toNat⟩
      let connection : Connection :=
        { addr := s.nextConn, source_ := output, destination_ := input }
      let s1 := { s with nextConn := s.nextConn + 1 }
      let s2 := NodeConnector.addConnection s1 output connection
      let s3 := NodeConnector.addConnection s2 input connection
      let s4 := s3.modifyNode self (fun m => { m with dirty_ := true })
      let s5 := s4.modifyNode target (fun m => { m with dirty_ := true })
      (true, s5)
  | _, _ => (false, s)

/-- `Node::disconnect`, called on the object `self`: the first connection of the
output connector that leads to the input connector is taken off both. -/
def Node.disconnect (s : State) (self target : NodePtr) (outputIndex inputIndex : Int) :
    Bool × State :=
  match s.node? self, s.node? target with
  | some n, some t =>
    if outputIndex < 0 ∨ outputIndex ≥ n.outputConnectors_.length ∨
        inputIndex < 0 ∨ inputIndex ≥ t.inputConnectors_.length then (false, s)
    else
      let output : ConnectorPtr := ⟨self, .Output, outputIndex.toNat⟩
      let input : ConnectorPtr := ⟨target, .Input, inputIndex.toNat⟩
      match (s.getConnections output).find?
          (fun conn => decide (conn.source_ = output ∧ conn.destination_ = input)) with
      | some conn =>
        let s1 := NodeConnector.removeConnection s output conn
        let s2 := NodeConnector.removeConnection s1 input conn
        let s3 := s2.modifyNode target (fun m => { m with dirty_ := true })
        (true, s3)
      | none => (false, s)
  | _, _ => (false, s)

/-- A call of the public mutation interface of `GraphManager` or of `Node`. -/
inductive PublicOp where
  | graph (op : GraphOp)
  | connectTo (self target : NodePtr) (outputIndex inputIndex : Int)
  | disconnect (self target : NodePtr) (outputIndex inputIndex : Int)

/-- The state after the call. -/
def PublicOp.run (s : State) : PublicOp → State
  | .graph op => op.run s
  | .connectTo self target outputIndex inputIndex =>
    (Node.connectTo s self target outputIndex inputIndex).2
  | .disconnect self target outputIndex inputIndex =>
    (Node.disconnect s self target outputIndex inputIndex).2

/-- The pointer arguments of the call are null or refer to live objects. -/
def PublicOp.Valid (s : State) : PublicOp → Prop
  | .graph op => op.Valid s
  | .connectTo self target _ _ => (s.node? self).isSome ∧ (s.node? target).isSome
  | .disconnect self target _ _ => (s.node? self).isSome ∧ (s.node? target).isSome

/-- The states reached from the empty graph through the public mutation
operations of `GraphManager` and of `Node`. -/
inductive State.ReachablePublic : State → Prop where
  | init : State.ReachablePublic State.init
  | step (s : State) (op : PublicOp) :
      State.ReachablePublic s → op.Valid s → State.ReachablePublic (op.run s)

/-! ## Node objects over a sequence of calls -/

/-- The object `m'` is of the class of `m` and has as many input connectors. -/
def Node.SameShape (m m' : Node) : Prop :=
  m'.kind = m.kind ∧ m'.inputConnectors_.length = m.inputConnectors_.length

/-- No address of `s` is reused in `t`, and every node object of `s` that is
still alive in `t` kept its class and the number of its input connectors. -/
def State.KeepsShape (s t : State) : Prop :=
  s.heap.length ≤ t.heap.length ∧
  ∀ q, q < s.heap.length → ∀ m', t.node? q = some m' →
    ∃ m, s.node? q = some m ∧ m.SameShape m'

/-- The state after a sequence of calls. -/
def GraphOp.runAll (s : State) (ops : List GraphOp) : State :=
  ops.foldl GraphOp.run s

/-- The number of input connectors that the constructor of the class makes. -/
def NodeKind.inputs (kind : NodeKind) : Nat :=
  (Node.construct kind 0).inputConnectors_.length

/-! ## Example states -/

/-- A platform whose pixel operations leave images unchanged (as OpenCV does
for brightness 0 and contrast 1), with two image files. -/
def examplePlatform : Platform :=
  { imread := fun p => if p = "a.png" then [1] else if p = "b.png" then [2, 3] else [],
    brightnessContrast := fun _ _ m => m,
    filter := fun _ m => m,
    blend := fun _ a _ => a,
    channel := fun _ m _ => m,
    mapOrder := fun l => l.dedup,
    createUuid := fun _ => "{00000000-0000-0000-0000-000000000000}" }

/-- An input node (address 0) and a brightness/contrast node (address 1), both
added to the graph and not connected. -/
def exampleTwoNodes : State :=
  GraphOp.run (GraphOp.run (GraphOp.run (GraphOp.run State.init
    (.newNode .InputNode)) (.addNode (some 0)))
    (.newNode .BrightnessContrastNode)) (.addNode (some 1))

/-- The graph of `exampleTwoNodes` with the edge from the output of node 0 to
the input of node 1. -/
def exampleChain : State :=
  GraphOp.run exampleTwoNodes (.connect (some ⟨0, .Output, 0⟩) (some ⟨1, .Input, 0⟩))

/-- The graph of `exampleChain` after the image `a.png` was loaded into the
input node. -/
def exampleLoaded : State :=
  (Node.loadImage examplePlatform exampleChain 0 "a.png").2

/-- The graph of `exampleLoaded` after `processAll` ran and the image `b.png`
was loaded into the input node afterwards. -/
def exampleReloaded : State :=
  (Node.loadImage examplePlatform
    (GraphManager.processAll examplePlatform exampleLoaded) 0 "b.png").2

/-- A graph that holds a single blur node. -/
def exampleBlur : State :=
  GraphOp.run (GraphOp.run State.init (.newNode .BlurNode)) (.addNode (some 0))

/-! ## Further example states -/

/-- An edge record whose source node index is 7. -/
def exampleBadRecord : List Nat := putI32 7 ++ putI32 0 ++ putI32 1 ++ putI32 0

/-- The graph of `exampleLoaded` after `processAll`: both nodes are clean. -/
def exampleProcessed : State := GraphManager.processAll examplePlatform exampleLoaded

/-- The brightness/contrast node object of `exampleProcessed`. -/
def exampleProcessedNode : Node :=
  (exampleProcessed.node? 1).getD (Node.construct .BrightnessContrastNode 1)

/-- The platform of `examplePlatform` with an `unordered_map` that is iterated
from the key inserted last to the key inserted first. -/
def examplePlatformReversed : Platform :=
  { examplePlatform with mapOrder := fun l => l.dedup.reverse }

/-- Two brightness/contrast nodes (addresses 0 and 1), both added to the graph
and not connected. -/
def exampleTwoFilters : State :=
  GraphOp.run (GraphOp.run (GraphOp.run (GraphOp.run State.init
    (.newNode .BrightnessContrastNode)) (.addNode (some 0)))
    (.newNode .BrightnessContrastNode)) (.addNode (some 1))

/-- A state that the validated operations do not produce: the graph of
`exampleTwoFilters` with the edge from node 0 to node 1 and a second edge back
from node 1 to node 0, both registered on their ports and in the edge list. -/
def exampleCycle : State :=
  let s := GraphOp.run exampleTwoFilters
    (.connect (some ⟨0, .Output, 0⟩) (some ⟨1, .Input, 0⟩))
  let back : Connection := ⟨1, ⟨1, .Output, 0⟩, ⟨0, .Input, 0⟩⟩
  let s1 := NodeConnector.addConnection
    (NodeConnector.addConnection s back.source_ back) back.destination_ back
  { s1 with connections_ := s1.connections_ ++ [back], nextConn := 2 }

/-- Three nodes A (input, address 0), B (brightness/contrast, address 1) and C
(output, address 2), added in this order and connected A → B → C. -/
def exampleThree : State :=
  GraphOp.run (GraphOp.run (GraphOp.run exampleChain (.newNode .OutputNode))
    (.addNode (some 2))) (.connect (some ⟨1, .Output, 0⟩) (some ⟨2, .Input, 0⟩))

/-- An input node (address 0) that was added to the graph, a brightness/contrast
node (address 1) that was created and never added, and the edge from the first
to the second made by `connect`. -/
def exampleDetached : State :=
  GraphOp.run (GraphOp.run (GraphOp.run (GraphOp.run State.init
    (.newNode .InputNode)) (.addNode (some 0)))
    (.newNode .BrightnessContrastNode))
    (.connect (some ⟨0, .Output, 0⟩) (some ⟨1, .Input, 0⟩))

/-- The graph of `exampleTwoNodes` after `Node::connectTo` was called twice for
the output of node 0 and the input of node 1. -/
def exampleDoubleEdge : State :=
  PublicOp.run (PublicOp.run exampleTwoNodes (.connectTo 0 1 0 0)) (.connectTo 0 1 0 0)

/-- The edge of `exampleProcessed`, from the output of node 0 to the input of
node 1. -/
def exampleEdge : Connection := ⟨0, ⟨0, .Output, 0⟩, ⟨1, .Input, 0⟩⟩

/-! ## Parameter members and setters of the derived classes -/

/-- The enumeration `BlurType`. -/
inductive BlurType where
  | Gaussian
  | Box
  | Median
  | Bilateral
deriving DecidableEq, Repr

/-- The enumeration `ThresholdType`. -/
inductive ThresholdType where
  | Binary
  | BinaryInverted
  | Truncated
  | ToZero
  | ToZeroInverted
  | Adaptive
  | Otsu
deriving DecidableEq, Repr

/-- The enumeration `EdgeDetectionType`. -/
inductive EdgeDetectionType where
  | Sobel
  | Canny
deriving DecidableEq, Repr

/-- The enumeration `BlendMode`. -/
inductive BlendMode where
  | Normal
  | Multiply
  | Screen
  | Overlay
  | Difference
  | Addition
  | Subtract
  | Darken
  | Lighten
deriving DecidableEq, Repr

/-- The enumeration `OutputNode::ImageFormat`. -/
inductive ImageFormat where
  | JPG
  | PNG
  | BMP
deriving DecidableEq, Repr

/-- A `BlurNode` object: the `Node` part and the parameter members. -/
structure BlurNode extends Node where
  radius_ : Int
  blurType_ : BlurType
  directional_ : Bool
  xDirection_ : Int
  yDirection_ : Int
deriving DecidableEq, Repr

/-- A `ThresholdNode` object. -/
structure ThresholdNode extends Node where
  threshold_ : Int
  thresholdType_ : ThresholdType
  adaptiveBlockSize_ : Int
  adaptiveConstant_ : Int
deriving DecidableEq, Repr

/-- An `EdgeDetectionNode` object. -/
structure EdgeDetectionNode extends Node where
  edgeType_ : EdgeDetectionType
  threshold1_ : Int
  threshold2_ : Int
  kernelSize_ : Int
  overlayMode_ : Bool
deriving DecidableEq, Repr

/-- A `BlendNode` object. -/
structure BlendNode extends Node where
  blendMode_ : BlendMode
  opacity_ : Int
deriving DecidableEq, Repr

/-- A `ChannelSplitterNode` object. -/
structure ChannelSplitterNode extends Node where
  grayscaleMode_ : Bool
deriving DecidableEq, Repr

/-- An `OutputNode` object; `processedImage_` is a member of the `Node` part. -/
structure OutputNode extends Node where
  format_ : ImageFormat
  quality_ : Int
deriving DecidableEq, Repr

/-- `BlurNode::BlurNode`. -/
def BlurNode.construct (id : Int) : BlurNode :=
  { toNode := Node.construct .BlurNode id, radius_ := 3, blurType_ := .Gaussian,
    directional_ := false, xDirection_ := 0, yDirection_ := 0 }

/-- `ThresholdNode::ThresholdNode`. -/
def ThresholdNode.construct (id : Int) : ThresholdNode :=
  { toNode := Node.construct .ThresholdNode id, threshold_ := 128, thresholdType_ := .Binary,
    adaptiveBlockSize_ := 3, adaptiveConstant_ := 5 }

/-- `EdgeDetectionNode::EdgeDetectionNode`. -/
def EdgeDetectionNode.construct (id : Int) : EdgeDetectionNode :=
  { toNode := Node.construct .EdgeDetectionNode id, edgeType_ := .Sobel, threshold1_ := 50,
    threshold2_ := 150, kernelSize_ := 3, overlayMode_ := false }

/-- `BlendNode::BlendNode`. -/
def BlendNode.construct (id : Int) : BlendNode :=
  { toNode := Node.construct .BlendNode id, blendMode_ := .Normal, opacity_ := 100 }

/-- `ChannelSplitterNode::ChannelSplitterNode`. -/
def ChannelSplitterNode.construct (id : Int) : ChannelSplitterNode :=
  { toNode := Node.construct .ChannelSplitterNode id, grayscaleMode_ := false }

/-- `OutputNode::OutputNode`. -/
def OutputNode.construct (id : Int) : OutputNode :=
  { toNode := Node.construct .OutputNode id, format_ := .PNG, quality_ := 90 }

/-- `BlurNode::setRadius`. -/
def BlurNode.setRadius (n : BlurNode) (radius : Int) : BlurNode :=
  { n with radius_ := max 1 (min 20 radius), dirty_ := true }

/-- `BlurNode::setBlurType`. -/
def BlurNode.setBlurType (n : BlurNode) (type : BlurType) : BlurNode :=
  { n with blurType_ := type, dirty_ := true }

/-- `BlurNode::setDirectional`. -/
def BlurNode.setDirectional (n : BlurNode) (directional : Bool) : BlurNode :=
  { n with directional_ := directional, dirty_ := true }

/-- `BlurNode::setXDirection`. -/
def BlurNode.setXDirection (n : BlurNode) (x : Int) : BlurNode :=
  { n with xDirection_ := max (-10) (min 10 x), dirty_ := true }

/-- `BlurNode::setYDirection`. -/
def BlurNode.setYDirection (n : BlurNode) (y : Int) : BlurNode :=
  { n with yDirection_ := max (-10) (min 10 y), dirty_ := true }

/-- `ThresholdNode::setThreshold`. -/
def ThresholdNode.setThreshold (n : ThresholdNode) (threshold : Int) : ThresholdNode :=
  { n with threshold_ := max 0 (min 255 threshold), dirty_ := true }

/-- `ThresholdNode::setThresholdType`. -/
def ThresholdNode.setThresholdType (n : ThresholdNode) (type : ThresholdType) :
    ThresholdNode :=
  { n with thresholdType_ := type, dirty_ := true }

/-- The value of a C++ `int` expression whose mathematical value is `i`, in
two's complement on 32 bits. -/
def wrapInt32 (i : Int) : Int :=
  (i + 2 ^ 31) % 2 ^ 32 - 2 ^ 31

/-- `ThresholdNode::setAdaptiveBlockSize`, for an argument in the range of `int`;
`%` is the truncating remainder of C++. -/
def ThresholdNode.setAdaptiveBlockSize (n : ThresholdNode) (size : Int) : ThresholdNode :=
  let size := if size.tmod 2 = 0 then wrapInt32 (size + 1) else size
  { n with adaptiveBlockSize_ := max 3 (min 51 size), dirty_ := true }

/-- `ThresholdNode::setAdaptiveConstant`. -/
def ThresholdNode.setAdaptiveConstant (n : ThresholdNode) (constant : Int) : ThresholdNode :=
  { n with adaptiveConstant_ := max 0 (min 50 constant), dirty_ := true }

/-- `EdgeDetectionNode::setEdgeType`. -/
def EdgeDetectionNode.setEdgeType (n : EdgeDetectionNode) (type : EdgeDetectionType) :
    EdgeDetectionNode :=
  { n with edgeType_ := type, dirty_ := true }

/-- `EdgeDetectionNode::setThreshold1`. -/
def EdgeDetectionNode.setThreshold1 (n : EdgeDetectionNode) (threshold : Int) :
    EdgeDetectionNode :=
  { n with threshold1_ := max 0 (min 255 threshold), dirty_ := true }

/-- `EdgeDetectionNode::setThreshold2`. -/
def EdgeDetectionNode.setThreshold2 (n : EdgeDetectionNode) (threshold : Int) :
    EdgeDetectionNode :=
  { n with threshold2_ := max 0 (min 255 threshold), dirty_ := true }

/-- `EdgeDetectionNode::setKernelSize`. -/
def EdgeDetectionNode.setKernelSize (n : EdgeDetectionNode) (size : Int) :
    EdgeDetectionNode :=
  let size := if size ≠ 3 ∧ size ≠ 5 ∧ size ≠ 7 then 3 else size
  { n with kernelSize_ := size, dirty_ := true }

/-- `EdgeDetectionNode::setOverlayMode`. -/
def EdgeDetectionNode.setOverlayMode (n : EdgeDetectionNode) (overlay : Bool) :
    EdgeDetectionNode :=
  { n with overlayMode_ := overlay, dirty_ := true }

/-- `BlendNode::setBlendMode`. -/
def BlendNode.setBlendMode (n : BlendNode) (mode : BlendMode) : BlendNode :=
  { n with blendMode_ := mode, dirty_ := true }

/-- `BlendNode::setOpacity`. -/
def BlendNode.setOpacity (n : BlendNode) (opacity : Int) : BlendNode :=
  { n with opacity_ := max 0 (min 100 opacity), dirty_ := true }

/-- `ChannelSplitterNode::setGrayscaleMode`. -/
def ChannelSplitterNode.setGrayscaleMode (n : ChannelSplitterNode) (grayscale : Bool) :
    ChannelSplitterNode :=
  { n with grayscaleMode_ := grayscale, dirty_ := true }

/-- `OutputNode::setFormat`: the dirty flag is not written. -/
def OutputNode.setFormat (n : OutputNode) (format : ImageFormat) : OutputNode :=
  { n with format_ := format }

/-- `OutputNode::setQuality`: the dirty flag is not written. -/
def OutputNode.setQuality (n : OutputNode) (quality : Int) : OutputNode :=
  { n with quality_ := max 1 (min 100 quality) }

/-- The values of the C++ type `int`. -/
def IsInt32 (i : Int) : Prop := -2 ^ 31 ≤ i ∧ i < 2 ^ 31

instance (i : Int) : Decidable (IsInt32 i) := by
  unfold IsInt32; infer_instance

/-! ## Output slots of a node object -/

/-- The output slots as the classes keep them: `addOutputConnector` pushes one
slot per output connector and is called by the constructors only, and an
`InputNode` holds its loaded image in its slot (empty until `loadImage`
succeeds, which stores the image and runs `process()`). -/
def Node.SlotsOk (n : Node) : Prop :=
  n.outputImages_.length = n.outputConnectors_.length ∧
  n.outputConnectors_.length = (Node.construct n.kind 0).outputConnectors_.length ∧
  (n.kind = NodeKind.InputNode → n.outputImages_ = [n.originalImage_])

instance (n : Node) : Decidable n.SlotsOk := by
  unfold Node.SlotsOk; infer_instance

/-- Every live node object of the state keeps its output slots in order. -/
def State.SlotsOk (s : State) : Prop :=
  ∀ p n, s.node? p = some n → n.SlotsOk

/-! ## Example objects -/

/-- The brightness/contrast node object of `exampleChain`: its input is connected
to an input node that holds no image. -/
def exampleChainNode : Node :=
  (exampleChain.node? 1).getD (Node.construct .BrightnessContrastNode 1)

/-- The graph of `exampleThree` after the image `a.png` was loaded into the input
node and `processAll` ran: all three nodes are clean. -/
def exampleThreeProcessed : State :=
  GraphManager.processAll examplePlatform
    (Node.loadImage examplePlatform exampleThree 0 "a.png").2

/-- The output node object of `exampleThreeProcessed`, with the format and the
quality set by its constructor. -/
def exampleOutputObject : OutputNode :=
  { toNode := (exampleThreeProcessed.node? 2).getD (Node.construct .OutputNode 2),
    format_ := .PNG, quality_ := 90 }

/-- A state made through `Node::connectTo`: three brightness/contrast nodes
(addresses 0, 1, 2) and an input node (address 3), with the edges 0 → 1 and
1 → 0 (a directed cycle) and 2 → 0 (a second edge into the input of node 0). -/
def exampleTangle : State :=
  let s := GraphOp.run (GraphOp.run exampleTwoFilters (.newNode .BrightnessContrastNode))
    (.addNode (some 2))
  let s := GraphOp.run (GraphOp.run s (.newNode .InputNode)) (.addNode (some 3))
  PublicOp.run (PublicOp.run (PublicOp.run s (.connectTo 0 1 0 0)) (.connectTo 1 0 0 0))
    (.connectTo 2 0 0 0)

/-! ## Invariants of a loaded graph -/

/-- Every input port holds at most one connection. -/
def State.SingleInput (s : State) : Prop :=
  ∀ p : ConnectorPtr, p.type_ = ConnectorType.Input → (s.getConnections p).length ≤ 1

/-- Every edge of the edge list is registered on its destination connector. -/
def State.InputsRegistered (s : State) : Prop :=
  ∀ c ∈ s.connections_, c ∈ s.getConnections c.destination_

/-- The state `t` has the edge list, the connection counter and the port lists
of `s`. -/
def State.SamePorts (s t : State) : Prop :=
  t.connections_ = s.connections_ ∧ t.nextConn = s.nextConn ∧
  ∀ p, t.getConnections p = s.getConnections p

/-- The edges of the edge list that end in the port `p`. -/
def State.edgesInto (s : State) (p : ConnectorPtr) : List Connection :=
  s.connections_.filter (fun c => decide (c.destination_ = p))

/-- The record of a brightness/contrast node in the layout that `readNodes`
reads: identifier, type 1, name, a `QPoint`, brightness 0 and contrast 1.0. -/
def exampleNodeRecord : List Nat :=
  putQString (QString.fromStdString "n") ++ putU32 1 ++
    putQString (QString.fromStdString "Brightness/Contrast") ++ putI32 10 ++ putI32 20 ++
    putI32 0 ++ putDouble ⟨0x3FF0000000000000⟩

/-- The body of a file with two brightness/contrast nodes and four edge records:
the edge from node 0 to node 1, the same edge once more, an edge from node 1 to
itself, and the edge back from node 1 to node 0. -/
def exampleFileBody : List Nat :=
  putU32 2 ++ exampleNodeRecord ++ exampleNodeRecord ++ putU32 4 ++
    (putI32 0 ++ putI32 0 ++ putI32 1 ++ putI32 0) ++
    (putI32 0 ++ putI32 0 ++ putI32 1 ++ putI32 0) ++
    (putI32 1 ++ putI32 0 ++ putI32 1 ++ putI32 0) ++
    (putI32 1 ++ putI32 0 ++ putI32 0 ++ putI32 0)

/-! ## States built with `Node::connectTo` and unlisted nodes -/

/-- Every connection held by an input connector of a live node is an edge of the
edge list that ends in this node. -/
def State.InputsListed (s : State) : Prop :=
  ∀ (n : NodePtr) (r : Node), s.node? n = some r → ∀ k ∈ r.inputConnectors_,
    ∀ c ∈ k.connections_, c ∈ s.connections_ ∧ c.destination_.parent_ = n

/-- The graph of `exampleChain` (input node 0, brightness/contrast node 1, edge
0 → 1 made by `connect`) with a second brightness/contrast node (address 2) that
is added to the graph and joined to node 1 by `Node::connectTo`; then `a.png` is
loaded into node 0, `processAll()` runs, `b.png` is loaded into node 0 and the
brightness of node 1 is set. -/
def exampleBypass : State :=
  let s0 := PublicOp.run (GraphOp.run (GraphOp.run exampleChain
    (.newNode .BrightnessContrastNode)) (.addNode (some 2))) (.connectTo 1 2 0 0)
  let s1 := GraphManager.processAll examplePlatform
    (Node.loadImage examplePlatform s0 0 "a.png").2
  Node.setBrightness (Node.loadImage examplePlatform s1 0 "b.png").2 1 5

/-- The graph of `exampleTwoNodes` after `addNode` was called for node 0 once
more: the node list is `[0, 1, 0]`. -/
def exampleListedTwice : State := GraphOp.run exampleTwoNodes (.addNode (some 0))

/-- The graph of `exampleDoubleEdge` (two connections from the output of node 0
on the input of node 1) after `a.png` was loaded into node 0. -/
def exampleDoubleLoaded : State :=
  (Node.loadImage examplePlatform exampleDoubleEdge 0 "a.png").2

/-- The graph of `exampleChain` with a second input node (address 2) that is
added to the graph and joined to the input of node 1 by `Node::connectTo`; both
input nodes have `a.png` loaded. -/
def exampleSecondSource : State :=
  let s0 := PublicOp.run (GraphOp.run (GraphOp.run exampleChain (.newNode .InputNode))
    (.addNode (some 2))) (.connectTo 2 1 0 0)
  (Node.loadImage examplePlatform (Node.loadImage examplePlatform s0 0 "a.png").2 2 "a.png").2

/-- A brightness/contrast node (address 0) that was added to the graph, an input
node (address 1) that was created and never added, and the edge from the second
to the first made by `connect`. -/
def exampleOrphan : State :=
  GraphOp.run (GraphOp.run (GraphOp.run (GraphOp.run State.init
    (.newNode .BrightnessContrastNode)) (.addNode (some 0)))
    (.newNode .InputNode))
    (.connect (some ⟨1, .Output, 0⟩) (some ⟨0, .Input, 0⟩))

/-! ## The breadth-first traversal of `canConnect` -/

theorem visitNext_eq_none (t : NodePtr) (l q v : List NodePtr) :
    visitNext t l q v = none ↔ t ∈ l := by
  induction l generalizing q v with
  | nil => simp [visitNext]
  | cons x rest ih =>
    unfold visitNext
    by_cases hx : x = t
    · simp [hx]
    · have hx' : t ≠ x := fun h => hx h.symm
      by_cases hv : x ∈ v
      · simp [hx, hv, ih, hx']
      · simp [hx, hv, ih, hx']

theorem visitNext_some (t : NodePtr) (l : List NodePtr) :
    ∀ q v q' v', visitNext t l q v = some (q', v') →
      (∀ x, x ∈ v' ↔ x ∈ v ∨ x ∈ l) ∧
      (∀ x, x ∈ q' ↔ x ∈ q ∨ (x ∈ l ∧ x ∉ v)) ∧
      (v.Nodup → v'.Nodup) ∧
      v'.length + q.length = v.length + q'.length := by
  induction l with
  | nil =>
    intro q v q' v' h
    simp [visitNext] at h
    obtain ⟨rfl, rfl⟩ := h
    simp
  | cons a rest ih =>
    intro q v q' v' h
    unfold visitNext at h
    by_cases ha : a = t
    · simp [ha] at h
    · by_cases hv : a ∈ v
      · simp only [ha, hv, if_true, if_false] at h
        obtain ⟨h1, h2, h3, h4⟩ := ih q v q' v' h
        refine ⟨?_, ?_, h3, h4⟩
        · intro x
          rw [h1]
          constructor
          · rintro (h | h)
            · exact Or.inl h
            · exact Or.inr (List.mem_cons_of_mem _ h)
          · rintro (h | h)
            · exact Or.inl h
            · rcases List.mem_cons.1 h with rfl | h
              · exact Or.inl hv
              · exact Or.inr h
        · intro x
          rw [h2]
          constructor
          · rintro (h | ⟨h, h'⟩)
            · exact Or.inl h
            · exact Or.inr ⟨List.mem_cons_of_mem _ h, h'⟩
          · rintro (h | ⟨h, h'⟩)
            · exact Or.inl h
            · rcases List.mem_cons.1 h with rfl | h
              · exact absurd hv h'
              · exact Or.inr ⟨h, h'⟩
      · simp only [ha, hv, if_false] at h
        obtain ⟨h1, h2, h3, h4⟩ := ih (q ++ [a]) (a :: v) q' v' h
        refine ⟨?_, ?_, ?_, ?_⟩
        · intro x
          rw [h1]
          simp only [List.mem_cons]
          tauto
        · intro x
          rw [h2]
          by_cases hxa : x = a
          · subst hxa
            simp [hv]
          · simp only [List.mem_append, List.mem_cons, List.mem_singleton, List.not_mem_nil,
              or_false, not_or, hxa, false_or, not_false_eq_true, true_and]
        · intro hnd
          exact h3 (List.nodup_cons.2 ⟨hv, hnd⟩)
        · simp only [List.length_cons, List.length_append, List.length_singleton,
            List.length_nil] at h4
          omega

/-- Enough fuel: the loop returns once the fuel exceeds the number of nodes
that are still unvisited plus the length of the queue. -/
theorem bfsLoop_fuel (succ : NodePtr → List NodePtr) (t : NodePtr) (U : List NodePtr)
    (hU : ∀ x y, y ∈ succ x → y ∈ U) :
    ∀ fuel q v, v.Nodup → v ⊆ U → U.length + q.length < fuel + v.length →
      ∃ b, bfsLoop succ t fuel q v = some b := by
  intro fuel
  induction fuel with
  | zero =>
    intro q v hnd hsub hlt
    have := (List.subperm_of_subset hnd hsub).length_le
    omega
  | succ fuel ih =>
    intro q v hnd hsub hlt
    cases q with
    | nil => exact ⟨true, by simp [bfsLoop]⟩
    | cons current rest =>
      unfold bfsLoop
      cases hvn : visitNext t (succ current) rest v with
      | none => exact ⟨false, rfl⟩
      | some r =>
        obtain ⟨q', v'⟩ := r
        obtain ⟨h1, _, h3, h4⟩ := visitNext_some t (succ current) rest v q' v' hvn
        apply ih q' v' (h3 hnd)
        · intro x hx
          rcases (h1 x).1 hx with h | h
          · exact hsub h
          · exact hU _ _ h
        · simp only [List.length_cons] at hlt
          omega

/-- Correctness of the traversal: started in a state where the visited set is
closed under successors outside the queue, it answers `true` exactly when the
target is not reachable from the start node. -/
theorem bfsLoop_correct (succ : NodePtr → List NodePtr) (t start : NodePtr) :
    ∀ fuel q v b, bfsLoop succ t fuel q v = some b →
      (∀ x ∈ q, x ∈ v) →
      (∀ x ∈ v, x ∉ q → ∀ y ∈ succ x, y ∈ v ∧ y ≠ t) →
      (∀ x ∈ v, Relation.ReflTransGen (fun a c => c ∈ succ a) start x) →
      start ∈ v → t ∉ v →
      (b = true ↔ ¬ Relation.TransGen (fun a c => c ∈ succ a) start t) := by
  intro fuel
  induction fuel with
  | zero => intro q v b h; simp [bfsLoop] at h
  | succ fuel ih =>
    intro q v b h I1 I2 I3 I4 I5
    cases q with
    | nil =>
      simp [bfsLoop] at h
      subst h
      simp only [true_iff]
      intro hreach
      have key : ∀ x, Relation.ReflTransGen (fun a c => c ∈ succ a) start x → x ∈ v := by
        intro x hx
        induction hx with
        | refl => exact I4
        | tail _ hbc ihx => exact (I2 _ ihx (List.not_mem_nil _) _ hbc).1
      obtain ⟨x, hx, hxt⟩ := Relation.TransGen.tail'_iff.1 hreach
      exact (I2 x (key x hx) (List.not_mem_nil _) t hxt).2 rfl
    | cons current rest =>
      unfold bfsLoop at h
      cases hvn : visitNext t (succ current) rest v with
      | none =>
        rw [hvn] at h
        simp at h
        subst h
        have ht : t ∈ succ current := (visitNext_eq_none t _ _ _).1 hvn
        have hc := I3 current (I1 current (List.mem_cons_self _ _))
        simp only [Bool.false_eq_true, false_iff, not_not]
        exact Relation.TransGen.tail' hc ht
      | some r =>
        obtain ⟨q', v'⟩ := r
        rw [hvn] at h
        simp only at h
        obtain ⟨h1, h2, _, _⟩ := visitNext_some t (succ current) rest v q' v' hvn
        have htn : t ∉ succ current := by
          intro ht
          have := (visitNext_eq_none t (succ current) rest v).2 ht
          rw [this] at hvn
          exact Option.noConfusion hvn
        have hcv : current ∈ v := I1 current (List.mem_cons_self _ _)
        apply ih q' v' b h
        · intro x hx
          rcases (h2 x).1 hx with hx | ⟨hx, _⟩
          · exact (h1 x).2 (Or.inl (I1 x (List.mem_cons_of_mem _ hx)))
          · exact (h1 x).2 (Or.inr hx)
        · intro x hx hxq y hy
          by_cases hxc : x = current
          · subst hxc
            refine ⟨(h1 y).2 (Or.inr hy), ?_⟩
            rintro rfl
            exact htn hy
          · rcases (h1 x).1 hx with hxv | hxs
            · have hxr : x ∉ rest := fun hr => hxq ((h2 x).2 (Or.inl hr))
              have hxq' : x ∉ current :: rest := by
                intro hmem
                rcases List.mem_cons.1 hmem with h | h
                · exact hxc h
                · exact hxr h
              obtain ⟨hy1, hy2⟩ := I2 x hxv hxq' y hy
              exact ⟨(h1 y).2 (Or.inl hy1), hy2⟩
            · by_cases hxv : x ∈ v
              · have hxr : x ∉ rest := fun hr => hxq ((h2 x).2 (Or.inl hr))
                have hxq' : x ∉ current :: rest := by
                  intro hmem
                  rcases List.mem_cons.1 hmem with h | h
                  · exact hxc h
                  · exact hxr h
                obtain ⟨hy1, hy2⟩ := I2 x hxv hxq' y hy
                exact ⟨(h1 y).2 (Or.inl hy1), hy2⟩
              · exact absurd ((h2 x).2 (Or.inr ⟨hxs, hxv⟩)) hxq
        · intro x hx
          rcases (h1 x).1 hx with hxv | hxs
          · exact I3 x hxv
          · exact Relation.ReflTransGen.tail (I3 current hcv) hxs
        · exact (h1 start).2 (Or.inl I4)
        · intro ht
          rcases (h1 t).1 ht with h | h
          · exact I5 h
          · exact htn h

/-! ## Connectors and successors -/

theorem State.node?_lt {s : State} {p : NodePtr} {n : Node} (h : s.node? p = some n) :
    p < s.heap.length := by
  unfold State.node? at h
  by_contra hlt
  have hle : s.heap.length ≤ p := Nat.le_of_not_lt hlt
  rw [List.getElem?_eq_none hle] at h
  simp at h

theorem State.mem_connectorPtrs {s : State} {p : ConnectorPtr} {k : NodeConnector}
    (h : s.connector? p = some k) : p ∈ s.connectorPtrs := by
  unfold State.connector? at h
  cases hn : s.node? p.parent_ with
  | none => simp [hn] at h
  | some n =>
    rw [hn] at h
    simp only at h
    have hlt : p.index_ < (n.connectors p.type_).length := by
      by_contra hge
      have hle : (n.connectors p.type_).length ≤ p.index_ := Nat.le_of_not_lt hge
      rw [List.getElem?_eq_none hle] at h
      simp at h
    unfold State.connectorPtrs
    rw [List.mem_flatMap]
    refine ⟨p.parent_, List.mem_range.2 (State.node?_lt hn), ?_⟩
    rw [hn]
    obtain ⟨pp, pt, pi⟩ := p
    cases pt with
    | Input =>
      simp only [List.mem_append, List.mem_map, List.mem_range]
      exact Or.inl ⟨pi, hlt, rfl⟩
    | Output =>
      simp only [List.mem_append, List.mem_map, List.mem_range]
      exact Or.inr ⟨pi, hlt, rfl⟩

theorem State.getConnections_ne_nil_mem {s : State} {p : ConnectorPtr} {c : Connection}
    (h : c ∈ s.getConnections p) : p ∈ s.connectorPtrs := by
  unfold State.getConnections at h
  cases hk : s.connector? p with
  | none => simp [hk] at h
  | some k => exact State.mem_connectorPtrs hk

/-- A node `m` is visited from `u` exactly when some connection registered on an
output connector of `u` ends in `m`. -/
theorem State.mem_successors {s : State} {u m : NodePtr} :
    m ∈ s.successors u ↔
      ∃ i c, c ∈ s.getConnections ⟨u, .Output, i⟩ ∧ c.destination_.parent_ = m := by
  simp only [State.successors, State.getConnections, State.connector?]
  cases hn : s.node? u with
  | none => simp
  | some n =>
    simp only [List.mem_flatMap, List.mem_map, Node.connectors]
    constructor
    · rintro ⟨oc, hoc, c, hc, rfl⟩
      obtain ⟨i, hi⟩ := List.mem_iff_getElem?.1 hoc
      exact ⟨i, c, by simp [hi, hc], rfl⟩
    · rintro ⟨i, c, hc, rfl⟩
      cases hk : n.outputConnectors_[i]? with
      | none => simp [hk] at hc
      | some k =>
        simp only [hk] at hc
        exact ⟨k, List.getElem?_mem hk, c, hc, rfl⟩

/-- Under agreement of the port lists with the edge list, the traversal of
`canConnect` follows exactly the edges of the induced node graph. -/
theorem State.mem_successors_iff_nodeEdge {s : State} (hagree : s.PortsAgree)
    (htyped : s.EdgesTyped) (u m : NodePtr) : m ∈ s.successors u ↔ s.NodeEdge u m := by
  rw [State.mem_successors]
  constructor
  · rintro ⟨i, c, hc, rfl⟩
    obtain ⟨hmem, hend⟩ := hagree.2 _ (State.getConnections_ne_nil_mem hc) c hc
    refine ⟨c, hmem, ?_, rfl⟩
    rcases hend with h | h
    · rw [h]
    · have := (htyped c hmem).2
      rw [h] at this
      exact absurd this (by simp)
  · rintro ⟨c, hmem, rfl, rfl⟩
    have hs := (hagree.1 c hmem).1
    have ht := (htyped c hmem).1
    refine ⟨c.source_.index_, c, ?_, rfl⟩
    have : c.source_ = ⟨c.source_.parent_, .Output, c.source_.index_⟩ := by
      rw [← ht]
    rw [← this]
    exact hs

theorem State.successors_subset_allTargets (s : State) (x y : NodePtr)
    (h : y ∈ s.successors x) : y ∈ s.allTargets := by
  unfold State.allTargets
  rw [List.mem_flatMap]
  refine ⟨x, ?_, h⟩
  rw [List.mem_range]
  unfold State.successors at h
  cases hn : s.node? x with
  | none => simp [hn] at h
  | some n => exact State.node?_lt hn

/-- The traversal of `canConnect` always returns within the fuel granted by
`State.bfsFuel`. -/
theorem State.bfsLoop_terminates (s : State) (t start : NodePtr) :
    ∃ b, bfsLoop s.successors t s.bfsFuel [start] [start] = some b := by
  apply bfsLoop_fuel s.successors t (start :: s.allTargets)
  · intro x y h
    exact List.mem_cons_of_mem _ (s.successors_subset_allTargets x y h)
  · simp
  · simp
  · simp [State.bfsFuel]

/-- The traversal started at the destination node answers `true` exactly when
the source node cannot be reached along registered connections. -/
theorem State.bfsLoop_canConnect (s : State) (t start : NodePtr) (hne : t ≠ start) :
    bfsLoop s.successors t s.bfsFuel [start] [start] = some true ↔
      ¬ Relation.TransGen (fun a c => c ∈ s.successors a) start t := by
  obtain ⟨b, hb⟩ := s.bfsLoop_terminates t start
  have := bfsLoop_correct s.successors t start s.bfsFuel [start] [start] b hb
    (by simp) (by simp) (by simp; exact Relation.ReflTransGen.refl) (by simp)
    (by simpa using hne)
  rw [hb, ← this]
  simp

theorem canConnect_eq_true_iff (s : State) (src dst : ConnectorPtr) :
    GraphManager.canConnect s (some src) (some dst) = true ↔
      src.type_ = ConnectorType.Output ∧ dst.type_ = ConnectorType.Input ∧
      s.getConnections dst = [] ∧ src.parent_ ≠ dst.parent_ ∧
      ¬ Relation.TransGen (fun a c => c ∈ s.successors a) dst.parent_ src.parent_ := by
  unfold GraphManager.canConnect
  simp only
  by_cases h1 : src.type_ = ConnectorType.Output
  · by_cases h2 : dst.type_ = ConnectorType.Input
    · by_cases h3 : s.getConnections dst = []
      · by_cases h4 : src.parent_ = dst.parent_
        · simp [h1, h2, h3, h4]
        · rw [← s.bfsLoop_canConnect src.parent_ dst.parent_ h4]
          obtain ⟨b, hb⟩ := s.bfsLoop_terminates src.parent_ dst.parent_
          simp [h1, h2, h3, h4, hb]
      · simp [h1, h2, h3]
    · simp [h1, h2]
  · simp [h1]

theorem transGen_congr {α : Type} {r r' : α → α → Prop} (h : ∀ a b, r a b ↔ r' a b)
    (a b : α) : Relation.TransGen r a b ↔ Relation.TransGen r' a b := by
  have : r = r' := by
    funext x y
    exact propext (h x y)
  rw [this]

/-- With port lists that agree with the edge list, `canConnect` decides the five
conditions on the edge list. -/
theorem canConnect_iff_nodeEdge (s : State) (hagree : s.PortsAgree) (htyped : s.EdgesTyped)
    (src dst : ConnectorPtr) :
    GraphManager.canConnect s (some src) (some dst) = true ↔
      src.type_ = ConnectorType.Output ∧ dst.type_ = ConnectorType.Input ∧
      s.getConnections dst = [] ∧ src.parent_ ≠ dst.parent_ ∧
      ¬ Relation.TransGen s.NodeEdge dst.parent_ src.parent_ := by
  rw [canConnect_eq_true_iff,
    transGen_congr (State.mem_successors_iff_nodeEdge hagree htyped)]

/-- C1: in a state whose port lists agree with the edge list, `canConnect(s, d)`
holds exactly when `s` is an Output port, `d` is an Input port, `d` has no
incident edge, the two ports belong to different nodes and the node of `s` is
not reachable from the node of `d` along edges; with a null port it is false. -/
theorem canConnect_spec (s : State) (hagree : s.PortsAgree) (htyped : s.EdgesTyped) :
    (∀ src dst : ConnectorPtr,
      GraphManager.canConnect s (some src) (some dst) = true ↔
        src.type_ = ConnectorType.Output ∧ dst.type_ = ConnectorType.Input ∧
        s.getConnections dst = [] ∧ src.parent_ ≠ dst.parent_ ∧
        ¬ Relation.TransGen s.NodeEdge dst.parent_ src.parent_) ∧
    (∀ dst : Option ConnectorPtr, GraphManager.canConnect s none dst = false) ∧
    (∀ src : Option ConnectorPtr, GraphManager.canConnect s src none = false) := by
  refine ⟨?_, ?_, ?_⟩
  · intro src dst
    exact canConnect_iff_nodeEdge s hagree htyped src dst
  · intro dst
    simp [GraphManager.canConnect]
  · intro src
    cases src <;> simp [GraphManager.canConnect]

/-! ## Frame lemmas for the heap -/

@[simp] theorem State.modifyNode_nodes_ (s : State) (p : NodePtr) (f : Node → Node) :
    (s.modifyNode p f).nodes_ = s.nodes_ := by
  unfold State.modifyNode; split <;> rfl

@[simp] theorem State.modifyNode_connections_ (s : State) (p : NodePtr) (f : Node → Node) :
    (s.modifyNode p f).connections_ = s.connections_ := by
  unfold State.modifyNode; split <;> rfl

@[simp] theorem State.modifyNode_selectedNode_ (s : State) (p : NodePtr) (f : Node → Node) :
    (s.modifyNode p f).selectedNode_ = s.selectedNode_ := by
  unfold State.modifyNode; split <;> rfl

@[simp] theorem State.modifyNode_currentFilePath_ (s : State) (p : NodePtr) (f : Node → Node) :
    (s.modifyNode p f).currentFilePath_ = s.currentFilePath_ := by
  unfold State.modifyNode; split <;> rfl

@[simp] theorem State.modifyNode_dirty_ (s : State) (p : NodePtr) (f : Node → Node) :
    (s.modifyNode p f).dirty_ = s.dirty_ := by
  unfold State.modifyNode; split <;> rfl

@[simp] theorem State.modifyNode_nextConn (s : State) (p : NodePtr) (f : Node → Node) :
    (s.modifyNode p f).nextConn = s.nextConn := by
  unfold State.modifyNode; split <;> rfl

@[simp] theorem State.modifyNode_nextId_ (s : State) (p : NodePtr) (f : Node → Node) :
    (s.modifyNode p f).nextId_ = s.nextId_ := by
  unfold State.modifyNode; split <;> rfl

@[simp] theorem State.modifyNode_heap_length (s : State) (p : NodePtr) (f : Node → Node) :
    (s.modifyNode p f).heap.length = s.heap.length := by
  unfold State.modifyNode; split <;> simp

theorem State.node?_congr {s t : State} (h : s.heap = t.heap) (p : NodePtr) :
    s.node? p = t.node? p := by
  unfold State.node?; rw [h]

theorem State.connector?_congr {s t : State} (h : s.heap = t.heap) (c : ConnectorPtr) :
    s.connector? c = t.connector? c := by
  unfold State.connector?; rw [State.node?_congr h]

theorem State.getConnections_congr {s t : State} (h : s.heap = t.heap) (c : ConnectorPtr) :
    s.getConnections c = t.getConnections c := by
  unfold State.getConnections; rw [State.connector?_congr h]

theorem State.successors_congr {s t : State} (h : s.heap = t.heap) (p : NodePtr) :
    s.successors p = t.successors p := by
  unfold State.successors; rw [State.node?_congr h]

theorem State.connectorPtrs_congr {s t : State} (h : s.heap = t.heap) :
    s.connectorPtrs = t.connectorPtrs := by
  unfold State.connectorPtrs
  rw [h]
  congr 1
  funext p
  rw [State.node?_congr h]

theorem State.node?_modifyNode (s : State) (p q : NodePtr) (f : Node → Node) :
    (s.modifyNode p f).node? q = if q = p then (s.node? p).map f else s.node? q := by
  unfold State.modifyNode
  cases hn : s.node? p with
  | none =>
    simp only [Option.map_none']
    split
    · next h => rw [h, hn]
    · rfl
  | some n =>
    have hlt := State.node?_lt hn
    simp only [State.node?, List.getElem?_set, Option.map_some']
    by_cases hqp : q = p
    · subst hqp
      simp [hlt]
    · have : ¬ p = q := fun h => hqp h.symm
      simp [hqp, this]

/-- A node update that leaves the connector lists alone leaves every connector
unchanged. -/
theorem State.connector?_modifyNode_of_connectors (s : State) (p : NodePtr) (f : Node → Node)
    (hf : ∀ n t, (f n).connectors t = n.connectors t) (c : ConnectorPtr) :
    (s.modifyNode p f).connector? c = s.connector? c := by
  unfold State.connector?
  rw [State.node?_modifyNode]
  by_cases h : c.parent_ = p
  · subst h
    cases hn : s.node? c.parent_ with
    | none => simp
    | some n => simp [hf]
  · simp [h]

theorem State.getConnections_modifyNode_of_connectors (s : State) (p : NodePtr)
    (f : Node → Node) (hf : ∀ n t, (f n).connectors t = n.connectors t) (c : ConnectorPtr) :
    (s.modifyNode p f).getConnections c = s.getConnections c := by
  unfold State.getConnections
  rw [State.connector?_modifyNode_of_connectors s p f hf]

theorem Node.connectors_setConnectors (n : Node) (t t' : ConnectorType)
    (l : List NodeConnector) :
    (n.setConnectors t l).connectors t' = if t' = t then l else n.connectors t' := by
  cases t <;> cases t' <;> simp [Node.setConnectors, Node.connectors]

/-- The connector reached through `p` after the connection list of `c` was
rewritten by `f`. -/
theorem State.connector?_modifyConnector (s : State) (c p : ConnectorPtr)
    (f : List Connection → List Connection) :
    (s.modifyConnector c f).connector? p =
      if p = c then (s.connector? c).map (fun k => { k with connections_ := f k.connections_ })
      else s.connector? p := by
  unfold State.modifyConnector State.connector?
  rw [State.node?_modifyNode]
  obtain ⟨pp, pt, pi⟩ := p
  obtain ⟨cp, ct, ci⟩ := c
  simp only [ConnectorPtr.mk.injEq]
  by_cases h1 : pp = cp
  · subst h1
    cases hn : s.node? pp with
    | none => simp
    | some n =>
      simp only [if_true, Option.map_some', Node.connectors_setConnectors, true_and]
      by_cases h2 : pt = ct
      · subst h2
        simp only [if_true, true_and, List.getElem?_modify]
        by_cases h3 : pi = ci
        · subst h3
          simp
        · have : ¬ ci = pi := fun h => h3 h.symm
          simp [h3, this]
      · simp [h2]
  · simp [h1]

theorem State.getConnections_modifyConnector (s : State) (c p : ConnectorPtr)
    (f : List Connection → List Connection) (hf : f [] = []) :
    (s.modifyConnector c f).getConnections p =
      if p = c then f (s.getConnections c) else s.getConnections p := by
  unfold State.getConnections
  rw [State.connector?_modifyConnector]
  by_cases h : p = c
  · subst h
    cases hk : s.connector? p with
    | none => simp [hf]
    | some k => simp
  · simp [h]

theorem State.getConnections_modifyConnector_of_ne (s : State) (c p : ConnectorPtr)
    (f : List Connection → List Connection) (h : p ≠ c) :
    (s.modifyConnector c f).getConnections p = s.getConnections p := by
  unfold State.getConnections
  rw [State.connector?_modifyConnector]
  simp [h]

theorem State.getConnections_modifyConnector_of_isSome (s : State) (c : ConnectorPtr)
    (f : List Connection → List Connection) (hc : (s.connector? c).isSome) :
    (s.modifyConnector c f).getConnections c = f (s.getConnections c) := by
  unfold State.getConnections
  rw [State.connector?_modifyConnector]
  cases hk : s.connector? c with
  | none => simp [hk] at hc
  | some k => simp

theorem State.connector?_isSome_modifyConnector (s : State) (c p : ConnectorPtr)
    (f : List Connection → List Connection) :
    ((s.modifyConnector c f).connector? p).isSome = (s.connector? p).isSome := by
  rw [State.connector?_modifyConnector]
  by_cases h : p = c
  · subst h
    cases s.connector? p <;> simp
  · simp [h]

theorem Node.getConnections_markDirty (s : State) (p : NodePtr) (c : ConnectorPtr) :
    (Node.markDirty s p).getConnections c = s.getConnections c :=
  State.getConnections_modifyNode_of_connectors s p _ (fun n t => by cases t <;> rfl) c

/-! ## `GraphManager::connect` -/

theorem GraphManager.connect_fst (s : State) (src dst : Option ConnectorPtr) :
    (GraphManager.connect s src dst).1 = GraphManager.canConnect s src dst := by
  unfold GraphManager.connect
  cases hc : GraphManager.canConnect s src dst with
  | false => simp
  | true =>
    cases src with
    | none => simp [GraphManager.canConnect] at hc
    | some a =>
      cases dst with
      | none => simp [GraphManager.canConnect] at hc
      | some b => simp

theorem GraphManager.connect_of_not_canConnect (s : State) (src dst : Option ConnectorPtr)
    (h : GraphManager.canConnect s src dst = false) :
    GraphManager.connect s src dst = (false, s) := by
  unfold GraphManager.connect
  simp [h]

/-- The state after a successful `connect`. -/
theorem GraphManager.connect_of_canConnect (s : State) (src dst : ConnectorPtr)
    (h : GraphManager.canConnect s (some src) (some dst) = true) :
    (GraphManager.connect s (some src) (some dst)).2 =
      { Node.markDirty
          (NodeConnector.addConnection
            (NodeConnector.addConnection
              { s with nextConn := s.nextConn + 1,
                       connections_ := s.connections_ ++ [⟨s.nextConn, src, dst⟩] }
              src ⟨s.nextConn, src, dst⟩)
            dst ⟨s.nextConn, src, dst⟩)
          dst.parent_ with dirty_ := true } := by
  unfold GraphManager.connect
  simp [h]

theorem GraphManager.getConnections_connect_dst (s : State) (src dst : ConnectorPtr)
    (h : GraphManager.canConnect s (some src) (some dst) = true)
    (hdst : (s.connector? dst).isSome) :
    (GraphManager.connect s (some src) (some dst)).2.getConnections dst =
      s.getConnections dst ++ [⟨s.nextConn, src, dst⟩] := by
  rw [GraphManager.connect_of_canConnect s src dst h]
  have hne : dst ≠ src := by
    intro hEq
    have := (canConnect_eq_true_iff s src dst).1 h
    exact this.2.2.2.1 (by rw [hEq])
  refine (State.getConnections_congr (t := Node.markDirty
          (NodeConnector.addConnection
            (NodeConnector.addConnection
              { s with nextConn := s.nextConn + 1,
                       connections_ := s.connections_ ++ [⟨s.nextConn, src, dst⟩] }
              src ⟨s.nextConn, src, dst⟩)
            dst ⟨s.nextConn, src, dst⟩)
          dst.parent_) rfl dst).trans ?_
  rw [Node.getConnections_markDirty]
  unfold NodeConnector.addConnection
  rw [State.getConnections_modifyConnector_of_isSome]
  · rw [State.getConnections_modifyConnector_of_ne _ _ _ _ hne]
    exact congrArg (· ++ _) (State.getConnections_congr rfl dst)
  · rw [State.connector?_isSome_modifyConnector]
    exact hdst

/-- C2: `connect(s, d)` succeeds exactly when `canConnect(s, d)` holds beforehand,
and after a successful call the destination port is occupied, so
`canConnect(s, d)` is false. -/
theorem connect_succeeds_iff_canConnect (s : State) (src dst : ConnectorPtr)
    (hdst : (s.connector? dst).isSome) :
    ((GraphManager.connect s (some src) (some dst)).1 = true ↔
      GraphManager.canConnect s (some src) (some dst) = true) ∧
    ((GraphManager.connect s (some src) (some dst)).1 = true →
      (GraphManager.connect s (some src) (some dst)).2.getConnections dst ≠ [] ∧
      GraphManager.canConnect (GraphManager.connect s (some src) (some dst)).2
        (some src) (some dst) = false) := by
  refine ⟨by rw [GraphManager.connect_fst], ?_⟩
  intro hok
  rw [GraphManager.connect_fst] at hok
  have hocc : (GraphManager.connect s (some src) (some dst)).2.getConnections dst ≠ [] := by
    rw [GraphManager.getConnections_connect_dst s src dst hok hdst]
    simp
  refine ⟨hocc, ?_⟩
  cases hcc : GraphManager.canConnect (GraphManager.connect s (some src) (some dst)).2
      (some src) (some dst) with
  | false => rfl
  | true => exact absurd ((canConnect_eq_true_iff _ src dst).1 hcc).2.2.1 hocc

theorem transGen_add_edge {α : Type} {r r' : α → α → Prop} {a b : α}
    (hr : ∀ x y, r' x y → r x y ∨ (x = a ∧ y = b)) :
    ∀ x y, Relation.TransGen r' x y →
      Relation.TransGen r x y ∨
        (Relation.ReflTransGen r x a ∧ Relation.ReflTransGen r b y) := by
  intro x y h
  induction h with
  | single hxy =>
    rcases hr _ _ hxy with h | ⟨rfl, rfl⟩
    · exact Or.inl (Relation.TransGen.single h)
    · exact Or.inr ⟨Relation.ReflTransGen.refl, Relation.ReflTransGen.refl⟩
  | tail _ hyz ih =>
    rcases hr _ _ hyz with h | ⟨rfl, rfl⟩
    · rcases ih with h1 | ⟨h1, h2⟩
      · exact Or.inl (Relation.TransGen.tail h1 h)
      · exact Or.inr ⟨h1, Relation.ReflTransGen.tail h2 h⟩
    · rcases ih with h1 | ⟨h1, _⟩
      · exact Or.inr ⟨h1.to_reflTransGen, Relation.ReflTransGen.refl⟩
      · exact Or.inr ⟨h1, Relation.ReflTransGen.refl⟩

theorem acyclic_add_edge {α : Type} {r r' : α → α → Prop} {a b : α}
    (hr : ∀ x y, r' x y → r x y ∨ (x = a ∧ y = b))
    (hac : ∀ u, ¬ Relation.TransGen r u u)
    (hba : ¬ Relation.ReflTransGen r b a) : ∀ u, ¬ Relation.TransGen r' u u := by
  intro u hu
  rcases transGen_add_edge hr u u hu with h | ⟨h1, h2⟩
  · exact hac u h
  · exact hba (h2.trans h1)

theorem State.Acyclic.of_subset {s s' : State} (hac : s.Acyclic)
    (hsub : ∀ c ∈ s'.connections_, c ∈ s.connections_) : s'.Acyclic := by
  intro u hu
  apply hac u
  refine Relation.TransGen.mono ?_ hu
  rintro a b ⟨c, hc, h1, h2⟩
  exact ⟨c, hsub c hc, h1, h2⟩

/-- An edge that is registered on its source connector is followed by the
traversal of `canConnect`. -/
theorem State.EdgesRegistered.nodeEdge_successors {s : State} (hreg : s.EdgesRegistered)
    {u v : NodePtr} (h : s.NodeEdge u v) : v ∈ s.successors u := by
  obtain ⟨c, hc, rfl, rfl⟩ := h
  obtain ⟨ht, hm⟩ := hreg c hc
  rw [State.mem_successors]
  refine ⟨c.source_.index_, c, ?_, rfl⟩
  have : c.source_ = ⟨c.source_.parent_, .Output, c.source_.index_⟩ := by
    rw [← ht]
  rw [← this]
  exact hm

/-- With every edge registered on its source connector, an accepted connection
never closes a cycle. -/
theorem State.EdgesRegistered.not_reach_of_canConnect {s : State} (hreg : s.EdgesRegistered)
    {src dst : ConnectorPtr} (h : GraphManager.canConnect s (some src) (some dst) = true) :
    ¬ Relation.ReflTransGen s.NodeEdge dst.parent_ src.parent_ := by
  obtain ⟨_, _, _, hne, hnr⟩ := (canConnect_eq_true_iff s src dst).1 h
  intro hreach
  rcases Relation.reflTransGen_iff_eq_or_transGen.1 hreach with heq | ht
  · exact hne heq
  · apply hnr
    exact Relation.TransGen.mono (fun a b hab => hreg.nodeEdge_successors hab) ht

/-! ## The ports after each operation -/

theorem Node.construct_connections (kind : NodeKind) (id : Int) (t : ConnectorType)
    (k : NodeConnector) (hk : k ∈ (Node.construct kind id).connectors t) :
    k.connections_ = [] := by
  cases kind <;> cases t <;>
    simp [Node.construct, Node.base, Node.addInputConnector, Node.addOutputConnector,
      Node.connectors] at hk <;>
    (try rcases hk with rfl | rfl | rfl | rfl) <;> rfl

theorem State.node?_newNode (s : State) (kind : NodeKind) (q : Nat) :
    (s.newNode kind).2.node? q =
      if q = s.heap.length then some (Node.construct kind s.nextId_) else s.node? q := by
  unfold State.newNode State.node?
  simp only
  by_cases h : q < s.heap.length
  · rw [List.getElem?_append_left h]
    simp [Nat.ne_of_lt h]
  · by_cases h2 : q = s.heap.length
    · subst h2
      simp
    · have h3 : (s.heap ++ [some (Node.construct kind s.nextId_)]).length ≤ q := by
        simp; omega
      have h4 : s.heap.length ≤ q := by omega
      rw [List.getElem?_eq_none h3, List.getElem?_eq_none h4]
      simp [h2]

theorem State.getConnections_newNode (s : State) (kind : NodeKind) (p : ConnectorPtr) :
    (s.newNode kind).2.getConnections p = s.getConnections p := by
  unfold State.getConnections State.connector?
  rw [State.node?_newNode]
  by_cases h : p.parent_ = s.heap.length
  · have hle : s.heap.length ≤ p.parent_ := Nat.le_of_eq h.symm
    have hnone : s.node? p.parent_ = none := by
      unfold State.node?
      rw [List.getElem?_eq_none hle]
    rw [if_pos h, hnone]
    show (match ((Node.construct kind s.nextId_).connectors p.type_)[p.index_]? with
      | some k => k.connections_
      | none => []) = []
    cases hk : ((Node.construct kind s.nextId_).connectors p.type_)[p.index_]? with
    | none => rfl
    | some k => exact Node.construct_connections kind _ _ k (List.getElem?_mem hk)
  · simp [h]

theorem GraphManager.addNode_connections_ (s : State) (node : Option NodePtr) :
    (GraphManager.addNode s node).connections_ = s.connections_ := by
  unfold GraphManager.addNode
  cases node with
  | none => rfl
  | some p =>
    simp only
    split
    · rfl
    · split <;> simp

theorem GraphManager.addNode_nextConn (s : State) (node : Option NodePtr) :
    (GraphManager.addNode s node).nextConn = s.nextConn := by
  unfold GraphManager.addNode
  cases node with
  | none => rfl
  | some p =>
    simp only
    split
    · rfl
    · split <;> simp

theorem GraphManager.getConnections_addNode (s : State) (node : Option NodePtr)
    (p : ConnectorPtr) :
    (GraphManager.addNode s node).getConnections p = s.getConnections p := by
  unfold GraphManager.addNode
  cases node with
  | none => rfl
  | some q =>
    simp only
    split
    · exact State.getConnections_congr rfl p
    · split
      · refine (State.getConnections_congr (t := State.modifyNode _ _ _) rfl p).trans ?_
        rw [State.getConnections_modifyNode_of_connectors _ _ _ (fun n t => by cases t <;> rfl)]
        exact State.getConnections_congr rfl p
      · exact State.getConnections_congr rfl p

/-! ## Registration and removal of connections on ports -/

theorem State.modifyNode_heap_congr {s s' : State} (h : s.heap = s'.heap) (p : NodePtr)
    (f : Node → Node) : (s.modifyNode p f).heap = (s'.modifyNode p f).heap := by
  unfold State.modifyNode
  rw [State.node?_congr h]
  cases s'.node? p with
  | none => exact h
  | some n => simp [h]

theorem State.modifyConnector_heap_congr {s s' : State} (h : s.heap = s'.heap)
    (c : ConnectorPtr) (f : List Connection → List Connection) :
    (s.modifyConnector c f).heap = (s'.modifyConnector c f).heap :=
  State.modifyNode_heap_congr h _ _

theorem NodeConnector.getConnections_addConnection (s : State) (q p : ConnectorPtr)
    (c : Connection) :
    (NodeConnector.addConnection s q c).getConnections p =
      if p = q ∧ (s.connector? q).isSome then s.getConnections q ++ [c]
      else s.getConnections p := by
  unfold NodeConnector.addConnection
  by_cases h : p = q
  · subst h
    unfold State.getConnections
    rw [State.connector?_modifyConnector]
    cases hk : s.connector? p <;> simp
  · rw [State.getConnections_modifyConnector_of_ne _ _ _ _ h]
    simp [h]

theorem NodeConnector.getConnections_removeConnection (s : State) (q p : ConnectorPtr)
    (c : Connection) :
    (NodeConnector.removeConnection s q c).getConnections p =
      if p = q then (s.getConnections q).erase c else s.getConnections p := by
  unfold NodeConnector.removeConnection
  exact State.getConnections_modifyConnector s q p _ (by simp)

theorem NodeConnector.mem_removeConnection_sub {s : State} {q p : ConnectorPtr}
    {c k : Connection} (h : k ∈ (NodeConnector.removeConnection s q c).getConnections p) :
    k ∈ s.getConnections p := by
  rw [NodeConnector.getConnections_removeConnection] at h
  by_cases hp : p = q
  · subst hp
    simp only [if_true] at h
    exact List.mem_of_mem_erase h
  · simpa [hp] using h

theorem NodeConnector.mem_removeConnection_of_ne {s : State} {q p : ConnectorPtr}
    {c k : Connection} (h : k ∈ s.getConnections p) (hne : k ≠ c) :
    k ∈ (NodeConnector.removeConnection s q c).getConnections p := by
  rw [NodeConnector.getConnections_removeConnection]
  by_cases hp : p = q
  · subst hp
    simp only [if_true]
    exact (List.mem_erase_of_ne hne).2 h
  · simpa [hp] using h

/-! ## `NodeConnector::~NodeConnector` and `delete node` -/

theorem NodeConnector.destroyLoop_sub (fuel : Nat) (c : ConnectorPtr) :
    ∀ (s : State) (p : ConnectorPtr) (k : Connection),
      k ∈ (NodeConnector.destroyLoop fuel c s).getConnections p → k ∈ s.getConnections p := by
  induction fuel with
  | zero => intro s p k h; exact h
  | succ fuel ih =>
    intro s p k h
    unfold NodeConnector.destroyLoop at h
    cases hl : (s.getConnections c).getLast? with
    | none => rw [hl] at h; exact h
    | some conn =>
      rw [hl] at h
      simp only at h
      have h2 := ih _ p k h
      have h1 : k ∈ (if conn.source_ = c then
          NodeConnector.removeConnection s conn.destination_ conn
          else NodeConnector.removeConnection s conn.source_ conn).getConnections p := by
        by_cases hp : p = c
        · subst hp
          rw [State.getConnections_modifyConnector _ _ _ _ (by simp)] at h2
          simp only [if_true] at h2
          exact List.mem_of_mem_dropLast h2
        · rw [State.getConnections_modifyConnector_of_ne _ _ _ _ hp] at h2
          exact h2
      split at h1
      · exact NodeConnector.mem_removeConnection_sub h1
      · exact NodeConnector.mem_removeConnection_sub h1

theorem NodeConnector.destroyLoop_keep (fuel : Nat) (c : ConnectorPtr) :
    ∀ (s : State), s.PortIncident → ∀ (p : ConnectorPtr) (k : Connection),
      k ∈ s.getConnections p → ¬ k.Incident c.parent_ →
      k ∈ (NodeConnector.destroyLoop fuel c s).getConnections p := by
  induction fuel with
  | zero => intro s _ p k h _; exact h
  | succ fuel ih =>
    intro s hinc p k h hk
    unfold NodeConnector.destroyLoop
    cases hl : (s.getConnections c).getLast? with
    | none => exact h
    | some conn =>
      simp only
      have hconn : conn ∈ s.getConnections c := List.mem_of_getLast?_eq_some hl
      have hci : conn.Incident c.parent_ := by
        rcases hinc c conn hconn with h1 | h1
        · exact Or.inl (by rw [h1])
        · exact Or.inr (by rw [h1])
      have hne : k ≠ conn := by
        rintro rfl
        exact hk hci
      have hpc : p ≠ c := by
        rintro rfl
        rcases hinc p k h with h1 | h1
        · exact hk (Or.inl (by rw [h1]))
        · exact hk (Or.inr (by rw [h1]))
      apply ih
      · intro p' k' hk'
        apply hinc
        have h2 : k' ∈ (if conn.source_ = c then
            NodeConnector.removeConnection s conn.destination_ conn
            else NodeConnector.removeConnection s conn.source_ conn).getConnections p' := by
          by_cases hp : p' = c
          · subst hp
            rw [State.getConnections_modifyConnector _ _ _ _ (by simp)] at hk'
            simp only [if_true] at hk'
            exact List.mem_of_mem_dropLast hk'
          · rw [State.getConnections_modifyConnector_of_ne _ _ _ _ hp] at hk'
            exact hk'
        split at h2
        · exact NodeConnector.mem_removeConnection_sub h2
        · exact NodeConnector.mem_removeConnection_sub h2
      · rw [State.getConnections_modifyConnector_of_ne _ _ _ _ hpc]
        split
        · exact NodeConnector.mem_removeConnection_of_ne h hne
        · exact NodeConnector.mem_removeConnection_of_ne h hne
      · exact hk

theorem NodeConnector.destroyAll_sub (node : NodePtr) (t : ConnectorType) (l : List Nat) :
    ∀ (s : State) (p : ConnectorPtr) (k : Connection),
      k ∈ (l.foldl (fun st i => NodeConnector.destroy st ⟨node, t, i⟩) s).getConnections p →
      k ∈ s.getConnections p := by
  induction l with
  | nil => intro s p k h; exact h
  | cons i rest ih =>
    intro s p k h
    simp only [List.foldl_cons] at h
    exact NodeConnector.destroyLoop_sub _ _ _ _ _ (ih _ p k h)

theorem NodeConnector.destroyAll_keep (node : NodePtr) (t : ConnectorType) (l : List Nat) :
    ∀ (s : State), s.PortIncident → ∀ (p : ConnectorPtr) (k : Connection),
      k ∈ s.getConnections p → ¬ k.Incident node →
      k ∈ (l.foldl (fun st i => NodeConnector.destroy st ⟨node, t, i⟩) s).getConnections p := by
  induction l with
  | nil => intro s _ p k h _; exact h
  | cons i rest ih =>
    intro s hinc p k h hk
    simp only [List.foldl_cons]
    apply ih
    · intro p' k' hk'
      exact hinc p' k' (NodeConnector.destroyLoop_sub _ _ _ _ _ hk')
    · exact NodeConnector.destroyLoop_keep _ ⟨node, t, i⟩ s hinc p k h hk
    · exact hk

theorem State.node?_set_none (s : State) (node q : NodePtr) :
    ({ s with heap := s.heap.set node none } : State).node? q =
      if q = node then none else s.node? q := by
  unfold State.node?
  simp only [List.getElem?_set]
  by_cases h : q = node
  · subst h
    by_cases h2 : q < s.heap.length <;> simp [h2]
  · have : ¬ node = q := fun h' => h h'.symm
    simp [h, this]

theorem State.getConnections_set_none (s : State) (node : NodePtr) (p : ConnectorPtr) :
    ({ s with heap := s.heap.set node none } : State).getConnections p =
      if p.parent_ = node then [] else s.getConnections p := by
  unfold State.getConnections State.connector?
  rw [State.node?_set_none]
  by_cases h : p.parent_ = node <;> simp [h]

theorem Node.delete_sub (s : State) (node : NodePtr) (p : ConnectorPtr) (k : Connection)
    (h : k ∈ (Node.delete s node).getConnections p) : k ∈ s.getConnections p := by
  unfold Node.delete at h
  cases hn : s.node? node with
  | none => rw [hn] at h; exact h
  | some n =>
    rw [hn] at h
    simp only at h
    rw [State.getConnections_set_none] at h
    by_cases hp : p.parent_ = node
    · simp [hp] at h
    · simp only [hp, if_false] at h
      exact NodeConnector.destroyAll_sub _ _ _ _ _ _
        (NodeConnector.destroyAll_sub _ _ _ _ _ _ h)

theorem Node.delete_keep (s : State) (node : NodePtr) (hinc : s.PortIncident)
    (p : ConnectorPtr) (k : Connection) (h : k ∈ s.getConnections p)
    (hk : ¬ k.Incident node) : k ∈ (Node.delete s node).getConnections p := by
  unfold Node.delete
  cases hn : s.node? node with
  | none => exact h
  | some n =>
    simp only
    rw [State.getConnections_set_none]
    have hp : p.parent_ ≠ node := by
      intro hp
      rcases hinc p k h with h1 | h1
      · exact hk (Or.inl (by rw [h1, hp]))
      · exact hk (Or.inr (by rw [h1, hp]))
    simp only [hp, if_false]
    apply NodeConnector.destroyAll_keep
    · intro p' k' hk'
      exact hinc p' k' (NodeConnector.destroyAll_sub _ _ _ _ _ _ hk')
    · exact NodeConnector.destroyAll_keep _ _ _ _ hinc p k h hk
    · exact hk

theorem Node.delete_connections_ (s : State) (node : NodePtr) :
    (Node.delete s node).connections_ = s.connections_ := by
  unfold Node.delete
  cases hn : s.node? node with
  | none => rfl
  | some n =>
    simp only
    have key : ∀ (t : ConnectorType) (l : List Nat) (st : State),
        (l.foldl (fun st i => NodeConnector.destroy st ⟨node, t, i⟩) st).connections_ =
          st.connections_ := by
      intro t l
      induction l with
      | nil => intro st; rfl
      | cons i rest ih =>
        intro st
        simp only [List.foldl_cons]
        rw [ih]
        unfold NodeConnector.destroy
        generalize (st.getConnections ⟨node, t, i⟩).length = fuel
        induction fuel generalizing st with
        | zero => rfl
        | succ fuel ihf =>
          unfold NodeConnector.destroyLoop
          split
          · rfl
          · rw [ihf]
            simp only [State.modifyConnector, State.modifyNode_connections_]
            split <;> simp [NodeConnector.removeConnection, State.modifyConnector]
    rw [key, key]

/-! ## Operations that touch the heap only -/

theorem State.HeapOnly.refl (s : State) : s.HeapOnly s := rfl

theorem State.HeapOnly.trans {s s' s'' : State} (h1 : s.HeapOnly s') (h2 : s'.HeapOnly s'') :
    s.HeapOnly s'' := by
  unfold State.HeapOnly at *
  rw [h2, h1]

theorem State.HeapOnly.modifyNode (s : State) (p : NodePtr) (f : Node → Node) :
    s.HeapOnly (s.modifyNode p f) := by
  unfold State.HeapOnly State.modifyNode
  split <;> rfl

theorem State.HeapOnly.modifyConnector (s : State) (c : ConnectorPtr)
    (f : List Connection → List Connection) : s.HeapOnly (s.modifyConnector c f) :=
  State.HeapOnly.modifyNode s _ _

theorem State.HeapOnly.destroyLoop (fuel : Nat) (c : ConnectorPtr) :
    ∀ s : State, s.HeapOnly (NodeConnector.destroyLoop fuel c s) := by
  induction fuel with
  | zero => intro s; rfl
  | succ fuel ih =>
    intro s
    unfold NodeConnector.destroyLoop
    split
    · rfl
    · simp only
      refine State.HeapOnly.trans ?_ (ih _)
      refine State.HeapOnly.trans ?_ (State.HeapOnly.modifyConnector _ _ _)
      split
      · exact State.HeapOnly.modifyConnector _ _ _
      · exact State.HeapOnly.modifyConnector _ _ _

theorem State.HeapOnly.destroyAll (node : NodePtr) (t : ConnectorType) (l : List Nat) :
    ∀ s : State,
      s.HeapOnly (l.foldl (fun st i => NodeConnector.destroy st ⟨node, t, i⟩) s) := by
  induction l with
  | nil => intro s; rfl
  | cons i rest ih =>
    intro s
    simp only [List.foldl_cons]
    exact State.HeapOnly.trans (State.HeapOnly.destroyLoop _ _ _) (ih _)

theorem State.HeapOnly.setHeap {s s' : State} (h : s.HeapOnly s')
    (hp : List (Option Node)) : s.HeapOnly { s' with heap := hp } := by
  unfold State.HeapOnly at *
  cases s
  cases s'
  simp_all

theorem State.HeapOnly.delete (s : State) (node : NodePtr) :
    s.HeapOnly (Node.delete s node) := by
  unfold Node.delete
  cases hn : s.node? node with
  | none => rfl
  | some n =>
    simp only
    have h1 := State.HeapOnly.destroyAll node .Input (List.range n.inputConnectors_.length) s
    have h2 := State.HeapOnly.destroyAll node .Output (List.range n.outputConnectors_.length)
      ((List.range n.inputConnectors_.length).foldl
        (fun st i => NodeConnector.destroy st ⟨node, .Input, i⟩) s)
    exact (h1.trans h2).setHeap _

theorem State.HeapOnly.connections_ {s s' : State} (h : s.HeapOnly s') :
    s'.connections_ = s.connections_ := by
  rw [h]

theorem State.HeapOnly.nextConn {s s' : State} (h : s.HeapOnly s') :
    s'.nextConn = s.nextConn := by
  rw [h]

theorem State.HeapOnly.nodes_ {s s' : State} (h : s.HeapOnly s') :
    s'.nodes_ = s.nodes_ := by
  rw [h]

/-! ## The first loop of `removeNode` -/

theorem State.HeapOnly.selectedNode_ {s s' : State} (h : s.HeapOnly s') :
    s'.selectedNode_ = s.selectedNode_ := by
  rw [h]

theorem State.HeapOnly.currentFilePath_ {s s' : State} (h : s.HeapOnly s') :
    s'.currentFilePath_ = s.currentFilePath_ := by
  rw [h]

theorem State.HeapOnly.dirty_ {s s' : State} (h : s.HeapOnly s') :
    s'.dirty_ = s.dirty_ := by
  rw [h]

theorem State.HeapOnly.nextId_ {s s' : State} (h : s.HeapOnly s') :
    s'.nextId_ = s.nextId_ := by
  rw [h]

theorem State.HeapOnly.removeConnection (s : State) (q : ConnectorPtr) (c : Connection) :
    s.HeapOnly (NodeConnector.removeConnection s q c) :=
  State.HeapOnly.modifyConnector s _ _

theorem State.HeapOnly.addConnection (s : State) (q : ConnectorPtr) (c : Connection) :
    s.HeapOnly (NodeConnector.addConnection s q c) :=
  State.HeapOnly.modifyConnector s _ _

theorem State.HeapOnly.markDirty (s : State) (p : NodePtr) :
    s.HeapOnly (Node.markDirty s p) :=
  State.HeapOnly.modifyNode s _ _

theorem State.HeapOnly.rebuild {s s3 : State} (h : s.HeapOnly s3)
    (hp : List (Option Node)) (x y : List Connection) :
    ({ ({ s3 with connections_ := x } : State) with heap := hp, connections_ := y } : State) =
      { s with heap := hp, connections_ := y } := by
  unfold State.HeapOnly at h
  cases s
  cases s3
  simp_all

theorem GraphManager.removeNodeLoop_fields (node : NodePtr) (rest : List Connection) :
    ∀ (kept : List Connection) (s : State),
      ∃ h, GraphManager.removeNodeLoop node kept rest s =
        { s with heap := h,
                 connections_ := kept ++ rest.filter (fun c => ¬ c.Incident node) } := by
  induction rest with
  | nil => intro kept s; exact ⟨s.heap, by simp [GraphManager.removeNodeLoop]⟩
  | cons c rest ih =>
    intro kept s
    unfold GraphManager.removeNodeLoop
    by_cases hc : c.source_.parent_ = node ∨ c.destination_.parent_ = node
    · have hci : c.Incident node := hc
      have h3 : s.HeapOnly
          (if c.destination_.parent_ ≠ node then Node.markDirty s c.destination_.parent_
            else s) := by
        split
        · exact State.HeapOnly.markDirty _ _
        · rfl
      have h := (h3.trans (State.HeapOnly.removeConnection _ c.source_ c)).trans
        (State.HeapOnly.removeConnection _ c.destination_ c)
      rw [if_pos hc]
      obtain ⟨hp, hh⟩ := ih kept
        { NodeConnector.removeConnection
            (NodeConnector.removeConnection
              (if c.destination_.parent_ ≠ node then Node.markDirty s c.destination_.parent_
                else s) c.source_ c) c.destination_ c with connections_ := kept ++ rest }
      refine ⟨hp, hh.trans ?_⟩
      have hf : (c :: rest).filter (fun c => decide (¬ c.Incident node)) =
          rest.filter (fun c => decide (¬ c.Incident node)) := by
        simp [List.filter_cons, hci]
      rw [hf]
      exact h.rebuild hp _ _
    · have hci : ¬ c.Incident node := hc
      rw [if_neg hc]
      obtain ⟨hp, hh⟩ := ih (kept ++ [c]) s
      refine ⟨hp, hh.trans ?_⟩
      have hf : (c :: rest).filter (fun c => decide (¬ c.Incident node)) =
          c :: rest.filter (fun c => decide (¬ c.Incident node)) := by
        simp [List.filter_cons, hci]
      rw [hf]
      simp

theorem GraphManager.removeNodeLoop_sub (node : NodePtr) (rest : List Connection) :
    ∀ (kept : List Connection) (s : State) (p : ConnectorPtr) (k : Connection),
      k ∈ (GraphManager.removeNodeLoop node kept rest s).getConnections p →
      k ∈ s.getConnections p := by
  induction rest with
  | nil => intro kept s p k h; exact h
  | cons c rest ih =>
    intro kept s p k h
    unfold GraphManager.removeNodeLoop at h
    split at h
    · have h1 := ih _ _ p k h
      have h2 : k ∈ (NodeConnector.removeConnection
          (NodeConnector.removeConnection
            (if c.destination_.parent_ ≠ node then Node.markDirty s c.destination_.parent_
              else s) c.source_ c) c.destination_ c).getConnections p := h1
      have h3 := NodeConnector.mem_removeConnection_sub
        (NodeConnector.mem_removeConnection_sub h2)
      split at h3
      · rwa [Node.getConnections_markDirty] at h3
      · exact h3
    · exact ih _ _ p k h

theorem GraphManager.removeNodeLoop_keep (node : NodePtr) (rest : List Connection) :
    ∀ (kept : List Connection) (s : State) (p : ConnectorPtr) (k : Connection),
      k ∈ s.getConnections p → ¬ k.Incident node →
      k ∈ (GraphManager.removeNodeLoop node kept rest s).getConnections p := by
  induction rest with
  | nil => intro kept s p k h _; exact h
  | cons c rest ih =>
    intro kept s p k h hk
    unfold GraphManager.removeNodeLoop
    split
    · next hc =>
      apply ih _ _ p k _ hk
      have hne : k ≠ c := by
        rintro rfl
        exact hk hc
      have h0 : k ∈ (if c.destination_.parent_ ≠ node then
          Node.markDirty s c.destination_.parent_ else s).getConnections p := by
        split
        · rwa [Node.getConnections_markDirty]
        · exact h
      exact NodeConnector.mem_removeConnection_of_ne
        (NodeConnector.mem_removeConnection_of_ne h0 hne) hne
    · exact ih _ _ p k h hk

/-! ## The invariant of the reachable states -/

theorem State.Inv.init : State.init.Inv := by
  refine ⟨?_, ?_, ⟨?_, ?_⟩, ?_⟩
  · intro c hc
    simp [State.init] at hc
  · intro p k hk
    simp [State.init, State.getConnections, State.connector?, State.node?] at hk
  · simp [State.init]
  · intro c hc
    simp [State.init] at hc
  · intro u hu
    obtain ⟨b, _, hb⟩ := Relation.TransGen.tail'_iff.1 hu
    obtain ⟨c, hc, _⟩ := hb
    simp [State.init] at hc

/-- An operation that keeps the edge list and every port list keeps the invariant. -/
theorem State.Inv.of_same {s s' : State} (h : s.Inv)
    (hconn : s'.connections_ = s.connections_) (hnext : s'.nextConn = s.nextConn)
    (hports : ∀ p, s'.getConnections p = s.getConnections p) : s'.Inv := by
  obtain ⟨h1, h2, ⟨h3, h4⟩, h5⟩ := h
  refine ⟨?_, ?_, ⟨?_, ?_⟩, ?_⟩
  · intro c hc
    rw [hconn] at hc
    rw [hports]
    exact h1 c hc
  · intro p k hk
    rw [hports] at hk
    exact h2 p k hk
  · rw [hconn]; exact h3
  · intro c hc
    rw [hconn] at hc
    rw [hnext]
    exact h4 c hc
  · exact h5.of_subset (fun c hc => by rw [hconn] at hc; exact hc)

/-- An operation that only removes edges and registrations keeps the invariant,
provided the remaining edges stay registered on their source connectors. -/
theorem State.Inv.shrink {s s' : State} (h : s.Inv)
    (hsub : ∀ c ∈ s'.connections_, c ∈ s.connections_) (hnd : s'.connections_.Nodup)
    (hnext : s'.nextConn = s.nextConn)
    (hports : ∀ p k, k ∈ s'.getConnections p → k ∈ s.getConnections p)
    (hreg : ∀ c ∈ s'.connections_, c ∈ s'.getConnections c.source_) : s'.Inv := by
  obtain ⟨h1, h2, ⟨_, h4⟩, h5⟩ := h
  refine ⟨?_, ?_, ⟨hnd, ?_⟩, ?_⟩
  · intro c hc
    exact ⟨(h1 c (hsub c hc)).1, hreg c hc⟩
  · intro p k hk
    exact h2 p k (hports p k hk)
  · intro c hc
    rw [hnext]
    exact h4 c (hsub c hc)
  · exact h5.of_subset hsub

theorem State.Inv.newNode {s : State} (h : s.Inv) (kind : NodeKind) :
    (s.newNode kind).2.Inv :=
  h.of_same rfl rfl (State.getConnections_newNode s kind)

theorem State.Inv.addNode {s : State} (h : s.Inv) (node : Option NodePtr) :
    (GraphManager.addNode s node).Inv :=
  h.of_same (GraphManager.addNode_connections_ s node) (GraphManager.addNode_nextConn s node)
    (GraphManager.getConnections_addNode s node)

theorem GraphManager.getConnections_connect (s : State) (src dst : ConnectorPtr)
    (h : GraphManager.canConnect s (some src) (some dst) = true) (p : ConnectorPtr) :
    (GraphManager.connect s (some src) (some dst)).2.getConnections p =
      (NodeConnector.addConnection (NodeConnector.addConnection s src ⟨s.nextConn, src, dst⟩)
        dst ⟨s.nextConn, src, dst⟩).getConnections p := by
  rw [GraphManager.connect_of_canConnect s src dst h]
  refine (State.getConnections_congr (t := Node.markDirty
          (NodeConnector.addConnection
            (NodeConnector.addConnection
              { s with nextConn := s.nextConn + 1,
                       connections_ := s.connections_ ++ [⟨s.nextConn, src, dst⟩] }
              src ⟨s.nextConn, src, dst⟩)
            dst ⟨s.nextConn, src, dst⟩)
          dst.parent_) rfl p).trans ?_
  rw [Node.getConnections_markDirty]
  apply State.getConnections_congr
  apply State.modifyConnector_heap_congr
  apply State.modifyConnector_heap_congr
  rfl

theorem GraphManager.connect_connections_ (s : State) (src dst : ConnectorPtr)
    (h : GraphManager.canConnect s (some src) (some dst) = true) :
    (GraphManager.connect s (some src) (some dst)).2.connections_ =
      s.connections_ ++ [⟨s.nextConn, src, dst⟩] := by
  rw [GraphManager.connect_of_canConnect s src dst h]
  simp [Node.markDirty, NodeConnector.addConnection, State.modifyConnector]

theorem GraphManager.connect_nextConn (s : State) (src dst : ConnectorPtr)
    (h : GraphManager.canConnect s (some src) (some dst) = true) :
    (GraphManager.connect s (some src) (some dst)).2.nextConn = s.nextConn + 1 := by
  rw [GraphManager.connect_of_canConnect s src dst h]
  simp [Node.markDirty, NodeConnector.addConnection, State.modifyConnector]

theorem State.Inv.connect {s : State} (h : s.Inv) (src dst : ConnectorPtr)
    (hsrc : (s.connector? src).isSome) :
    (GraphManager.connect s (some src) (some dst)).2.Inv := by
  cases hcc : GraphManager.canConnect s (some src) (some dst) with
  | false =>
    rw [GraphManager.connect_of_not_canConnect s _ _ hcc]
    exact h
  | true =>
    obtain ⟨h1, h2, ⟨h3, h4⟩, h5⟩ := h
    obtain ⟨ht1, _, _, hne, _⟩ := (canConnect_eq_true_iff s src dst).1 hcc
    have hsd : src ≠ dst := fun he => hne (by rw [he])
    have hports : ∀ p, (GraphManager.connect s (some src) (some dst)).2.getConnections p =
        if p = dst ∧ (s.connector? dst).isSome then s.getConnections dst ++ [⟨s.nextConn, src, dst⟩]
        else if p = src then s.getConnections src ++ [⟨s.nextConn, src, dst⟩]
        else s.getConnections p := by
      intro p
      rw [GraphManager.getConnections_connect s src dst hcc,
        NodeConnector.getConnections_addConnection]
      unfold NodeConnector.addConnection
      rw [State.connector?_isSome_modifyConnector]
      by_cases hpd : p = dst ∧ (s.connector? dst).isSome
      · rw [if_pos hpd, if_pos hpd]
        rw [State.getConnections_modifyConnector_of_ne _ _ _ _ (Ne.symm hsd)]
      · rw [if_neg hpd, if_neg hpd]
        have := NodeConnector.getConnections_addConnection s src p ⟨s.nextConn, src, dst⟩
        unfold NodeConnector.addConnection at this
        rw [this]
        by_cases hps : p = src
        · simp [hps, hsrc]
        · simp [hps]
    have hgrow : ∀ p k, k ∈ s.getConnections p →
        k ∈ (GraphManager.connect s (some src) (some dst)).2.getConnections p := by
      intro p k hk
      rw [hports]
      split
      · next hp => rw [hp.1] at hk; exact List.mem_append_left _ hk
      · split
        · next hp => rw [hp] at hk; exact List.mem_append_left _ hk
        · exact hk
    have hnew : ∀ p k, k ∈ (GraphManager.connect s (some src) (some dst)).2.getConnections p →
        k ∈ s.getConnections p ∨ (k = ⟨s.nextConn, src, dst⟩ ∧ (p = src ∨ p = dst)) := by
      intro p k hk
      rw [hports] at hk
      split at hk
      · next hp =>
        rcases List.mem_append.1 hk with h | h
        · rw [hp.1]; exact Or.inl h
        · exact Or.inr ⟨List.mem_singleton.1 h, Or.inr hp.1⟩
      · split at hk
        · next hp =>
          rcases List.mem_append.1 hk with h | h
          · rw [hp]; exact Or.inl h
          · exact Or.inr ⟨List.mem_singleton.1 h, Or.inl hp⟩
        · exact Or.inl hk
    refine ⟨?_, ?_, ⟨?_, ?_⟩, ?_⟩
    · intro c hc
      rw [GraphManager.connect_connections_ s src dst hcc] at hc
      rcases List.mem_append.1 hc with hc | hc
      · exact ⟨(h1 c hc).1, hgrow _ _ (h1 c hc).2⟩
      · rw [List.mem_singleton.1 hc]
        refine ⟨ht1, ?_⟩
        rw [hports]
        simp [hsd, hsrc]
    · intro p k hk
      rcases hnew p k hk with h | ⟨rfl, h | h⟩
      · exact h2 p k h
      · exact Or.inl h.symm
      · exact Or.inr h.symm
    · rw [GraphManager.connect_connections_ s src dst hcc]
      refine List.Nodup.append h3 (List.nodup_singleton _) ?_
      intro c hc1 hc2
      rw [List.mem_singleton.1 hc2] at hc1
      exact absurd (h4 _ hc1) (Nat.lt_irrefl _)
    · intro c hc
      rw [GraphManager.connect_connections_ s src dst hcc] at hc
      rw [GraphManager.connect_nextConn s src dst hcc]
      rcases List.mem_append.1 hc with hc | hc
      · exact Nat.lt_succ_of_lt (h4 c hc)
      · rw [List.mem_singleton.1 hc]
        exact Nat.lt_succ_self _
    · have hnr := State.EdgesRegistered.not_reach_of_canConnect h1 hcc
      refine acyclic_add_edge (r := s.NodeEdge) (a := src.parent_) (b := dst.parent_)
        ?_ h5 hnr
      rintro x y ⟨c, hc, rfl, rfl⟩
      rw [GraphManager.connect_connections_ s src dst hcc] at hc
      rcases List.mem_append.1 hc with hc | hc
      · exact Or.inl ⟨c, hc, rfl, rfl⟩
      · rw [List.mem_singleton.1 hc]
        exact Or.inr ⟨rfl, rfl⟩

theorem GraphManager.disconnect_heapOnly (s : State) (c : Connection) :
    s.HeapOnly (Node.markDirty
      (NodeConnector.removeConnection (NodeConnector.removeConnection s c.source_ c)
        c.destination_ c) c.destination_.parent_) :=
  ((State.HeapOnly.removeConnection s _ _).trans
    (State.HeapOnly.removeConnection _ _ _)).trans (State.HeapOnly.markDirty _ _)

/-- The state after `disconnect` of an edge of the edge list. -/
theorem GraphManager.disconnect_of_mem (s : State) (c : Connection)
    (hc : c ∈ s.connections_) :
    GraphManager.disconnect s (some c) =
      { Node.markDirty
          (NodeConnector.removeConnection (NodeConnector.removeConnection s c.source_ c)
            c.destination_ c) c.destination_.parent_ with
        connections_ := s.connections_.erase c, dirty_ := true } := by
  unfold GraphManager.disconnect
  simp only [hc, if_true]
  rw [(GraphManager.disconnect_heapOnly s c).connections_]

theorem GraphManager.getConnections_disconnect (s : State) (c : Connection)
    (hc : c ∈ s.connections_) (p : ConnectorPtr) :
    (GraphManager.disconnect s (some c)).getConnections p =
      (NodeConnector.removeConnection (NodeConnector.removeConnection s c.source_ c)
        c.destination_ c).getConnections p := by
  rw [GraphManager.disconnect_of_mem s c hc]
  refine (State.getConnections_congr (t := Node.markDirty
      (NodeConnector.removeConnection (NodeConnector.removeConnection s c.source_ c)
        c.destination_ c) c.destination_.parent_) rfl p).trans ?_
  rw [Node.getConnections_markDirty]

theorem State.Inv.disconnect {s : State} (h : s.Inv) (connection : Option Connection) :
    (GraphManager.disconnect s connection).Inv := by
  cases connection with
  | none => exact h
  | some c =>
    by_cases hc : c ∈ s.connections_
    · have hconn : (GraphManager.disconnect s (some c)).connections_ = s.connections_.erase c := by
        rw [GraphManager.disconnect_of_mem s c hc]
      have hnext : (GraphManager.disconnect s (some c)).nextConn = s.nextConn := by
        rw [GraphManager.disconnect_of_mem s c hc]
        exact (GraphManager.disconnect_heapOnly s c).nextConn
      refine h.shrink ?_ ?_ hnext ?_ ?_
      · intro c' hc'
        rw [hconn] at hc'
        exact List.mem_of_mem_erase hc'
      · rw [hconn]
        exact h.2.2.1.1.erase c
      · intro p k hk
        rw [GraphManager.getConnections_disconnect s c hc] at hk
        exact NodeConnector.mem_removeConnection_sub (NodeConnector.mem_removeConnection_sub hk)
      · intro c' hc'
        rw [hconn] at hc'
        have hne : c' ≠ c := fun he => by
          rw [he] at hc'
          exact (List.Nodup.not_mem_erase h.2.2.1.1) hc'
        rw [GraphManager.getConnections_disconnect s c hc]
        exact NodeConnector.mem_removeConnection_of_ne
          (NodeConnector.mem_removeConnection_of_ne (h.1 c' (List.mem_of_mem_erase hc')).2 hne)
          hne
    · unfold GraphManager.disconnect
      simp only [hc, if_false]
      exact h

/-- The state after `removeNode`: the fields other than the heap. -/
theorem GraphManager.removeNode_connections_ (s : State) (node : NodePtr) :
    (GraphManager.removeNode s (some node)).connections_ =
      s.connections_.filter (fun c => ¬ c.Incident node) := by
  unfold GraphManager.removeNode
  simp only
  obtain ⟨hp, hh⟩ := GraphManager.removeNodeLoop_fields node s.connections_ [] s
  rw [(State.HeapOnly.delete _ node).connections_]
  unfold GraphManager.selectNode
  rw [hh]
  split
  · split <;> simp
  · simp

theorem GraphManager.removeNode_nextConn (s : State) (node : NodePtr) :
    (GraphManager.removeNode s (some node)).nextConn = s.nextConn := by
  unfold GraphManager.removeNode
  simp only
  obtain ⟨hp, hh⟩ := GraphManager.removeNodeLoop_fields node s.connections_ [] s
  rw [(State.HeapOnly.delete _ node).nextConn]
  unfold GraphManager.selectNode
  rw [hh]
  split
  · split <;> simp
  · simp

theorem GraphManager.getConnections_removeNode (s : State) (node : NodePtr)
    (p : ConnectorPtr) :
    (GraphManager.removeNode s (some node)).getConnections p =
      (Node.delete (GraphManager.removeNodeLoop node [] s.connections_ s) node).getConnections
        p := by
  unfold GraphManager.removeNode
  simp only
  refine (State.getConnections_congr (t := Node.delete _ node) rfl p).trans ?_
  have hheap : ∀ (t t' : State), t.heap = t'.heap →
      (Node.delete t node).getConnections p = (Node.delete t' node).getConnections p := by
    intro t t' ht
    have key : ∀ (ty : ConnectorType) (l : List Nat) (a b : State), a.heap = b.heap →
        (l.foldl (fun st i => NodeConnector.destroy st ⟨node, ty, i⟩) a).heap =
          (l.foldl (fun st i => NodeConnector.destroy st ⟨node, ty, i⟩) b).heap := by
      intro ty l
      induction l with
      | nil => intro a b hab; exact hab
      | cons i rest ih =>
        intro a b hab
        simp only [List.foldl_cons]
        apply ih
        unfold NodeConnector.destroy
        rw [State.getConnections_congr hab]
        generalize (b.getConnections ⟨node, ty, i⟩).length = fuel
        induction fuel generalizing a b with
        | zero => exact hab
        | succ fuel ihf =>
          unfold NodeConnector.destroyLoop
          rw [State.getConnections_congr hab]
          cases (b.getConnections ⟨node, ty, i⟩).getLast? with
          | none => exact hab
          | some conn =>
            simp only
            apply ihf
            apply State.modifyConnector_heap_congr
            split
            · exact State.modifyConnector_heap_congr hab _ _
            · exact State.modifyConnector_heap_congr hab _ _
    apply State.getConnections_congr
    unfold Node.delete
    rw [State.node?_congr ht]
    cases t'.node? node with
    | none => exact ht
    | some n =>
      simp only
      rw [key _ _ _ _ (key _ _ t t' ht)]
  apply hheap
  unfold GraphManager.selectNode
  split
  · split <;> rfl
  · rfl

theorem State.Inv.removeNode {s : State} (h : s.Inv) (node : Option NodePtr) :
    (GraphManager.removeNode s node).Inv := by
  cases node with
  | none => exact h
  | some node =>
    have hconn := GraphManager.removeNode_connections_ s node
    have hloopInc : (GraphManager.removeNodeLoop node [] s.connections_ s).PortIncident :=
      fun p k hk => h.2.1 p k (GraphManager.removeNodeLoop_sub node _ _ _ p k hk)
    refine h.shrink ?_ ?_ (GraphManager.removeNode_nextConn s node) ?_ ?_
    · intro c hc
      rw [hconn] at hc
      exact (List.mem_filter.1 hc).1
    · rw [hconn]
      exact h.2.2.1.1.filter _
    · intro p k hk
      rw [GraphManager.getConnections_removeNode] at hk
      exact GraphManager.removeNodeLoop_sub node _ _ _ p k (Node.delete_sub _ _ _ _ hk)
    · intro c hc
      rw [hconn] at hc
      obtain ⟨hc1, hc2⟩ := List.mem_filter.1 hc
      have hni : ¬ c.Incident node := by simpa using hc2
      rw [GraphManager.getConnections_removeNode]
      exact Node.delete_keep _ node hloopInc _ c
        (GraphManager.removeNodeLoop_keep node _ _ _ _ c (h.1 c hc1).2 hni) hni

theorem GraphManager.clear_fold_heapOnly (l : List NodePtr) :
    ∀ s : State, s.HeapOnly (l.foldl (fun st node => Node.delete st node) s) := by
  induction l with
  | nil => intro s; rfl
  | cons a rest ih =>
    intro s
    simp only [List.foldl_cons]
    exact (State.HeapOnly.delete s a).trans (ih _)

theorem GraphManager.clear_fold_sub (l : List NodePtr) :
    ∀ (s : State) (p : ConnectorPtr) (k : Connection),
      k ∈ (l.foldl (fun st node => Node.delete st node) s).getConnections p →
      k ∈ s.getConnections p := by
  induction l with
  | nil => intro s p k h; exact h
  | cons a rest ih =>
    intro s p k h
    simp only [List.foldl_cons] at h
    exact Node.delete_sub _ _ _ _ (ih _ p k h)

theorem GraphManager.clear_connections_ (s : State) :
    (GraphManager.clearBody s).connections_ = [] := by
  unfold GraphManager.clearBody
  simp only
  rw [(GraphManager.clear_fold_heapOnly _ _).connections_]

theorem GraphManager.clear_nextConn (s : State) :
    (GraphManager.clearBody s).nextConn = s.nextConn := by
  unfold GraphManager.clearBody
  simp only
  rw [(GraphManager.clear_fold_heapOnly _ _).nextConn]
  unfold GraphManager.selectNode
  split <;> rfl

theorem State.Inv.clear {s : State} (h : s.Inv) : (GraphManager.clearBody s).Inv := by
  refine h.shrink ?_ ?_ (GraphManager.clear_nextConn s) ?_ ?_
  · intro c hc
    rw [GraphManager.clear_connections_] at hc
    exact absurd hc (List.not_mem_nil _)
  · rw [GraphManager.clear_connections_]
    exact List.nodup_nil
  · intro p k hk
    unfold GraphManager.clearBody at hk
    simp only at hk
    have hk' := GraphManager.clear_fold_sub _ _ p k
      ((State.getConnections_congr (t := List.foldl _ _ _) rfl p) ▸ hk)
    have : ∀ q, ({ GraphManager.selectNode s none with connections_ := [] } : State).getConnections q
        = s.getConnections q := by
      intro q
      apply State.getConnections_congr
      unfold GraphManager.selectNode
      split <;> rfl
    rw [this] at hk'
    exact hk'
  · intro c hc
    rw [GraphManager.clear_connections_] at hc
    exact absurd hc (List.not_mem_nil _)

/-- The result of `clear()`: the state that its statements leave, when the call
is defined. -/
theorem GraphManager.clear_eq_some (s : State) (h : GraphManager.clearDefined s) :
    GraphManager.clear s = some (GraphManager.clearBody s) := by
  unfold GraphManager.clear
  rw [if_pos h]

theorem GraphManager.clear_eq_none (s : State) (h : ¬ GraphManager.clearDefined s) :
    GraphManager.clear s = none := by
  unfold GraphManager.clear
  rw [if_neg h]

/-- The step `clear` of a call sequence. -/
theorem GraphOp.run_clear (s : State) :
    GraphOp.run s .clear = GraphManager.clearBody s ∨ GraphOp.run s .clear = s := by
  show (GraphManager.clear s).getD s = _ ∨ (GraphManager.clear s).getD s = _
  by_cases h : GraphManager.clearDefined s
  · rw [GraphManager.clear_eq_some s h]
    exact Or.inl rfl
  · rw [GraphManager.clear_eq_none s h]
    exact Or.inr rfl

/-- Every reachable state satisfies the invariant. -/
theorem State.Reachable.inv {s : State} (h : s.Reachable) : s.Inv := by
  induction h with
  | init => exact State.Inv.init
  | step s op _ hv ih =>
    cases op with
    | newNode kind => exact ih.newNode kind
    | addNode node => exact ih.addNode node
    | removeNode node => exact ih.removeNode node
    | connect src dst =>
      cases src with
      | none =>
        show (GraphManager.connect s none dst).2.Inv
        rw [GraphManager.connect_of_not_canConnect s none dst (by simp [GraphManager.canConnect])]
        exact ih
      | some a =>
        cases dst with
        | none =>
          show (GraphManager.connect s (some a) none).2.Inv
          rw [GraphManager.connect_of_not_canConnect s _ none
            (by simp [GraphManager.canConnect])]
          exact ih
        | some b => exact ih.connect a b (hv.1 a rfl)
    | disconnect c => exact ih.disconnect c
    | clear =>
      rcases GraphOp.run_clear s with h | h
      · rw [h]; exact ih.clear
      · rw [h]; exact ih

theorem relaxNeighbors_spec (l : List NodePtr) :
    ∀ (inDeg : NodePtr → Int) (q : List NodePtr),
      (∀ v, (l.count v : Int) ≤ inDeg v) →
      (∀ v, (relaxNeighbors l inDeg q).1 v = inDeg v - l.count v) ∧
      ∃ new, (relaxNeighbors l inDeg q).2 = q ++ new ∧ new.Nodup ∧
        ∀ v, v ∈ new ↔ (v ∈ l ∧ (relaxNeighbors l inDeg q).1 v = 0) := by
  induction l with
  | nil =>
    intro inDeg q _
    refine ⟨fun v => by simp [relaxNeighbors], [], by simp [relaxNeighbors], List.nodup_nil, ?_⟩
    intro v
    simp
  | cons nb rest ih =>
    intro inDeg q hle
    have hd : ∀ v, (rest.count v : Int) ≤ Function.update inDeg nb (inDeg nb - 1) v := by
      intro v
      have := hle v
      by_cases hv : v = nb
      · subst hv
        simp only [List.count_cons_self, Function.update_same] at this ⊢
        push_cast at this
        omega
      · rw [Function.update_noteq hv]
        rw [List.count_cons_of_ne hv] at this
        exact this
    have hval : ∀ (r : (NodePtr → Int) × List NodePtr),
        (∀ v, r.1 v = Function.update inDeg nb (inDeg nb - 1) v - rest.count v) →
        ∀ v, r.1 v = inDeg v - (nb :: rest).count v := by
      intro r hr v
      rw [hr v]
      by_cases hv : v = nb
      · subst hv
        simp only [List.count_cons_self, Function.update_same]
        push_cast
        omega
      · rw [Function.update_noteq hv, List.count_cons_of_ne hv]
    unfold relaxNeighbors
    simp only
    by_cases h0 : Function.update inDeg nb (inDeg nb - 1) nb = 0
    · rw [if_pos h0]
      obtain ⟨h1, new, h2, h3, h4⟩ := ih (Function.update inDeg nb (inDeg nb - 1))
        (q ++ [nb]) hd
      refine ⟨hval _ h1, nb :: new, by rw [h2]; simp, ?_, ?_⟩
      · refine List.nodup_cons.2 ⟨?_, h3⟩
        intro hmem
        have hrest : nb ∈ rest := ((h4 nb).1 hmem).1
        have hpos : 0 < rest.count nb := List.count_pos_iff.2 hrest
        have := hd nb
        rw [h0] at this
        omega
      · intro v
        constructor
        · intro hv
          rcases List.mem_cons.1 hv with rfl | hv
          · refine ⟨List.mem_cons_self _ _, ?_⟩
            rw [h1 v, h0]
            have := hd v
            rw [h0] at this
            omega
          · exact ⟨List.mem_cons_of_mem _ ((h4 v).1 hv).1, ((h4 v).1 hv).2⟩
        · rintro ⟨hv, hz⟩
          rcases List.mem_cons.1 hv with rfl | hv
          · exact List.mem_cons_self _ _
          · exact List.mem_cons_of_mem _ ((h4 v).2 ⟨hv, hz⟩)
    · rw [if_neg h0]
      obtain ⟨h1, new, h2, h3, h4⟩ := ih (Function.update inDeg nb (inDeg nb - 1)) q hd
      refine ⟨hval _ h1, new, h2, h3, ?_⟩
      intro v
      constructor
      · intro hv
        exact ⟨List.mem_cons_of_mem _ ((h4 v).1 hv).1, ((h4 v).1 hv).2⟩
      · rintro ⟨hv, hz⟩
        rcases List.mem_cons.1 hv with rfl | hv
        · apply (h4 v).2
          refine ⟨?_, hz⟩
          rw [h1 v] at hz
          have hpos : 0 < rest.count v := by
            by_contra hn
            have : rest.count v = 0 := by omega
            rw [this] at hz
            apply h0
            simpa using hz
          exact List.count_pos_iff.1 hpos
        · exact (h4 v).2 ⟨hv, hz⟩

/-! ## Kahn's algorithm: termination -/

theorem countP_update_le (D : List NodePtr) (inDeg : NodePtr → Int) (nb : NodePtr) :
    D.countP (fun v => decide (0 < Function.update inDeg nb (inDeg nb - 1) v)) ≤
      D.countP (fun v => decide (0 < inDeg v)) := by
  apply List.countP_mono_left
  intro v _ hv
  simp only [decide_eq_true_eq] at hv ⊢
  by_cases h : v = nb
  · subst h
    rw [Function.update_same] at hv
    omega
  · rwa [Function.update_noteq h] at hv

theorem countP_update_lt (D : List NodePtr) (inDeg : NodePtr → Int) (nb : NodePtr)
    (hmem : nb ∈ D) (h0 : inDeg nb - 1 = 0) :
    D.countP (fun v => decide (0 < Function.update inDeg nb (inDeg nb - 1) v)) + 1 ≤
      D.countP (fun v => decide (0 < inDeg v)) := by
  induction D with
  | nil => exact absurd hmem (List.not_mem_nil _)
  | cons a rest ih =>
    by_cases ha : a = nb
    · subst ha
      have hle := countP_update_le rest inDeg a
      rw [List.countP_cons, List.countP_cons]
      have h1 : decide (0 < Function.update inDeg a (inDeg a - 1) a) = false := by
        rw [Function.update_same]
        simp
        omega
      have h2 : decide (0 < inDeg a) = true := by
        simp
        omega
      rw [h1, h2]
      simp
      omega
    · have hr : nb ∈ rest := by
        rcases List.mem_cons.1 hmem with h | h
        · exact absurd h.symm ha
        · exact h
      have := ih hr
      rw [List.countP_cons, List.countP_cons, Function.update_noteq ha]
      omega

theorem relaxNeighbors_potential (D : List NodePtr) (l : List NodePtr) :
    ∀ (inDeg : NodePtr → Int) (q : List NodePtr), (∀ v ∈ l, v ∈ D) →
      (relaxNeighbors l inDeg q).2.length +
          D.countP (fun v => decide (0 < (relaxNeighbors l inDeg q).1 v)) ≤
        q.length + D.countP (fun v => decide (0 < inDeg v)) := by
  induction l with
  | nil => intro inDeg q _; simp [relaxNeighbors]
  | cons nb rest ih =>
    intro inDeg q hsub
    unfold relaxNeighbors
    simp only
    have hrest : ∀ v ∈ rest, v ∈ D := fun v hv => hsub v (List.mem_cons_of_mem _ hv)
    by_cases h0 : Function.update inDeg nb (inDeg nb - 1) nb = 0
    · rw [if_pos h0]
      have h1 := ih (Function.update inDeg nb (inDeg nb - 1)) (q ++ [nb]) hrest
      have h2 := countP_update_lt D inDeg nb (hsub nb (List.mem_cons_self _ _))
        (by rwa [Function.update_same] at h0)
      simp only [List.length_append, List.length_singleton] at h1
      omega
    · rw [if_neg h0]
      have h1 := ih (Function.update inDeg nb (inDeg nb - 1)) q hrest
      have h2 := countP_update_le D inDeg nb
      omega

/-- Enough fuel: the loop returns once the fuel exceeds the length of the queue
plus the number of nodes whose in-degree is still positive. -/
theorem kahnLoop_fuel (graph : NodePtr → List NodePtr) (D : List NodePtr)
    (hD : ∀ u, ∀ v ∈ graph u, v ∈ D) :
    ∀ (fuel : Nat) (queue : List NodePtr) (inDeg : NodePtr → Int) (result : List NodePtr),
      queue.length + D.countP (fun v => decide (0 < inDeg v)) < fuel →
      ∃ out, kahnLoop graph fuel queue inDeg result = some out := by
  intro fuel
  induction fuel with
  | zero => intro queue inDeg result h; omega
  | succ fuel ih =>
    intro queue inDeg result h
    cases queue with
    | nil => exact ⟨result, by simp [kahnLoop]⟩
    | cons current rest =>
      unfold kahnLoop
      simp only
      apply ih
      have := relaxNeighbors_potential D (graph current) inDeg rest (hD current)
      simp only [List.length_cons] at h
      omega

theorem State.graph_subset_dests (s : State) (u v : NodePtr) (h : v ∈ s.graph u) :
    v ∈ (s.connections_.map (fun c => c.destination_.parent_)).dedup := by
  unfold State.graph at h
  rw [List.mem_dedup]
  obtain ⟨c, hc, rfl⟩ := List.mem_map.1 h
  exact List.mem_map.2 ⟨c, (List.mem_filter.1 hc).1, rfl⟩

/-- `calculateProcessingOrder` always terminates within its fuel. -/
theorem GraphManager.kahnLoop_terminates (pf : Platform) (s : State) :
    ∃ out, kahnLoop s.graph ((s.initialQueue pf).length + s.connections_.length + 1)
      (s.initialQueue pf) s.inDegree [] = some out := by
  apply kahnLoop_fuel s.graph _ (s.graph_subset_dests)
  have h1 : ((s.connections_.map (fun c => c.destination_.parent_)).dedup).countP
      (fun v => decide (0 < s.inDegree v)) ≤
      ((s.connections_.map (fun c => c.destination_.parent_)).dedup).length :=
    List.countP_le_length _
  have h2 : ((s.connections_.map (fun c => c.destination_.parent_)).dedup).length ≤
      (s.connections_.map (fun c => c.destination_.parent_)).length :=
    (List.dedup_sublist _).length_le
  simp only [List.length_map] at h2
  omega

/-! ## Kahn's algorithm: correctness on acyclic graphs -/

/-- In an acyclic relation no non-empty finite set has a predecessor inside the
set for each of its members. -/
theorem no_closed_set {α : Type} (r : α → α → Prop) (L : List α) (P : α → Prop)
    (hP : ∀ v, P v → v ∈ L) (hpred : ∀ v, P v → ∃ u, P u ∧ r u v)
    (hac : ∀ u, ¬ Relation.TransGen r u u) : ∀ v, ¬ P v := by
  haveI : IsStrictOrder α (Relation.TransGen r) :=
    { irrefl := hac, trans := fun _ _ _ => Relation.TransGen.trans }
  have hfin : {x | x ∈ L}.Finite := List.finite_toSet L
  have hwf : {x | x ∈ L}.WellFoundedOn (Relation.TransGen r) := hfin.wellFoundedOn
  intro v hv
  have hvL : v ∈ {x | x ∈ L} := hP v hv
  refine hwf.induction (P := fun y => ¬ P y) hvL ?_ hv
  intro y _ ih hy
  obtain ⟨u, hu, huy⟩ := hpred y hy
  exact ih u (hP u hu) (Relation.TransGen.single huy) hu

theorem filter_length_split {α : Type} (p q r : α → Bool) (L : List α)
    (h : ∀ c ∈ L, p c = (q c || r c)) (hx : ∀ c ∈ L, ¬ (q c = true ∧ r c = true)) :
    (L.filter p).length = (L.filter q).length + (L.filter r).length := by
  induction L with
  | nil => simp
  | cons a rest ih =>
    have ih' := ih (fun c hc => h c (List.mem_cons_of_mem _ hc))
      (fun c hc => hx c (List.mem_cons_of_mem _ hc))
    have ha := h a (List.mem_cons_self _ _)
    have hxa := hx a (List.mem_cons_self _ _)
    simp only [List.filter_cons]
    cases hq : q a <;> cases hr : r a <;> simp [hq, hr] at ha hxa <;>
      simp [ha, hq, hr, ih'] <;> omega

theorem State.inDegree_eq (s : State) (v : NodePtr) :
    s.inDegree v = (s.pendingIn [] v : Int) := by
  unfold State.inDegree State.pendingIn
  have key : ∀ (L : List Connection) (acc : Int),
      L.foldl (fun d c => if c.destination_.parent_ = v then d + 1 else d) acc =
        acc + ((L.filter (fun c =>
          decide (c.destination_.parent_ = v ∧ c.source_.parent_ ∉ ([] : List NodePtr)))).length
            : Int) := by
    intro L
    induction L with
    | nil => intro acc; simp
    | cons a rest ih =>
      intro acc
      simp only [List.foldl_cons, List.filter_cons]
      rw [ih]
      by_cases ha : a.destination_.parent_ = v
      · simp [ha]
        omega
      · simp [ha]
  rw [key]
  simp

theorem State.count_graph (s : State) (u v : NodePtr) :
    (s.graph u).count v =
      (s.connections_.filter
        (fun c => decide (c.source_.parent_ = u ∧ c.destination_.parent_ = v))).length := by
  unfold State.graph
  induction s.connections_ with
  | nil => simp
  | cons a rest ih =>
    simp only [List.filter_cons]
    by_cases h1 : a.source_.parent_ = u
    · by_cases h2 : a.destination_.parent_ = v
      · simp [h1, h2, ih]
      · have h2' : ¬ v = a.destination_.parent_ := fun h => h2 h.symm
        simp [h1, h2, ih, List.count_cons, h2']
    · simp [h1, ih]

theorem State.pendingIn_split (s : State) (done : List NodePtr) (u v : NodePtr)
    (hu : u ∉ done) :
    s.pendingIn done v = s.pendingIn (done ++ [u]) v + (s.graph u).count v := by
  rw [State.count_graph]
  unfold State.pendingIn
  apply filter_length_split
  · intro c _
    by_cases h1 : c.destination_.parent_ = v <;> by_cases h2 : c.source_.parent_ = u <;>
      by_cases h3 : c.source_.parent_ ∈ done <;> simp [h1, h2, h3]
    · rw [h2] at h3; exact absurd h3 hu
    · exact hu
  · intro c _
    simp only [decide_eq_true_eq, List.mem_append, List.mem_singleton, not_or, not_and]
    intro h1 h2
    exact absurd h2 h1.2.2

theorem Before.append {l : List NodePtr} {u v : NodePtr} (h : Before l u v) (x : NodePtr) :
    Before (l ++ [x]) u v := by
  obtain ⟨i, j, hij, hi, hj⟩ := h
  refine ⟨i, j, hij, ?_, ?_⟩
  · have hlt : i < l.length := by
      by_contra hn
      rw [List.getElem?_eq_none (Nat.le_of_not_lt hn)] at hi
      exact Option.noConfusion hi
    rw [List.getElem?_append_left hlt]
    exact hi
  · have hlt : j < l.length := by
      by_contra hn
      rw [List.getElem?_eq_none (Nat.le_of_not_lt hn)] at hj
      exact Option.noConfusion hj
    rw [List.getElem?_append_left hlt]
    exact hj

theorem Before.last {l : List NodePtr} {u : NodePtr} (h : u ∈ l) (x : NodePtr) :
    Before (l ++ [x]) u x := by
  obtain ⟨i, hi⟩ := List.mem_iff_getElem?.1 h
  have hlt : i < l.length := by
    by_contra hn
    rw [List.getElem?_eq_none (Nat.le_of_not_lt hn)] at hi
    exact Option.noConfusion hi
  refine ⟨i, l.length, hlt, ?_, ?_⟩
  · rw [List.getElem?_append_left hlt]
    exact hi
  · simp

theorem State.mem_graph {s : State} {u v : NodePtr} (h : v ∈ s.graph u) :
    ∃ c ∈ s.connections_, c.source_.parent_ = u ∧ c.destination_.parent_ = v := by
  unfold State.graph at h
  obtain ⟨c, hc, rfl⟩ := List.mem_map.1 h
  obtain ⟨hc1, hc2⟩ := List.mem_filter.1 hc
  exact ⟨c, hc1, by simpa using hc2, rfl⟩

theorem State.pendingIn_eq_zero {s : State} {done : List NodePtr} {v : NodePtr}
    (h : s.pendingIn done v = 0) (c : Connection) (hc : c ∈ s.connections_)
    (hv : c.destination_.parent_ = v) : c.source_.parent_ ∈ done := by
  unfold State.pendingIn at h
  by_contra hn
  have : c ∈ s.connections_.filter
      (fun c => decide (c.destination_.parent_ = v ∧ c.source_.parent_ ∉ done)) :=
    List.mem_filter.2 ⟨hc, by simp [hv, hn]⟩
  rw [List.length_eq_zero.1 h] at this
  exact List.not_mem_nil _ this

theorem State.pendingIn_pos {s : State} {done : List NodePtr} {v : NodePtr}
    (h : s.pendingIn done v ≠ 0) :
    ∃ c ∈ s.connections_, c.destination_.parent_ = v ∧ c.source_.parent_ ∉ done := by
  unfold State.pendingIn at h
  obtain ⟨c, hc⟩ := List.exists_mem_of_length_pos (Nat.pos_of_ne_zero h)
  obtain ⟨hc1, hc2⟩ := List.mem_filter.1 hc
  exact ⟨c, hc1, by simpa using hc2⟩

/-- The main loop of Kahn's algorithm on an acyclic graph whose edges stay
inside the node list: started in a consistent state, it emits every node once,
sources before destinations. -/
theorem kahnLoop_correct (s : State) (hac : s.Acyclic)
    (hend : ∀ c ∈ s.connections_,
      c.source_.parent_ ∈ s.nodes_ ∧ c.destination_.parent_ ∈ s.nodes_) :
    ∀ (fuel : Nat) (queue : List NodePtr) (inDeg : NodePtr → Int)
      (result out : List NodePtr),
      kahnLoop s.graph fuel queue inDeg result = some out →
      (∀ v, inDeg v = s.pendingIn result v) →
      (result ++ queue).Nodup →
      (∀ v ∈ result ++ queue, inDeg v = 0) →
      (∀ v ∈ s.nodes_, inDeg v = 0 → v ∈ result ++ queue) →
      (∀ v ∈ result ++ queue, v ∈ s.nodes_) →
      (∀ c ∈ s.connections_, c.destination_.parent_ ∈ result →
        Before result c.source_.parent_ c.destination_.parent_) →
      out.Nodup ∧ (∀ v, v ∈ out ↔ v ∈ s.nodes_) ∧
        ∀ c ∈ s.connections_, Before out c.source_.parent_ c.destination_.parent_ := by
  intro fuel
  induction fuel with
  | zero => intro queue inDeg result out h; simp [kahnLoop] at h
  | succ fuel ih =>
    intro queue inDeg result out h J1 J2 J3 J4 J5 J6
    cases queue with
    | nil =>
      simp only [kahnLoop, Option.some.injEq] at h
      subst h
      simp only [List.append_nil] at J2 J3 J4 J5
      have hall : ∀ v, ¬ (v ∈ s.nodes_ ∧ v ∉ result) := by
        apply no_closed_set s.NodeEdge s.nodes_ _ (fun v hv => hv.1) _ hac
        rintro v ⟨hv1, hv2⟩
        have hne : s.pendingIn result v ≠ 0 := by
          intro h0
          apply hv2
          apply J4 v hv1
          rw [J1 v, h0]
          rfl
        obtain ⟨c, hc, hcv, hcs⟩ := State.pendingIn_pos hne
        exact ⟨c.source_.parent_, ⟨(hend c hc).1, hcs⟩, c, hc, rfl, hcv⟩
      have hcomplete : ∀ v, v ∈ s.nodes_ → v ∈ result := by
        intro v hv
        by_contra hn
        exact hall v ⟨hv, hn⟩
      refine ⟨J2, fun v => ⟨J5 v, hcomplete v⟩, ?_⟩
      intro c hc
      exact J6 c hc (hcomplete _ (hend c hc).2)
    | cons current rest =>
      unfold kahnLoop at h
      simp only at h
      have hcur : current ∉ result := by
        intro hmem
        have := List.disjoint_of_nodup_append J2 hmem
        exact this (List.mem_cons_self _ _)
      have hpre : ∀ v, ((s.graph current).count v : Int) ≤ inDeg v := by
        intro v
        rw [J1 v, s.pendingIn_split result current v hcur]
        push_cast
        omega
      obtain ⟨h1, new, h2, h3, h4⟩ := relaxNeighbors_spec (s.graph current) inDeg rest hpre
      have J1' : ∀ v, (relaxNeighbors (s.graph current) inDeg rest).1 v =
          s.pendingIn (result ++ [current]) v := by
        intro v
        rw [h1 v, J1 v, s.pendingIn_split result current v hcur]
        push_cast
        omega
      have hnonneg : ∀ v, 0 ≤ (relaxNeighbors (s.graph current) inDeg rest).1 v := by
        intro v
        rw [J1' v]
        exact Int.natCast_nonneg _
      have hold : ∀ v ∈ result ++ current :: rest,
          (relaxNeighbors (s.graph current) inDeg rest).1 v = 0 := by
        intro v hv
        have hz := J3 v hv
        have hn := hnonneg v
        rw [h1 v, hz] at hn ⊢
        omega
      have hlist : (result ++ [current]) ++ (rest ++ new) =
          (result ++ current :: rest) ++ new := by
        simp
      have hnewdisj : ∀ v ∈ new, v ∉ result ++ current :: rest := by
        intro v hv hmem
        have hz := J3 v hmem
        have hmg : v ∈ s.graph current := ((h4 v).1 hv).1
        have hpos : 0 < (s.graph current).count v := List.count_pos_iff.2 hmg
        have := hpre v
        rw [hz] at this
        omega
      rw [h2] at h
      apply ih (rest ++ new) _ (result ++ [current]) out h J1'
      · rw [hlist]
        refine List.Nodup.append J2 h3 ?_
        intro v hv1 hv2
        exact hnewdisj v hv2 hv1
      · intro v hv
        rw [hlist] at hv
        rcases List.mem_append.1 hv with hv | hv
        · exact hold v hv
        · exact ((h4 v).1 hv).2
      · intro v hv hz
        rw [hlist]
        by_cases hz0 : inDeg v = 0
        · exact List.mem_append_left _ (J4 v hv hz0)
        · apply List.mem_append_right
          apply (h4 v).2
          refine ⟨?_, hz⟩
          rw [h1 v] at hz
          have hpos : 0 < (s.graph current).count v := by
            by_contra hn
            have : (s.graph current).count v = 0 := by omega
            rw [this] at hz
            apply hz0
            simpa using hz
          exact List.count_pos_iff.1 hpos
      · intro v hv
        rw [hlist] at hv
        rcases List.mem_append.1 hv with hv | hv
        · exact J5 v hv
        · obtain ⟨c, hc, _, rfl⟩ := State.mem_graph ((h4 v).1 hv).1
          exact (hend c hc).2
      · intro c hc hdst
        rcases List.mem_append.1 hdst with hd | hd
        · exact (J6 c hc hd).append current
        · have hdc : c.destination_.parent_ = current := List.mem_singleton.1 hd
          have hz : s.pendingIn result current = 0 := by
            have := J3 current (List.mem_append_right _ (List.mem_cons_self _ _))
            rw [J1 current] at this
            exact_mod_cast this
          have hsrc := State.pendingIn_eq_zero hz c hc hdc
          rw [hdc]
          exact Before.last hsrc current

/-- On an acyclic graph whose edges stay inside the node list, the processing
order lists every node once, sources before destinations. -/
theorem GraphManager.calculateProcessingOrder_sorted (pf : Platform) (hpf : pf.MapOrderOk)
    (s : State) (hac : s.Acyclic)
    (hend : ∀ c ∈ s.connections_,
      c.source_.parent_ ∈ s.nodes_ ∧ c.destination_.parent_ ∈ s.nodes_) :
    (GraphManager.calculateProcessingOrder pf s).Nodup ∧
    (∀ v, v ∈ GraphManager.calculateProcessingOrder pf s ↔ v ∈ s.nodes_) ∧
    ∀ c ∈ s.connections_,
      Before (GraphManager.calculateProcessingOrder pf s)
        c.source_.parent_ c.destination_.parent_ := by
  obtain ⟨out, hout⟩ := GraphManager.kahnLoop_terminates pf s
  have hEq : GraphManager.calculateProcessingOrder pf s = out := by
    unfold GraphManager.calculateProcessingOrder
    rw [hout]
  rw [hEq]
  have hkeys : ∀ v, v ∈ s.inDegreeKeys → v ∈ s.nodes_ := by
    intro v hv
    unfold State.inDegreeKeys at hv
    rcases List.mem_append.1 hv with h | h
    · exact h
    · obtain ⟨c, hc, rfl⟩ := List.mem_map.1 h
      exact (hend c hc).2
  apply kahnLoop_correct s hac hend _ _ _ _ out hout
  · intro v
    exact s.inDegree_eq v
  · simp only [List.nil_append]
    exact (hpf s.inDegreeKeys).1.filter _
  · intro v hv
    simp only [List.nil_append] at hv
    simpa using (List.mem_filter.1 hv).2
  · intro v hv hz
    simp only [List.nil_append]
    refine List.mem_filter.2 ⟨?_, by simpa using hz⟩
    apply ((hpf s.inDegreeKeys).2 v).2
    exact List.mem_append_left _ hv
  · intro v hv
    simp only [List.nil_append] at hv
    exact hkeys v (((hpf s.inDegreeKeys).2 v).1 (List.mem_filter.1 hv).1)
  · intro c _ hmem
    exact absurd hmem (List.not_mem_nil _)

/-- C4: on an acyclic graph whose edges have both end nodes in the node list,
`calculateProcessingOrder` returns every node of the node list exactly once and
nothing else, and puts the source node of every edge strictly before its
destination node. -/
theorem calculateProcessingOrder_topological (pf : Platform) (hpf : pf.MapOrderOk)
    (s : State) (hac : s.Acyclic)
    (hend : ∀ c ∈ s.connections_,
      c.source_.parent_ ∈ s.nodes_ ∧ c.destination_.parent_ ∈ s.nodes_) :
    (GraphManager.calculateProcessingOrder pf s).Nodup ∧
    (∀ v, v ∈ GraphManager.calculateProcessingOrder pf s ↔ v ∈ s.nodes_) ∧
    ∀ c ∈ s.connections_,
      Before (GraphManager.calculateProcessingOrder pf s)
        c.source_.parent_ c.destination_.parent_ := by
  obtain ⟨out, hout⟩ := GraphManager.kahnLoop_terminates pf s
  have hEq : GraphManager.calculateProcessingOrder pf s = out := by
    unfold GraphManager.calculateProcessingOrder
    rw [hout]
  rw [hEq]
  have hkeys : ∀ v, v ∈ s.inDegreeKeys → v ∈ s.nodes_ := by
    intro v hv
    unfold State.inDegreeKeys at hv
    rcases List.mem_append.1 hv with h | h
    · exact h
    · obtain ⟨c, hc, rfl⟩ := List.mem_map.1 h
      exact (hend c hc).2
  apply kahnLoop_correct s hac hend _ _ _ _ out hout
  · intro v
    exact s.inDegree_eq v
  · simp only [List.nil_append]
    exact (hpf s.inDegreeKeys).1.filter _
  · intro v hv
    simp only [List.nil_append] at hv
    simpa using (List.mem_filter.1 hv).2
  · intro v hv hz
    simp only [List.nil_append]
    refine List.mem_filter.2 ⟨?_, by simpa using hz⟩
    apply ((hpf s.inDegreeKeys).2 v).2
    exact List.mem_append_left _ hv
  · intro v hv
    simp only [List.nil_append] at hv
    exact hkeys v (((hpf s.inDegreeKeys).2 v).1 (List.mem_filter.1 hv).1)
  · intro c _ hmem
    exact absurd hmem (List.not_mem_nil _)

/-! ## The example states -/

theorem exampleTwoNodes_reachable : exampleTwoNodes.Reachable := by
  unfold exampleTwoNodes
  refine State.Reachable.step _ _ (State.Reachable.step _ _ (State.Reachable.step _ _
    (State.Reachable.step _ _ State.Reachable.init ?_) ?_) ?_) ?_
  · trivial
  · intro p hp
    cases hp
    decide
  · trivial
  · intro p hp
    cases hp
    decide

theorem exampleChain_reachable : exampleChain.Reachable := by
  unfold exampleChain
  refine State.Reachable.step _ _ exampleTwoNodes_reachable ⟨?_, ?_⟩
  · intro c hc
    cases hc
    decide
  · intro c hc
    cases hc
    decide

theorem examplePlatform_mapOrderOk : examplePlatform.MapOrderOk := by
  intro keys
  exact ⟨List.nodup_dedup keys, fun k => List.mem_dedup⟩

theorem canConnect_spec_witness :
    exampleChain.PortsAgree ∧ exampleChain.EdgesTyped ∧
    ((∀ src dst : ConnectorPtr,
      GraphManager.canConnect exampleChain (some src) (some dst) = true ↔
        src.type_ = ConnectorType.Output ∧ dst.type_ = ConnectorType.Input ∧
        exampleChain.getConnections dst = [] ∧ src.parent_ ≠ dst.parent_ ∧
        ¬ Relation.TransGen exampleChain.NodeEdge dst.parent_ src.parent_) ∧
    (∀ dst : Option ConnectorPtr, GraphManager.canConnect exampleChain none dst = false) ∧
    (∀ src : Option ConnectorPtr, GraphManager.canConnect exampleChain src none = false)) :=
  ⟨by decide, by decide, canConnect_spec exampleChain (by decide) (by decide)⟩

theorem connect_succeeds_iff_canConnect_witness :
    (exampleTwoNodes.connector? ⟨1, .Input, 0⟩).isSome ∧
    (((GraphManager.connect exampleTwoNodes (some ⟨0, .Output, 0⟩)
        (some ⟨1, .Input, 0⟩)).1 = true ↔
      GraphManager.canConnect exampleTwoNodes (some ⟨0, .Output, 0⟩)
        (some ⟨1, .Input, 0⟩) = true) ∧
    ((GraphManager.connect exampleTwoNodes (some ⟨0, .Output, 0⟩)
        (some ⟨1, .Input, 0⟩)).1 = true →
      (GraphManager.connect exampleTwoNodes (some ⟨0, .Output, 0⟩)
        (some ⟨1, .Input, 0⟩)).2.getConnections ⟨1, .Input, 0⟩ ≠ [] ∧
      GraphManager.canConnect (GraphManager.connect exampleTwoNodes (some ⟨0, .Output, 0⟩)
        (some ⟨1, .Input, 0⟩)).2 (some ⟨0, .Output, 0⟩) (some ⟨1, .Input, 0⟩) = false)) :=
  ⟨by decide, connect_succeeds_iff_canConnect exampleTwoNodes ⟨0, .Output, 0⟩ ⟨1, .Input, 0⟩
    (by decide)⟩

theorem calculateProcessingOrder_topological_witness :
    examplePlatform.MapOrderOk ∧ exampleChain.Acyclic ∧
    (∀ c ∈ exampleChain.connections_,
      c.source_.parent_ ∈ exampleChain.nodes_ ∧ c.destination_.parent_ ∈ exampleChain.nodes_) ∧
    ((GraphManager.calculateProcessingOrder examplePlatform exampleChain).Nodup ∧
    (∀ v, v ∈ GraphManager.calculateProcessingOrder examplePlatform exampleChain ↔
      v ∈ exampleChain.nodes_) ∧
    ∀ c ∈ exampleChain.connections_,
      Before (GraphManager.calculateProcessingOrder examplePlatform exampleChain)
        c.source_.parent_ c.destination_.parent_) :=
  ⟨examplePlatform_mapOrderOk, exampleChain_reachable.inv.2.2.2, by decide,
    calculateProcessingOrder_topological examplePlatform examplePlatform_mapOrderOk
      exampleChain exampleChain_reachable.inv.2.2.2 (by decide)⟩

theorem State.HeapOnly.process (pf : Platform) (s : State) (node : NodePtr) :
    s.HeapOnly (Node.process pf s node) :=
  State.HeapOnly.modifyNode _ _ _

theorem Node.process_node?_of_ne (pf : Platform) (s : State) (node m : NodePtr)
    (h : m ≠ node) : (Node.process pf s node).node? m = s.node? m := by
  unfold Node.process
  rw [State.node?_modifyNode]
  simp [h]

theorem Node.process_node?_self (pf : Platform) (s : State) (node : NodePtr) :
    (Node.process pf s node).node? node = (s.node? node).map (Node.processSelf pf s node) := by
  unfold Node.process
  rw [State.node?_modifyNode]
  simp

theorem Node.isDirty_process_of_ne (pf : Platform) (s : State) (node m : NodePtr)
    (h : m ≠ node) : Node.isDirty (Node.process pf s node) m = Node.isDirty s m := by
  unfold Node.isDirty
  rw [Node.process_node?_of_ne pf s node m h]

theorem Node.setOutputImage_dirty_ (n : Node) (image : Mat) (i : Nat) :
    (n.setOutputImage image i).dirty_ = n.dirty_ := by
  unfold Node.setOutputImage
  split <;> rfl

theorem Node.clearOutputs_dirty_ (n : Node) : n.clearOutputs.dirty_ = n.dirty_ := by
  unfold Node.clearOutputs
  generalize List.range n.outputConnectors_.length = l
  induction l generalizing n with
  | nil => rfl
  | cons i rest ih =>
    simp only [List.foldl_cons]
    rw [ih, Node.setOutputImage_dirty_]

/-- The callback clears the dirty flag exactly when the node is ready. -/
theorem Node.processSelf_dirty_ (pf : Platform) (s : State) (node : NodePtr) (n : Node)
    (hn : s.node? node = some n) :
    (Node.processSelf pf s node n).dirty_ =
      if Node.isReady s node then false else n.dirty_ := by
  have hr : Node.isReady s node = (match n.kind with
      | .InputNode => !n.originalImage_.isEmpty
      | .BlendNode => Node.isReadyBlend s n
      | _ => Node.isReadyDefault s n) := by
    unfold Node.isReady
    rw [hn]
    rfl
  unfold Node.processSelf
  cases hk : n.kind <;> simp only [hk] at hr ⊢
  · rw [← hr]
    cases Node.isReady s node <;> simp
  all_goals
    cases Node.isReady s node <;>
      simp [Node.setOutputImage_dirty_, Node.clearOutputs_dirty_]

theorem Node.isDirty_process_self (pf : Platform) (s : State) (node : NodePtr) :
    Node.isDirty (Node.process pf s node) node =
      if Node.isReady s node then false else Node.isDirty s node := by
  unfold Node.isDirty
  rw [Node.process_node?_self]
  cases hn : s.node? node with
  | none => simp [Node.isReady, hn]
  | some n =>
    simp only [Option.map_some']
    exact Node.processSelf_dirty_ pf s node n hn

/-- A node that is clean stays clean while `processAll` goes through its list. -/
theorem GraphManager.processNodes_clean (pf : Platform) (l : List NodePtr) :
    ∀ (s : State) (calls : List NodePtr) (n : NodePtr), Node.isDirty s n = false →
      Node.isDirty (GraphManager.processNodes pf l (s, calls)).1 n = false := by
  induction l with
  | nil => intro s calls n h; exact h
  | cons m rest ih =>
    intro s calls n h
    unfold GraphManager.processNodes
    by_cases hd : Node.isDirty s m = true
    · rw [if_pos hd]
      apply ih
      have hne : n ≠ m := by
        rintro rfl
        rw [h] at hd
        exact Bool.noConfusion hd
      rw [Node.isDirty_process_of_ne pf s m n hne]
      exact h
    · rw [if_neg hd]
      exact ih s calls n h

/-- When no node of the list is dirty, no callback is invoked. -/
theorem GraphManager.processNodes_of_clean (pf : Platform) (l : List NodePtr) :
    ∀ (s : State) (calls : List NodePtr), (∀ n ∈ l, Node.isDirty s n = false) →
      GraphManager.processNodes pf l (s, calls) = (s, calls) := by
  induction l with
  | nil => intro s calls _; rfl
  | cons m rest ih =>
    intro s calls h
    unfold GraphManager.processNodes
    have hm := h m (List.mem_cons_self _ _)
    simp only [hm, Bool.false_eq_true, if_false]
    exact ih s calls (fun n hn => h n (List.mem_cons_of_mem _ hn))

/-- When every invoked callback finds its node ready, every node of the list is
clean at the end of the pass. -/
theorem GraphManager.processNodes_allReady (pf : Platform) (l : List NodePtr) :
    ∀ (s : State) (calls : List NodePtr), GraphManager.AllReady pf l s →
      ∀ n ∈ l, Node.isDirty (GraphManager.processNodes pf l (s, calls)).1 n = false := by
  induction l with
  | nil => intro s calls _ n hn; exact absurd hn (List.not_mem_nil _)
  | cons m rest ih =>
    intro s calls hr n hn
    unfold GraphManager.AllReady at hr
    unfold GraphManager.processNodes
    by_cases hd : Node.isDirty s m = true
    · rw [if_pos hd] at hr ⊢
      rcases List.mem_cons.1 hn with rfl | hn
      · apply GraphManager.processNodes_clean
        rw [Node.isDirty_process_self, hr.1]
        rfl
      · exact ih _ _ hr.2 n hn
    · rw [if_neg hd] at hr ⊢
      rcases List.mem_cons.1 hn with rfl | hn
      · apply GraphManager.processNodes_clean
        simpa using hd
      · exact ih _ _ hr n hn

theorem GraphManager.processNodes_heapOnly (pf : Platform) (l : List NodePtr) :
    ∀ (s : State) (calls : List NodePtr),
      s.HeapOnly (GraphManager.processNodes pf l (s, calls)).1 := by
  induction l with
  | nil => intro s calls; rfl
  | cons m rest ih =>
    intro s calls
    unfold GraphManager.processNodes
    split
    · exact (State.HeapOnly.process pf s m).trans (ih _ _)
    · exact ih _ _

/-- The processing order depends on the node list and the edge list only. -/
theorem GraphManager.calculateProcessingOrder_congr (pf : Platform) {s t : State}
    (hn : t.nodes_ = s.nodes_) (hc : t.connections_ = s.connections_) :
    GraphManager.calculateProcessingOrder pf t = GraphManager.calculateProcessingOrder pf s := by
  have h1 : t.graph = s.graph := by
    funext u
    unfold State.graph
    rw [hc]
  have h2 : t.inDegree = s.inDegree := by
    funext v
    unfold State.inDegree
    rw [hc]
  have h3 : t.initialQueue pf = s.initialQueue pf := by
    unfold State.initialQueue State.inDegreeKeys
    rw [h2, hn, hc]
  unfold GraphManager.calculateProcessingOrder
  rw [h1, h2, h3, hc]

theorem GraphManager.processAll_order (pf : Platform) (s : State) :
    GraphManager.calculateProcessingOrder pf (GraphManager.processAll pf s) =
      GraphManager.calculateProcessingOrder pf s := by
  have h := GraphManager.processNodes_heapOnly pf
    (GraphManager.calculateProcessingOrder pf s) s []
  exact GraphManager.calculateProcessingOrder_congr pf h.nodes_ h.connections_

/-- C7 (amended): when every node whose callback is invoked during the first
`processAll()` is ready at that moment, a second `processAll()` with no
intervening mutation invokes no callback. -/
theorem processAll_twice_no_calls (pf : Platform) (s : State)
    (hready : GraphManager.AllReady pf (GraphManager.calculateProcessingOrder pf s) s) :
    (GraphManager.processAllCalls pf (GraphManager.processAll pf s)).2 = [] := by
  unfold GraphManager.processAllCalls
  rw [GraphManager.processAll_order]
  rw [GraphManager.processNodes_of_clean]
  intro n hn
  exact GraphManager.processNodes_allReady pf _ s [] hready n hn

/-- C7 (as stated) fails: with an input node that has no image and an unconnected
brightness/contrast node, both callbacks run again in the second `processAll()`. -/
theorem processAll_twice_calls_again :
    (GraphManager.processAllCalls examplePlatform
      (GraphManager.processAll examplePlatform exampleTwoNodes)).2 = [0, 1] := by
  decide

/-! ## `removeNode`: the frame -/

/-- The port lists after the two `removeConnection` calls for one incident edge. -/
theorem GraphManager.getConnections_unregister (s : State) (c : Connection)
    (p : ConnectorPtr) (hnd : (s.getConnections p).Nodup) :
    (NodeConnector.removeConnection (NodeConnector.removeConnection s c.source_ c)
        c.destination_ c).getConnections p =
      (s.getConnections p).filter
        (fun k => decide (¬ (k = c ∧ (c.source_ = p ∨ c.destination_ = p)))) := by
  have hf : (s.getConnections p).erase c =
      (s.getConnections p).filter (fun k => k != c) := hnd.erase_eq_filter c
  rw [NodeConnector.getConnections_removeConnection]
  by_cases h1 : p = c.destination_
  · rw [if_pos h1, ← h1, NodeConnector.getConnections_removeConnection]
    by_cases h2 : p = c.source_
    · rw [if_pos h2, ← h2]
      rw [List.erase_of_not_mem (hnd.not_mem_erase), hf]
      apply List.filter_congr
      intro k _
      by_cases hk : k = c <;> simp [hk, h2]
    · rw [if_neg h2, hf]
      apply List.filter_congr
      intro k _
      by_cases hk : k = c <;> simp [hk, h1]
  · rw [if_neg h1, NodeConnector.getConnections_removeConnection]
    by_cases h2 : p = c.source_
    · rw [if_pos h2, ← h2, hf]
      apply List.filter_congr
      intro k _
      by_cases hk : k = c <;> simp [hk, h2]
    · rw [if_neg h2]
      symm
      rw [List.filter_eq_self]
      intro k _
      have h1' : ¬ c.destination_ = p := fun h => h1 h.symm
      have h2' : ¬ c.source_ = p := fun h => h2 h.symm
      simp [h1', h2']

/-- The port lists after the first loop of `removeNode`: every port has lost the
incident edges of the remaining edge list that end in it. -/
theorem GraphManager.removeNodeLoop_ports (node : NodePtr) (rest : List Connection) :
    ∀ (kept : List Connection) (s : State) (p : ConnectorPtr),
      (s.getConnections p).Nodup →
      (GraphManager.removeNodeLoop node kept rest s).getConnections p =
        (s.getConnections p).filter (fun k =>
          decide (¬ (k.Incident node ∧ k ∈ rest ∧ (k.source_ = p ∨ k.destination_ = p)))) := by
  induction rest with
  | nil =>
    intro kept s p _
    unfold GraphManager.removeNodeLoop
    symm
    refine ((State.getConnections_congr (t := s) rfl p) ▸ ?_)
    rw [List.filter_eq_self]
    intro k _
    simp
  | cons c rest ih =>
    intro kept s p hnd
    unfold GraphManager.removeNodeLoop
    by_cases hc : c.source_.parent_ = node ∨ c.destination_.parent_ = node
    · have hci : c.Incident node := hc
      rw [if_pos hc]
      have hmd : ∀ q, (if c.destination_.parent_ ≠ node then
          Node.markDirty s c.destination_.parent_ else s).getConnections q =
          s.getConnections q := by
        intro q
        split
        · exact Node.getConnections_markDirty _ _ _
        · rfl
      have hs3 : (NodeConnector.removeConnection (NodeConnector.removeConnection
          (if c.destination_.parent_ ≠ node then Node.markDirty s c.destination_.parent_
            else s) c.source_ c) c.destination_ c).getConnections p =
          (s.getConnections p).filter
            (fun k => decide (¬ (k = c ∧ (c.source_ = p ∨ c.destination_ = p)))) := by
        rw [GraphManager.getConnections_unregister _ c p (by rw [hmd]; exact hnd), hmd]
      have hs3' : ({ NodeConnector.removeConnection (NodeConnector.removeConnection
          (if c.destination_.parent_ ≠ node then Node.markDirty s c.destination_.parent_
            else s) c.source_ c) c.destination_ c with
            connections_ := kept ++ rest } : State).getConnections p =
          (s.getConnections p).filter
            (fun k => decide (¬ (k = c ∧ (c.source_ = p ∨ c.destination_ = p)))) :=
        (State.getConnections_congr rfl p).trans hs3
      rw [ih kept _ p (by rw [hs3']; exact hnd.filter _), hs3', List.filter_filter]
      apply List.filter_congr
      intro k _
      by_cases hk : k = c
      · subst hk
        simp [hci]
        tauto
      · simp [hk]
    · have hci : ¬ c.Incident node := hc
      rw [if_neg hc, ih _ s p hnd]
      apply List.filter_congr
      intro k _
      by_cases hk : k = c
      · subst hk
        simp [hci]
      · simp [hk]

/-- Under agreement, the first loop of `removeNode` removes from every port
exactly the edges incident to the node. -/
theorem GraphManager.removeNodeLoop_ports_agree (s : State) (hagree : s.PortsAgree)
    (hdist : s.Distinct) (node : NodePtr) (p : ConnectorPtr) :
    (GraphManager.removeNodeLoop node [] s.connections_ s).getConnections p =
      (s.getConnections p).filter (fun k => decide (¬ k.Incident node)) := by
  by_cases hp : p ∈ s.connectorPtrs
  · rw [GraphManager.removeNodeLoop_ports node _ _ s p (hdist.2 p hp)]
    apply List.filter_congr
    intro k hk
    obtain ⟨h1, h2⟩ := hagree.2 p hp k hk
    simp [h1, h2]
  · have hnil : s.getConnections p = [] := by
      cases hl : s.getConnections p with
      | nil => rfl
      | cons a l =>
        exfalso
        apply hp
        apply State.getConnections_ne_nil_mem (c := a)
        rw [hl]
        exact List.mem_cons_self _ _
    rw [GraphManager.removeNodeLoop_ports node _ _ s p (by rw [hnil]; exact List.nodup_nil),
      hnil]
    rfl

theorem NodeConnector.destroy_of_nil (s : State) (c : ConnectorPtr)
    (h : s.getConnections c = []) : NodeConnector.destroy s c = s := by
  unfold NodeConnector.destroy
  rw [h]
  rfl

theorem NodeConnector.destroyAll_of_nil (node : NodePtr) (t : ConnectorType) (l : List Nat)
    (s : State) (h : ∀ i, s.getConnections ⟨node, t, i⟩ = []) :
    l.foldl (fun st i => NodeConnector.destroy st ⟨node, t, i⟩) s = s := by
  induction l with
  | nil => rfl
  | cons i rest ih =>
    simp only [List.foldl_cons]
    rw [NodeConnector.destroy_of_nil s _ (h i)]
    exact ih

/-- `delete node` on a node whose ports hold no connection only releases the
object. -/
theorem Node.delete_of_nil (s : State) (node : NodePtr)
    (h : ∀ p : ConnectorPtr, p.parent_ = node → s.getConnections p = [])
    (p : ConnectorPtr) (hp : p.parent_ ≠ node) :
    (Node.delete s node).getConnections p = s.getConnections p := by
  unfold Node.delete
  cases hn : s.node? node with
  | none => rfl
  | some n =>
    simp only
    rw [NodeConnector.destroyAll_of_nil node .Input _ s (fun i => h _ rfl),
      NodeConnector.destroyAll_of_nil node .Output _ s (fun i => h _ rfl),
      State.getConnections_set_none]
    simp [hp]

theorem GraphManager.removeNode_nodes_ (s : State) (node : NodePtr) :
    (GraphManager.removeNode s (some node)).nodes_ = s.nodes_.erase node := by
  unfold GraphManager.removeNode
  simp only
  obtain ⟨hp, hh⟩ := GraphManager.removeNodeLoop_fields node s.connections_ [] s
  rw [(State.HeapOnly.delete _ node).nodes_]
  unfold GraphManager.selectNode
  rw [hh]
  split
  · split <;> simp
  · simp

/-- C8 (amended): in a graph whose node list names no node twice and whose ports
hold exactly the edges of the edge list that are incident to them, each once,
`removeNode(n)` removes from the edge list exactly the edges incident to `n`,
keeping the order of the others; removes `n` from the node list, keeping the
order; and every port of a surviving node loses exactly the removed edges. -/
theorem removeNode_frame (s : State) (hagree : s.PortsAgree) (hdist : s.Distinct)
    (n : NodePtr) :
    (GraphManager.removeNode s (some n)).connections_ =
      s.connections_.filter (fun c => decide (¬ c.Incident n)) ∧
    (GraphManager.removeNode s (some n)).nodes_ =
      s.nodes_.filter (fun m => decide (m ≠ n)) ∧
    ∀ p : ConnectorPtr, p.parent_ ≠ n →
      (GraphManager.removeNode s (some n)).getConnections p =
        (s.getConnections p).filter (fun c => decide (¬ c.Incident n)) := by
  refine ⟨GraphManager.removeNode_connections_ s n, ?_, ?_⟩
  · rw [GraphManager.removeNode_nodes_, hdist.1.erase_eq_filter]
    apply List.filter_congr
    intro m _
    by_cases hm : m = n <;> simp [hm]
  · intro p hp
    rw [GraphManager.getConnections_removeNode, Node.delete_of_nil _ n _ p hp]
    · exact GraphManager.removeNodeLoop_ports_agree s hagree hdist n p
    · intro q hq
      rw [GraphManager.removeNodeLoop_ports_agree s hagree hdist n q]
      rw [List.filter_eq_nil_iff]
      intro k hk
      have hq' : q ∈ s.connectorPtrs := State.getConnections_ne_nil_mem hk
      have hinc : k.Incident n := by
        rcases (hagree.2 q hq' k hk).2 with h | h
        · exact Or.inl (by rw [h, hq])
        · exact Or.inr (by rw [h, hq])
      simp [hinc]

theorem removeNode_frame_witness :
    exampleChain.PortsAgree ∧ exampleChain.Distinct ∧
    ((GraphManager.removeNode exampleChain (some 0)).connections_ =
      exampleChain.connections_.filter (fun c => decide (¬ c.Incident 0)) ∧
    (GraphManager.removeNode exampleChain (some 0)).nodes_ =
      exampleChain.nodes_.filter (fun m => decide (m ≠ 0)) ∧
    ∀ p : ConnectorPtr, p.parent_ ≠ 0 →
      (GraphManager.removeNode exampleChain (some 0)).getConnections p =
        (exampleChain.getConnections p).filter (fun c => decide (¬ c.Incident 0))) :=
  ⟨by decide, by decide, removeNode_frame exampleChain (by decide) (by decide) 0⟩

theorem processAll_twice_no_calls_witness :
    GraphManager.AllReady examplePlatform
      (GraphManager.calculateProcessingOrder examplePlatform exampleLoaded) exampleLoaded ∧
    (GraphManager.processAllCalls examplePlatform
      (GraphManager.processAll examplePlatform exampleLoaded)).2 = [] :=
  ⟨by decide, processAll_twice_no_calls examplePlatform exampleLoaded (by decide)⟩

/-! ## Loading a project file -/

/-- C10: a file whose magic tag is not "NIP" or whose version is not 1 makes
`loadFromFile` return failure and leaves the whole state as it was. -/
theorem loadFromFile_rejects_header (pf : Platform) (s : State) (filePath : String)
    (bs : List Nat)
    (h : (getQString bs).1 ≠ QString.fromStdString "NIP" ∨
      (getU32 (getQString bs).2).1 ≠ 1) :
    GraphManager.loadFromFile pf s filePath (some bs) = some (false, s) := by
  unfold GraphManager.loadFromFile
  simp only
  by_cases h1 : (getQString bs).1 ≠ QString.fromStdString "NIP"
  · rw [if_pos h1]
  · rw [if_neg h1]
    rcases h with h | h
    · exact absurd h h1
    · rw [if_pos h]

theorem loadFromFile_rejects_header_witness :
    ((getQString [0, 0, 0, 2, 0, 88]).1 ≠ QString.fromStdString "NIP" ∨
      (getU32 (getQString [0, 0, 0, 2, 0, 88]).2).1 ≠ 1) ∧
    GraphManager.loadFromFile examplePlatform exampleChain "p.nip" (some [0, 0, 0, 2, 0, 88]) =
      some (false, exampleChain) :=
  ⟨Or.inl (by decide),
    loadFromFile_rejects_header examplePlatform exampleChain "p.nip" [0, 0, 0, 2, 0, 88]
      (Or.inl (by decide))⟩

theorem getU32_putU32 (n : Nat) (rest : List Nat) :
    getU32 (putU32 n ++ rest) = (n % 2 ^ 32, rest) := by
  simp [getU32, putU32, getBytes, beValue]
  omega

theorem putQString_magic :
    putQString (QString.fromStdString "NIP") = [0, 0, 0, 6, 0, 78, 0, 73, 0, 80] := by
  decide

theorem getQString_magic (rest : List Nat) :
    getQString (putQString (QString.fromStdString "NIP") ++ rest) =
      (QString.fromStdString "NIP", rest) := by
  rw [putQString_magic]
  have h : QString.fromStdString "NIP" = [78, 73, 80] := by decide
  rw [h]
  simp [getQString, getU32, getBytes, beValue, units16]

theorem GraphManager.connect_nodes_ (s : State) (src dst : Option ConnectorPtr) :
    (GraphManager.connect s src dst).2.nodes_ = s.nodes_ := by
  cases hcc : GraphManager.canConnect s src dst with
  | false => rw [GraphManager.connect_of_not_canConnect s src dst hcc]
  | true =>
    cases src with
    | none => simp [GraphManager.canConnect] at hcc
    | some a =>
      cases dst with
      | none => simp [GraphManager.canConnect] at hcc
      | some b =>
        rw [GraphManager.connect_of_canConnect s a b hcc]
        simp [Node.markDirty, NodeConnector.addConnection, State.modifyConnector]

theorem GraphManager.readConnection_nodes_ (s : State) (bs : List Nat) :
    (GraphManager.readConnection s bs).1.nodes_ = s.nodes_ := by
  unfold GraphManager.readConnection
  simp only
  split
  · rfl
  · split
    · split
      · split
        · rfl
        · exact GraphManager.connect_nodes_ _ _ _
      · rfl
    · rfl

theorem GraphManager.readConnectionsLoop_nodes_ (count : Nat) :
    ∀ (s : State) (bs : List Nat),
      (GraphManager.readConnectionsLoop count s bs).1.nodes_ = s.nodes_ := by
  induction count with
  | zero => intro s bs; rfl
  | succ count ih =>
    intro s bs
    unfold GraphManager.readConnectionsLoop
    rw [ih, GraphManager.readConnection_nodes_]

/-- With an empty node list every connection record is skipped. -/
theorem GraphManager.readConnectionsLoop_of_no_nodes (count : Nat) :
    ∀ (s : State) (bs : List Nat), s.nodes_ = [] →
      (GraphManager.readConnectionsLoop count s bs).1 = s := by
  induction count with
  | zero => intro s bs _; rfl
  | succ count ih =>
    intro s bs h
    unfold GraphManager.readConnectionsLoop
    have h1 : GraphManager.readConnection s bs =
        (s, (getI32 (getI32 (getI32 (getI32 bs).2).2).2).2) := by
      unfold GraphManager.readConnection
      simp only
      rw [if_pos]
      rw [h]
      have : toInt32 ([] : List NodePtr).length = 0 := by decide
      rw [this]
      omega
    rw [h1]
    exact ih s _ h

theorem GraphManager.addNode_nodes_ (s : State) (node : NodePtr) :
    (GraphManager.addNode s (some node)).nodes_ = s.nodes_ ++ [node] := by
  unfold GraphManager.addNode
  simp only
  split
  · rfl
  · split <;> simp

theorem Node.loadImage_nodes_ (pf : Platform) (s : State) (node : NodePtr)
    (filePath : String) : (Node.loadImage pf s node filePath).2.nodes_ = s.nodes_ := by
  unfold Node.loadImage
  simp only
  split
  · rfl
  · simp [Node.process]

theorem GraphManager.finishNode_nodes_ (s : State) (node : NodePtr) (nodeName : QString)
    (position : Int × Int) :
    (GraphManager.finishNode s node nodeName position).nodes_ = s.nodes_ ++ [node] := by
  unfold GraphManager.finishNode
  rw [GraphManager.addNode_nodes_]
  simp [Node.setPosition, Node.setName]

/-- One node record adds at most one node to the node list. -/
theorem GraphManager.readNode_length (pf : Platform) (s : State) (bs : List Nat) :
    (GraphManager.readNode pf s bs).1.nodes_.length ≤ s.nodes_.length + 1 := by
  unfold GraphManager.readNode
  simp only
  split
  · rw [GraphManager.finishNode_nodes_]
    split
    · rw [Node.loadImage_nodes_]
      simp [State.newNode]
    · simp [State.newNode]
  · split
    · rw [GraphManager.finishNode_nodes_]
      simp [State.newNode]
    · split
      · split
        · rw [GraphManager.finishNode_nodes_]
          simp [State.newNode, Node.setContrast, Node.setBrightness]
        · exact Nat.le_succ _
      · exact Nat.le_succ _

theorem GraphManager.readNodesLoop_length (pf : Platform) (count : Nat) :
    ∀ (s : State) (bs : List Nat),
      (GraphManager.readNodesLoop pf count s bs).1.nodes_.length ≤ s.nodes_.length + count := by
  induction count with
  | zero => intro s bs; exact Nat.le_refl _
  | succ count ih =>
    intro s bs
    unfold GraphManager.readNodesLoop
    have h1 := ih (GraphManager.readNode pf s bs).1 (GraphManager.readNode pf s bs).2
    have h2 := GraphManager.readNode_length pf s bs
    omega

theorem GraphManager.clear_nodes_ (s : State) : (GraphManager.clearBody s).nodes_ = [] := rfl

theorem GraphManager.processAll_nodes_ (pf : Platform) (s : State) :
    (GraphManager.processAll pf s).nodes_ = s.nodes_ :=
  (GraphManager.processNodes_heapOnly pf _ s []).nodes_

theorem GraphManager.processAll_connections_ (pf : Platform) (s : State) :
    (GraphManager.processAll pf s).connections_ = s.connections_ :=
  (GraphManager.processNodes_heapOnly pf _ s []).connections_

/-! ## What a callback reads and writes -/

theorem List.all_congr_mem {α : Type} {l : List α} {p q : α → Bool}
    (h : ∀ x ∈ l, p x = q x) : l.all p = l.all q := by
  induction l with
  | nil => rfl
  | cons a rest ih =>
    simp only [List.all_cons]
    rw [h a (List.mem_cons_self _ _), ih (fun x hx => h x (List.mem_cons_of_mem _ hx))]

theorem Node.inputImage_congr {s t : State} {n m : Node}
    (hc : m.inputConnectors_ = n.inputConnectors_) (h : s.SameInputs t n) (i : Nat) :
    Node.inputImage t m i = Node.inputImage s n i := by
  unfold Node.inputImage
  rw [hc]
  cases hk : n.inputConnectors_[i]? with
  | none => rfl
  | some k =>
    simp only
    cases hh : k.connections_.head? with
    | none => rfl
    | some c =>
      simp only
      exact h k (List.getElem?_mem hk) c (List.mem_of_mem_head? hh)

theorem Node.isReadyObject_congr {s t : State} {n m : Node}
    (hk : m.kind = n.kind) (hc : m.inputConnectors_ = n.inputConnectors_)
    (ho : m.originalImage_ = n.originalImage_) (h : s.SameInputs t n) :
    Node.isReadyObject t m = Node.isReadyObject s n := by
  have hdef : Node.isReadyDefault t m = Node.isReadyDefault s n := by
    unfold Node.isReadyDefault
    rw [hc]
    apply List.all_congr_mem
    intro k hkm
    congr 1
    apply List.all_congr_mem
    intro c hcm
    rw [h k hkm c hcm]
  have hblend : Node.isReadyBlend t m = Node.isReadyBlend s n := by
    unfold Node.isReadyBlend
    rw [hc, Node.inputImage_congr hc h 0, Node.inputImage_congr hc h 1]
  unfold Node.isReadyObject
  rw [hk, ho, hdef, hblend]

theorem Node.setOutputImage_outputImages_ (n : Node) (image : Mat) (i : Nat) :
    (n.setOutputImage image i).outputImages_ = n.outputImages_.set i image := by
  unfold Node.setOutputImage
  split
  · rfl
  · next h => exact (List.set_eq_of_length_le (Nat.le_of_not_lt h)).symm

theorem Node.setOutputImage_parameters (n : Node) (image : Mat) (i : Nat) :
    (n.setOutputImage image i).parameters = n.parameters := by
  unfold Node.setOutputImage
  split <;> rfl

theorem Node.foldl_setOutputImage (f : Nat → Mat) (l : List Nat) :
    ∀ n : Node,
      (l.foldl (fun m i => m.setOutputImage (f i) i) n).outputImages_ =
        l.foldl (fun o i => o.set i (f i)) n.outputImages_ ∧
      (l.foldl (fun m i => m.setOutputImage (f i) i) n).parameters = n.parameters := by
  induction l with
  | nil => intro n; exact ⟨rfl, rfl⟩
  | cons i rest ih =>
    intro n
    simp only [List.foldl_cons]
    obtain ⟨h1, h2⟩ := ih (n.setOutputImage (f i) i)
    rw [h1, h2, Node.setOutputImage_outputImages_, Node.setOutputImage_parameters]
    exact ⟨rfl, rfl⟩

theorem Node.parameters_kind (n : Node) : n.parameters.kind = n.kind := rfl

/-- The callback changes nothing that the pixel algorithms read. -/
theorem Node.processSelf_parameters (pf : Platform) (s : State) (node : NodePtr) (n : Node) :
    (Node.processSelf pf s node n).parameters = n.parameters := by
  unfold Node.processSelf
  cases hk : n.kind <;> simp only <;> split <;>
    first
    | rfl
    | exact Node.setOutputImage_parameters _ _ _
    | exact (Node.foldl_setOutputImage _ _ _).2
    | simp [Node.parameters, hk]

/-- The output slots written by a callback that finds its node ready. -/
theorem Node.processSelf_outputImages_ (pf : Platform) (s : State) (node : NodePtr)
    (n : Node) (hn : s.node? node = some n) (hready : Node.isReady s node = true) :
    (Node.processSelf pf s node n).outputImages_ =
      Node.newOutputs pf n.parameters (Node.inputImage s n 0) (Node.inputImage s n 1)
        n.outputImages_ := by
  have hr : Node.isReadyObject s n = true := by
    unfold Node.isReady at hready
    rw [hn] at hready
    exact hready
  unfold Node.processSelf Node.newOutputs
  rw [Node.parameters_kind]
  cases hk : n.kind <;> simp only [hready, Bool.not_true, Bool.false_eq_true, if_false]
  · unfold Node.isReadyObject at hr
    rw [hk] at hr
    simp only at hr
    rw [if_pos hr]
    exact Node.setOutputImage_outputImages_ _ _ _
  · exact Node.setOutputImage_outputImages_ _ _ _
  · exact Node.setOutputImage_outputImages_ _ _ _
  · exact Node.setOutputImage_outputImages_ _ _ _
  · exact Node.setOutputImage_outputImages_ _ _ _
  · exact Node.setOutputImage_outputImages_ _ _ _
  · exact (Node.foldl_setOutputImage _ _ _).1

theorem foldl_set_comm (f : Nat → Mat) (l : List Nat) :
    ∀ (o : List Mat) (a : Nat) (x : Mat), a ∉ l →
      (l.foldl (fun o i => o.set i (f i)) o).set a x =
        l.foldl (fun o i => o.set i (f i)) (o.set a x) := by
  induction l with
  | nil => intro o a x _; rfl
  | cons i rest ih =>
    intro o a x ha
    simp only [List.foldl_cons]
    have hai : a ≠ i := fun h => ha (h ▸ List.mem_cons_self _ _)
    have har : a ∉ rest := fun h => ha (List.mem_cons_of_mem _ h)
    rw [ih _ a x har, List.set_comm (f i) x o (Ne.symm hai)]

theorem foldl_set_noop (f : Nat → Mat) (l : List Nat) :
    ∀ (o : List Mat) (i : Nat), i ∈ l →
      (l.foldl (fun o i => o.set i (f i)) o).set i (f i) =
        l.foldl (fun o i => o.set i (f i)) o := by
  induction l with
  | nil => intro o i hi; exact absurd hi (List.not_mem_nil _)
  | cons a rest ih =>
    intro o i hi
    simp only [List.foldl_cons]
    by_cases hr : i ∈ rest
    · exact ih _ i hr
    · have hia : i = a := by
        rcases List.mem_cons.1 hi with h | h
        · exact h
        · exact absurd h hr
      subst hia
      rw [foldl_set_comm f rest _ i _ hr, List.set_set]

theorem foldl_set_idem (f : Nat → Mat) (l : List Nat) (o : List Mat) :
    ∀ l' : List Nat, (∀ i ∈ l', i ∈ l) →
      l'.foldl (fun o i => o.set i (f i)) (l.foldl (fun o i => o.set i (f i)) o) =
        l.foldl (fun o i => o.set i (f i)) o := by
  intro l'
  induction l' with
  | nil => intro _; rfl
  | cons i rest ih =>
    intro h
    simp only [List.foldl_cons]
    rw [foldl_set_noop f l o i (h i (List.mem_cons_self _ _))]
    exact ih (fun j hj => h j (List.mem_cons_of_mem _ hj))

/-- Writing the same results twice is the same as writing them once. -/
theorem Node.newOutputs_idem (pf : Platform) (p : Node) (in0 in1 : Mat) (o : List Mat) :
    Node.newOutputs pf p in0 in1 (Node.newOutputs pf p in0 in1 o) =
      Node.newOutputs pf p in0 in1 o := by
  unfold Node.newOutputs
  cases p.kind <;> simp only [List.set_set]
  exact foldl_set_idem _ _ _ _ (fun i hi => hi)

/-- Running the callback of a ready node a second time, with the same upstream
results, leaves its output slots as they are. -/
theorem Node.processSelf_idem (pf : Platform) (s t : State) (node : NodePtr) (n : Node)
    (hn : s.node? node = some n) (ht : t.node? node = some (Node.processSelf pf s node n))
    (hready : Node.isReady s node = true) (hsame : s.SameInputs t n)
    (hkind : (Node.processSelf pf s node n).kind = n.kind)
    (hconn : (Node.processSelf pf s node n).inputConnectors_ = n.inputConnectors_)
    (horig : (Node.processSelf pf s node n).originalImage_ = n.originalImage_) :
    (Node.processSelf pf t node (Node.processSelf pf s node n)).outputImages_ =
      (Node.processSelf pf s node n).outputImages_ := by
  have hready' : Node.isReady t node = true := by
    unfold Node.isReady at hready ⊢
    rw [ht]
    rw [hn] at hready
    simp only at hready ⊢
    rw [Node.isReadyObject_congr hkind hconn horig hsame]
    exact hready
  rw [Node.processSelf_outputImages_ pf t node _ ht hready',
    Node.processSelf_parameters, Node.inputImage_congr hconn hsame 0,
    Node.inputImage_congr hconn hsame 1, Node.processSelf_outputImages_ pf s node n hn hready,
    Node.newOutputs_idem]

theorem Node.parameters_fields {n m : Node} (h : m.parameters = n.parameters) :
    m.kind = n.kind ∧ m.inputConnectors_ = n.inputConnectors_ ∧
      m.outputConnectors_ = n.outputConnectors_ ∧ m.originalImage_ = n.originalImage_ := by
  unfold Node.parameters at h
  cases n
  cases m
  simp_all

/-! ## The results held after `processAll` -/

theorem GraphManager.processNodes_cons (pf : Platform) (a : NodePtr) (rest : List NodePtr)
    (s : State) (c : List NodePtr) :
    GraphManager.processNodes pf (a :: rest) (s, c) =
      if Node.isDirty s a then
        GraphManager.processNodes pf rest (Node.process pf s a, c ++ [a])
      else GraphManager.processNodes pf rest (s, c) := by
  rw [GraphManager.processNodes]

/-- The call log only grows. -/
theorem GraphManager.processNodes_calls_mono (pf : Platform) (l : List NodePtr) :
    ∀ (s : State) (c : List NodePtr) (x : NodePtr), x ∈ c →
      x ∈ (GraphManager.processNodes pf l (s, c)).2 := by
  induction l with
  | nil => intro s c x hx; exact hx
  | cons a rest ih =>
    intro s c x hx
    rw [GraphManager.processNodes_cons]
    split
    · exact ih _ _ x (List.mem_append_left _ hx)
    · exact ih _ _ x hx

/-- A node that is not on the list is left as it is. -/
theorem GraphManager.processNodes_node?_of_not_mem (pf : Platform) (l : List NodePtr) :
    ∀ (s : State) (c : List NodePtr) (m : NodePtr), m ∉ l →
      (GraphManager.processNodes pf l (s, c)).1.node? m = s.node? m := by
  induction l with
  | nil => intro s c m _; rfl
  | cons a rest ih =>
    intro s c m hm
    have hma : m ≠ a := fun h => hm (h ▸ List.mem_cons_self _ _)
    have hmr : m ∉ rest := fun h => hm (List.mem_cons_of_mem _ h)
    rw [GraphManager.processNodes_cons]
    split
    · rw [ih _ _ m hmr, Node.process_node?_of_ne pf s a m hma]
    · exact ih _ _ m hmr

/-- A node whose callback is not invoked is left as it is. -/
theorem GraphManager.processNodes_node?_of_not_called (pf : Platform) (l : List NodePtr) :
    ∀ (s : State) (c : List NodePtr) (m : NodePtr),
      m ∉ (GraphManager.processNodes pf l (s, c)).2 →
      (GraphManager.processNodes pf l (s, c)).1.node? m = s.node? m := by
  induction l with
  | nil => intro s c m _; rfl
  | cons a rest ih =>
    intro s c m hm
    rw [GraphManager.processNodes_cons] at hm ⊢
    split at hm
    · next hd =>
      rw [if_pos hd]
      have hma : m ≠ a := by
        rintro rfl
        apply hm
        apply GraphManager.processNodes_calls_mono
        simp
      rw [ih _ _ m hm, Node.process_node?_of_ne pf s a m hma]
    · next hd =>
      rw [if_neg hd]
      exact ih _ _ m hm

/-- Callbacks change nothing that the pixel algorithms read, and no connector. -/
theorem GraphManager.processNodes_parameters (pf : Platform) (l : List NodePtr) :
    ∀ (s : State) (c : List NodePtr) (m : NodePtr),
      ((GraphManager.processNodes pf l (s, c)).1.node? m).map Node.parameters =
        (s.node? m).map Node.parameters := by
  induction l with
  | nil => intro s c m; rfl
  | cons a rest ih =>
    intro s c m
    rw [GraphManager.processNodes_cons]
    split
    · rw [ih]
      by_cases hma : m = a
      · subst hma
        rw [Node.process_node?_self]
        cases s.node? m with
        | none => rfl
        | some r =>
          simp only [Option.map_some']
          rw [Node.processSelf_parameters]
      · rw [Node.process_node?_of_ne pf s a m hma]
    · exact ih _ _ m

/-- A node in the call log was dirty when its turn came; the pass splits there. -/
theorem GraphManager.processNodes_split (pf : Platform) (l : List NodePtr) :
    ∀ (s : State) (c : List NodePtr) (n : NodePtr), n ∉ c →
      n ∈ (GraphManager.processNodes pf l (s, c)).2 →
      ∃ (pre post : List NodePtr) (sk : State) (ck : List NodePtr),
        l = pre ++ n :: post ∧ GraphManager.processNodes pf pre (s, c) = (sk, ck) ∧
        Node.isDirty sk n = true ∧
        GraphManager.processNodes pf l (s, c) =
          GraphManager.processNodes pf post (Node.process pf sk n, ck ++ [n]) := by
  induction l with
  | nil => intro s c n hn h; exact absurd h hn
  | cons a rest ih =>
    intro s c n hn h
    by_cases hd : Node.isDirty s a = true
    · by_cases han : a = n
      · subst han
        refine ⟨[], rest, s, c, rfl, rfl, hd, ?_⟩
        rw [GraphManager.processNodes_cons, if_pos hd]
      · rw [GraphManager.processNodes_cons, if_pos hd] at h
        have hn' : n ∉ c ++ [a] := by
          intro hm
          rcases List.mem_append.1 hm with h1 | h1
          · exact hn h1
          · exact han (List.mem_singleton.1 h1).symm
        obtain ⟨pre, post, sk, ck, h1, h2, h3, h4⟩ := ih _ _ n hn' h
        refine ⟨a :: pre, post, sk, ck, ?_, ?_, h3, ?_⟩
        · rw [h1]; rfl
        · rw [GraphManager.processNodes_cons, if_pos hd]; exact h2
        · rw [GraphManager.processNodes_cons, if_pos hd]; exact h4
    · rw [GraphManager.processNodes_cons, if_neg hd] at h
      obtain ⟨pre, post, sk, ck, h1, h2, h3, h4⟩ := ih _ _ n hn h
      refine ⟨a :: pre, post, sk, ck, ?_, ?_, h3, ?_⟩
      · rw [h1]; rfl
      · rw [GraphManager.processNodes_cons, if_neg hd]; exact h2
      · rw [GraphManager.processNodes_cons, if_neg hd]; exact h4

/-- A connection found on an input connector of a node is an edge of the graph
that ends in this node. -/
theorem State.upstream_edge (s : State) (hagree : s.PortsAgree) (htyped : s.EdgesTyped)
    (n : NodePtr) (r : Node) (hn : s.node? n = some r) (k : NodeConnector)
    (hk : k ∈ r.inputConnectors_) (c : Connection) (hc : c ∈ k.connections_) :
    c ∈ s.connections_ ∧ c.destination_.parent_ = n := by
  obtain ⟨i, hi⟩ := List.getElem?_of_mem hk
  have hkk : s.connector? ⟨n, ConnectorType.Input, i⟩ = some k := by
    unfold State.connector?
    simp only [hn]
    exact hi
  have hg : c ∈ s.getConnections ⟨n, ConnectorType.Input, i⟩ := by
    unfold State.getConnections
    rw [hkk]
    exact hc
  obtain ⟨hmem, hends⟩ := hagree.2 _ (State.mem_connectorPtrs hkk) c hg
  refine ⟨hmem, ?_⟩
  rcases hends with h | h
  · have ht := (htyped c hmem).1
    rw [h] at ht
    exact ConnectorType.noConfusion ht
  · rw [h]

/-- In a list without repetition, what comes before `n` is not `n` and does not
come after it. -/
theorem Before.not_mem_tail {pre post : List NodePtr} {u n : NodePtr}
    (hnd : (pre ++ n :: post).Nodup) (hb : Before (pre ++ n :: post) u n) :
    u ≠ n ∧ u ∉ post := by
  obtain ⟨i, j, hij, hi, hj⟩ := hb
  have hjlt : j < (pre ++ n :: post).length := (List.getElem?_eq_some_iff.1 hj).1
  have hilt : i < (pre ++ n :: post).length := Nat.lt_trans hij hjlt
  have hn : (pre ++ n :: post)[pre.length]? = some n := by
    rw [List.getElem?_append_right (Nat.le_refl _), Nat.sub_self, List.getElem?_cons_zero]
  have hjp : j = pre.length := List.getElem?_inj hjlt hnd (hj.trans hn.symm)
  have key : ∀ m : Nat, pre.length ≤ m → (pre ++ n :: post)[m]? = some u → False := by
    intro m hm hmu
    have him : i = m := List.getElem?_inj hilt hnd (hi.trans hmu.symm)
    omega
  constructor
  · rintro rfl
    exact key pre.length (Nat.le_refl _) hn
  · intro hu
    obtain ⟨m, hm⟩ := List.getElem?_of_mem hu
    apply key (pre.length + 1 + m) (by omega)
    rw [List.getElem?_append_right (by omega)]
    have : pre.length + 1 + m - pre.length = m + 1 := by omega
    rw [this, List.getElem?_cons_succ]
    exact hm

theorem State.Acyclic.congr {s t : State} (h : t.connections_ = s.connections_)
    (hac : s.Acyclic) : t.Acyclic := by
  unfold State.Acyclic State.NodeEdge at hac ⊢
  rw [h]
  exact hac

/-! ## Edge records that are out of range -/

theorem toInt32_of_lt (n : Nat) (h : n < 2 ^ 31) : toInt32 n = (n : Int) := by
  unfold toInt32
  have hm : n % 2 ^ 32 = n := Nat.mod_eq_of_lt (by omega)
  simp only [hm]
  rw [if_pos h]

/-- An edge record that is not in range leaves the state as it is; the stream
is advanced past the record. -/
theorem GraphManager.readConnection_of_not_inRange (s : State) (hfit : s.SizesFit)
    (bs : List Nat) (hbad : ¬ (getEdgeRecord bs).1.InRange s) :
    GraphManager.readConnection s bs = (s, (getEdgeRecord bs).2) := by
  unfold GraphManager.readConnection
  simp only []
  split
  · rfl
  · next hA =>
    rw [toInt32_of_lt _ hfit.1] at hA
    split
    · next sourceNode destNode h1 h2 =>
      split
      · next sn dn h3 h4 =>
        have hs := hfit.2 sourceNode (List.getElem?_mem h1) sn h3
        have hd := hfit.2 destNode (List.getElem?_mem h2) dn h4
        split
        · rfl
        · next hB =>
          rw [toInt32_of_lt _ hs.1, toInt32_of_lt _ hd.2] at hB
          exfalso
          apply hbad
          have e1 : s.nodeAt? (getI32 bs).1 = some sn := by
            unfold State.nodeAt?
            rw [if_neg (by omega), h1]
            exact h3
          have e2 : s.nodeAt? (getI32 (getI32 (getI32 bs).2).2).1 = some dn := by
            unfold State.nodeAt?
            rw [if_neg (by omega), h2]
            exact h4
          unfold EdgeRecord.InRange getEdgeRecord
          simp only []
          refine ⟨by omega, by omega, by omega, by omega, sn, dn, e1, e2,
            by omega, by omega, by omega, by omega⟩
      · rfl
    · rfl

/-- A file with the magic tag and version 1 is loaded with success, whatever
follows the header, when the call of `clear()` is defined. -/
theorem GraphManager.loadFromFile_fst (pf : Platform) (s : State) (filePath : String)
    (bs : List Nat) (hmagic : (getQString bs).1 = QString.fromStdString "NIP")
    (hversion : (getU32 (getQString bs).2).1 = 1) (hclear : GraphManager.clearDefined s) :
    (GraphManager.loadFromFile pf s filePath (some bs)).map Prod.fst = some true := by
  unfold GraphManager.loadFromFile
  simp only [hmagic, hversion, ne_eq, not_true_eq_false, if_false]
  rw [GraphManager.clear_eq_some s hclear]
  rfl

theorem GraphManager.fileHeader_magic (rest : List Nat) :
    (getQString (GraphManager.fileHeader ++ rest)).1 = QString.fromStdString "NIP" ∧
    (getU32 (getQString (GraphManager.fileHeader ++ rest)).2).1 = 1 ∧
    (getU32 (getQString (GraphManager.fileHeader ++ rest)).2).2 = rest := by
  unfold GraphManager.fileHeader
  rw [List.append_assoc, getQString_magic, getU32_putU32]
  exact ⟨rfl, rfl, rfl⟩

/-- C19: an edge record whose source or destination node index lies outside
`[0, number of loaded nodes)`, or whose port ordinal lies outside the output
ports of the source node or the input ports of the destination node, creates no
edge and changes nothing; the loop of `readConnections` goes on with the records
behind it, and `loadFromFile` returns success whatever follows the header (in
every state in which its call of `clear()` is defined, so that the records are
reached). -/
theorem readConnections_skips_out_of_range (s : State) (hfit : s.SizesFit) (bs : List Nat)
    (hbad : ¬ (getEdgeRecord bs).1.InRange s) :
    (GraphManager.readConnection s bs).1 = s ∧
    (∀ count : Nat, GraphManager.readConnectionsLoop (count + 1) s bs =
      GraphManager.readConnectionsLoop count s (getEdgeRecord bs).2) ∧
    (∀ (pf : Platform) (t : State) (filePath : String) (rest : List Nat),
      GraphManager.clearDefined t →
      (GraphManager.loadFromFile pf t filePath
        (some (GraphManager.fileHeader ++ rest))).map Prod.fst = some true) := by
  have h := GraphManager.readConnection_of_not_inRange s hfit bs hbad
  refine ⟨by rw [h], ?_, ?_⟩
  · intro count
    show GraphManager.readConnectionsLoop count (GraphManager.readConnection s bs).1
      (GraphManager.readConnection s bs).2 = _
    rw [h]
  · intro pf t filePath rest hclear
    obtain ⟨h1, h2, -⟩ := GraphManager.fileHeader_magic rest
    exact GraphManager.loadFromFile_fst pf t filePath _ h1 h2 hclear

theorem readConnections_skips_out_of_range_witness :
    exampleChain.SizesFit ∧ ¬ (getEdgeRecord exampleBadRecord).1.InRange exampleChain ∧
    ((GraphManager.readConnection exampleChain exampleBadRecord).1 = exampleChain ∧
    (∀ count : Nat, GraphManager.readConnectionsLoop (count + 1) exampleChain exampleBadRecord =
      GraphManager.readConnectionsLoop count exampleChain (getEdgeRecord exampleBadRecord).2) ∧
    (∀ (pf : Platform) (t : State) (filePath : String) (rest : List Nat),
      GraphManager.clearDefined t →
      (GraphManager.loadFromFile pf t filePath
        (some (GraphManager.fileHeader ++ rest))).map Prod.fst = some true)) :=
  ⟨by decide, fun h => absurd h.2.1 (by decide),
    readConnections_skips_out_of_range exampleChain (by decide) exampleBadRecord
      (fun h => absurd h.2.1 (by decide))⟩

/-! ## Loading replaces the graph -/

theorem State.modifyConnector_heap_length (s : State) (c : ConnectorPtr)
    (f : List Connection → List Connection) :
    (s.modifyConnector c f).heap.length = s.heap.length :=
  State.modifyNode_heap_length _ _ _

theorem NodeConnector.destroyLoop_heap_length (fuel : Nat) (c : ConnectorPtr) :
    ∀ s : State, (NodeConnector.destroyLoop fuel c s).heap.length = s.heap.length := by
  induction fuel with
  | zero => intro s; rfl
  | succ fuel ih =>
    intro s
    unfold NodeConnector.destroyLoop
    split
    · rfl
    · simp only
      rw [ih, State.modifyConnector_heap_length]
      split <;> exact State.modifyConnector_heap_length _ _ _

theorem NodeConnector.destroyAll_heap_length (node : NodePtr) (t : ConnectorType)
    (l : List Nat) :
    ∀ s : State,
      (l.foldl (fun st i => NodeConnector.destroy st ⟨node, t, i⟩) s).heap.length =
        s.heap.length := by
  induction l with
  | nil => intro s; rfl
  | cons i rest ih =>
    intro s
    simp only [List.foldl_cons]
    rw [ih]
    exact NodeConnector.destroyLoop_heap_length _ _ _

theorem Node.delete_heap_length (s : State) (node : NodePtr) :
    (Node.delete s node).heap.length = s.heap.length := by
  unfold Node.delete
  split
  · rfl
  · simp only [List.length_set]
    rw [NodeConnector.destroyAll_heap_length, NodeConnector.destroyAll_heap_length]

theorem GraphManager.clear_fold_heap_length (l : List NodePtr) :
    ∀ s : State, (l.foldl (fun st node => Node.delete st node) s).heap.length =
      s.heap.length := by
  induction l with
  | nil => intro s; rfl
  | cons a rest ih =>
    intro s
    simp only [List.foldl_cons]
    rw [ih, Node.delete_heap_length]

theorem GraphManager.clear_heap_length (s : State) :
    (GraphManager.clearBody s).heap.length = s.heap.length := by
  unfold GraphManager.clearBody
  simp only
  rw [GraphManager.clear_fold_heap_length]
  unfold GraphManager.selectNode
  split <;> rfl

theorem Node.loadImage_heap_length (pf : Platform) (s : State) (node : NodePtr)
    (filePath : String) :
    (Node.loadImage pf s node filePath).2.heap.length = s.heap.length := by
  unfold Node.loadImage
  simp only
  split
  · rfl
  · simp [Node.process]

theorem GraphManager.addNode_heap_length (s : State) (node : Option NodePtr) :
    (GraphManager.addNode s node).heap.length = s.heap.length := by
  unfold GraphManager.addNode
  cases node with
  | none => rfl
  | some node =>
    simp only
    split
    · rfl
    · split <;> simp

theorem GraphManager.finishNode_heap_length (s : State) (node : NodePtr) (nodeName : QString)
    (position : Int × Int) :
    (GraphManager.finishNode s node nodeName position).heap.length = s.heap.length := by
  unfold GraphManager.finishNode
  rw [GraphManager.addNode_heap_length]
  simp [Node.setPosition, Node.setName]

/-- Every node that one node record puts on the node list is allocated while
the record is read. -/
theorem GraphManager.readNode_fresh (pf : Platform) (s : State) (bs : List Nat) (L : Nat)
    (hL : L ≤ s.heap.length) (hnodes : ∀ p ∈ s.nodes_, L ≤ p) :
    L ≤ (GraphManager.readNode pf s bs).1.heap.length ∧
    ∀ p ∈ (GraphManager.readNode pf s bs).1.nodes_, L ≤ p := by
  have hnew : ∀ kind, (s.newNode kind).2.heap.length = s.heap.length + 1 := by
    intro kind; simp [State.newNode]
  have hnewn : ∀ kind, (s.newNode kind).2.nodes_ = s.nodes_ := fun _ => rfl
  have hnew1 : ∀ kind, (s.newNode kind).1 = s.heap.length := fun _ => rfl
  have hmem : ∀ (t : State) (q : NodePtr), t.nodes_ = s.nodes_ → L ≤ q →
      ∀ p ∈ t.nodes_ ++ [q], L ≤ p := by
    intro t q ht hq p hp
    rcases List.mem_append.1 hp with h | h
    · exact hnodes p (ht ▸ h)
    · rw [List.mem_singleton.1 h]; exact hq
  unfold GraphManager.readNode
  simp only
  split
  · rw [GraphManager.finishNode_heap_length, GraphManager.finishNode_nodes_]
    split
    · rw [Node.loadImage_heap_length, hnew]
      refine ⟨by omega, hmem _ _ ?_ (by rw [hnew1]; exact hL)⟩
      rw [Node.loadImage_nodes_, hnewn]
    · rw [hnew]
      exact ⟨by omega, hmem _ _ (hnewn _) (by rw [hnew1]; exact hL)⟩
  · split
    · rw [GraphManager.finishNode_heap_length, GraphManager.finishNode_nodes_, hnew]
      exact ⟨by omega, hmem _ _ (hnewn _) (by rw [hnew1]; exact hL)⟩
    · split
      · split
        · rw [GraphManager.finishNode_heap_length, GraphManager.finishNode_nodes_]
          refine ⟨?_, hmem _ _ ?_ (by rw [hnew1]; exact hL)⟩
          · simp only [Node.setContrast, Node.setBrightness, State.modifyNode_heap_length]
            rw [hnew]; omega
          · simp only [Node.setContrast, Node.setBrightness, State.modifyNode_nodes_]
            exact hnewn _
        · exact ⟨hL, hnodes⟩
      · exact ⟨hL, hnodes⟩

theorem GraphManager.readNodesLoop_fresh (pf : Platform) (L : Nat) (count : Nat) :
    ∀ (s : State) (bs : List Nat), L ≤ s.heap.length → (∀ p ∈ s.nodes_, L ≤ p) →
      ∀ p ∈ (GraphManager.readNodesLoop pf count s bs).1.nodes_, L ≤ p := by
  induction count with
  | zero => intro s bs _ h; exact h
  | succ count ih =>
    intro s bs hL h
    unfold GraphManager.readNodesLoop
    obtain ⟨h1, h2⟩ := GraphManager.readNode_fresh pf s bs L hL h
    exact ih _ _ h1 h2

/-- The state produced by `loadFromFile` from a file with a valid header, when
the call of `clear()` is defined. -/
theorem GraphManager.loadFromFile_header (pf : Platform) (s : State) (filePath : String)
    (rest : List Nat) (hclear : GraphManager.clearDefined s) :
    GraphManager.loadFromFile pf s filePath (some (GraphManager.fileHeader ++ rest)) =
      some (true,
        { GraphManager.processAll pf
            (GraphManager.readConnections
              (GraphManager.readNodes pf (GraphManager.clearBody s) rest).1
              (GraphManager.readNodes pf (GraphManager.clearBody s) rest).2).1 with
          currentFilePath_ := filePath, dirty_ := false }) := by
  obtain ⟨h1, h2, h3⟩ := GraphManager.fileHeader_magic rest
  unfold GraphManager.loadFromFile
  simp only [h1, h2, h3, ne_eq, not_true_eq_false, if_false]
  rw [GraphManager.clear_eq_some s hclear]

/-- A file with a valid header, loaded in a state in which the call of `clear()`
is not defined: the call has no result. -/
theorem GraphManager.loadFromFile_header_undefined (pf : Platform) (s : State)
    (filePath : String) (rest : List Nat) (hclear : ¬ GraphManager.clearDefined s) :
    GraphManager.loadFromFile pf s filePath (some (GraphManager.fileHeader ++ rest)) =
      none := by
  obtain ⟨h1, h2, h3⟩ := GraphManager.fileHeader_magic rest
  unfold GraphManager.loadFromFile
  simp only [h1, h2, h3, ne_eq, not_true_eq_false, if_false]
  rw [GraphManager.clear_eq_none s hclear]

theorem GraphManager.loadFromFile_header_nodes_ (pf : Platform) (s : State)
    (filePath : String) (rest : List Nat) :
    ({ GraphManager.processAll pf
        (GraphManager.readConnections
          (GraphManager.readNodes pf (GraphManager.clearBody s) rest).1
          (GraphManager.readNodes pf (GraphManager.clearBody s) rest).2).1 with
      currentFilePath_ := filePath, dirty_ := false } : State).nodes_ =
      (GraphManager.readNodes pf (GraphManager.clearBody s) rest).1.nodes_ := by
  show (GraphManager.processAll pf _).nodes_ = _
  rw [GraphManager.processAll_nodes_]
  unfold GraphManager.readConnections
  rw [GraphManager.readConnectionsLoop_nodes_]

theorem State.Distinct.nodup_ports {s : State} (h : s.Distinct) (p : ConnectorPtr) :
    (s.getConnections p).Nodup := by
  cases hl : s.getConnections p with
  | nil => exact List.nodup_nil
  | cons c l =>
    rw [← hl]
    apply h.2 p
    apply State.getConnections_ne_nil_mem (c := c)
    rw [hl]
    exact List.mem_cons_self _ _

theorem Node.isDirty_modifyConnector (s : State) (c : ConnectorPtr)
    (f : List Connection → List Connection) (q : NodePtr) :
    Node.isDirty (s.modifyConnector c f) q = Node.isDirty s q := by
  unfold Node.isDirty State.modifyConnector
  rw [State.node?_modifyNode]
  by_cases hq : q = c.parent_
  · rw [hq, if_pos rfl]
    cases hn : s.node? c.parent_ with
    | none => rfl
    | some n =>
      simp only [Option.map_some']
      unfold Node.setConnectors
      cases c.type_ <;> rfl
  · rw [if_neg hq]

theorem Node.isDirty_markDirty (s : State) (p q : NodePtr) :
    Node.isDirty (Node.markDirty s p) q =
      if q = p ∧ (s.node? p).isSome then true else Node.isDirty s q := by
  unfold Node.isDirty Node.markDirty
  rw [State.node?_modifyNode]
  by_cases hq : q = p
  · subst hq
    cases s.node? q with
    | none => simp
    | some n => simp
  · simp [hq]

theorem Node.isDirty_congr {s t : State} (h : s.heap = t.heap) (q : NodePtr) :
    Node.isDirty s q = Node.isDirty t q := by
  unfold Node.isDirty
  rw [State.node?_congr h]

theorem State.node?_isSome_modifyConnector (s : State) (c : ConnectorPtr)
    (f : List Connection → List Connection) (q : NodePtr) :
    ((s.modifyConnector c f).node? q).isSome = (s.node? q).isSome := by
  unfold State.modifyConnector
  rw [State.node?_modifyNode]
  by_cases hq : q = c.parent_
  · rw [hq, if_pos rfl]
    cases hn : s.node? c.parent_ <;> rfl
  · rw [if_neg hq]

theorem State.node?_isSome_of_mem_getConnections {s : State} {p : ConnectorPtr}
    {c : Connection} (h : c ∈ s.getConnections p) : (s.node? p.parent_).isSome := by
  unfold State.getConnections State.connector? at h
  cases hn : s.node? p.parent_ with
  | none => simp [hn] at h
  | some n => rfl

theorem GraphManager.disconnect_nodes_ (s : State) (connection : Option Connection) :
    (GraphManager.disconnect s connection).nodes_ = s.nodes_ := by
  cases connection with
  | none => rfl
  | some c =>
    by_cases hc : c ∈ s.connections_
    · rw [GraphManager.disconnect_of_mem s c hc]
      exact (GraphManager.disconnect_heapOnly s c).nodes_
    · unfold GraphManager.disconnect
      simp only [hc, if_false]

/-- The dirty flags after `disconnect` of an edge of the edge list. -/
theorem GraphManager.isDirty_disconnect (s : State) (c : Connection)
    (hc : c ∈ s.connections_) (q : NodePtr) :
    Node.isDirty (GraphManager.disconnect s (some c)) q =
      if q = c.destination_.parent_ ∧ (s.node? c.destination_.parent_).isSome then true
      else Node.isDirty s q := by
  rw [GraphManager.disconnect_of_mem s c hc]
  refine (Node.isDirty_congr (t := Node.markDirty
      (NodeConnector.removeConnection (NodeConnector.removeConnection s c.source_ c)
        c.destination_ c) c.destination_.parent_) rfl q).trans ?_
  rw [Node.isDirty_markDirty]
  unfold NodeConnector.removeConnection
  rw [State.node?_isSome_modifyConnector, State.node?_isSome_modifyConnector,
    Node.isDirty_modifyConnector, Node.isDirty_modifyConnector]

/-- The port lists after `disconnect` of an edge of the edge list. -/
theorem GraphManager.getConnections_disconnect_erase (s : State) (hdist : s.Distinct)
    (c : Connection) (hc : c ∈ s.connections_) (p : ConnectorPtr) :
    (GraphManager.disconnect s (some c)).getConnections p =
      if p = c.source_ ∨ p = c.destination_ then (s.getConnections p).erase c
      else s.getConnections p := by
  rw [GraphManager.getConnections_disconnect s c hc,
    NodeConnector.getConnections_removeConnection,
    NodeConnector.getConnections_removeConnection,
    NodeConnector.getConnections_removeConnection]
  by_cases hd : p = c.destination_
  · subst hd
    by_cases hs : c.destination_ = c.source_
    · rw [if_pos rfl, if_pos hs, if_pos (Or.inl hs), ← hs]
      apply List.erase_of_not_mem
      exact (hdist.nodup_ports _).not_mem_erase
    · rw [if_pos rfl, if_neg hs, if_pos (Or.inr rfl)]
  · by_cases hs : p = c.source_
    · rw [if_neg hd, if_pos hs, if_pos (Or.inl hs), hs]
    · rw [if_neg hd, if_neg hs, if_neg (by tauto)]

/-- C20: `disconnect(e)` for an edge `e` of the edge list removes `e` from the
edge list, from the list of its source port and from the list of its destination
port, and marks the destination node dirty; the other edges keep their places,
the list of every other port, the node list and the dirty flag of every other
node are unchanged. -/
theorem disconnect_frame (s : State) (hagree : s.PortsAgree) (hdist : s.Distinct)
    (hnd : s.connections_.Nodup) (e : Connection) (he : e ∈ s.connections_) :
    ((GraphManager.disconnect s (some e)).connections_ = s.connections_.erase e ∧
      e ∉ (GraphManager.disconnect s (some e)).connections_) ∧
    (∀ p : ConnectorPtr, (GraphManager.disconnect s (some e)).getConnections p =
        if p = e.source_ ∨ p = e.destination_ then (s.getConnections p).erase e
        else s.getConnections p) ∧
    (∀ p : ConnectorPtr, e ∉ (GraphManager.disconnect s (some e)).getConnections p) ∧
    (GraphManager.disconnect s (some e)).nodes_ = s.nodes_ ∧
    Node.isDirty (GraphManager.disconnect s (some e)) e.destination_.parent_ = true ∧
    ∀ q : NodePtr, q ≠ e.destination_.parent_ →
      Node.isDirty (GraphManager.disconnect s (some e)) q = Node.isDirty s q := by
  have hconn : (GraphManager.disconnect s (some e)).connections_ = s.connections_.erase e := by
    rw [GraphManager.disconnect_of_mem s e he]
  refine ⟨⟨hconn, ?_⟩, GraphManager.getConnections_disconnect_erase s hdist e he, ?_,
    GraphManager.disconnect_nodes_ s _, ?_, ?_⟩
  · rw [hconn]
    exact hnd.not_mem_erase
  · intro p
    rw [GraphManager.getConnections_disconnect_erase s hdist e he]
    split
    · exact (hdist.nodup_ports p).not_mem_erase
    · next hp =>
      intro hmem
      have := (hagree.2 p (State.getConnections_ne_nil_mem hmem) e hmem).2
      rcases this with h | h
      · exact hp (Or.inl h.symm)
      · exact hp (Or.inr h.symm)
  · rw [GraphManager.isDirty_disconnect s e he, if_pos]
    exact ⟨rfl, State.node?_isSome_of_mem_getConnections (hagree.1 e he).2⟩
  · intro q hq
    rw [GraphManager.isDirty_disconnect s e he, if_neg]
    exact fun h => hq h.1

theorem disconnect_frame_witness :
    exampleProcessed.PortsAgree ∧ exampleProcessed.Distinct ∧
    exampleProcessed.connections_.Nodup ∧
    (⟨0, ⟨0, .Output, 0⟩, ⟨1, .Input, 0⟩⟩ : Connection) ∈ exampleProcessed.connections_ ∧
    Node.isDirty exampleProcessed 1 = false ∧
    (GraphManager.disconnect exampleProcessed
      (some ⟨0, ⟨0, .Output, 0⟩, ⟨1, .Input, 0⟩⟩)).connections_ = [] ∧
    Node.isDirty (GraphManager.disconnect exampleProcessed
      (some ⟨0, ⟨0, .Output, 0⟩, ⟨1, .Input, 0⟩⟩)) 1 = true :=
  ⟨by decide, by decide, by decide, by decide, by decide,
    (disconnect_frame exampleProcessed (by decide) (by decide) (by decide)
      ⟨0, ⟨0, .Output, 0⟩, ⟨1, .Input, 0⟩⟩ (by decide)).1.1,
    (disconnect_frame exampleProcessed (by decide) (by decide) (by decide)
      ⟨0, ⟨0, .Output, 0⟩, ⟨1, .Input, 0⟩⟩ (by decide)).2.2.2.2.1⟩

/-! ## The default readiness predicate -/

theorem Node.isReadyObject_default (s : State) (n : Node)
    (hinput : n.kind ≠ NodeKind.InputNode) (hblend : n.kind ≠ NodeKind.BlendNode) :
    Node.isReadyObject s n = Node.isReadyDefault s n := by
  unfold Node.isReadyObject
  cases hk : n.kind <;> first | rfl | exact absurd hk hinput | exact absurd hk hblend

/-- The default `Node::isReady` asks, for every input connector, for at least one
connection and for a non-empty source image behind every connection. -/
theorem Node.isReadyDefault_iff (s : State) (n : Node) :
    Node.isReadyDefault s n = true ↔
      ∀ k ∈ n.inputConnectors_, k.connections_ ≠ [] ∧
        ∀ c ∈ k.connections_,
          Node.getOutputImage s c.source_.parent_ c.source_.index_ ≠ [] := by
  unfold Node.isReadyDefault
  simp only [List.all_eq_true, Bool.and_eq_true, Bool.not_eq_true', List.isEmpty_eq_false,
    ne_eq]

/-! ## What the processing order depends on -/

theorem relaxNeighbors_queue (l : List NodePtr) :
    ∀ (inDeg : NodePtr → Int) (q : List NodePtr),
      ∃ new, (relaxNeighbors l inDeg q).2 = q ++ new := by
  induction l with
  | nil => intro inDeg q; exact ⟨[], (List.append_nil q).symm⟩
  | cons nb rest ih =>
    intro inDeg q
    unfold relaxNeighbors
    simp only
    split
    · obtain ⟨new, h⟩ := ih (Function.update inDeg nb (inDeg nb - 1)) (q ++ [nb])
      exact ⟨nb :: new, by rw [h]; simp⟩
    · exact ih _ _

/-- The queue is first-in-first-out: what is in the queue, in its order, comes
out right behind what was emitted before. -/
theorem kahnLoop_prefix (graph : NodePtr → List NodePtr) :
    ∀ (fuel : Nat) (queue : List NodePtr) (inDeg : NodePtr → Int)
      (result out : List NodePtr),
      kahnLoop graph fuel queue inDeg result = some out → result ++ queue <+: out := by
  intro fuel
  induction fuel with
  | zero => intro queue inDeg result out h; simp [kahnLoop] at h
  | succ fuel ih =>
    intro queue inDeg result out h
    cases queue with
    | nil =>
      simp only [kahnLoop, Option.some.injEq] at h
      subst h
      rw [List.append_nil]
    | cons current rest =>
      unfold kahnLoop at h
      simp only at h
      obtain ⟨new, hnew⟩ := relaxNeighbors_queue (graph current) inDeg rest
      rw [hnew] at h
      have := ih _ _ _ _ h
      obtain ⟨t, ht⟩ := this
      refine ⟨new ++ t, ?_⟩
      rw [← ht]
      simp

/-- Without edges the loop emits the queue as it is. -/
theorem kahnLoop_no_edges (graph : NodePtr → List NodePtr) (hg : ∀ u, graph u = []) :
    ∀ (fuel : Nat) (queue : List NodePtr) (inDeg : NodePtr → Int) (result : List NodePtr),
      queue.length < fuel → kahnLoop graph fuel queue inDeg result = some (result ++ queue) := by
  intro fuel
  induction fuel with
  | zero => intro queue inDeg result h; exact absurd h (Nat.not_lt_zero _)
  | succ fuel ih =>
    intro queue inDeg result h
    cases queue with
    | nil => simp [kahnLoop]
    | cons current rest =>
      unfold kahnLoop
      simp only [hg current, relaxNeighbors]
      rw [ih rest inDeg (result ++ [current]) (by simpa using h)]
      simp

theorem GraphManager.calculateProcessingOrder_no_edges (pf : Platform) (s : State)
    (hc : s.connections_ = []) :
    GraphManager.calculateProcessingOrder pf s = pf.mapOrder s.nodes_ := by
  have hg : ∀ u, s.graph u = [] := by
    intro u
    unfold State.graph
    rw [hc]
    rfl
  have hd : ∀ v, s.inDegree v = 0 := by
    intro v
    unfold State.inDegree
    rw [hc]
    rfl
  have hq : s.initialQueue pf = pf.mapOrder s.nodes_ := by
    unfold State.initialQueue State.inDegreeKeys
    rw [hc]
    simp [hd]
  unfold GraphManager.calculateProcessingOrder
  rw [kahnLoop_no_edges s.graph hg _ _ _ _ (by omega), hq]
  rfl

/-- C15 (amended): the result of `calculateProcessingOrder` is a function of the
node list, the edge list and the iteration order of the `unordered_map` that
holds the in-degrees: two graphs with the same node list and edge list yield the
same order; the initially ready nodes come first, in the iteration order of the
map, and the ready queue is first-in-first-out; for a graph with no edges the
order is the iteration order of the map over the node list. -/
theorem calculateProcessingOrder_deterministic (pf : Platform) (s t : State)
    (hn : t.nodes_ = s.nodes_) (hc : t.connections_ = s.connections_) :
    GraphManager.calculateProcessingOrder pf t = GraphManager.calculateProcessingOrder pf s ∧
    (pf.mapOrder s.inDegreeKeys).filter (fun k => s.inDegree k = 0) <+:
      GraphManager.calculateProcessingOrder pf s ∧
    GraphManager.calculateProcessingOrder pf { s with connections_ := [] } =
      pf.mapOrder s.nodes_ := by
  refine ⟨GraphManager.calculateProcessingOrder_congr pf hn hc, ?_,
    GraphManager.calculateProcessingOrder_no_edges pf _ rfl⟩
  obtain ⟨out, hout⟩ := GraphManager.kahnLoop_terminates pf s
  have hEq : GraphManager.calculateProcessingOrder pf s = out := by
    unfold GraphManager.calculateProcessingOrder
    rw [hout]
  rw [hEq]
  have := kahnLoop_prefix _ _ _ _ _ _ hout
  rw [List.nil_append] at this
  exact this

theorem calculateProcessingOrder_deterministic_witness :
    exampleLoaded.nodes_ = exampleChain.nodes_ ∧
    exampleLoaded.connections_ = exampleChain.connections_ ∧
    GraphManager.calculateProcessingOrder examplePlatform exampleLoaded =
      GraphManager.calculateProcessingOrder examplePlatform exampleChain :=
  ⟨by decide, by decide,
    (calculateProcessingOrder_deterministic examplePlatform exampleChain exampleLoaded
      (by decide) (by decide)).1⟩

theorem examplePlatformReversed_mapOrderOk : examplePlatformReversed.MapOrderOk := by
  intro keys
  exact ⟨List.nodup_reverse.2 (List.nodup_dedup keys),
    fun k => List.mem_reverse.trans List.mem_dedup⟩

/-- C15 (as stated) fails: with a map that is iterated from the last key to the
first, the order of the graph with the two unconnected nodes 0 and 1 is not the
node list. -/
theorem calculateProcessingOrder_not_insertion_order :
    examplePlatformReversed.MapOrderOk ∧
    exampleTwoNodes.nodes_ = [0, 1] ∧ exampleTwoNodes.connections_ = [] ∧
    GraphManager.calculateProcessingOrder examplePlatformReversed exampleTwoNodes = [1, 0] :=
  ⟨examplePlatformReversed_mapOrderOk, by decide⟩

/-! ## The processing order of a graph with a cycle -/

theorem Before.mem_left {l : List NodePtr} {u v : NodePtr} (h : Before l u v) : u ∈ l := by
  obtain ⟨i, _, _, hi, _⟩ := h
  exact List.getElem?_mem hi

theorem Before.mem_right {l : List NodePtr} {u v : NodePtr} (h : Before l u v) : v ∈ l := by
  obtain ⟨_, j, _, _, hj⟩ := h
  exact List.getElem?_mem hj

theorem Before.trans_nodup {l : List NodePtr} (hnd : l.Nodup) {a b c : NodePtr}
    (h1 : Before l a b) (h2 : Before l b c) : Before l a c := by
  obtain ⟨i, j, hij, hi, hj⟩ := h1
  obtain ⟨j', k, hjk, hj', hk⟩ := h2
  have hjlt : j < l.length := (List.getElem?_eq_some_iff.1 hj).1
  have hjj : j = j' := List.getElem?_inj hjlt hnd (hj.trans hj'.symm)
  exact ⟨i, k, by omega, hi, hk⟩

theorem Before.irrefl {l : List NodePtr} (hnd : l.Nodup) {a : NodePtr} :
    ¬ Before l a a := by
  rintro ⟨i, j, hij, hi, hj⟩
  have hilt : i < l.length := (List.getElem?_eq_some_iff.1 hi).1
  have : i = j := List.getElem?_inj hilt hnd (hi.trans hj.symm)
  omega

/-- The loop of `calculateProcessingOrder` on any graph, acyclic or not: no node
is emitted twice, and a node is emitted only behind the source node of every
edge that leads into it. -/
theorem kahnLoop_sound (s : State) (K : List NodePtr)
    (hK : ∀ c ∈ s.connections_, c.destination_.parent_ ∈ K) :
    ∀ (fuel : Nat) (queue : List NodePtr) (inDeg : NodePtr → Int)
      (result out : List NodePtr),
      kahnLoop s.graph fuel queue inDeg result = some out →
      (∀ v, inDeg v = s.pendingIn result v) →
      (result ++ queue).Nodup →
      (∀ v ∈ result ++ queue, inDeg v = 0) →
      (∀ v ∈ result ++ queue, v ∈ K) →
      (∀ c ∈ s.connections_, c.destination_.parent_ ∈ result →
        Before result c.source_.parent_ c.destination_.parent_) →
      out.Nodup ∧ (∀ v ∈ out, v ∈ K) ∧
        ∀ c ∈ s.connections_, c.destination_.parent_ ∈ out →
          Before out c.source_.parent_ c.destination_.parent_ := by
  intro fuel
  induction fuel with
  | zero => intro queue inDeg result out h; simp [kahnLoop] at h
  | succ fuel ih =>
    intro queue inDeg result out h J1 J2 J3 J5 J6
    cases queue with
    | nil =>
      simp only [kahnLoop, Option.some.injEq] at h
      subst h
      simp only [List.append_nil] at J2 J5
      exact ⟨J2, J5, J6⟩
    | cons current rest =>
      unfold kahnLoop at h
      simp only at h
      have hcur : current ∉ result := by
        intro hmem
        have := List.disjoint_of_nodup_append J2 hmem
        exact this (List.mem_cons_self _ _)
      have hpre : ∀ v, ((s.graph current).count v : Int) ≤ inDeg v := by
        intro v
        rw [J1 v, s.pendingIn_split result current v hcur]
        push_cast
        omega
      obtain ⟨h1, new, h2, h3, h4⟩ := relaxNeighbors_spec (s.graph current) inDeg rest hpre
      have J1' : ∀ v, (relaxNeighbors (s.graph current) inDeg rest).1 v =
          s.pendingIn (result ++ [current]) v := by
        intro v
        rw [h1 v, J1 v, s.pendingIn_split result current v hcur]
        push_cast
        omega
      have hnonneg : ∀ v, 0 ≤ (relaxNeighbors (s.graph current) inDeg rest).1 v := by
        intro v
        rw [J1' v]
        exact Int.natCast_nonneg _
      have hold : ∀ v ∈ result ++ current :: rest,
          (relaxNeighbors (s.graph current) inDeg rest).1 v = 0 := by
        intro v hv
        have hz := J3 v hv
        have hn := hnonneg v
        rw [h1 v, hz] at hn ⊢
        omega
      have hlist : (result ++ [current]) ++ (rest ++ new) =
          (result ++ current :: rest) ++ new := by
        simp
      have hnewdisj : ∀ v ∈ new, v ∉ result ++ current :: rest := by
        intro v hv hmem
        have hz := J3 v hmem
        have hmg : v ∈ s.graph current := ((h4 v).1 hv).1
        have hpos : 0 < (s.graph current).count v := List.count_pos_iff.2 hmg
        have := hpre v
        rw [hz] at this
        omega
      rw [h2] at h
      apply ih (rest ++ new) _ (result ++ [current]) out h J1'
      · rw [hlist]
        refine List.Nodup.append J2 h3 ?_
        intro v hv1 hv2
        exact hnewdisj v hv2 hv1
      · intro v hv
        rw [hlist] at hv
        rcases List.mem_append.1 hv with hv | hv
        · exact hold v hv
        · exact ((h4 v).1 hv).2
      · intro v hv
        rw [hlist] at hv
        rcases List.mem_append.1 hv with hv | hv
        · exact J5 v hv
        · obtain ⟨c, hc, _, rfl⟩ := State.mem_graph ((h4 v).1 hv).1
          exact hK c hc
      · intro c hc hdst
        rcases List.mem_append.1 hdst with hd | hd
        · exact (J6 c hc hd).append current
        · have hdc : c.destination_.parent_ = current := List.mem_singleton.1 hd
          have hz : s.pendingIn result current = 0 := by
            have := J3 current (List.mem_append_right _ (List.mem_cons_self _ _))
            rw [J1 current] at this
            exact_mod_cast this
          have hsrc := State.pendingIn_eq_zero hz c hc hdc
          rw [hdc]
          exact Before.last hsrc current

/-- The processing order of any graph: the loop ends within its fuel, no node is
listed twice, every listed node is a key of the in-degree map, and a node is
listed only behind the source node of every edge that leads into it. -/
theorem GraphManager.calculateProcessingOrder_sound (pf : Platform) (hpf : pf.MapOrderOk)
    (s : State) :
    kahnLoop s.graph ((s.initialQueue pf).length + s.connections_.length + 1)
      (s.initialQueue pf) s.inDegree [] = some (GraphManager.calculateProcessingOrder pf s) ∧
    (GraphManager.calculateProcessingOrder pf s).Nodup ∧
    (∀ v ∈ GraphManager.calculateProcessingOrder pf s, v ∈ s.inDegreeKeys) ∧
    ∀ c ∈ s.connections_,
      c.destination_.parent_ ∈ GraphManager.calculateProcessingOrder pf s →
      Before (GraphManager.calculateProcessingOrder pf s)
        c.source_.parent_ c.destination_.parent_ := by
  obtain ⟨out, hout⟩ := GraphManager.kahnLoop_terminates pf s
  have hEq : GraphManager.calculateProcessingOrder pf s = out := by
    unfold GraphManager.calculateProcessingOrder
    rw [hout]
  rw [hEq]
  refine ⟨hout, ?_⟩
  apply kahnLoop_sound s s.inDegreeKeys _ _ _ _ _ out hout
  · intro v
    exact s.inDegree_eq v
  · simp only [List.nil_append]
    exact (hpf s.inDegreeKeys).1.filter _
  · intro v hv
    simp only [List.nil_append] at hv
    simpa using (List.mem_filter.1 hv).2
  · intro v hv
    simp only [List.nil_append] at hv
    exact ((hpf s.inDegreeKeys).2 v).1 (List.mem_filter.1 hv).1
  · intro c _ hmem
    exact absurd hmem (List.not_mem_nil _)
  · intro c hc
    unfold State.inDegreeKeys
    exact List.mem_append_right _ (List.mem_map.2 ⟨c, hc, rfl⟩)

/-- A node that can be reached from itself along edges is never listed. -/
theorem GraphManager.calculateProcessingOrder_not_mem_of_cycle (pf : Platform)
    (hpf : pf.MapOrderOk) (s : State) (u : NodePtr)
    (hcyc : Relation.TransGen s.NodeEdge u u) :
    u ∉ GraphManager.calculateProcessingOrder pf s := by
  obtain ⟨-, hnd, -, hb⟩ := GraphManager.calculateProcessingOrder_sound pf hpf s
  have key : ∀ a b, Relation.TransGen s.NodeEdge a b →
      b ∈ GraphManager.calculateProcessingOrder pf s →
      Before (GraphManager.calculateProcessingOrder pf s) a b := by
    intro a b hab
    induction hab with
    | single h =>
      intro hmem
      obtain ⟨c, hc, rfl, rfl⟩ := h
      exact hb c hc hmem
    | tail _ h ih =>
      intro hmem
      obtain ⟨c, hc, rfl, rfl⟩ := h
      have hlast := hb c hc hmem
      exact (ih hlast.mem_left).trans_nodup hnd hlast
  intro hmem
  exact Before.irrefl hnd (key u u hcyc hmem)

/-- Every callback that `processAll` invokes belongs to a node of its list. -/
theorem GraphManager.processNodes_calls_sub (pf : Platform) (l : List NodePtr) :
    ∀ (s : State) (c : List NodePtr) (x : NodePtr),
      x ∈ (GraphManager.processNodes pf l (s, c)).2 → x ∈ c ∨ x ∈ l := by
  induction l with
  | nil => intro s c x hx; exact Or.inl hx
  | cons a rest ih =>
    intro s c x hx
    rw [GraphManager.processNodes_cons] at hx
    split at hx
    · rcases ih _ _ x hx with h | h
      · rcases List.mem_append.1 h with h | h
        · exact Or.inl h
        · exact Or.inr (by rw [List.mem_singleton.1 h]; exact List.mem_cons_self _ _)
      · exact Or.inr (List.mem_cons_of_mem _ h)
    · rcases ih _ _ x hx with h | h
      · exact Or.inl h
      · exact Or.inr (List.mem_cons_of_mem _ h)

/-- C14 (amended): for every graph state whose edge list has a directed cycle
through a node `u` of the node list, `calculateProcessingOrder` returns normally
(its loop ends) with a sequence that leaves `u` out and is shorter than the node
count, and `processAll` returns normally without invoking the callback of `u`;
no error is signalled. -/
theorem calculateProcessingOrder_cycle_short (pf : Platform) (hpf : pf.MapOrderOk)
    (s : State) (u : NodePtr) (hcyc : Relation.TransGen s.NodeEdge u u)
    (hu : u ∈ s.nodes_)
    (hend : ∀ c ∈ s.connections_, c.destination_.parent_ ∈ s.nodes_) :
    kahnLoop s.graph ((s.initialQueue pf).length + s.connections_.length + 1)
      (s.initialQueue pf) s.inDegree [] = some (GraphManager.calculateProcessingOrder pf s) ∧
    u ∉ GraphManager.calculateProcessingOrder pf s ∧
    (GraphManager.calculateProcessingOrder pf s).length < s.nodes_.length ∧
    u ∉ (GraphManager.processAllCalls pf s).2 := by
  obtain ⟨hrun, hnd, hkeys, -⟩ := GraphManager.calculateProcessingOrder_sound pf hpf s
  have hnot := GraphManager.calculateProcessingOrder_not_mem_of_cycle pf hpf s u hcyc
  refine ⟨hrun, hnot, ?_, ?_⟩
  · have hsub : GraphManager.calculateProcessingOrder pf s ⊆ s.nodes_.erase u := by
      intro v hv
      have hvu : v ≠ u := fun h => hnot (h ▸ hv)
      apply (List.mem_erase_of_ne hvu).2
      have := hkeys v hv
      unfold State.inDegreeKeys at this
      rcases List.mem_append.1 this with h | h
      · exact h
      · obtain ⟨c, hc, rfl⟩ := List.mem_map.1 h
        exact hend c hc
    have hle := (hnd.subperm hsub).length_le
    rw [List.length_erase_of_mem hu] at hle
    have hpos : 0 < s.nodes_.length := List.length_pos_of_mem hu
    omega
  · intro hmem
    unfold GraphManager.processAllCalls at hmem
    rcases GraphManager.processNodes_calls_sub pf _ s [] u hmem with h | h
    · exact absurd h (List.not_mem_nil _)
    · exact hnot h

theorem exampleCycle_cycle : Relation.TransGen exampleCycle.NodeEdge 0 0 :=
  Relation.TransGen.tail (b := 1) (Relation.TransGen.single (by decide)) (by decide)

theorem calculateProcessingOrder_cycle_short_witness :
    examplePlatform.MapOrderOk ∧ Relation.TransGen exampleCycle.NodeEdge 0 0 ∧
    0 ∈ exampleCycle.nodes_ ∧
    (∀ c ∈ exampleCycle.connections_, c.destination_.parent_ ∈ exampleCycle.nodes_) ∧
    0 ∉ GraphManager.calculateProcessingOrder examplePlatform exampleCycle ∧
    (GraphManager.calculateProcessingOrder examplePlatform exampleCycle).length <
      exampleCycle.nodes_.length :=
  ⟨examplePlatform_mapOrderOk, exampleCycle_cycle, by decide, by decide,
    (calculateProcessingOrder_cycle_short examplePlatform examplePlatform_mapOrderOk
      exampleCycle 0 exampleCycle_cycle (by decide) (by decide)).2.1,
    (calculateProcessingOrder_cycle_short examplePlatform examplePlatform_mapOrderOk
      exampleCycle 0 exampleCycle_cycle (by decide) (by decide)).2.2.1⟩

/-- C14 (as stated) fails: on a graph with the cycle 0 → 1 → 0,
`calculateProcessingOrder` returns the empty sequence for two nodes, and
`processAll` returns with the state as it was and no callback invoked. -/
theorem calculateProcessingOrder_cycle_returns :
    exampleCycle.NodeEdge 0 1 ∧ exampleCycle.NodeEdge 1 0 ∧
    exampleCycle.nodes_ = [0, 1] ∧
    GraphManager.calculateProcessingOrder examplePlatform exampleCycle = [] ∧
    GraphManager.processAllCalls examplePlatform exampleCycle = (exampleCycle, []) := by
  decide

/-! ## The processing order of a chain -/

theorem mem_zip_tail {l : List NodePtr} {u v : NodePtr} (h : (u, v) ∈ l.zip l.tail) :
    Before l u v := by
  suffices hs : ∃ i : Nat, l[i]? = some u ∧ l[i + 1]? = some v by
    obtain ⟨i, h1, h2⟩ := hs
    exact ⟨i, i + 1, Nat.lt_succ_self i, h1, h2⟩
  induction l with
  | nil => simp at h
  | cons a t ih =>
    cases t with
    | nil => simp at h
    | cons b t' =>
      simp only [List.tail_cons, List.zip_cons_cons, List.mem_cons, Prod.mk.injEq] at h
      rcases h with ⟨rfl, rfl⟩ | h
      · exact ⟨0, by simp, by simp⟩
      · obtain ⟨i, h1, h2⟩ := ih h
        exact ⟨i + 1, by simpa using h1, by simpa using h2⟩

theorem chain_of_zip_tail {R : NodePtr → NodePtr → Prop} (l : List NodePtr)
    (h : ∀ u v, (u, v) ∈ l.zip l.tail → R u v) : l.Chain' R := by
  induction l with
  | nil => exact List.chain'_nil
  | cons a t ih =>
    cases t with
    | nil => exact List.chain'_singleton a
    | cons b t' =>
      rw [List.chain'_cons]
      refine ⟨h a b (by simp), ih ?_⟩
      intro u v huv
      apply h u v
      simp only [List.tail_cons, List.zip_cons_cons, List.mem_cons]
      exact Or.inr huv

theorem pairwise_before_self (l : List NodePtr) : l.Pairwise (Before l) := by
  rw [List.pairwise_iff_getElem]
  intro i j hi hj hij
  exact ⟨i, j, hij, List.getElem?_eq_getElem hi, List.getElem?_eq_getElem hj⟩

/-- A list without repetition that holds the nodes of `l` and keeps every two
neighbours of `l` in their order is `l`. -/
theorem eq_of_chain_before {out l : List NodePtr} (hout : out.Nodup) (hl : l.Nodup)
    (hmem : ∀ v, v ∈ out ↔ v ∈ l) (hchain : l.Chain' (Before out)) : out = l := by
  haveI : IsTrans NodePtr (Before out) := ⟨fun _ _ _ h1 h2 => h1.trans_nodup hout h2⟩
  haveI : IsAntisymm NodePtr (Before out) :=
    ⟨fun _ _ h1 h2 => absurd (h1.trans_nodup hout h2) (Before.irrefl hout)⟩
  have hp : out.Perm l := (List.perm_ext_iff_of_nodup hout hl).2 hmem
  exact List.eq_of_perm_of_sorted hp (pairwise_before_self out)
    (List.chain'_iff_pairwise.1 hchain)

/-- C16: for a chain of distinct nodes `n1, ..., nk` that are the node list, with
the edges `n1 → n2`, `n2 → n3`, ... as the edge list and nothing else,
`calculateProcessingOrder` returns exactly `[n1, n2, ..., nk]`. -/
theorem calculateProcessingOrder_chain (pf : Platform) (hpf : pf.MapOrderOk) (s : State)
    (hnd : s.nodes_.Nodup)
    (hchain : s.connections_.map (fun c => (c.source_.parent_, c.destination_.parent_)) =
      s.nodes_.zip s.nodes_.tail) :
    GraphManager.calculateProcessingOrder pf s = s.nodes_ := by
  have hedge : ∀ c ∈ s.connections_,
      Before s.nodes_ c.source_.parent_ c.destination_.parent_ := by
    intro c hc
    apply mem_zip_tail
    rw [← hchain]
    exact List.mem_map.2 ⟨c, hc, rfl⟩
  have hend : ∀ c ∈ s.connections_,
      c.source_.parent_ ∈ s.nodes_ ∧ c.destination_.parent_ ∈ s.nodes_ :=
    fun c hc => ⟨(hedge c hc).mem_left, (hedge c hc).mem_right⟩
  have hac : s.Acyclic := by
    have key : ∀ a b, Relation.TransGen s.NodeEdge a b → Before s.nodes_ a b := by
      intro a b hab
      induction hab with
      | single h =>
        obtain ⟨c, hc, rfl, rfl⟩ := h
        exact hedge c hc
      | tail _ h ih =>
        obtain ⟨c, hc, rfl, rfl⟩ := h
        exact ih.trans_nodup hnd (hedge c hc)
    intro u hu
    exact Before.irrefl hnd (key u u hu)
  obtain ⟨hout, hmem, hbefore⟩ :=
    GraphManager.calculateProcessingOrder_sorted pf hpf s hac hend
  apply eq_of_chain_before hout hnd hmem
  apply chain_of_zip_tail
  intro u v huv
  rw [← hchain] at huv
  obtain ⟨c, hc, heq⟩ := List.mem_map.1 huv
  have h1 : c.source_.parent_ = u := congrArg Prod.fst heq
  have h2 : c.destination_.parent_ = v := congrArg Prod.snd heq
  rw [← h1, ← h2]
  exact hbefore c hc

theorem calculateProcessingOrder_chain_witness :
    examplePlatform.MapOrderOk ∧ exampleThree.nodes_.Nodup ∧
    exampleThree.connections_.map (fun c => (c.source_.parent_, c.destination_.parent_)) =
      exampleThree.nodes_.zip exampleThree.nodes_.tail ∧
    exampleThree.nodes_ = [0, 1, 2] ∧
    GraphManager.calculateProcessingOrder examplePlatform exampleThree = exampleThree.nodes_ :=
  ⟨examplePlatform_mapOrderOk, by decide, by decide, by decide,
    calculateProcessingOrder_chain examplePlatform examplePlatform_mapOrderOk exampleThree
      (by decide) (by decide)⟩

/-! ## The end nodes of the edges -/

/-- An edge that an operation adds to the edge list was made by a validated
`connect`. -/
theorem GraphOp.new_edge (s : State) (op : GraphOp) (c : Connection)
    (hc : c ∈ (op.run s).connections_) (hnew : c ∉ s.connections_) :
    ∃ src dst, op = .connect (some src) (some dst) ∧
      GraphManager.canConnect s (some src) (some dst) = true ∧ c = ⟨s.nextConn, src, dst⟩ := by
  cases op with
  | newNode kind => exact absurd hc hnew
  | addNode node =>
    exfalso
    apply hnew
    have : (GraphManager.addNode s node).connections_ = s.connections_ :=
      GraphManager.addNode_connections_ s node
    rw [← this]
    exact hc
  | removeNode node =>
    exfalso
    apply hnew
    cases node with
    | none => exact hc
    | some node =>
      have h : c ∈ (GraphManager.removeNode s (some node)).connections_ := hc
      rw [GraphManager.removeNode_connections_] at h
      exact (List.mem_filter.1 h).1
  | connect source destination =>
    by_cases hcan : GraphManager.canConnect s source destination = true
    · cases source with
      | none => simp [GraphManager.canConnect] at hcan
      | some src =>
        cases destination with
        | none => simp [GraphManager.canConnect] at hcan
        | some dst =>
          refine ⟨src, dst, rfl, hcan, ?_⟩
          have h : c ∈ (GraphManager.connect s (some src) (some dst)).2.connections_ := hc
          rw [GraphManager.connect_connections_ s src dst hcan] at h
          rcases List.mem_append.1 h with h | h
          · exact absurd h hnew
          · exact List.mem_singleton.1 h
    · exfalso
      apply hnew
      have h : c ∈ (GraphManager.connect s source destination).2.connections_ := hc
      rw [GraphManager.connect_of_not_canConnect s source destination (by simpa using hcan)] at h
      exact h
  | disconnect connection =>
    exfalso
    apply hnew
    have h : c ∈ (GraphManager.disconnect s connection).connections_ := hc
    cases connection with
    | none => exact h
    | some e =>
      by_cases he : e ∈ s.connections_
      · rw [GraphManager.disconnect_of_mem s e he] at h
        exact List.mem_of_mem_erase h
      · unfold GraphManager.disconnect at h
        simp only [he, if_false] at h
        exact h
  | clear =>
    rcases GraphOp.run_clear s with e | e
    · rw [e, GraphManager.clear_connections_] at hc
      exact absurd hc (List.not_mem_nil _)
    · rw [e] at hc
      exact absurd hc hnew

theorem GraphManager.removeNode_connections_sub (s : State) (node : Option NodePtr)
    (c : Connection) (hc : c ∈ (GraphManager.removeNode s node).connections_) :
    c ∈ s.connections_ ∧ ∀ n, node = some n → ¬ c.Incident n := by
  cases node with
  | none => exact ⟨hc, fun n h => Option.noConfusion h⟩
  | some node =>
    rw [GraphManager.removeNode_connections_] at hc
    refine ⟨(List.mem_filter.1 hc).1, ?_⟩
    intro n hn
    cases hn
    simpa using (List.mem_filter.1 hc).2

/-- One operation keeps the end nodes of all edges in the node list when
`connect` is applied to ports of listed nodes. -/
theorem GraphOp.run_endpoints (s : State) (op : GraphOp) (hin : op.Inside s)
    (h : ∀ c ∈ s.connections_,
      c.source_.parent_ ∈ s.nodes_ ∧ c.destination_.parent_ ∈ s.nodes_) :
    ∀ c ∈ (op.run s).connections_,
      c.source_.parent_ ∈ (op.run s).nodes_ ∧ c.destination_.parent_ ∈ (op.run s).nodes_ := by
  intro c hc
  by_cases hold : c ∈ s.connections_
  · cases op with
    | newNode kind => exact h c hold
    | addNode node =>
      cases node with
      | none => exact h c hold
      | some node =>
        show _ ∈ (GraphManager.addNode s (some node)).nodes_ ∧
          _ ∈ (GraphManager.addNode s (some node)).nodes_
        rw [GraphManager.addNode_nodes_]
        exact ⟨List.mem_append_left _ (h c hold).1, List.mem_append_left _ (h c hold).2⟩
    | removeNode node =>
      cases node with
      | none => exact h c hold
      | some node =>
        have hinc := (GraphManager.removeNode_connections_sub s (some node) c hc).2 node rfl
        show _ ∈ (GraphManager.removeNode s (some node)).nodes_ ∧
          _ ∈ (GraphManager.removeNode s (some node)).nodes_
        rw [GraphManager.removeNode_nodes_]
        unfold Connection.Incident at hinc
        exact ⟨(List.mem_erase_of_ne (fun e => hinc (Or.inl e))).2 (h c hold).1,
          (List.mem_erase_of_ne (fun e => hinc (Or.inr e))).2 (h c hold).2⟩
    | connect source destination =>
      show _ ∈ (GraphManager.connect s source destination).2.nodes_ ∧
        _ ∈ (GraphManager.connect s source destination).2.nodes_
      rw [GraphManager.connect_nodes_]
      exact h c hold
    | disconnect connection =>
      show _ ∈ (GraphManager.disconnect s connection).nodes_ ∧
        _ ∈ (GraphManager.disconnect s connection).nodes_
      rw [GraphManager.disconnect_nodes_]
      exact h c hold
    | clear =>
      rcases GraphOp.run_clear s with e | e
      · rw [e, GraphManager.clear_connections_] at hc
        exact absurd hc (List.not_mem_nil _)
      · rw [e]
        exact h c hold
  · obtain ⟨src, dst, rfl, -, rfl⟩ := GraphOp.new_edge s op c hc hold
    show _ ∈ (GraphManager.connect s (some src) (some dst)).2.nodes_ ∧
      _ ∈ (GraphManager.connect s (some src) (some dst)).2.nodes_
    rw [GraphManager.connect_nodes_]
    exact ⟨hin.1 src rfl, hin.2 dst rfl⟩

/-- C13 (amended): in every state reachable from the empty graph through
`addNode`, `removeNode`, `connect`, `disconnect` and `clear`, with `connect`
applied only to ports of nodes that are in the node list, every edge of the edge
list has its source node and its destination node in the node list. -/
theorem reachable_endpoints_listed (s : State) (hr : s.ReachableInside) :
    ∀ c ∈ s.connections_,
      c.source_.parent_ ∈ s.nodes_ ∧ c.destination_.parent_ ∈ s.nodes_ := by
  induction hr with
  | init => intro c hc; exact absurd hc (List.not_mem_nil _)
  | step s op _ _ hin ih => exact GraphOp.run_endpoints s op hin ih

theorem exampleChain_reachableInside : exampleChain.ReachableInside := by
  unfold exampleChain exampleTwoNodes
  refine State.ReachableInside.step _ _ (State.ReachableInside.step _ _
    (State.ReachableInside.step _ _ (State.ReachableInside.step _ _
    (State.ReachableInside.step _ _ State.ReachableInside.init ?_ ?_) ?_ ?_) ?_ ?_) ?_ ?_)
    ⟨?_, ?_⟩ ⟨?_, ?_⟩
  · trivial
  · trivial
  · intro p hp
    cases hp
    decide
  · trivial
  · trivial
  · trivial
  · intro p hp
    cases hp
    decide
  · trivial
  · intro c hc
    cases hc
    decide
  · intro c hc
    cases hc
    decide
  · intro c hc
    cases hc
    decide
  · intro c hc
    cases hc
    decide

theorem reachable_endpoints_listed_witness :
    exampleChain.ReachableInside ∧
    ∀ c ∈ exampleChain.connections_,
      c.source_.parent_ ∈ exampleChain.nodes_ ∧ c.destination_.parent_ ∈ exampleChain.nodes_ :=
  ⟨exampleChain_reachableInside,
    reachable_endpoints_listed exampleChain exampleChain_reachableInside⟩

theorem exampleDetached_reachable : exampleDetached.Reachable := by
  unfold exampleDetached
  refine State.Reachable.step _ _ (State.Reachable.step _ _ (State.Reachable.step _ _
    (State.Reachable.step _ _ State.Reachable.init ?_) ?_) ?_) ⟨?_, ?_⟩
  · trivial
  · intro p hp
    cases hp
    decide
  · trivial
  · intro c hc
    cases hc
    decide
  · intro c hc
    cases hc
    decide

/-- C13 (as stated) fails: `connect` accepts a port of a node that was created
and never added, so a reachable state has an edge whose destination node 1 is
not in the node list. -/
theorem reachable_edge_to_unlisted_node :
    exampleDetached.Reachable ∧ exampleDetached.nodes_ = [0] ∧
    exampleDetached.connections_ = [⟨0, ⟨0, .Output, 0⟩, ⟨1, .Input, 0⟩⟩] :=
  ⟨exampleDetached_reachable, by decide, by decide⟩

/-! ## Port lists only shrink, except in `connect` -/

theorem State.getConnections_modifyConnector_sublist (s : State) (c p : ConnectorPtr)
    (f : List Connection → List Connection) (hf : ∀ l, (f l).Sublist l) :
    ((s.modifyConnector c f).getConnections p).Sublist (s.getConnections p) := by
  rw [State.getConnections_modifyConnector s c p f (List.sublist_nil.1 (hf []))]
  by_cases hp : p = c
  · rw [if_pos hp, hp]
    exact hf _
  · rw [if_neg hp]

theorem NodeConnector.removeConnection_sublist (s : State) (q p : ConnectorPtr)
    (c : Connection) :
    ((NodeConnector.removeConnection s q c).getConnections p).Sublist (s.getConnections p) :=
  State.getConnections_modifyConnector_sublist s q p _ (fun l => List.erase_sublist c l)

theorem NodeConnector.destroyLoop_sublist (fuel : Nat) (c : ConnectorPtr) :
    ∀ (s : State) (p : ConnectorPtr),
      ((NodeConnector.destroyLoop fuel c s).getConnections p).Sublist (s.getConnections p) := by
  induction fuel with
  | zero => intro s p; exact List.Sublist.refl _
  | succ fuel ih =>
    intro s p
    unfold NodeConnector.destroyLoop
    split
    · exact List.Sublist.refl _
    · simp only
      refine (ih _ p).trans ?_
      refine (State.getConnections_modifyConnector_sublist _ c p _
        (fun l => List.dropLast_sublist l)).trans ?_
      split <;> exact NodeConnector.removeConnection_sublist _ _ _ _

theorem NodeConnector.destroyAll_sublist (node : NodePtr) (t : ConnectorType) (l : List Nat) :
    ∀ (s : State) (p : ConnectorPtr),
      ((l.foldl (fun st i => NodeConnector.destroy st ⟨node, t, i⟩) s).getConnections
        p).Sublist (s.getConnections p) := by
  induction l with
  | nil => intro s p; exact List.Sublist.refl _
  | cons i rest ih =>
    intro s p
    simp only [List.foldl_cons]
    exact (ih _ p).trans (NodeConnector.destroyLoop_sublist _ _ _ _)

theorem Node.delete_sublist (s : State) (node : NodePtr) (p : ConnectorPtr) :
    ((Node.delete s node).getConnections p).Sublist (s.getConnections p) := by
  unfold Node.delete
  split
  · exact List.Sublist.refl _
  · simp only
    rw [State.getConnections_set_none]
    split
    · exact List.nil_sublist _
    · exact (NodeConnector.destroyAll_sublist _ _ _ _ _).trans
        (NodeConnector.destroyAll_sublist _ _ _ _ _)

theorem GraphManager.removeNodeLoop_sublist (node : NodePtr) (rest : List Connection) :
    ∀ (kept : List Connection) (s : State) (p : ConnectorPtr),
      ((GraphManager.removeNodeLoop node kept rest s).getConnections p).Sublist
        (s.getConnections p) := by
  induction rest with
  | nil => intro kept s p; exact List.Sublist.refl _
  | cons c rest ih =>
    intro kept s p
    unfold GraphManager.removeNodeLoop
    split
    · refine (ih _ _ p).trans ?_
      have h2 : ((NodeConnector.removeConnection
          (NodeConnector.removeConnection
            (if c.destination_.parent_ ≠ node then Node.markDirty s c.destination_.parent_
              else s) c.source_ c) c.destination_ c).getConnections p).Sublist
          ((if c.destination_.parent_ ≠ node then Node.markDirty s c.destination_.parent_
              else s).getConnections p) :=
        (NodeConnector.removeConnection_sublist _ _ _ _).trans
          (NodeConnector.removeConnection_sublist _ _ _ _)
      refine List.Sublist.trans h2 ?_
      split
      · rw [Node.getConnections_markDirty]
      · exact List.Sublist.refl _
    · exact ih _ _ p

theorem GraphManager.removeNode_sublist (s : State) (node : Option NodePtr)
    (p : ConnectorPtr) :
    ((GraphManager.removeNode s node).getConnections p).Sublist (s.getConnections p) := by
  cases node with
  | none => exact List.Sublist.refl _
  | some node =>
    rw [GraphManager.getConnections_removeNode]
    exact (Node.delete_sublist _ _ _).trans (GraphManager.removeNodeLoop_sublist _ _ _ _ _)

theorem GraphManager.clear_fold_sublist (l : List NodePtr) :
    ∀ (s : State) (p : ConnectorPtr),
      ((l.foldl (fun st node => Node.delete st node) s).getConnections p).Sublist
        (s.getConnections p) := by
  induction l with
  | nil => intro s p; exact List.Sublist.refl _
  | cons a rest ih =>
    intro s p
    simp only [List.foldl_cons]
    exact (ih _ p).trans (Node.delete_sublist _ _ _)

theorem GraphManager.clear_sublist (s : State) (p : ConnectorPtr) :
    ((GraphManager.clearBody s).getConnections p).Sublist (s.getConnections p) := by
  have h1 : (GraphManager.clearBody s).getConnections p =
      ((({ GraphManager.selectNode s none with connections_ := [] } : State).nodes_).foldl
        (fun st node => Node.delete st node)
        ({ GraphManager.selectNode s none with connections_ := [] } : State)).getConnections
        p := by
    unfold GraphManager.clearBody
    exact State.getConnections_congr rfl p
  have h2 : ({ GraphManager.selectNode s none with connections_ := [] } : State).getConnections
      p = s.getConnections p := by
    apply State.getConnections_congr
    unfold GraphManager.selectNode
    split <;> rfl
  rw [h1, ← h2]
  exact GraphManager.clear_fold_sublist _ _ _

theorem GraphManager.disconnect_sublist (s : State) (connection : Option Connection)
    (p : ConnectorPtr) :
    ((GraphManager.disconnect s connection).getConnections p).Sublist
      (s.getConnections p) := by
  cases connection with
  | none => exact List.Sublist.refl _
  | some e =>
    by_cases he : e ∈ s.connections_
    · rw [GraphManager.getConnections_disconnect s e he]
      exact (NodeConnector.removeConnection_sublist _ _ _ _).trans
        (NodeConnector.removeConnection_sublist _ _ _ _)
    · unfold GraphManager.disconnect
      simp only [he, if_false]
      exact List.Sublist.refl _

/-- The list of a port after a successful `connect`. -/
theorem GraphManager.getConnections_connect_cases (s : State) (src dst : ConnectorPtr)
    (h : GraphManager.canConnect s (some src) (some dst) = true) (p : ConnectorPtr) :
    (GraphManager.connect s (some src) (some dst)).2.getConnections p = s.getConnections p ∨
    ((p = src ∨ p = dst) ∧
      (GraphManager.connect s (some src) (some dst)).2.getConnections p =
        s.getConnections p ++ [⟨s.nextConn, src, dst⟩]) := by
  have hne : dst ≠ src := by
    obtain ⟨h1, h2, -⟩ := (canConnect_eq_true_iff s src dst).1 h
    intro he
    rw [he, h1] at h2
    exact ConnectorType.noConfusion h2
  have hinner : ∀ q, (NodeConnector.addConnection s src ⟨s.nextConn, src, dst⟩).getConnections q =
      if q = src ∧ (s.connector? src).isSome then s.getConnections src ++ [⟨s.nextConn, src, dst⟩]
      else s.getConnections q := fun q => NodeConnector.getConnections_addConnection s src q _
  rw [GraphManager.getConnections_connect s src dst h p,
    NodeConnector.getConnections_addConnection]
  by_cases hd : p = dst
  · by_cases hx : ((NodeConnector.addConnection s src ⟨s.nextConn, src, dst⟩).connector?
        dst).isSome = true
    · rw [if_pos ⟨hd, hx⟩, hinner dst, if_neg (fun hh => hne hh.1), hd]
      exact Or.inr ⟨Or.inr rfl, rfl⟩
    · rw [if_neg (fun hh => hx hh.2), hinner p, if_neg (fun hh => hne (hd ▸ hh.1))]
      exact Or.inl rfl
  · rw [if_neg (fun hh => hd hh.1), hinner p]
    by_cases hs : p = src ∧ (s.connector? src).isSome = true
    · rw [if_pos hs, hs.1]
      exact Or.inr ⟨Or.inl rfl, rfl⟩
    · rw [if_neg hs]
      exact Or.inl rfl

/-- One operation leaves the list of a port as it is or takes connections off
it, unless it is a validated `connect` that ends in this port. -/
theorem GraphOp.getConnections_run (s : State) (op : GraphOp) (p : ConnectorPtr) :
    ((op.run s).getConnections p).Sublist (s.getConnections p) ∨
    ∃ src dst, op = .connect (some src) (some dst) ∧
      GraphManager.canConnect s (some src) (some dst) = true ∧ (p = src ∨ p = dst) ∧
      (op.run s).getConnections p = s.getConnections p ++ [⟨s.nextConn, src, dst⟩] := by
  cases op with
  | newNode kind =>
    left
    show ((s.newNode kind).2.getConnections p).Sublist _
    rw [State.getConnections_newNode]
  | addNode node =>
    left
    show ((GraphManager.addNode s node).getConnections p).Sublist _
    rw [GraphManager.getConnections_addNode]
  | removeNode node => exact Or.inl (GraphManager.removeNode_sublist s node p)
  | connect source destination =>
    by_cases hcan : GraphManager.canConnect s source destination = true
    · cases source with
      | none => simp [GraphManager.canConnect] at hcan
      | some src =>
        cases destination with
        | none => simp [GraphManager.canConnect] at hcan
        | some dst =>
          rcases GraphManager.getConnections_connect_cases s src dst hcan p with h | h
          · left
            show ((GraphManager.connect s (some src) (some dst)).2.getConnections p).Sublist _
            rw [h]
          · exact Or.inr ⟨src, dst, rfl, hcan, h.1, h.2⟩
    · left
      show ((GraphManager.connect s source destination).2.getConnections p).Sublist _
      rw [GraphManager.connect_of_not_canConnect s source destination (by simpa using hcan)]
  | disconnect connection => exact Or.inl (GraphManager.disconnect_sublist s connection p)
  | clear =>
    rcases GraphOp.run_clear s with e | e
    · rw [e]
      exact Or.inl (GraphManager.clear_sublist s p)
    · rw [e]
      exact Or.inl (List.Sublist.refl _)

/-- Every input port of a reachable state holds at most one connection, and
every edge of the edge list ends in an input port. -/
theorem State.Reachable.single_input {s : State} (h : s.Reachable) :
    (∀ p : ConnectorPtr, p.type_ = ConnectorType.Input → (s.getConnections p).length ≤ 1) ∧
    ∀ c ∈ s.connections_, c.destination_.type_ = ConnectorType.Input := by
  induction h with
  | init =>
    refine ⟨fun p _ => ?_, fun c hc => absurd hc (List.not_mem_nil _)⟩
    have : State.init.getConnections p = [] := by
      unfold State.getConnections State.connector? State.node? State.init
      simp
    rw [this]
    exact Nat.zero_le _
  | step s op _ _ ih =>
    constructor
    · intro p hp
      rcases GraphOp.getConnections_run s op p with hsub | ⟨src, dst, -, hcan, hpd, heq⟩
      · exact Nat.le_trans hsub.length_le (ih.1 p hp)
      · obtain ⟨h1, -, h3, -⟩ := (canConnect_eq_true_iff s src dst).1 hcan
        rcases hpd with rfl | rfl
        · rw [hp] at h1
          exact ConnectorType.noConfusion h1
        · rw [heq, h3]
          exact Nat.le_refl _
    · intro c hc
      by_cases hold : c ∈ s.connections_
      · exact ih.2 c hold
      · obtain ⟨src, dst, -, hcan, rfl⟩ := GraphOp.new_edge s op c hc hold
        exact ((canConnect_eq_true_iff s src dst).1 hcan).2.1

/-- In every state reachable from the empty graph through the operations of
`GraphManager` alone (`addNode`, `removeNode`, `connect`,
`disconnect`, `clear` on nodes created by the caller), every input port has at
most one incident edge, every edge of the edge list joins an output port to an
input port of a different node, and an operation adds an edge to the edge list
only if it is a `connect` that `canConnect` accepts. -/
theorem reachable_single_input (s : State) (hr : s.Reachable) :
    (∀ p : ConnectorPtr, p.type_ = ConnectorType.Input → (s.getConnections p).length ≤ 1) ∧
    (∀ c ∈ s.connections_,
      c.source_.type_ = ConnectorType.Output ∧ c.destination_.type_ = ConnectorType.Input ∧
      c.source_.parent_ ≠ c.destination_.parent_) ∧
    (∀ (op : GraphOp) (c : Connection), c ∈ (op.run s).connections_ → c ∉ s.connections_ →
      ∃ src dst, op = .connect (some src) (some dst) ∧
        GraphManager.canConnect s (some src) (some dst) = true) := by
  obtain ⟨h1, h2⟩ := hr.single_input
  obtain ⟨hreg, -, -, hac⟩ := hr.inv
  refine ⟨h1, ?_, ?_⟩
  · intro c hc
    refine ⟨(hreg c hc).1, h2 c hc, ?_⟩
    intro heq
    exact hac c.source_.parent_ (Relation.TransGen.single ⟨c, hc, rfl, heq.symm⟩)
  · intro op c hc hnew
    obtain ⟨src, dst, h, hcan, -⟩ := GraphOp.new_edge s op c hc hnew
    exact ⟨src, dst, h, hcan⟩

theorem reachable_single_input_witness :
    exampleChain.Reachable ∧
    (∀ p : ConnectorPtr, p.type_ = ConnectorType.Input →
      (exampleChain.getConnections p).length ≤ 1) :=
  ⟨exampleChain_reachable, (reachable_single_input exampleChain exampleChain_reachable).1⟩

theorem State.Reachable.toPublic {s : State} (h : s.Reachable) : s.ReachablePublic := by
  induction h with
  | init => exact State.ReachablePublic.init
  | step s op _ hv ih => exact State.ReachablePublic.step s (.graph op) ih hv

theorem exampleDoubleEdge_reachable : exampleDoubleEdge.ReachablePublic := by
  unfold exampleDoubleEdge
  refine State.ReachablePublic.step _ _ (State.ReachablePublic.step _ _
    exampleTwoNodes_reachable.toPublic ?_) ?_
  · exact ⟨by decide, by decide⟩
  · exact ⟨by decide, by decide⟩

/-- C12: the code evaluated on `exampleDoubleEdge`, a state reached through the
public operations. `Node::connectTo` registers a connection after a range check
of the two indices only, so after two calls the input port of node 1 has two
incident edges, and neither was made by `connect` or is in the edge list;
`GraphManager::connect` refuses the second edge on the same port. -/
theorem connectTo_double_edge :
    exampleDoubleEdge.ReachablePublic ∧
    exampleDoubleEdge.getConnections ⟨1, .Input, 0⟩ =
      [⟨0, ⟨0, .Output, 0⟩, ⟨1, .Input, 0⟩⟩, ⟨1, ⟨0, .Output, 0⟩, ⟨1, .Input, 0⟩⟩] ∧
    exampleDoubleEdge.connections_ = [] ∧
    GraphManager.canConnect exampleChain (some ⟨0, .Output, 0⟩) (some ⟨1, .Input, 0⟩) =
      false :=
  ⟨exampleDoubleEdge_reachable, by decide, by decide, by decide⟩

/-! ## Node objects keep their class and their connectors -/

theorem State.KeepsShape.keeps_refl (s : State) : s.KeepsShape s :=
  ⟨Nat.le_refl _, fun _ _ m' h => ⟨m', h, rfl, rfl⟩⟩

theorem State.KeepsShape.keeps_trans {s t r : State} (h1 : s.KeepsShape t) (h2 : t.KeepsShape r) :
    s.KeepsShape r := by
  refine ⟨Nat.le_trans h1.1 h2.1, ?_⟩
  intro q hq m'' hm''
  obtain ⟨m', hm', hs'⟩ := h2.2 q (Nat.lt_of_lt_of_le hq h1.1) m'' hm''
  obtain ⟨m, hm, hs⟩ := h1.2 q hq m' hm'
  exact ⟨m, hm, hs'.1.trans hs.1, hs'.2.trans hs.2⟩

theorem State.KeepsShape.keeps_of_heap {s s' t t' : State} (hs : s.heap = s'.heap)
    (ht : t.heap = t'.heap) (h : s.KeepsShape t) : s'.KeepsShape t' := by
  unfold State.KeepsShape at h ⊢
  rw [← hs, ← ht]
  refine ⟨h.1, ?_⟩
  intro q hq m' hm'
  rw [← State.node?_congr ht] at hm'
  rw [← State.node?_congr hs]
  exact h.2 q hq m' hm'

theorem State.KeepsShape.keeps_modifyNode (s : State) (p : NodePtr) (f : Node → Node)
    (hf : ∀ m : Node, m.SameShape (f m)) : s.KeepsShape (s.modifyNode p f) := by
  refine ⟨by rw [State.modifyNode_heap_length], ?_⟩
  intro q _ m' hm'
  rw [State.node?_modifyNode] at hm'
  by_cases hq : q = p
  · rw [if_pos hq] at hm'
    rw [hq]
    cases hn : s.node? p with
    | none => rw [hn] at hm'; exact Option.noConfusion hm'
    | some m =>
      rw [hn] at hm'
      simp only [Option.map_some', Option.some.injEq] at hm'
      exact ⟨m, rfl, hm' ▸ hf m⟩
  · rw [if_neg hq] at hm'
    exact ⟨m', hm', rfl, rfl⟩

theorem State.KeepsShape.keeps_modifyConnector (s : State) (c : ConnectorPtr)
    (f : List Connection → List Connection) : s.KeepsShape (s.modifyConnector c f) := by
  unfold State.modifyConnector
  apply State.KeepsShape.keeps_modifyNode
  intro m
  unfold Node.SameShape Node.setConnectors
  cases c.type_
  · exact ⟨rfl, by simp [Node.connectors]⟩
  · exact ⟨rfl, rfl⟩

theorem State.KeepsShape.keeps_setNone (s : State) (node : NodePtr) :
    s.KeepsShape { s with heap := s.heap.set node none } := by
  refine ⟨by simp, ?_⟩
  intro q _ m' hm'
  rw [State.node?_set_none] at hm'
  split at hm'
  · exact Option.noConfusion hm'
  · exact ⟨m', hm', rfl, rfl⟩

theorem State.KeepsShape.keeps_destroyLoop (fuel : Nat) (c : ConnectorPtr) :
    ∀ s : State, s.KeepsShape (NodeConnector.destroyLoop fuel c s) := by
  induction fuel with
  | zero => intro s; exact State.KeepsShape.keeps_refl s
  | succ fuel ih =>
    intro s
    unfold NodeConnector.destroyLoop
    split
    · exact State.KeepsShape.keeps_refl s
    · simp only
      refine State.KeepsShape.keeps_trans ?_ (ih _)
      refine State.KeepsShape.keeps_trans ?_ (State.KeepsShape.keeps_modifyConnector _ _ _)
      split <;> exact State.KeepsShape.keeps_modifyConnector _ _ _

theorem State.KeepsShape.keeps_destroyAll (node : NodePtr) (t : ConnectorType) (l : List Nat) :
    ∀ s : State,
      s.KeepsShape (l.foldl (fun st i => NodeConnector.destroy st ⟨node, t, i⟩) s) := by
  induction l with
  | nil => intro s; exact State.KeepsShape.keeps_refl s
  | cons i rest ih =>
    intro s
    simp only [List.foldl_cons]
    exact (State.KeepsShape.keeps_destroyLoop _ _ _).keeps_trans (ih _)

theorem State.KeepsShape.keeps_delete (s : State) (node : NodePtr) :
    s.KeepsShape (Node.delete s node) := by
  unfold Node.delete
  split
  · exact State.KeepsShape.keeps_refl s
  · simp only
    exact ((State.KeepsShape.keeps_destroyAll _ _ _ _).keeps_trans
      (State.KeepsShape.keeps_destroyAll _ _ _ _)).keeps_trans (State.KeepsShape.keeps_setNone _ _)

theorem State.KeepsShape.keeps_markDirty (s : State) (p : NodePtr) :
    s.KeepsShape (Node.markDirty s p) :=
  State.KeepsShape.keeps_modifyNode s p _ (fun _ => ⟨rfl, rfl⟩)

theorem State.KeepsShape.keeps_removeNodeLoop (node : NodePtr) (rest : List Connection) :
    ∀ (kept : List Connection) (s : State),
      s.KeepsShape (GraphManager.removeNodeLoop node kept rest s) := by
  induction rest with
  | nil => intro kept s; exact State.KeepsShape.keeps_of_heap rfl rfl (State.KeepsShape.keeps_refl s)
  | cons c rest ih =>
    intro kept s
    unfold GraphManager.removeNodeLoop
    split
    · refine State.KeepsShape.keeps_trans ?_ (ih _ _)
      refine State.KeepsShape.keeps_of_heap (t := NodeConnector.removeConnection
          (NodeConnector.removeConnection
            (if c.destination_.parent_ ≠ node then Node.markDirty s c.destination_.parent_
              else s) c.source_ c) c.destination_ c) rfl rfl ?_
      refine State.KeepsShape.keeps_trans ?_ (State.KeepsShape.keeps_modifyConnector _ _ _)
      refine State.KeepsShape.keeps_trans ?_ (State.KeepsShape.keeps_modifyConnector _ _ _)
      split
      · exact State.KeepsShape.keeps_markDirty _ _
      · exact State.KeepsShape.keeps_refl s
    · exact ih _ _

theorem State.KeepsShape.keeps_removeNode (s : State) (node : Option NodePtr) :
    s.KeepsShape (GraphManager.removeNode s node) := by
  cases node with
  | none => exact State.KeepsShape.keeps_refl s
  | some node =>
    unfold GraphManager.removeNode
    simp only
    refine State.KeepsShape.keeps_of_heap (t := Node.delete _ node) rfl rfl ?_
    refine State.KeepsShape.keeps_trans ?_ (State.KeepsShape.keeps_delete _ _)
    refine State.KeepsShape.keeps_of_heap
      (t := GraphManager.removeNodeLoop node [] s.connections_ s) rfl ?_
      (State.KeepsShape.keeps_removeNodeLoop _ _ _ _)
    unfold GraphManager.selectNode
    split
    · split <;> rfl
    · rfl

theorem State.KeepsShape.keeps_clearFold (l : List NodePtr) :
    ∀ s : State, s.KeepsShape (l.foldl (fun st node => Node.delete st node) s) := by
  induction l with
  | nil => intro s; exact State.KeepsShape.keeps_refl s
  | cons a rest ih =>
    intro s
    simp only [List.foldl_cons]
    exact (State.KeepsShape.keeps_delete _ _).keeps_trans (ih _)

theorem State.KeepsShape.keeps_clear (s : State) : s.KeepsShape (GraphManager.clearBody s) := by
  unfold GraphManager.clearBody
  simp only
  refine State.KeepsShape.keeps_of_heap (t := List.foldl _ _ _) ?_ rfl
    (State.KeepsShape.keeps_clearFold _ _)
  unfold GraphManager.selectNode
  split <;> rfl

theorem State.KeepsShape.keeps_disconnect (s : State) (connection : Option Connection) :
    s.KeepsShape (GraphManager.disconnect s connection) := by
  cases connection with
  | none => exact State.KeepsShape.keeps_refl s
  | some e =>
    by_cases he : e ∈ s.connections_
    · rw [GraphManager.disconnect_of_mem s e he]
      refine State.KeepsShape.keeps_of_heap (t := Node.markDirty _ _) rfl rfl ?_
      exact ((State.KeepsShape.keeps_modifyConnector _ _ _).keeps_trans
        (State.KeepsShape.keeps_modifyConnector _ _ _)).keeps_trans (State.KeepsShape.keeps_markDirty _ _)
    · unfold GraphManager.disconnect
      simp only [he, if_false]
      exact State.KeepsShape.keeps_refl s

theorem State.KeepsShape.keeps_connect (s : State) (source destination : Option ConnectorPtr) :
    s.KeepsShape (GraphManager.connect s source destination).2 := by
  by_cases hcan : GraphManager.canConnect s source destination = true
  · cases source with
    | none => simp [GraphManager.canConnect] at hcan
    | some src =>
      cases destination with
      | none => simp [GraphManager.canConnect] at hcan
      | some dst =>
        rw [GraphManager.connect_of_canConnect s src dst hcan]
        refine State.KeepsShape.keeps_of_heap (t := Node.markDirty _ _) rfl rfl ?_
        refine State.KeepsShape.keeps_trans ?_ (State.KeepsShape.keeps_markDirty _ _)
        refine State.KeepsShape.keeps_trans ?_ (State.KeepsShape.keeps_modifyConnector _ _ _)
        refine State.KeepsShape.keeps_trans ?_ (State.KeepsShape.keeps_modifyConnector _ _ _)
        exact State.KeepsShape.keeps_of_heap rfl rfl (State.KeepsShape.keeps_refl s)
  · rw [GraphManager.connect_of_not_canConnect s source destination (by simpa using hcan)]
    exact State.KeepsShape.keeps_refl s

theorem State.KeepsShape.keeps_addNode (s : State) (node : Option NodePtr) :
    s.KeepsShape (GraphManager.addNode s node) := by
  cases node with
  | none => exact State.KeepsShape.keeps_refl s
  | some node =>
    unfold GraphManager.addNode
    simp only
    split
    · exact State.KeepsShape.keeps_of_heap rfl rfl (State.KeepsShape.keeps_refl s)
    · split
      · refine State.KeepsShape.keeps_of_heap (t := State.modifyNode _ _ _) rfl rfl ?_
        refine State.KeepsShape.keeps_trans ?_
          (State.KeepsShape.keeps_modifyNode _ _ _ (fun _ => ⟨rfl, rfl⟩))
        exact State.KeepsShape.keeps_of_heap rfl rfl (State.KeepsShape.keeps_refl s)
      · exact State.KeepsShape.keeps_of_heap rfl rfl (State.KeepsShape.keeps_refl s)

theorem State.KeepsShape.keeps_newNode (s : State) (kind : NodeKind) :
    s.KeepsShape (s.newNode kind).2 := by
  refine ⟨by simp [State.newNode], ?_⟩
  intro q hq m' hm'
  rw [State.node?_newNode, if_neg (Nat.ne_of_lt hq)] at hm'
  exact ⟨m', hm', rfl, rfl⟩

theorem GraphOp.run_keepsShape (s : State) (op : GraphOp) : s.KeepsShape (op.run s) := by
  cases op with
  | newNode kind => exact State.KeepsShape.keeps_newNode s kind
  | addNode node => exact State.KeepsShape.keeps_addNode s node
  | removeNode node => exact State.KeepsShape.keeps_removeNode s node
  | connect source destination => exact State.KeepsShape.keeps_connect s source destination
  | disconnect connection => exact State.KeepsShape.keeps_disconnect s connection
  | clear =>
    rcases GraphOp.run_clear s with e | e
    · rw [e]
      exact State.KeepsShape.keeps_clear s
    · rw [e]
      exact State.KeepsShape.keeps_refl s

/-! ## Readiness after the removal of an upstream node -/

/-- The input port of an edge that leaves the removed node is empty afterwards,
when the edge was the only one on the port. -/
theorem GraphManager.removeNode_port_empty (s : State) (u : NodePtr) (e : Connection)
    (he : e ∈ s.connections_) (hreg : e ∈ s.getConnections e.destination_)
    (hsrc : e.source_.parent_ = u)
    (hsingle : (s.getConnections e.destination_).length ≤ 1) :
    (GraphManager.removeNode s (some u)).getConnections e.destination_ = [] := by
  have hl : s.getConnections e.destination_ = [e] := by
    cases hc : s.getConnections e.destination_ with
    | nil => rw [hc] at hreg; exact absurd hreg (List.not_mem_nil _)
    | cons a l =>
      rw [hc] at hreg hsingle
      cases l with
      | nil =>
        rcases List.mem_singleton.1 hreg with rfl
        rfl
      | cons b l' => simp at hsingle
  apply List.sublist_nil.1
  rw [GraphManager.getConnections_removeNode]
  refine (Node.delete_sublist _ _ _).trans ?_
  rw [GraphManager.removeNodeLoop_ports u s.connections_ [] s e.destination_
    (by rw [hl]; exact List.nodup_singleton e), hl]
  have hinc : e.Incident u := Or.inl hsrc
  simp [hinc, he]

/-- A node with an empty input port is not ready. -/
theorem Node.isReady_of_empty_port (t : State) (p : ConnectorPtr)
    (htype : p.type_ = ConnectorType.Input) (hempty : t.getConnections p = [])
    (m : Node) (hm : t.node? p.parent_ = some m) (hidx : p.index_ < m.inputConnectors_.length)
    (hshape : m.inputConnectors_.length = m.kind.inputs) :
    Node.isReady t p.parent_ = false := by
  obtain ⟨k, hk⟩ : ∃ k, m.inputConnectors_[p.index_]? = some k :=
    ⟨_, List.getElem?_eq_getElem hidx⟩
  have hkc : k.connections_ = [] := by
    unfold State.getConnections State.connector? at hempty
    rw [hm] at hempty
    simp only [htype, Node.connectors, hk] at hempty
    exact hempty
  unfold Node.isReady
  rw [hm]
  simp only
  by_cases hinput : m.kind = NodeKind.InputNode
  · rw [hinput] at hshape
    rw [hshape] at hidx
    exact absurd hidx (Nat.not_lt_zero _)
  · by_cases hblend : m.kind = NodeKind.BlendNode
    · rw [hblend] at hshape
      have h2 : m.inputConnectors_.length = 2 := hshape
      obtain ⟨a, b, hab⟩ := List.length_eq_two.1 h2
      unfold Node.isReadyObject
      rw [hblend]
      simp only
      unfold Node.isReadyBlend
      rw [hab] at hk ⊢
      have hcases : a.connections_ = [] ∨ b.connections_ = [] := by
        rcases Nat.lt_or_ge p.index_ 1 with h0 | h1
        · have : p.index_ = 0 := by omega
          rw [this] at hk
          simp only [List.getElem?_cons_zero, Option.some.injEq] at hk
          exact Or.inl (hk ▸ hkc)
        · have hlt : p.index_ < 2 := h2 ▸ hidx
          have : p.index_ = 1 := by omega
          rw [this] at hk
          simp only [List.getElem?_cons_succ, List.getElem?_cons_zero,
            Option.some.injEq] at hk
          exact Or.inr (hk ▸ hkc)
      rcases hcases with h | h
      · simp [h]
      · simp [h]
    · rw [Node.isReadyObject_default t m hinput hblend]
      cases hr : Node.isReadyDefault t m with
      | false => rfl
      | true =>
        exact absurd hkc (((Node.isReadyDefault_iff t m).1 hr) k (List.getElem?_mem hk)).1

/-- Along calls that do not connect the port again, an empty input port stays
empty and its node stays not ready. -/
theorem GraphOp.runAll_not_ready (p : ConnectorPtr) (htype : p.type_ = ConnectorType.Input)
    (n : Node) (hidx : p.index_ < n.inputConnectors_.length)
    (hshape : n.inputConnectors_.length = n.kind.inputs) :
    ∀ (ops : List GraphOp) (t : State), t.getConnections p = [] →
      p.parent_ < t.heap.length →
      (∀ m, t.node? p.parent_ = some m → n.SameShape m) →
      (∀ op ∈ ops, ∀ src, op ≠ GraphOp.connect src (some p)) →
      Node.isReady (GraphOp.runAll t ops) p.parent_ = false := by
  intro ops
  induction ops with
  | nil =>
    intro t hempty _ hsame _
    show Node.isReady t p.parent_ = false
    cases hm : t.node? p.parent_ with
    | none =>
      unfold Node.isReady
      rw [hm]
    | some m =>
      obtain ⟨h1, h2⟩ := hsame m hm
      apply Node.isReady_of_empty_port t p htype hempty m hm
      · rw [h2]; exact hidx
      · rw [h2, h1]; exact hshape
  | cons op rest ih =>
    intro t hempty hlt hsame hops
    show Node.isReady (GraphOp.runAll (op.run t) rest) p.parent_ = false
    have hks := GraphOp.run_keepsShape t op
    apply ih
    · rcases GraphOp.getConnections_run t op p with hsub | ⟨src, dst, hop, hcan, hpd, -⟩
      · rw [hempty] at hsub
        exact List.sublist_nil.1 hsub
      · exfalso
        rcases hpd with rfl | rfl
        · have := ((canConnect_eq_true_iff t p dst).1 hcan).1
          rw [htype] at this
          exact ConnectorType.noConfusion this
        · exact hops op (List.mem_cons_self _ _) (some src) hop
    · exact Nat.lt_of_lt_of_le hlt hks.1
    · intro m' hm'
      obtain ⟨m, hm, hs⟩ := hks.2 p.parent_ hlt m' hm'
      obtain ⟨h1, h2⟩ := hsame m hm
      exact ⟨hs.1.trans h1, hs.2.trans h2⟩
    · intro op' hop'
      exact hops op' (List.mem_cons_of_mem _ hop')

/-- C18 (amended): after `removeNode(u)`, a node `v` that had an edge from an
output of `u` as the only edge of one of its input ports is not ready, and under
every sequence of `GraphManager` calls that does not connect this input port
again it stays not ready. -/
theorem removeNode_successor_not_ready (s : State) (u : NodePtr) (e : Connection)
    (he : e ∈ s.connections_) (hreg : e ∈ s.getConnections e.destination_)
    (hsrc : e.source_.parent_ = u) (htype : e.destination_.type_ = ConnectorType.Input)
    (hsingle : (s.getConnections e.destination_).length ≤ 1)
    (n : Node) (hn : s.node? e.destination_.parent_ = some n)
    (hshape : n.inputConnectors_.length = n.kind.inputs) :
    Node.isReady (GraphManager.removeNode s (some u)) e.destination_.parent_ = false ∧
    ∀ ops : List GraphOp,
      (∀ op ∈ ops, ∀ src, op ≠ GraphOp.connect src (some e.destination_)) →
      Node.isReady (GraphOp.runAll (GraphManager.removeNode s (some u)) ops)
        e.destination_.parent_ = false := by
  have hidx : e.destination_.index_ < n.inputConnectors_.length := by
    unfold State.getConnections State.connector? at hreg
    rw [hn] at hreg
    simp only [htype, Node.connectors] at hreg
    cases hk : n.inputConnectors_[e.destination_.index_]? with
    | none => rw [hk] at hreg; exact absurd hreg (List.not_mem_nil _)
    | some k => exact (List.getElem?_eq_some_iff.1 hk).1
  have hks := State.KeepsShape.keeps_removeNode s (some u)
  have hlt : e.destination_.parent_ < s.heap.length := State.node?_lt hn
  have key : ∀ ops : List GraphOp,
      (∀ op ∈ ops, ∀ src, op ≠ GraphOp.connect src (some e.destination_)) →
      Node.isReady (GraphOp.runAll (GraphManager.removeNode s (some u)) ops)
        e.destination_.parent_ = false := by
    intro ops hops
    apply GraphOp.runAll_not_ready e.destination_ htype n hidx hshape ops
    · exact GraphManager.removeNode_port_empty s u e he hreg hsrc hsingle
    · exact Nat.lt_of_lt_of_le hlt hks.1
    · intro m' hm'
      obtain ⟨m, hm, hs⟩ := hks.2 _ hlt m' hm'
      rw [hn] at hm
      cases hm
      exact hs
    · exact hops
  exact ⟨key [] (fun op hop => absurd hop (List.not_mem_nil _)), key⟩

theorem removeNode_successor_not_ready_witness :
    exampleEdge ∈ exampleProcessed.connections_ ∧
    exampleEdge ∈ exampleProcessed.getConnections exampleEdge.destination_ ∧
    (exampleProcessed.getConnections exampleEdge.destination_).length ≤ 1 ∧
    exampleProcessed.node? 1 = some exampleProcessedNode ∧
    exampleProcessedNode.inputConnectors_.length = exampleProcessedNode.kind.inputs ∧
    Node.isReady exampleProcessed 1 = true ∧
    Node.isReady (GraphManager.removeNode exampleProcessed (some 0)) 1 = false :=
  ⟨by decide, by decide, by decide, by decide, by decide, by decide,
    (removeNode_successor_not_ready exampleProcessed 0 exampleEdge (by decide) (by decide)
      rfl rfl (by decide) exampleProcessedNode (by decide) (by decide)).1⟩

/-! ## The adaptive block size -/

theorem Int.tmod_two_eq_zero_iff (i : Int) : i.tmod 2 = 0 ↔ i % 2 = 0 := by
  constructor
  · intro h
    have := Int.dvd_of_tmod_eq_zero h
    omega
  · intro h
    apply Int.tmod_eq_zero_of_dvd
    omega

theorem wrapInt32_odd (i : Int) (h : i % 2 = 1) : wrapInt32 i % 2 = 1 := by
  unfold wrapInt32
  omega

theorem wrapInt32_of_isInt32 (i : Int) (h : IsInt32 i) : wrapInt32 i = i := by
  unfold IsInt32 at h
  unfold wrapInt32
  omega

/-- An even argument in the range of `int` is incremented without overflow: the
stored value is the clamped successor. -/
theorem ThresholdNode.setAdaptiveBlockSize_even (n : ThresholdNode) (size : Int)
    (hi : IsInt32 size) (he : size % 2 = 0) :
    size + 1 < 2 ^ 31 ∧
    (n.setAdaptiveBlockSize size).adaptiveBlockSize_ = max 3 (min 51 (size + 1)) := by
  have hlt : size + 1 < 2 ^ 31 := by unfold IsInt32 at hi; omega
  refine ⟨hlt, ?_⟩
  unfold ThresholdNode.setAdaptiveBlockSize
  simp only [Int.tmod_two_eq_zero_iff, he, if_true]
  rw [wrapInt32_of_isInt32 (size + 1) (by unfold IsInt32 at hi ⊢; omega)]

/-- C30: for every integer argument, `ThresholdNode::setAdaptiveBlockSize` stores
an odd block size between 3 and 51 and sets the dirty flag of the node. -/
theorem setAdaptiveBlockSize_odd_in_range (n : ThresholdNode) (size : Int) :
    (n.setAdaptiveBlockSize size).adaptiveBlockSize_ % 2 = 1 ∧
    3 ≤ (n.setAdaptiveBlockSize size).adaptiveBlockSize_ ∧
    (n.setAdaptiveBlockSize size).adaptiveBlockSize_ ≤ 51 ∧
    (n.setAdaptiveBlockSize size).dirty_ = true := by
  unfold ThresholdNode.setAdaptiveBlockSize
  simp only [Int.tmod_two_eq_zero_iff]
  by_cases he : size % 2 = 0
  · have hodd := wrapInt32_odd (size + 1) (by omega)
    simp only [he, if_true]
    exact ⟨by omega, by omega, by omega, trivial⟩
  · simp only [he, if_false]
    exact ⟨by omega, by omega, by omega, trivial⟩

/-! ## Insertion of a node -/

theorem GraphManager.addNode_dirty_ (s : State) (node : NodePtr) :
    (GraphManager.addNode s (some node)).dirty_ = true := by
  unfold GraphManager.addNode
  rfl

/-- The node object after `addNode`: moved to the default placement when both of
its coordinates compare equal to zero, left as it is otherwise. -/
theorem GraphManager.addNode_node? (s : State) (node q : NodePtr) :
    (GraphManager.addNode s (some node)).node? q =
      if q = node then
        (s.node? node).map (fun n =>
          if n.pos.xp.isZero && n.pos.yp.isZero then
            { n with
              pos := QPointF.ofInts
                      (toInt32 ((100 + ((s.nodes_.length + 1) % 5) * 220) % 2 ^ 64))
                      (toInt32 ((100 + ((s.nodes_.length + 1) / 5) * 150) % 2 ^ 64)) }
          else n)
      else s.node? q := by
  unfold GraphManager.addNode
  simp only
  have h1 : ∀ p, State.node? { s with nodes_ := s.nodes_ ++ [node] } p = s.node? p :=
    fun p => State.node?_congr rfl p
  rw [h1]
  cases hn : s.node? node with
  | none =>
    simp only [Option.map_none']
    refine (State.node?_congr (t := s) rfl q).trans ?_
    split
    · next h => rw [h, hn]
    · rfl
  | some n =>
    simp only [Option.map_some']
    by_cases hz : (n.pos.xp.isZero && n.pos.yp.isZero) = true
    · simp only [hz, if_true]
      refine (State.node?_congr
        (t := State.modifyNode { s with nodes_ := s.nodes_ ++ [node] } node _) rfl q).trans ?_
      rw [State.node?_modifyNode, h1, h1, hn]
      simp [List.length_append]
    · simp only [hz, if_false]
      refine (State.node?_congr (t := s) rfl q).trans ?_
      split
      · next h => rw [h, hn]; simp
      · rfl

/-- C24: `addNode(n)` for a live node `n` appends `n` to the node list, sets the
dirty flag of the graph, moves a node whose position is (0, 0) to
(100 + (k mod 5) * 220, 100 + (k div 5) * 150) for the node count `k` after the
insertion, leaves a node with another position in place, and changes no other
node object and no edge; `addNode(null)` changes nothing. The bound on the node
count keeps the coordinates in the range of `int`. -/
theorem addNode_appends_and_places (s : State) (node : NodePtr) (n : Node)
    (hn : s.node? node = some n)
    (hk : 100 + ((s.nodes_.length + 1) / 5) * 150 < 2 ^ 31) :
    (GraphManager.addNode s (some node)).nodes_ = s.nodes_ ++ [node] ∧
    (GraphManager.addNode s (some node)).dirty_ = true ∧
    (GraphManager.addNode s (some node)).connections_ = s.connections_ ∧
    (GraphManager.addNode s (some node)).node? node =
      some (if n.pos.xp.isZero = true ∧ n.pos.yp.isZero = true then
        { n with
          pos := QPointF.ofInts (100 + (((s.nodes_.length + 1) % 5 : Nat) : Int) * 220)
                  (100 + (((s.nodes_.length + 1) / 5 : Nat) : Int) * 150) }
        else n) ∧
    (∀ q, q ≠ node → (GraphManager.addNode s (some node)).node? q = s.node? q) ∧
    GraphManager.addNode s none = s := by
  refine ⟨GraphManager.addNode_nodes_ s node, GraphManager.addNode_dirty_ s node,
    GraphManager.addNode_connections_ s (some node), ?_, ?_, rfl⟩
  · rw [GraphManager.addNode_node?, if_pos rfl, hn, Option.map_some']
    have hx : toInt32 ((100 + ((s.nodes_.length + 1) % 5) * 220) % 2 ^ 64) =
        100 + (((s.nodes_.length + 1) % 5 : Nat) : Int) * 220 := by
      have hlt : 100 + ((s.nodes_.length + 1) % 5) * 220 < 2 ^ 31 := by omega
      rw [Nat.mod_eq_of_lt (by omega), toInt32_of_lt _ hlt]
      push_cast
      rfl
    have hy : toInt32 ((100 + ((s.nodes_.length + 1) / 5) * 150) % 2 ^ 64) =
        100 + (((s.nodes_.length + 1) / 5 : Nat) : Int) * 150 := by
      rw [Nat.mod_eq_of_lt (by omega), toInt32_of_lt _ hk]
      push_cast
      rfl
    rw [hx, hy]
    by_cases hz : (n.pos.xp.isZero && n.pos.yp.isZero) = true
    · rw [if_pos hz, if_pos (by simpa using hz)]
    · rw [if_neg hz, if_neg (by simpa using hz)]
  · intro q hq
    rw [GraphManager.addNode_node?, if_neg hq]

theorem addNode_appends_and_places_witness :
    (exampleChain.newNode .OutputNode).2.node? 2 = some (Node.construct .OutputNode 2) ∧
    100 + (((exampleChain.newNode .OutputNode).2.nodes_.length + 1) / 5) * 150 < 2 ^ 31 ∧
    (GraphManager.addNode (exampleChain.newNode .OutputNode).2 (some 2)).nodes_ =
      [0, 1, 2] ∧
    (GraphManager.addNode (exampleChain.newNode .OutputNode).2 (some 2)).node? 2 =
      some { Node.construct .OutputNode 2 with pos := QPointF.ofInts 760 100 } := by
  have h := addNode_appends_and_places (exampleChain.newNode .OutputNode).2 2
    (Node.construct .OutputNode 2) (by decide) (by decide)
  refine ⟨by decide, by decide, h.1, ?_⟩
  rw [h.2.2.2.1]
  decide

/-! ## The pass of `processAll` over the processing order -/

theorem GraphManager.processNodes_append (pf : Platform) (pre : List NodePtr) :
    ∀ (post : List NodePtr) (s : State) (c : List NodePtr),
      GraphManager.processNodes pf (pre ++ post) (s, c) =
        GraphManager.processNodes pf post (GraphManager.processNodes pf pre (s, c)) := by
  induction pre with
  | nil => intro post s c; rfl
  | cons a rest ih =>
    intro post s c
    rw [List.cons_append, GraphManager.processNodes_cons, GraphManager.processNodes_cons]
    split
    · exact ih _ _ _
    · exact ih _ _ _

/-- The call log is extended by a subsequence of the list gone through. -/
theorem GraphManager.processNodes_calls_sublist (pf : Platform) (l : List NodePtr) :
    ∀ (s : State) (c : List NodePtr),
      ∃ added, (GraphManager.processNodes pf l (s, c)).2 = c ++ added ∧ added.Sublist l := by
  induction l with
  | nil => intro s c; exact ⟨[], by simp [GraphManager.processNodes], List.Sublist.refl _⟩
  | cons a rest ih =>
    intro s c
    rw [GraphManager.processNodes_cons]
    split
    · obtain ⟨added, h1, h2⟩ := ih (Node.process pf s a) (c ++ [a])
      refine ⟨a :: added, ?_, h2.cons₂ a⟩
      rw [h1, List.append_assoc]
      rfl
    · obtain ⟨added, h1, h2⟩ := ih s c
      exact ⟨added, h1, h2.cons a⟩

theorem Before.shift {l : List NodePtr} {u v : NodePtr} (h : Before l u v) (a : NodePtr) :
    Before (a :: l) u v := by
  obtain ⟨i, j, hij, hi, hj⟩ := h
  exact ⟨i + 1, j + 1, by omega, by simpa using hi, by simpa using hj⟩

/-- The relative order of two elements of a subsequence is their order in the
full list. -/
theorem Before.of_sublist {l1 l : List NodePtr} (h : l1.Sublist l) {u v : NodePtr}
    (hb : Before l1 u v) : Before l u v := by
  induction h with
  | slnil =>
    obtain ⟨i, j, _, hi, _⟩ := hb
    simp at hi
  | cons a _ ih => exact (ih hb).shift a
  | @cons₂ l1 l a hs ih =>
    obtain ⟨i, j, hij, hi, hj⟩ := hb
    cases j with
    | zero => omega
    | succ j =>
      have hj' : l1[j]? = some v := by simpa using hj
      cases i with
      | zero =>
        have hu : a = u := by simpa using hi
        obtain ⟨k, hk⟩ := List.mem_iff_getElem?.1 (hs.subset (List.getElem?_mem hj'))
        exact ⟨0, k + 1, by omega, by simp [hu], by simpa using hk⟩
      | succ i =>
        have hi' : l1[i]? = some u := by simpa using hi
        exact (ih ⟨i, j, by omega, hi', hj'⟩).shift a

/-- Two elements of a subsequence of a duplicate-free list stand in the
subsequence in the order in which they stand in the list. -/
theorem Before.to_sublist {l1 l : List NodePtr} (h : l1.Sublist l) (hnd : l.Nodup)
    {u v : NodePtr} (hu : u ∈ l1) (hv : v ∈ l1) (hb : Before l u v) : Before l1 u v := by
  obtain ⟨i, hi⟩ := List.mem_iff_getElem?.1 hu
  obtain ⟨j, hj⟩ := List.mem_iff_getElem?.1 hv
  rcases Nat.lt_trichotomy i j with hlt | heq | hgt
  · exact ⟨i, j, hlt, hi, hj⟩
  · exfalso
    rw [heq, hj] at hi
    cases hi
    exact Before.irrefl hnd hb
  · exfalso
    have hvu : Before l v u := Before.of_sublist h ⟨j, i, hgt, hj, hi⟩
    exact Before.irrefl hnd (Before.trans_nodup hnd hb hvu)

/-- A node that is clean when the pass reaches it is skipped and left as it is
by the whole pass. -/
theorem GraphManager.processNodes_skip (pf : Platform) (pre post : List NodePtr) (n : NodePtr)
    (s : State) (hnd : (pre ++ n :: post).Nodup)
    (hclean : Node.isDirty (GraphManager.processNodes pf pre (s, [])).1 n = false) :
    n ∉ (GraphManager.processNodes pf (pre ++ n :: post) (s, [])).2 ∧
    (GraphManager.processNodes pf (pre ++ n :: post) (s, [])).1.node? n = s.node? n := by
  have hpre : n ∉ pre := fun h =>
    (List.nodup_append.1 hnd).2.2 h (List.mem_cons_self _ _)
  have hpost : n ∉ post := (List.nodup_cons.1 (List.nodup_append.1 hnd).2.1).1
  have hnot : n ∉ (GraphManager.processNodes pf (pre ++ n :: post) (s, [])).2 := by
    rw [GraphManager.processNodes_append]
    intro hmem
    have hcons : GraphManager.processNodes pf (n :: post)
        (GraphManager.processNodes pf pre (s, [])) =
        GraphManager.processNodes pf post (GraphManager.processNodes pf pre (s, [])) := by
      rw [show GraphManager.processNodes pf pre (s, []) =
        ((GraphManager.processNodes pf pre (s, [])).1,
          (GraphManager.processNodes pf pre (s, [])).2) from rfl,
        GraphManager.processNodes_cons, hclean]
      rfl
    rw [hcons] at hmem
    rcases GraphManager.processNodes_calls_sub pf post _ _ n hmem with h | h
    · rcases GraphManager.processNodes_calls_sub pf pre _ _ n h with h | h
      · exact absurd h (List.not_mem_nil _)
      · exact hpre h
    · exact hpost h
  exact ⟨hnot, GraphManager.processNodes_node?_of_not_called pf _ s [] n hnot⟩

/-- C23: `processAll()` goes through the sequence returned by
`calculateProcessingOrder`: the invoked callbacks are a subsequence of it; a node
whose callback is invoked was dirty when the pass reached it; a node that is
clean when reached is skipped and its object (output slots and flag) is the same
after the pass; and for every edge whose two end nodes both have their callback
invoked, the callback of the source node runs first. -/
theorem processAll_visits_in_order (pf : Platform) (hpf : pf.MapOrderOk) (s : State) :
    ((GraphManager.processAllCalls pf s).2.Sublist
      (GraphManager.calculateProcessingOrder pf s)) ∧
    (∀ n ∈ (GraphManager.processAllCalls pf s).2,
      ∃ pre post, GraphManager.calculateProcessingOrder pf s = pre ++ n :: post ∧
        Node.isDirty (GraphManager.processNodes pf pre (s, [])).1 n = true) ∧
    (∀ pre n post, GraphManager.calculateProcessingOrder pf s = pre ++ n :: post →
      Node.isDirty (GraphManager.processNodes pf pre (s, [])).1 n = false →
      n ∉ (GraphManager.processAllCalls pf s).2 ∧
      (GraphManager.processAll pf s).node? n = s.node? n) ∧
    (∀ c ∈ s.connections_,
      c.source_.parent_ ∈ (GraphManager.processAllCalls pf s).2 →
      c.destination_.parent_ ∈ (GraphManager.processAllCalls pf s).2 →
      Before (GraphManager.processAllCalls pf s).2
        c.source_.parent_ c.destination_.parent_) := by
  obtain ⟨_, hnd, _, hbefore⟩ := GraphManager.calculateProcessingOrder_sound pf hpf s
  obtain ⟨added, hadd, hsub⟩ := GraphManager.processNodes_calls_sublist pf
    (GraphManager.calculateProcessingOrder pf s) s []
  have hcalls : (GraphManager.processAllCalls pf s).2 = added := by
    unfold GraphManager.processAllCalls
    rw [hadd]
    rfl
  refine ⟨?_, ?_, ?_, ?_⟩
  · rw [hcalls]
    exact hsub
  · intro n hn
    obtain ⟨pre, post, sk, ck, h1, h2, h3, _⟩ := GraphManager.processNodes_split pf
      (GraphManager.calculateProcessingOrder pf s) s [] n (List.not_mem_nil _) hn
    refine ⟨pre, post, h1, ?_⟩
    rw [h2]
    exact h3
  · intro pre n post hsplit hclean
    unfold GraphManager.processAll GraphManager.processAllCalls
    rw [hsplit] at hnd ⊢
    exact GraphManager.processNodes_skip pf pre post n s hnd hclean
  · intro c hc hu hv
    rw [hcalls] at hu hv ⊢
    exact Before.to_sublist hsub hnd hu hv (hbefore c hc (hsub.subset hv))

theorem processAll_visits_in_order_witness :
    examplePlatform.MapOrderOk ∧
    (GraphManager.processAllCalls examplePlatform exampleLoaded).2 = [1] ∧
    ((GraphManager.processAllCalls examplePlatform exampleLoaded).2.Sublist
      (GraphManager.calculateProcessingOrder examplePlatform exampleLoaded)) ∧
    (GraphManager.processAll examplePlatform exampleLoaded).node? 0 =
      exampleLoaded.node? 0 :=
  ⟨examplePlatform_mapOrderOk, by decide,
    (processAll_visits_in_order examplePlatform examplePlatform_mapOrderOk exampleLoaded).1,
    ((processAll_visits_in_order examplePlatform examplePlatform_mapOrderOk
      exampleLoaded).2.2.1 [] 0 [1] (by decide) (by decide)).2⟩

/-! ## Passes that settle and passes that leave work -/

/-- A node of the list that is dirty at the start of the pass has its callback
invoked during the pass. -/
theorem GraphManager.processNodes_calls_of_dirty (pf : Platform) (l : List NodePtr) :
    ∀ (s : State) (c : List NodePtr) (n : NodePtr), n ∈ l → Node.isDirty s n = true →
      n ∈ (GraphManager.processNodes pf l (s, c)).2 := by
  induction l with
  | nil => intro s c n hn _; exact absurd hn (List.not_mem_nil _)
  | cons a rest ih =>
    intro s c n hn hd
    rw [GraphManager.processNodes_cons]
    by_cases han : n = a
    · rw [← han, if_pos hd]
      exact GraphManager.processNodes_calls_mono pf rest _ _ n (by simp)
    · have hr : n ∈ rest := by
        rcases List.mem_cons.1 hn with h | h
        · exact absurd h han
        · exact h
      split
      · apply ih _ _ n hr
        rw [Node.isDirty_process_of_ne pf s a n han]
        exact hd
      · exact ih _ _ n hr hd

theorem Node.isDirty_of_node? {s t : State} {n : NodePtr} (h : t.node? n = s.node? n) :
    Node.isDirty t n = Node.isDirty s n := by
  unfold Node.isDirty
  rw [h]

/-- A node that is dirty and not ready when the pass reaches it is dirty when the
pass ends. -/
theorem GraphManager.processNodes_stays_dirty (pf : Platform) (pre post : List NodePtr)
    (n : NodePtr) (s : State) (hnd : (pre ++ n :: post).Nodup)
    (hdirty : Node.isDirty (GraphManager.processNodes pf pre (s, [])).1 n = true)
    (hready : Node.isReady (GraphManager.processNodes pf pre (s, [])).1 n = false) :
    Node.isDirty (GraphManager.processNodes pf (pre ++ n :: post) (s, [])).1 n = true := by
  have hpost : n ∉ post := (List.nodup_cons.1 (List.nodup_append.1 hnd).2.1).1
  rw [GraphManager.processNodes_append]
  rw [show GraphManager.processNodes pf pre (s, []) =
    ((GraphManager.processNodes pf pre (s, [])).1,
      (GraphManager.processNodes pf pre (s, [])).2) from rfl,
    GraphManager.processNodes_cons, if_pos hdirty]
  rw [Node.isDirty_of_node? (GraphManager.processNodes_node?_of_not_mem pf post _ _ n hpost),
    Node.isDirty_process_self, hready]
  exact hdirty

/-- C28 (amended): on an acyclic graph whose edges stay inside the node list,
when every node whose callback is invoked during a `processAll()` pass is ready
at that moment, every node of the graph is clean after the pass and the next
`processAll()` invokes no callback (the latter on every graph); and a node that
is dirty and not ready when the pass reaches it is dirty after the pass and has
its callback invoked by the next `processAll()` (on every graph). -/
theorem processAll_settles_or_retries (pf : Platform) (hpf : pf.MapOrderOk) (s : State) :
    (GraphManager.AllReady pf (GraphManager.calculateProcessingOrder pf s) s →
      (s.Acyclic →
        (∀ c ∈ s.connections_,
          c.source_.parent_ ∈ s.nodes_ ∧ c.destination_.parent_ ∈ s.nodes_) →
        ∀ n ∈ s.nodes_, Node.isDirty (GraphManager.processAll pf s) n = false) ∧
      (GraphManager.processAllCalls pf (GraphManager.processAll pf s)).2 = []) ∧
    (∀ pre n post, GraphManager.calculateProcessingOrder pf s = pre ++ n :: post →
      Node.isDirty (GraphManager.processNodes pf pre (s, [])).1 n = true →
      Node.isReady (GraphManager.processNodes pf pre (s, [])).1 n = false →
      Node.isDirty (GraphManager.processAll pf s) n = true ∧
      n ∈ (GraphManager.processAllCalls pf (GraphManager.processAll pf s)).2) := by
  obtain ⟨-, hnd, -, -⟩ := GraphManager.calculateProcessingOrder_sound pf hpf s
  constructor
  · intro hready
    have hclean : ∀ n ∈ GraphManager.calculateProcessingOrder pf s,
        Node.isDirty (GraphManager.processAll pf s) n = false :=
      fun n hn => GraphManager.processNodes_allReady pf _ s [] hready n hn
    refine ⟨fun hac hend n hn => hclean n
      (((GraphManager.calculateProcessingOrder_sorted pf hpf s hac hend).2.1 n).2 hn), ?_⟩
    unfold GraphManager.processAllCalls
    rw [GraphManager.processAll_order, GraphManager.processNodes_of_clean pf _ _ _ hclean]
  · intro pre n post hsplit hdirty hready
    have hd : Node.isDirty (GraphManager.processAll pf s) n = true := by
      unfold GraphManager.processAll GraphManager.processAllCalls
      rw [hsplit] at hnd ⊢
      exact GraphManager.processNodes_stays_dirty pf pre post n s hnd hdirty hready
    refine ⟨hd, ?_⟩
    unfold GraphManager.processAllCalls
    rw [GraphManager.processAll_order]
    apply GraphManager.processNodes_calls_of_dirty pf _ _ _ n _ hd
    rw [hsplit]
    simp

theorem processAll_settles_or_retries_witness :
    examplePlatform.MapOrderOk ∧ exampleLoaded.Acyclic ∧
    (∀ c ∈ exampleLoaded.connections_,
      c.source_.parent_ ∈ exampleLoaded.nodes_ ∧
        c.destination_.parent_ ∈ exampleLoaded.nodes_) ∧
    GraphManager.AllReady examplePlatform
      (GraphManager.calculateProcessingOrder examplePlatform exampleLoaded) exampleLoaded ∧
    (∀ n ∈ exampleLoaded.nodes_,
      Node.isDirty (GraphManager.processAll examplePlatform exampleLoaded) n = false) ∧
    (GraphManager.processAllCalls examplePlatform
      (GraphManager.processAll examplePlatform exampleLoaded)).2 = [] ∧
    Node.isDirty (GraphManager.processAll examplePlatform exampleChain) 1 = true ∧
    1 ∈ (GraphManager.processAllCalls examplePlatform
      (GraphManager.processAll examplePlatform exampleChain)).2 :=
  ⟨examplePlatform_mapOrderOk,
    State.Acyclic.congr (by decide) exampleChain_reachable.inv.2.2.2, by decide, by decide,
    ((processAll_settles_or_retries examplePlatform examplePlatform_mapOrderOk
      exampleLoaded).1 (by decide)).1
      (State.Acyclic.congr (by decide) exampleChain_reachable.inv.2.2.2) (by decide),
    ((processAll_settles_or_retries examplePlatform examplePlatform_mapOrderOk
      exampleLoaded).1 (by decide)).2,
    (processAll_settles_or_retries examplePlatform examplePlatform_mapOrderOk
      exampleChain).2 [0] 1 [] (by decide) (by decide) (by decide)⟩

/-! ## Callbacks of nodes that are not ready -/

theorem List.foldl_set_nil_replicate (k : Nat) :
    ∀ o : List Mat, o.length = k →
      (List.range k).foldl (fun o i => o.set i ([] : Mat)) o = List.replicate k [] := by
  intro o ho
  apply List.ext_getElem?
  intro i
  have hlen : ∀ (l : List Nat) (o : List Mat),
      (l.foldl (fun o i => o.set i ([] : Mat)) o).length = o.length := by
    intro l
    induction l with
    | nil => intro o; rfl
    | cons a rest ih => intro o; simp only [List.foldl_cons]; rw [ih]; simp
  by_cases hi : i < k
  · have hnoop := foldl_set_noop (fun _ => ([] : Mat)) (List.range k) o i (List.mem_range.2 hi)
    simp only at hnoop
    rw [← hnoop, List.getElem?_set_self (by rw [hlen, ho]; exact hi)]
    simp [hi]
  · rw [List.getElem?_eq_none (by rw [hlen, ho]; omega),
      List.getElem?_eq_none (by simp; omega)]

/-- `ChannelSplitterNode::process` on a node that is not ready leaves every slot
empty. -/
theorem Node.clearOutputs_outputImages_ (n : Node)
    (h : n.outputImages_.length = n.outputConnectors_.length) :
    n.clearOutputs.outputImages_ = List.replicate n.outputConnectors_.length [] := by
  unfold Node.clearOutputs
  rw [(Node.foldl_setOutputImage (fun _ => ([] : Mat)) _ n).1]
  exact List.foldl_set_nil_replicate _ _ h

/-- The callback of a node that is not ready leaves the output slots empty. -/
theorem Node.processSelf_not_ready (pf : Platform) (s : State) (node : NodePtr) (n : Node)
    (hn : s.node? node = some n) (hslots : n.SlotsOk)
    (hready : Node.isReady s node = false) :
    (∀ m ∈ (Node.processSelf pf s node n).outputImages_, m = []) ∧
    (n.kind = NodeKind.OutputNode → (Node.processSelf pf s node n).processedImage_ = []) := by
  obtain ⟨h1, h2, h3⟩ := hslots
  have hr : Node.isReadyObject s n = false := by
    unfold Node.isReady at hready
    rw [hn] at hready
    exact hready
  have hone : n.outputConnectors_.length = 1 →
      ∀ m ∈ (n.setOutputImage [] 0).outputImages_, m = [] := by
    intro hlen m hm
    rw [Node.setOutputImage_outputImages_] at hm
    rw [hlen] at h1
    match ho : n.outputImages_, h1 with
    | [x], _ =>
      rw [ho] at hm
      simpa using hm
  unfold Node.processSelf
  cases hk : n.kind <;> rw [hk] at h2 <;>
    simp only [hready, Bool.not_false, if_true, reduceCtorEq, false_implies, and_true,
      true_implies]
  · unfold Node.isReadyObject at hr
    rw [hk] at hr
    simp only at hr
    rw [if_neg (by simpa using hr)]
    rw [h3 hk]
    intro m hm
    have : n.originalImage_ = [] := by simpa using hr
    rw [List.mem_singleton.1 hm, this]
  · intro m hm
    have : n.outputImages_ = [] := List.length_eq_zero.1 (h1.trans h2)
    rw [this] at hm
    exact absurd hm (List.not_mem_nil _)
  · exact hone h2
  · exact hone h2
  · exact hone h2
  · exact hone h2
  · exact hone h2
  · intro m hm
    rw [Node.clearOutputs_outputImages_ n h1] at hm
    exact (List.mem_replicate.1 hm).2

/-- C22: for a node of any class, with its output slots as the class keeps them,
in every state in which the node is not ready, the call `process()` returns (the
callback is a total function), replaces the node object by the result of the
callback, leaves every other node as it is, and leaves every output slot of the
node empty; for an output node the stored result image is empty as well. -/
theorem process_not_ready_clears (pf : Platform) (s : State) (node : NodePtr) (n : Node)
    (hn : s.node? node = some n) (hslots : n.SlotsOk)
    (hready : Node.isReady s node = false) :
    (Node.process pf s node).node? node = some (Node.processSelf pf s node n) ∧
    (∀ q, q ≠ node → (Node.process pf s node).node? q = s.node? q) ∧
    (∀ m ∈ (Node.processSelf pf s node n).outputImages_, m = []) ∧
    (∀ i, Node.getOutputImage (Node.process pf s node) node i = []) ∧
    (n.kind = NodeKind.OutputNode → (Node.processSelf pf s node n).processedImage_ = []) := by
  have hself : (Node.process pf s node).node? node =
      some (Node.processSelf pf s node n) := by
    rw [Node.process_node?_self, hn]
    rfl
  obtain ⟨hempty, hout⟩ := Node.processSelf_not_ready pf s node n hn hslots hready
  refine ⟨hself, fun q hq => Node.process_node?_of_ne pf s node q hq, hempty, ?_, hout⟩
  intro i
  unfold Node.getOutputImage
  rw [hself]
  simp only
  cases hi : (Node.processSelf pf s node n).outputImages_[i]? with
  | none => rfl
  | some m => exact hempty m (List.getElem?_mem hi)

theorem process_not_ready_clears_witness :
    exampleChain.node? 1 = some exampleChainNode ∧ exampleChainNode.SlotsOk ∧
    Node.isReady exampleChain 1 = false ∧
    (∀ i, Node.getOutputImage (Node.process examplePlatform exampleChain 1) 1 i = []) :=
  ⟨by decide, by decide, by decide,
    (process_not_ready_clears examplePlatform exampleChain 1 exampleChainNode (by decide)
      (by decide) (by decide)).2.2.2.1⟩

/-! ## The dirty flag after setters and edge changes -/

theorem State.node?_isSome_markDirty (s : State) (p q : NodePtr) :
    ((Node.markDirty s p).node? q).isSome = (s.node? q).isSome := by
  unfold Node.markDirty
  rw [State.node?_modifyNode]
  by_cases hq : q = p
  · rw [hq, if_pos rfl]
    cases s.node? p <;> rfl
  · rw [if_neg hq]

theorem State.node?_isSome_congr {s t : State} (h : s.heap = t.heap) (q : NodePtr) :
    (s.node? q).isSome = (t.node? q).isSome := by
  rw [State.node?_congr h]

/-- A successful `connect` marks the node of the destination connector. -/
theorem GraphManager.isDirty_connect (s : State) (src dst : ConnectorPtr)
    (h : GraphManager.canConnect s (some src) (some dst) = true) (q : NodePtr) :
    Node.isDirty (GraphManager.connect s (some src) (some dst)).2 q =
      if q = dst.parent_ ∧ (s.node? dst.parent_).isSome then true else Node.isDirty s q := by
  rw [GraphManager.connect_of_canConnect s src dst h]
  refine (Node.isDirty_congr (t := Node.markDirty _ dst.parent_) rfl q).trans ?_
  rw [Node.isDirty_markDirty]
  unfold NodeConnector.addConnection
  rw [State.node?_isSome_modifyConnector, State.node?_isSome_modifyConnector,
    Node.isDirty_modifyConnector, Node.isDirty_modifyConnector]
  rfl

/-- The first loop of `removeNode` removes no node object, clears no dirty flag,
and marks the surviving destination node of every removed edge. -/
theorem GraphManager.removeNodeLoop_dirty (node : NodePtr) (rest : List Connection) :
    ∀ (kept : List Connection) (s : State) (q : NodePtr),
      (s.node? q).isSome = true →
      ((GraphManager.removeNodeLoop node kept rest s).node? q).isSome = true ∧
      (Node.isDirty s q = true →
        Node.isDirty (GraphManager.removeNodeLoop node kept rest s) q = true) ∧
      (∀ e ∈ rest, (e.source_.parent_ = node ∨ e.destination_.parent_ = node) →
        e.destination_.parent_ ≠ node → e.destination_.parent_ = q →
        Node.isDirty (GraphManager.removeNodeLoop node kept rest s) q = true) := by
  induction rest with
  | nil =>
    intro kept s q hq
    refine ⟨?_, ?_, fun e he => absurd he (List.not_mem_nil _)⟩
    · unfold GraphManager.removeNodeLoop
      exact hq
    · intro hd
      unfold GraphManager.removeNodeLoop
      exact hd
  | cons c rest ih =>
    intro kept s q hq
    unfold GraphManager.removeNodeLoop
    by_cases hinc : c.source_.parent_ = node ∨ c.destination_.parent_ = node
    · rw [if_pos hinc]
      simp only
      have hlive : ∀ t : State, (t.node? q).isSome = true →
          (State.node? { NodeConnector.removeConnection
            (NodeConnector.removeConnection t c.source_ c) c.destination_ c with
            connections_ := kept ++ rest } q).isSome = true := by
        intro t ht
        refine (State.node?_isSome_congr (t := NodeConnector.removeConnection
          (NodeConnector.removeConnection t c.source_ c) c.destination_ c) rfl q).trans ?_
        unfold NodeConnector.removeConnection
        rw [State.node?_isSome_modifyConnector, State.node?_isSome_modifyConnector]
        exact ht
      have hdirty : ∀ t : State,
          Node.isDirty { NodeConnector.removeConnection
            (NodeConnector.removeConnection t c.source_ c) c.destination_ c with
            connections_ := kept ++ rest } q = Node.isDirty t q := by
        intro t
        refine (Node.isDirty_congr (t := NodeConnector.removeConnection
          (NodeConnector.removeConnection t c.source_ c) c.destination_ c) rfl q).trans ?_
        unfold NodeConnector.removeConnection
        rw [Node.isDirty_modifyConnector, Node.isDirty_modifyConnector]
      by_cases hdst : c.destination_.parent_ ≠ node
      · rw [if_pos hdst]
        have hq1 : ((Node.markDirty s c.destination_.parent_).node? q).isSome = true := by
          rw [State.node?_isSome_markDirty]
          exact hq
        obtain ⟨h1, h2, h3⟩ := ih kept _ q (hlive _ hq1)
        refine ⟨h1, ?_, ?_⟩
        · intro hd
          apply h2
          rw [hdirty, Node.isDirty_markDirty]
          split
          · rfl
          · exact hd
        · intro e he hei hen heq
          rcases List.mem_cons.1 he with rfl | he
          · apply h2
            rw [hdirty, Node.isDirty_markDirty, if_pos ⟨heq.symm, by rw [heq]; exact hq⟩]
          · exact h3 e he hei hen heq
      · rw [if_neg hdst]
        obtain ⟨h1, h2, h3⟩ := ih kept _ q (hlive _ hq)
        refine ⟨h1, ?_, ?_⟩
        · intro hd
          apply h2
          rw [hdirty]
          exact hd
        · intro e he hei hen heq
          rcases List.mem_cons.1 he with rfl | he
          · exact absurd hen hdst
          · exact h3 e he hei hen heq
    · rw [if_neg hinc]
      obtain ⟨h1, h2, h3⟩ := ih (kept ++ [c]) s q hq
      refine ⟨h1, h2, ?_⟩
      intro e he hei hen heq
      rcases List.mem_cons.1 he with rfl | he
      · exact absurd hei hinc
      · exact h3 e he hei hen heq

theorem Node.isDirty_destroyLoop (fuel : Nat) (c : ConnectorPtr) :
    ∀ (s : State) (q : NodePtr),
      Node.isDirty (NodeConnector.destroyLoop fuel c s) q = Node.isDirty s q := by
  induction fuel with
  | zero => intro s q; rfl
  | succ fuel ih =>
    intro s q
    unfold NodeConnector.destroyLoop
    split
    · rfl
    · simp only
      rw [ih, Node.isDirty_modifyConnector]
      unfold NodeConnector.removeConnection
      split <;> exact Node.isDirty_modifyConnector _ _ _ _

theorem Node.isDirty_destroyAll (node : NodePtr) (t : ConnectorType) (l : List Nat) :
    ∀ (s : State) (q : NodePtr),
      Node.isDirty (l.foldl (fun st i => NodeConnector.destroy st ⟨node, t, i⟩) s) q =
        Node.isDirty s q := by
  induction l with
  | nil => intro s q; rfl
  | cons i rest ih =>
    intro s q
    simp only [List.foldl_cons]
    rw [ih]
    exact Node.isDirty_destroyLoop _ _ _ _

/-- The destructor of a node writes no dirty flag of another node. -/
theorem Node.isDirty_delete (s : State) (node q : NodePtr) (hq : q ≠ node) :
    Node.isDirty (Node.delete s node) q = Node.isDirty s q := by
  unfold Node.delete
  split
  · rfl
  · simp only
    unfold Node.isDirty
    rw [State.node?_set_none, if_neg hq]
    exact (Node.isDirty_destroyAll _ _ _ _ q).trans (Node.isDirty_destroyAll _ _ _ _ q)

/-- The call `removeNode(u)` marks the surviving destination node of every edge
that is incident to `u`. -/
theorem GraphManager.isDirty_removeNode (s : State) (node : NodePtr) (e : Connection)
    (he : e ∈ s.connections_)
    (hinc : e.source_.parent_ = node ∨ e.destination_.parent_ = node)
    (hne : e.destination_.parent_ ≠ node)
    (hlive : (s.node? e.destination_.parent_).isSome = true) :
    Node.isDirty (GraphManager.removeNode s (some node)) e.destination_.parent_ = true := by
  unfold GraphManager.removeNode
  simp only
  refine (Node.isDirty_congr (t := Node.delete _ node) rfl _).trans ?_
  rw [Node.isDirty_delete _ _ _ hne]
  refine (Node.isDirty_congr
    (t := GraphManager.removeNodeLoop node [] s.connections_ s) ?_ _).trans ?_
  · unfold GraphManager.selectNode
    split
    · split <;> rfl
    · rfl
  · exact (GraphManager.removeNodeLoop_dirty node s.connections_ [] s _ hlive).2.2
      e he hinc hne rfl

/-- A successful `InputNode::loadImage` runs `process()` itself and leaves the
input node clean; a failed one leaves the state as it is. -/
theorem Node.isDirty_loadImage (pf : Platform) (s : State) (node : NodePtr) (n : Node)
    (filePath : String) (hn : s.node? node = some n) (hk : n.kind = NodeKind.InputNode) :
    ((Node.loadImage pf s node filePath).1 = true →
      Node.isDirty (Node.loadImage pf s node filePath).2 node = false) ∧
    ((Node.loadImage pf s node filePath).1 = false →
      (Node.loadImage pf s node filePath).2 = s) := by
  unfold Node.loadImage
  simp only
  by_cases hempty : (pf.imread filePath).isEmpty = true
  · rw [if_pos hempty]
    exact ⟨fun h => Bool.noConfusion h, fun _ => rfl⟩
  · rw [if_neg hempty]
    refine ⟨fun _ => ?_, fun h => Bool.noConfusion h⟩
    unfold Node.isDirty
    rw [Node.process_node?_self, State.node?_modifyNode, if_pos rfl, hn]
    simp only [Option.map_some']
    unfold Node.processSelf
    simp only [hk]
    rw [if_pos (by simpa using hempty)]

/-- C21 (as stated) fails for `OutputNode::setFormat` and `OutputNode::setQuality`,
which store the parameter and leave the dirty flag alone: the output node of a
processed graph is clean before and after the quality is changed from 90 to 50
and the format from PNG to JPG. -/
theorem output_setters_leave_clean :
    exampleOutputObject.dirty_ = false ∧ exampleOutputObject.quality_ = 90 ∧
    (exampleOutputObject.setQuality 50).quality_ = 50 ∧
    (exampleOutputObject.setQuality 50).dirty_ = false ∧
    exampleOutputObject.format_ = ImageFormat.PNG ∧
    (exampleOutputObject.setFormat ImageFormat.JPG).format_ = ImageFormat.JPG ∧
    (exampleOutputObject.setFormat ImageFormat.JPG).dirty_ = false := by
  decide

/-- C21 (amended): every parameter setter of `BlurNode`, `ThresholdNode`,
`EdgeDetectionNode`, `BlendNode`, `ChannelSplitterNode` and
`BrightnessContrastNode` sets the dirty flag of its node, while `setFormat` and
`setQuality` of `OutputNode` leave the flag as it is; after a successful
`connect(s, d)` the node of `d` is dirty; after `disconnect(e)` for an edge `e` of
the edge list, and after `removeNode` of the source node of `e`, the surviving
node of the destination port of `e` is dirty. -/
theorem triggers_set_dirty :
    (∀ (n : BlurNode) (i : Int) (t : BlurType) (b : Bool),
      (n.setRadius i).dirty_ = true ∧ (n.setBlurType t).dirty_ = true ∧
      (n.setDirectional b).dirty_ = true ∧ (n.setXDirection i).dirty_ = true ∧
      (n.setYDirection i).dirty_ = true) ∧
    (∀ (n : ThresholdNode) (i : Int) (t : ThresholdType),
      (n.setThreshold i).dirty_ = true ∧ (n.setThresholdType t).dirty_ = true ∧
      (n.setAdaptiveBlockSize i).dirty_ = true ∧ (n.setAdaptiveConstant i).dirty_ = true) ∧
    (∀ (n : EdgeDetectionNode) (i : Int) (t : EdgeDetectionType) (b : Bool),
      (n.setEdgeType t).dirty_ = true ∧ (n.setThreshold1 i).dirty_ = true ∧
      (n.setThreshold2 i).dirty_ = true ∧ (n.setKernelSize i).dirty_ = true ∧
      (n.setOverlayMode b).dirty_ = true) ∧
    (∀ (n : BlendNode) (i : Int) (m : BlendMode),
      (n.setBlendMode m).dirty_ = true ∧ (n.setOpacity i).dirty_ = true) ∧
    (∀ (n : ChannelSplitterNode) (b : Bool), (n.setGrayscaleMode b).dirty_ = true) ∧
    (∀ (s : State) (node : NodePtr) (i : Int) (d : Double), (s.node? node).isSome = true →
      Node.isDirty (Node.setBrightness s node i) node = true ∧
      Node.isDirty (Node.setContrast s node d) node = true) ∧
    (∀ (n : OutputNode) (i : Int) (f : ImageFormat),
      (n.setQuality i).dirty_ = n.dirty_ ∧ (n.setFormat f).dirty_ = n.dirty_) ∧
    (∀ (s : State) (src dst : ConnectorPtr), (s.node? dst.parent_).isSome = true →
      (GraphManager.connect s (some src) (some dst)).1 = true →
      Node.isDirty (GraphManager.connect s (some src) (some dst)).2 dst.parent_ = true) ∧
    (∀ (s : State) (e : Connection), e ∈ s.connections_ →
      (s.node? e.destination_.parent_).isSome = true →
      Node.isDirty (GraphManager.disconnect s (some e)) e.destination_.parent_ = true) ∧
    (∀ (s : State) (e : Connection), e ∈ s.connections_ →
      (s.node? e.destination_.parent_).isSome = true →
      e.destination_.parent_ ≠ e.source_.parent_ →
      Node.isDirty (GraphManager.removeNode s (some e.source_.parent_))
        e.destination_.parent_ = true) := by
  refine ⟨fun _ _ _ _ => ⟨rfl, rfl, rfl, rfl, rfl⟩, fun _ _ _ => ⟨rfl, rfl, rfl, rfl⟩,
    fun _ _ _ _ => ⟨rfl, rfl, rfl, rfl, rfl⟩, fun _ _ _ => ⟨rfl, rfl⟩, fun _ _ => rfl,
    ?_, fun _ _ _ => ⟨rfl, rfl⟩, ?_, ?_, ?_⟩
  · intro s node i d hlive
    unfold Node.isDirty Node.setBrightness Node.setContrast
    simp only [State.node?_modifyNode, if_true]
    cases hn : s.node? node with
    | none => rw [hn] at hlive; exact Bool.noConfusion hlive
    | some n => exact ⟨rfl, rfl⟩
  · intro s src dst hlive hok
    have hcan : GraphManager.canConnect s (some src) (some dst) = true := by
      cases hc : GraphManager.canConnect s (some src) (some dst) with
      | true => rfl
      | false =>
        rw [GraphManager.connect_of_not_canConnect s _ _ hc] at hok
        exact Bool.noConfusion hok
    rw [GraphManager.isDirty_connect s src dst hcan, if_pos ⟨rfl, hlive⟩]
  · intro s e he hlive
    rw [GraphManager.isDirty_disconnect s e he, if_pos ⟨rfl, hlive⟩]
  · intro s e he hlive hne
    exact GraphManager.isDirty_removeNode s e.source_.parent_ e he (Or.inl rfl) hne hlive

theorem triggers_set_dirty_witness :
    ((ThresholdNode.construct 0).setThreshold 200).dirty_ = true ∧
    (exampleProcessed.node? 1).isSome = true ∧
    Node.isDirty exampleProcessed 1 = false ∧
    Node.isDirty (Node.setBrightness exampleProcessed 1 10) 1 = true ∧
    exampleEdge ∈ exampleProcessed.connections_ ∧
    exampleEdge.destination_.parent_ ≠ exampleEdge.source_.parent_ ∧
    Node.isDirty (GraphManager.disconnect exampleProcessed (some exampleEdge)) 1 = true ∧
    Node.isDirty (GraphManager.removeNode exampleProcessed (some 0)) 1 = true :=
  ⟨(triggers_set_dirty.2.1 (ThresholdNode.construct 0) 200 .Binary).1, by decide, by decide,
    (triggers_set_dirty.2.2.2.2.2.1 exampleProcessed 1 10 ⟨0⟩ (by decide)).1, by decide,
    by decide,
    triggers_set_dirty.2.2.2.2.2.2.2.2.1 exampleProcessed exampleEdge (by decide) (by decide),
    triggers_set_dirty.2.2.2.2.2.2.2.2.2 exampleProcessed exampleEdge (by decide) (by decide)
      (by decide)⟩

/-! ## Termination of the traversal of `canConnect` -/

/-- More fuel does not change the answer of the traversal. -/
theorem bfsLoop_fuel_mono (succ : NodePtr → List NodePtr) (t : NodePtr) :
    ∀ (fuel fuel' : Nat) (q v : List NodePtr) (b : Bool), fuel ≤ fuel' →
      bfsLoop succ t fuel q v = some b → bfsLoop succ t fuel' q v = some b := by
  intro fuel
  induction fuel with
  | zero => intro fuel' q v b _ h; simp [bfsLoop] at h
  | succ fuel ih =>
    intro fuel' q v b hle h
    obtain ⟨k, rfl⟩ : ∃ k, fuel' = k + 1 := ⟨fuel' - 1, by omega⟩
    cases q with
    | nil => simpa [bfsLoop] using h
    | cons current rest =>
      unfold bfsLoop at h ⊢
      cases hvn : visitNext t (succ current) rest v with
      | none => rw [hvn] at h; exact h
      | some r =>
        rw [hvn] at h
        exact ih k _ _ b (by omega) h

/-- Enough fuel, counted on a set of nodes that holds the queue and is closed
under successors: every loop iteration with a non-empty queue is paid for by a
node of the set that the queue has not held before. -/
theorem bfsLoop_fuel_closed (succ : NodePtr → List NodePtr) (t : NodePtr) (U : List NodePtr)
    (hU : ∀ x ∈ U, ∀ y ∈ succ x, y ∈ U) :
    ∀ fuel q v, v.Nodup → v ⊆ U → q ⊆ U → U.length + q.length < fuel + v.length →
      ∃ b, bfsLoop succ t fuel q v = some b := by
  intro fuel
  induction fuel with
  | zero =>
    intro q v hnd hsub _ hlt
    have := (List.subperm_of_subset hnd hsub).length_le
    omega
  | succ fuel ih =>
    intro q v hnd hsub hq hlt
    cases q with
    | nil => exact ⟨true, by simp [bfsLoop]⟩
    | cons current rest =>
      unfold bfsLoop
      cases hvn : visitNext t (succ current) rest v with
      | none => exact ⟨false, rfl⟩
      | some r =>
        obtain ⟨q', v'⟩ := r
        obtain ⟨h1, h2, h3, h4⟩ := visitNext_some t (succ current) rest v q' v' hvn
        have hcur : current ∈ U := hq (List.mem_cons_self _ _)
        apply ih q' v' (h3 hnd)
        · intro x hx
          rcases (h1 x).1 hx with h | h
          · exact hsub h
          · exact hU _ hcur _ h
        · intro x hx
          rcases (h2 x).1 hx with h | h
          · exact hq (List.mem_cons_of_mem _ h)
          · exact hU _ hcur _ h.1
        · simp only [List.length_cons] at hlt
          omega

/-- The nodes that one loop iteration enqueues are the nodes that it marks as
visited, none of them was marked before, and none is enqueued twice. -/
theorem visitNext_enqueues_new (t : NodePtr) (l : List NodePtr) :
    ∀ q v q' v', visitNext t l q v = some (q', v') →
      ∃ added : List NodePtr, q' = q ++ added ∧ v' = added.reverse ++ v ∧
        added.Nodup ∧ ∀ x ∈ added, x ∉ v := by
  induction l with
  | nil =>
    intro q v q' v' h
    simp [visitNext] at h
    obtain ⟨rfl, rfl⟩ := h
    exact ⟨[], by simp⟩
  | cons a rest ih =>
    intro q v q' v' h
    unfold visitNext at h
    by_cases ha : a = t
    · simp [ha] at h
    · by_cases hv : a ∈ v
      · simp only [ha, hv, if_true, if_false] at h
        exact ih q v q' v' h
      · simp only [ha, hv, if_false] at h
        obtain ⟨added, h1, h2, h3, h4⟩ := ih _ _ q' v' h
        refine ⟨a :: added, ?_, ?_, ?_, ?_⟩
        · rw [h1, List.append_assoc]; rfl
        · rw [h2]; simp
        · refine List.nodup_cons.2 ⟨?_, h3⟩
          intro hmem
          exact h4 a hmem (List.mem_cons_self _ _)
        · intro x hx
          rcases List.mem_cons.1 hx with rfl | hx
          · exact hv
          · exact fun hxv => h4 x hx (List.mem_cons_of_mem _ hxv)

/-- C29: in every state, whatever connections its connectors hold, the traversal
of `GraphManager::canConnect` returns: for a list `R` of the nodes reachable from
the destination node, it returns within as many dequeue steps as `R` has distinct
nodes (one more unit of fuel pays the final test of the empty queue), with the
answer that `canConnect` uses; and a loop iteration enqueues exactly the nodes
that it newly marks as visited, each once, so that no node is enqueued twice. -/
theorem canConnect_terminates (s : State) (src dst : ConnectorPtr) (R : List NodePtr)
    (hreach : ∀ x, x ∈ R ↔
      Relation.ReflTransGen (fun a c => c ∈ s.successors a) dst.parent_ x) :
    (∃ b, bfsLoop s.successors src.parent_ (R.dedup.length + 1)
        [dst.parent_] [dst.parent_] = some b ∧
      bfsLoop s.successors src.parent_ s.bfsFuel [dst.parent_] [dst.parent_] = some b) ∧
    (∀ current q v q' v', v.Nodup →
      visitNext src.parent_ (s.successors current) q v = some (q', v') →
      v'.Nodup ∧ ∃ added : List NodePtr, q' = q ++ added ∧ v' = added.reverse ++ v ∧
        added.Nodup ∧ ∀ x ∈ added, x ∉ v) := by
  constructor
  · have hstart : dst.parent_ ∈ R.dedup :=
      List.mem_dedup.2 ((hreach _).2 Relation.ReflTransGen.refl)
    have hclosed : ∀ x ∈ R.dedup, ∀ y ∈ s.successors x, y ∈ R.dedup := by
      intro x hx y hy
      exact List.mem_dedup.2 ((hreach y).2
        (Relation.ReflTransGen.tail ((hreach x).1 (List.mem_dedup.1 hx)) hy))
    obtain ⟨b, hb⟩ := bfsLoop_fuel_closed s.successors src.parent_ R.dedup hclosed
      (R.dedup.length + 1) [dst.parent_] [dst.parent_] (List.nodup_singleton _)
      (by simpa using hstart) (by simpa using hstart) (by simp)
    obtain ⟨b', hb'⟩ := s.bfsLoop_terminates src.parent_ dst.parent_
    have e1 := bfsLoop_fuel_mono s.successors src.parent_ _
      (max (R.dedup.length + 1) s.bfsFuel) _ _ b (Nat.le_max_left _ _) hb
    have e2 := bfsLoop_fuel_mono s.successors src.parent_ _
      (max (R.dedup.length + 1) s.bfsFuel) _ _ b' (Nat.le_max_right _ _) hb'
    have hbb : b = b' := Option.some.inj (e1.symm.trans e2)
    exact ⟨b, hb, hbb ▸ hb'⟩
  · intro current q v q' v' hnd h
    exact ⟨(visitNext_some _ _ q v q' v' h).2.2.1 hnd, visitNext_enqueues_new _ _ q v q' v' h⟩

theorem exampleTangle_reach (x : NodePtr) :
    x ∈ [2, 0, 1] ↔
      Relation.ReflTransGen (fun a c => c ∈ exampleTangle.successors a) 2 x := by
  constructor
  · intro hx
    have h0 : Relation.ReflTransGen (fun a c => c ∈ exampleTangle.successors a) 2 0 :=
      Relation.ReflTransGen.single (by decide)
    have h1 : Relation.ReflTransGen (fun a c => c ∈ exampleTangle.successors a) 2 1 :=
      Relation.ReflTransGen.tail h0 (by decide)
    simp only [List.mem_cons, List.mem_singleton, List.not_mem_nil, or_false] at hx
    rcases hx with rfl | rfl | rfl
    · exact Relation.ReflTransGen.refl
    · exact h0
    · exact h1
  · intro h
    induction h with
    | refl => decide
    | tail _ hbc ih =>
      have hclosed : ∀ a ∈ [2, 0, 1], ∀ y ∈ exampleTangle.successors a, y ∈ [2, 0, 1] := by
        decide
      exact hclosed _ ih _ hbc

theorem canConnect_terminates_witness :
    (∀ x, x ∈ [2, 0, 1] ↔
      Relation.ReflTransGen (fun a c => c ∈ exampleTangle.successors a) 2 x) ∧
    Relation.TransGen (fun a c => c ∈ exampleTangle.successors a) 0 0 ∧
    (exampleTangle.getConnections ⟨0, .Input, 0⟩).length = 2 ∧
    bfsLoop exampleTangle.successors 3 4 [2] [2] = some true ∧
    GraphManager.canConnect exampleTangle (some ⟨3, .Output, 0⟩) (some ⟨2, .Input, 0⟩) = true ∧
    ∃ b, bfsLoop exampleTangle.successors 3 ([2, 0, 1].dedup.length + 1) [2] [2] = some b ∧
      bfsLoop exampleTangle.successors 3 exampleTangle.bfsFuel [2] [2] = some b :=
  ⟨exampleTangle_reach,
    Relation.TransGen.tail (b := 1) (Relation.TransGen.single (by decide)) (by decide),
    by decide, by decide, by decide,
    (canConnect_terminates exampleTangle ⟨3, .Output, 0⟩ ⟨2, .Input, 0⟩ [2, 0, 1]
      exampleTangle_reach).1⟩

/-! ## `connect` followed by `disconnect` -/

theorem List.modify_modify_same {α : Type} (f g : α → α) (i : Nat) (l : List α) :
    List.modify g i (List.modify f i l) = List.modify (fun a => g (f a)) i l := by
  apply List.ext_getElem?
  intro m
  simp only [List.getElem?_modify]
  cases l[m]? with
  | none => rfl
  | some a => by_cases h : i = m <;> simp [h]

theorem List.modify_eq_self_of {α : Type} (f : α → α) (i : Nat) (l : List α)
    (h : ∀ k, l[i]? = some k → f k = k) : List.modify f i l = l := by
  apply List.ext_getElem?
  intro m
  simp only [List.getElem?_modify]
  cases hm : l[m]? with
  | none => rfl
  | some a =>
    by_cases him : i = m
    · subst him
      simp [h a hm]
    · simp [him]

theorem List.erase_append_singleton {α : Type} [DecidableEq α] (l : List α) (a : α)
    (h : a ∉ l) : (l ++ [a]).erase a = l := by
  rw [List.erase_append_right _ h]
  simp

/-- Pushing a connection that the connector does not hold and erasing it again
leaves the node object as it was. -/
theorem Node.setConnectors_push_erase (n : Node) (t : ConnectorType) (i : Nat) (e : Connection)
    (he : ∀ k, (n.connectors t)[i]? = some k → e ∉ k.connections_) :
    n.setConnectors t
      (List.modify (fun k => { k with connections_ := k.connections_.erase e }) i
        (List.modify (fun k => { k with connections_ := k.connections_ ++ [e] }) i
          (n.connectors t))) = n := by
  rw [List.modify_modify_same, List.modify_eq_self_of]
  · cases t <;> rfl
  · intro k hk
    simp only
    rw [List.erase_append_singleton _ _ (he k hk)]

theorem State.node?_modifyConnector (s : State) (c : ConnectorPtr)
    (f : List Connection → List Connection) (q : NodePtr) :
    (s.modifyConnector c f).node? q =
      if q = c.parent_ then
        (s.node? c.parent_).map (fun n =>
          n.setConnectors c.type_
            (List.modify (fun k => { k with connections_ := f k.connections_ }) c.index_
              (n.connectors c.type_)))
      else s.node? q := by
  unfold State.modifyConnector
  rw [State.node?_modifyNode]

theorem State.node?_markDirty (s : State) (p q : NodePtr) :
    (Node.markDirty s p).node? q =
      if q = p then (s.node? p).map (fun n => { n with dirty_ := true }) else s.node? q := by
  unfold Node.markDirty
  rw [State.node?_modifyNode]

/-- The port lists are read from the node objects; the dirty flag plays no part. -/
theorem State.getConnections_of_node? {s t : State} (p : ConnectorPtr)
    (h : (t.node? p.parent_).map (fun n => ({ n with dirty_ := true } : Node)) =
      (s.node? p.parent_).map (fun n => ({ n with dirty_ := true } : Node))) :
    t.getConnections p = s.getConnections p := by
  unfold State.getConnections State.connector?
  cases ht : t.node? p.parent_ with
  | none =>
    rw [ht] at h
    cases hs : s.node? p.parent_ with
    | none => rfl
    | some n => rw [hs] at h; exact Option.noConfusion h
  | some m =>
    rw [ht] at h
    cases hs : s.node? p.parent_ with
    | none => rw [hs] at h; exact Option.noConfusion h
    | some n =>
      rw [hs] at h
      simp only [Option.map_some', Option.some.injEq] at h
      have hi : m.inputConnectors_ = n.inputConnectors_ := by
        have := congrArg Node.inputConnectors_ h
        exact this
      have ho : m.outputConnectors_ = n.outputConnectors_ := by
        have := congrArg Node.outputConnectors_ h
        exact this
      simp only
      cases p.type_
      · simp only [Node.connectors, hi]
      · simp only [Node.connectors, ho]

theorem State.successors_of_node? {s t : State} (q : NodePtr)
    (h : (t.node? q).map (fun n => ({ n with dirty_ := true } : Node)) =
      (s.node? q).map (fun n => ({ n with dirty_ := true } : Node))) :
    t.successors q = s.successors q := by
  unfold State.successors
  cases ht : t.node? q with
  | none =>
    rw [ht] at h
    cases hs : s.node? q with
    | none => rfl
    | some n => rw [hs] at h; exact Option.noConfusion h
  | some m =>
    rw [ht] at h
    cases hs : s.node? q with
    | none => rw [hs] at h; exact Option.noConfusion h
    | some n =>
      rw [hs] at h
      simp only [Option.map_some', Option.some.injEq] at h
      have ho : m.outputConnectors_ = n.outputConnectors_ := by
        have := congrArg Node.outputConnectors_ h
        exact this
      simp only [ho]

/-- The answer of `canConnect` is read from the node objects; the dirty flags and
the members of `GraphManager` play no part. -/
theorem GraphManager.canConnect_of_node? {s t : State} (hlen : t.heap.length = s.heap.length)
    (h : ∀ q, (t.node? q).map (fun n => ({ n with dirty_ := true } : Node)) =
      (s.node? q).map (fun n => ({ n with dirty_ := true } : Node)))
    (src dst : Option ConnectorPtr) :
    GraphManager.canConnect t src dst = GraphManager.canConnect s src dst := by
  have hsucc : t.successors = s.successors :=
    funext (fun q => State.successors_of_node? q (h q))
  have hfuel : t.bfsFuel = s.bfsFuel := by
    unfold State.bfsFuel State.allTargets
    rw [hsucc, hlen]
  unfold GraphManager.canConnect
  cases src with
  | none => rfl
  | some src =>
    cases dst with
    | none => rfl
    | some dst =>
      simp only
      rw [State.getConnections_of_node? dst (h dst.parent_), hsucc, hfuel]

theorem Node.modify_push_erase (l : List NodeConnector) (i : Nat) (e : Connection)
    (he : ∀ k, l[i]? = some k → e ∉ k.connections_) :
    List.modify (fun k => { k with connections_ := k.connections_.erase e }) i
      (List.modify (fun k => { k with connections_ := k.connections_ ++ [e] }) i l) = l := by
  rw [List.modify_modify_same, List.modify_eq_self_of]
  intro k hk
  simp only
  rw [List.erase_append_singleton _ _ (he k hk)]

/-- The node object of the source connector after `addConnection` and
`removeConnection` of a connection that the connector did not hold. -/
theorem Node.push_erase (n : Node) (t : ConnectorType) (i : Nat) (e : Connection)
    (he : ∀ k, (n.connectors t)[i]? = some k → e ∉ k.connections_) :
    (n.setConnectors t
        (List.modify (fun k => { k with connections_ := k.connections_ ++ [e] }) i
          (n.connectors t))).setConnectors t
      (List.modify (fun k => { k with connections_ := k.connections_.erase e }) i
        ((n.setConnectors t
          (List.modify (fun k => { k with connections_ := k.connections_ ++ [e] }) i
            (n.connectors t))).connectors t)) = n := by
  cases t
  · simp only [Node.setConnectors, Node.connectors] at he ⊢
    rw [Node.modify_push_erase _ _ _ he]
  · simp only [Node.setConnectors, Node.connectors] at he ⊢
    rw [Node.modify_push_erase _ _ _ he]

/-- The node object of the destination connector after `addConnection`,
`markDirty`, `removeConnection` and `markDirty`. -/
theorem Node.push_erase_dirty (n : Node) (t : ConnectorType) (i : Nat) (e : Connection)
    (he : ∀ k, (n.connectors t)[i]? = some k → e ∉ k.connections_) :
    ({ ({ n.setConnectors t
            (List.modify (fun k => { k with connections_ := k.connections_ ++ [e] }) i
              (n.connectors t)) with dirty_ := true } : Node).setConnectors t
        (List.modify (fun k => { k with connections_ := k.connections_.erase e }) i
          (({ n.setConnectors t
            (List.modify (fun k => { k with connections_ := k.connections_ ++ [e] }) i
              (n.connectors t)) with dirty_ := true } : Node).connectors t))
      with dirty_ := true } : Node) = { n with dirty_ := true } := by
  cases t
  · simp only [Node.setConnectors, Node.connectors] at he ⊢
    rw [Node.modify_push_erase _ _ _ he]
  · simp only [Node.setConnectors, Node.connectors] at he ⊢
    rw [Node.modify_push_erase _ _ _ he]

theorem State.not_mem_of_getConnections {s : State} {c : ConnectorPtr} {n : Node}
    {e : Connection} (hn : s.node? c.parent_ = some n) (he : e ∉ s.getConnections c) :
    ∀ k, (n.connectors c.type_)[c.index_]? = some k → e ∉ k.connections_ := by
  intro k hk
  unfold State.getConnections State.connector? at he
  rw [hn] at he
  simp only [hk] at he
  exact he

/-- The node objects after a successful `connect`. -/
theorem GraphManager.node?_connect (s : State) (src dst : ConnectorPtr)
    (hcan : GraphManager.canConnect s (some src) (some dst) = true) (r : NodePtr) :
    (GraphManager.connect s (some src) (some dst)).2.node? r =
      if r = dst.parent_ then
        (s.node? r).map (fun n => ({ n.setConnectors dst.type_
          (List.modify
            (fun k => { k with
              connections_ := k.connections_ ++ [⟨s.nextConn, src, dst⟩] })
            dst.index_ (n.connectors dst.type_))
          with dirty_ := true } : Node))
      else if r = src.parent_ then
        (s.node? r).map (fun n => n.setConnectors src.type_
          (List.modify
            (fun k => { k with
              connections_ := k.connections_ ++ [⟨s.nextConn, src, dst⟩] })
            src.index_ (n.connectors src.type_)))
      else s.node? r := by
  have hne : src.parent_ ≠ dst.parent_ := ((canConnect_eq_true_iff s src dst).1 hcan).2.2.2.1
  rw [GraphManager.connect_of_canConnect s src dst hcan]
  refine (State.node?_congr (t := Node.markDirty
    (NodeConnector.addConnection
      (NodeConnector.addConnection
        { s with nextConn := s.nextConn + 1,
                 connections_ := s.connections_ ++ [⟨s.nextConn, src, dst⟩] }
        src ⟨s.nextConn, src, dst⟩)
      dst ⟨s.nextConn, src, dst⟩) dst.parent_) rfl r).trans ?_
  rw [State.node?_markDirty]
  unfold NodeConnector.addConnection
  simp only [State.node?_modifyConnector]
  have h0 : ∀ r',
      State.node? { s with nextConn := s.nextConn + 1,
                           connections_ := s.connections_ ++ [⟨s.nextConn, src, dst⟩] } r' =
        s.node? r' :=
    fun r' => State.node?_congr rfl r'
  simp only [h0, if_neg (Ne.symm hne), if_true]
  by_cases hr : r = dst.parent_
  · rw [if_pos hr, if_pos hr, hr]
    cases s.node? dst.parent_ <;> rfl
  · rw [if_neg hr, if_neg hr, if_neg hr]
    by_cases hrs : r = src.parent_
    · rw [if_pos hrs, if_pos hrs, hrs]
    · rw [if_neg hrs, if_neg hrs]

/-- The node objects after `disconnect` of an edge of the edge list between two
nodes. -/
theorem GraphManager.node?_disconnect (s : State) (e : Connection) (he : e ∈ s.connections_)
    (hne : e.source_.parent_ ≠ e.destination_.parent_) (r : NodePtr) :
    (GraphManager.disconnect s (some e)).node? r =
      if r = e.destination_.parent_ then
        (s.node? r).map (fun n => ({ n.setConnectors e.destination_.type_
          (List.modify (fun k => { k with connections_ := k.connections_.erase e })
            e.destination_.index_ (n.connectors e.destination_.type_))
          with dirty_ := true } : Node))
      else if r = e.source_.parent_ then
        (s.node? r).map (fun n => n.setConnectors e.source_.type_
          (List.modify (fun k => { k with connections_ := k.connections_.erase e })
            e.source_.index_ (n.connectors e.source_.type_)))
      else s.node? r := by
  rw [GraphManager.disconnect_of_mem s e he]
  refine (State.node?_congr (t := Node.markDirty
      (NodeConnector.removeConnection (NodeConnector.removeConnection s e.source_ e)
        e.destination_ e) e.destination_.parent_) rfl r).trans ?_
  rw [State.node?_markDirty]
  unfold NodeConnector.removeConnection
  simp only [State.node?_modifyConnector]
  simp only [if_neg (Ne.symm hne), if_true]
  by_cases hr : r = e.destination_.parent_
  · rw [if_pos hr, if_pos hr, hr]
    cases s.node? e.destination_.parent_ <;> rfl
  · rw [if_neg hr, if_neg hr, if_neg hr]
    by_cases hrs : r = e.source_.parent_
    · rw [if_pos hrs, if_pos hrs, hrs]
    · rw [if_neg hrs, if_neg hrs]

/-- The node objects after a successful `connect` and the `disconnect` of the
edge just created: the node of the destination connector is marked dirty, every
other node object is as before. -/
theorem GraphManager.connect_disconnect_node? (s : State) (src dst : ConnectorPtr)
    (hcan : GraphManager.canConnect s (some src) (some dst) = true)
    (hports : ∀ p, (⟨s.nextConn, src, dst⟩ : Connection) ∉ s.getConnections p)
    (q : NodePtr) :
    (GraphManager.disconnect (GraphManager.connect s (some src) (some dst)).2
      (some ⟨s.nextConn, src, dst⟩)).node? q =
      if q = dst.parent_ then (s.node? q).map (fun n => { n with dirty_ := true })
      else s.node? q := by
  have hne : src.parent_ ≠ dst.parent_ := ((canConnect_eq_true_iff s src dst).1 hcan).2.2.2.1
  have hmem : (⟨s.nextConn, src, dst⟩ : Connection) ∈
      (GraphManager.connect s (some src) (some dst)).2.connections_ := by
    rw [GraphManager.connect_connections_ s src dst hcan]
    simp
  have hd := GraphManager.node?_connect s src dst hcan dst.parent_
  rw [if_pos rfl] at hd
  have hsrc := GraphManager.node?_connect s src dst hcan src.parent_
  rw [if_neg hne, if_pos rfl] at hsrc
  rw [GraphManager.node?_disconnect _ _ hmem hne]
  by_cases hq : q = dst.parent_
  · rw [if_pos hq, if_pos hq, hq, hd]
    cases hn : s.node? dst.parent_ with
    | none => rfl
    | some n =>
      simp only [Option.map_some', Option.some.injEq]
      exact Node.push_erase_dirty n dst.type_ dst.index_ _
        (State.not_mem_of_getConnections hn (hports dst))
  · rw [if_neg hq, if_neg hq]
    by_cases hqs : q = src.parent_
    · rw [if_pos hqs, hqs, hsrc]
      cases hn : s.node? src.parent_ with
      | none => rfl
      | some n =>
        simp only [Option.map_some', Option.some.injEq]
        exact Node.push_erase n src.type_ src.index_ _
          (State.not_mem_of_getConnections hn (hports src))
    · rw [if_neg hqs, GraphManager.node?_connect s src dst hcan q, if_neg hq, if_neg hqs]

theorem GraphManager.connect_fields (s : State) (src dst : ConnectorPtr)
    (h : GraphManager.canConnect s (some src) (some dst) = true) :
    (GraphManager.connect s (some src) (some dst)).1 = true ∧
    (GraphManager.connect s (some src) (some dst)).2.heap.length = s.heap.length ∧
    (GraphManager.connect s (some src) (some dst)).2.selectedNode_ = s.selectedNode_ ∧
    (GraphManager.connect s (some src) (some dst)).2.currentFilePath_ = s.currentFilePath_ ∧
    (GraphManager.connect s (some src) (some dst)).2.nextId_ = s.nextId_ := by
  refine ⟨?_, ?_⟩
  · unfold GraphManager.connect
    simp [h]
  · rw [GraphManager.connect_of_canConnect s src dst h]
    simp [Node.markDirty, NodeConnector.addConnection, State.modifyConnector]

theorem GraphManager.disconnect_fields (s : State) (e : Connection) (he : e ∈ s.connections_) :
    (GraphManager.disconnect s (some e)).heap.length = s.heap.length ∧
    (GraphManager.disconnect s (some e)).connections_ = s.connections_.erase e ∧
    (GraphManager.disconnect s (some e)).selectedNode_ = s.selectedNode_ ∧
    (GraphManager.disconnect s (some e)).currentFilePath_ = s.currentFilePath_ ∧
    (GraphManager.disconnect s (some e)).nextId_ = s.nextId_ ∧
    (GraphManager.disconnect s (some e)).dirty_ = true := by
  rw [GraphManager.disconnect_of_mem s e he]
  simp [Node.markDirty, NodeConnector.removeConnection, State.modifyConnector]

/-- C27: when `canConnect(s, d)` holds and the connection object made by `connect`
is a new one (it is on no port and not in the edge list), `connect(s, d)` succeeds
and the `disconnect` of the edge just created gives back the node list, the edge
list and the list of every port, `canConnect(s, d)` holds again, every node
object except the node of `d` is as before, and the node of `d` is as before up
to its dirty flag, which is set; the dirty flag of the graph is set, and the
selected node and the file path are unchanged. -/
theorem connect_disconnect_restores (s : State) (src dst : ConnectorPtr)
    (hcan : GraphManager.canConnect s (some src) (some dst) = true)
    (hedges : (⟨s.nextConn, src, dst⟩ : Connection) ∉ s.connections_)
    (hports : ∀ p ∈ s.connectorPtrs,
      (⟨s.nextConn, src, dst⟩ : Connection) ∉ s.getConnections p) :
    (GraphManager.connect s (some src) (some dst)).1 = true ∧
    (GraphManager.disconnect (GraphManager.connect s (some src) (some dst)).2
      (some ⟨s.nextConn, src, dst⟩)).nodes_ = s.nodes_ ∧
    (GraphManager.disconnect (GraphManager.connect s (some src) (some dst)).2
      (some ⟨s.nextConn, src, dst⟩)).connections_ = s.connections_ ∧
    (∀ p, (GraphManager.disconnect (GraphManager.connect s (some src) (some dst)).2
      (some ⟨s.nextConn, src, dst⟩)).getConnections p = s.getConnections p) ∧
    GraphManager.canConnect
      (GraphManager.disconnect (GraphManager.connect s (some src) (some dst)).2
        (some ⟨s.nextConn, src, dst⟩)) (some src) (some dst) = true ∧
    (∀ q, q ≠ dst.parent_ →
      (GraphManager.disconnect (GraphManager.connect s (some src) (some dst)).2
        (some ⟨s.nextConn, src, dst⟩)).node? q = s.node? q) ∧
    (GraphManager.disconnect (GraphManager.connect s (some src) (some dst)).2
      (some ⟨s.nextConn, src, dst⟩)).node? dst.parent_ =
        (s.node? dst.parent_).map (fun n => { n with dirty_ := true }) ∧
    (GraphManager.disconnect (GraphManager.connect s (some src) (some dst)).2
      (some ⟨s.nextConn, src, dst⟩)).dirty_ = true ∧
    (GraphManager.disconnect (GraphManager.connect s (some src) (some dst)).2
      (some ⟨s.nextConn, src, dst⟩)).selectedNode_ = s.selectedNode_ ∧
    (GraphManager.disconnect (GraphManager.connect s (some src) (some dst)).2
      (some ⟨s.nextConn, src, dst⟩)).currentFilePath_ = s.currentFilePath_ := by
  have hmem : (⟨s.nextConn, src, dst⟩ : Connection) ∈
      (GraphManager.connect s (some src) (some dst)).2.connections_ := by
    rw [GraphManager.connect_connections_ s src dst hcan]
    simp
  obtain ⟨c1, c2, c3, c4, _⟩ := GraphManager.connect_fields s src dst hcan
  obtain ⟨d1, d2, d3, d4, _, d6⟩ := GraphManager.disconnect_fields _ _ hmem
  have hnode := GraphManager.connect_disconnect_node? s src dst hcan
    (fun p hp => hports p (State.getConnections_ne_nil_mem hp) hp)
  have hmap : ∀ q,
      ((GraphManager.disconnect (GraphManager.connect s (some src) (some dst)).2
        (some ⟨s.nextConn, src, dst⟩)).node? q).map
          (fun n => ({ n with dirty_ := true } : Node)) =
        (s.node? q).map (fun n => ({ n with dirty_ := true } : Node)) := by
    intro q
    rw [hnode q]
    split
    · cases s.node? q <;> rfl
    · rfl
  refine ⟨c1, ?_, ?_, ?_, ?_, ?_, ?_, d6, d3.trans c3, d4.trans c4⟩
  · rw [GraphManager.disconnect_nodes_, GraphManager.connect_nodes_]
  · rw [d2, GraphManager.connect_connections_ s src dst hcan,
      List.erase_append_singleton _ _ hedges]
  · intro p
    exact State.getConnections_of_node? p (hmap p.parent_)
  · rw [GraphManager.canConnect_of_node? (d1.trans c2) hmap]
    exact hcan
  · intro q hq
    rw [hnode q, if_neg hq]
  · rw [hnode dst.parent_, if_pos rfl]

theorem connect_disconnect_restores_witness :
    GraphManager.canConnect exampleTwoNodes (some ⟨0, .Output, 0⟩) (some ⟨1, .Input, 0⟩) =
      true ∧
    (⟨exampleTwoNodes.nextConn, ⟨0, .Output, 0⟩, ⟨1, .Input, 0⟩⟩ : Connection) ∉
      exampleTwoNodes.connections_ ∧
    (∀ p ∈ exampleTwoNodes.connectorPtrs,
      (⟨exampleTwoNodes.nextConn, ⟨0, .Output, 0⟩, ⟨1, .Input, 0⟩⟩ : Connection) ∉
        exampleTwoNodes.getConnections p) ∧
    (GraphManager.disconnect
      (GraphManager.connect exampleTwoNodes (some ⟨0, .Output, 0⟩) (some ⟨1, .Input, 0⟩)).2
      (some ⟨exampleTwoNodes.nextConn, ⟨0, .Output, 0⟩, ⟨1, .Input, 0⟩⟩)).connections_ =
        exampleTwoNodes.connections_ ∧
    GraphManager.canConnect
      (GraphManager.disconnect
        (GraphManager.connect exampleTwoNodes (some ⟨0, .Output, 0⟩) (some ⟨1, .Input, 0⟩)).2
        (some ⟨exampleTwoNodes.nextConn, ⟨0, .Output, 0⟩, ⟨1, .Input, 0⟩⟩))
      (some ⟨0, .Output, 0⟩) (some ⟨1, .Input, 0⟩) = true :=
  ⟨by decide, by decide, by decide,
    (connect_disconnect_restores exampleTwoNodes ⟨0, .Output, 0⟩ ⟨1, .Input, 0⟩ (by decide)
      (by decide) (by decide)).2.2.1,
    (connect_disconnect_restores exampleTwoNodes ⟨0, .Output, 0⟩ ⟨1, .Input, 0⟩ (by decide)
      (by decide) (by decide)).2.2.2.2.1⟩

/-! ## A saved graph read back -/

set_option maxRecDepth 100000 in
/-- C25: the code evaluated on `exampleChain`, an input node and a
brightness/contrast node with their default names, joined by one edge. The file
written by `saveToFile` is accepted by `loadFromFile` in a fresh graph, but it is
read back as two input nodes and no edge: `writeNodes` writes the position as a
`QPointF` (two doubles, 16 bytes) and `readNodes` reads a `QPoint` (two 32-bit
integers, 8 bytes), so every field behind the first position is read from the
wrong place. -/
theorem save_load_chain_misread :
    exampleChain.nodes_.map (fun p => (exampleChain.node? p).map (fun n => (n.kind, n.name_))) =
      [some (NodeKind.InputNode, "Image Input"),
       some (NodeKind.BrightnessContrastNode, "Brightness/Contrast")] ∧
    exampleChain.connections_.map
      (fun c => (c.source_.parent_, c.source_.index_, c.destination_.parent_,
        c.destination_.index_)) = [(0, 0, 1, 0)] ∧
    (GraphManager.saveToFile exampleChain "p.nip" true).1 = true ∧
    (GraphManager.loadFromFile examplePlatform State.init "p.nip"
      (some (GraphManager.fileContents examplePlatform exampleChain))).map
        (fun r => (r.1, r.2.nodes_.map (fun p => (r.2.node? p).map (fun n => n.kind)),
          r.2.connections_)) =
      some (true, [some NodeKind.InputNode, some NodeKind.InputNode], []) := by
  decide

/-! ## The graph left by `loadFromFile` -/

theorem State.SamePorts.same_refl (s : State) : s.SamePorts s := ⟨rfl, rfl, fun _ => rfl⟩

theorem State.SamePorts.same_trans {s t r : State} (h1 : s.SamePorts t) (h2 : t.SamePorts r) :
    s.SamePorts r :=
  ⟨h2.1.trans h1.1, h2.2.1.trans h1.2.1, fun p => (h2.2.2 p).trans (h1.2.2 p)⟩

theorem State.SamePorts.same_modifyNode (s : State) (p : NodePtr) (f : Node → Node)
    (hf : ∀ n t, (f n).connectors t = n.connectors t) : s.SamePorts (s.modifyNode p f) :=
  ⟨State.modifyNode_connections_ s p f, State.modifyNode_nextConn s p f,
    State.getConnections_modifyNode_of_connectors s p f hf⟩

theorem Node.processSelf_connectors (pf : Platform) (s : State) (node : NodePtr) (n : Node)
    (t : ConnectorType) : (Node.processSelf pf s node n).connectors t = n.connectors t := by
  have h := Node.processSelf_parameters pf s node n
  have hi : (Node.processSelf pf s node n).inputConnectors_ = n.inputConnectors_ := by
    have := congrArg Node.inputConnectors_ h
    exact this
  have ho : (Node.processSelf pf s node n).outputConnectors_ = n.outputConnectors_ := by
    have := congrArg Node.outputConnectors_ h
    exact this
  cases t
  · exact hi
  · exact ho

theorem State.SamePorts.same_process (pf : Platform) (s : State) (node : NodePtr) :
    s.SamePorts (Node.process pf s node) :=
  State.SamePorts.same_modifyNode s node _ (Node.processSelf_connectors pf s node)

theorem State.SamePorts.same_loadImage (pf : Platform) (s : State) (node : NodePtr)
    (filePath : String) : s.SamePorts (Node.loadImage pf s node filePath).2 := by
  unfold Node.loadImage
  simp only
  split
  · exact State.SamePorts.same_refl s
  · exact (State.SamePorts.same_modifyNode s node _
      (fun n t => by cases t <;> rfl)).same_trans (State.SamePorts.same_process pf _ node)

theorem State.SamePorts.same_newNode (s : State) (kind : NodeKind) :
    s.SamePorts (s.newNode kind).2 :=
  ⟨rfl, rfl, State.getConnections_newNode s kind⟩

theorem State.SamePorts.same_addNode (s : State) (node : Option NodePtr) :
    s.SamePorts (GraphManager.addNode s node) :=
  ⟨GraphManager.addNode_connections_ s node, GraphManager.addNode_nextConn s node,
    GraphManager.getConnections_addNode s node⟩

theorem State.SamePorts.same_finishNode (s : State) (node : NodePtr) (nodeName : QString)
    (position : Int × Int) : s.SamePorts (GraphManager.finishNode s node nodeName position) := by
  unfold GraphManager.finishNode
  refine State.SamePorts.same_trans ?_ (State.SamePorts.same_addNode _ _)
  unfold Node.setPosition
  refine State.SamePorts.same_trans ?_
    (State.SamePorts.same_modifyNode _ _ _ (fun n t => by cases t <;> rfl))
  unfold Node.setName
  exact State.SamePorts.same_modifyNode _ _ _ (fun n t => by cases t <;> rfl)

theorem State.SamePorts.same_ite (s : State) (c : Prop) [Decidable c] (a b : State)
    (ha : s.SamePorts a) (hb : s.SamePorts b) : s.SamePorts (if c then a else b) := by
  split
  · exact ha
  · exact hb

theorem State.SamePorts.same_readNode (pf : Platform) (s : State) (bs : List Nat) :
    s.SamePorts (GraphManager.readNode pf s bs).1 := by
  unfold GraphManager.readNode
  simp only [apply_ite Prod.fst]
  refine State.SamePorts.same_ite _ _ _ _ ?_ (State.SamePorts.same_ite _ _ _ _ ?_
    (State.SamePorts.same_ite _ _ _ _ (State.SamePorts.same_ite _ _ _ _ ?_
      (State.SamePorts.same_refl s)) (State.SamePorts.same_refl s)))
  · refine State.SamePorts.same_trans ?_ (State.SamePorts.same_finishNode _ _ _ _)
    refine State.SamePorts.same_ite _ _ _ _ ?_ (State.SamePorts.same_newNode s _)
    exact State.SamePorts.same_trans (State.SamePorts.same_newNode s _)
      (State.SamePorts.same_loadImage pf _ _ _)
  · exact State.SamePorts.same_trans (State.SamePorts.same_newNode s _)
      (State.SamePorts.same_finishNode _ _ _ _)
  · refine State.SamePorts.same_trans ?_ (State.SamePorts.same_finishNode _ _ _ _)
    unfold Node.setContrast
    refine State.SamePorts.same_trans ?_
      (State.SamePorts.same_modifyNode _ _ _ (fun n t => by cases t <;> rfl))
    unfold Node.setBrightness
    refine State.SamePorts.same_trans ?_
      (State.SamePorts.same_modifyNode _ _ _ (fun n t => by cases t <;> rfl))
    exact State.SamePorts.same_newNode s _

theorem State.SamePorts.same_readNodesLoop (pf : Platform) (count : Nat) :
    ∀ (s : State) (bs : List Nat), s.SamePorts (GraphManager.readNodesLoop pf count s bs).1 := by
  induction count with
  | zero => intro s bs; exact State.SamePorts.same_refl s
  | succ count ih =>
    intro s bs
    unfold GraphManager.readNodesLoop
    exact (State.SamePorts.same_readNode pf s bs).same_trans (ih _ _)

theorem State.SamePorts.same_processNodes (pf : Platform) (l : List NodePtr) :
    ∀ (s : State) (c : List NodePtr),
      s.SamePorts (GraphManager.processNodes pf l (s, c)).1 := by
  induction l with
  | nil => intro s c; exact State.SamePorts.same_refl s
  | cons a rest ih =>
    intro s c
    rw [GraphManager.processNodes_cons]
    split
    · exact (State.SamePorts.same_process pf s a).same_trans (ih _ _)
    · exact ih _ _

theorem State.SamePorts.same_processAll (pf : Platform) (s : State) :
    s.SamePorts (GraphManager.processAll pf s) :=
  State.SamePorts.same_processNodes pf _ s []

theorem State.wired_of_same {s t : State} (h : s.SamePorts t)
    (hk : s.Inv ∧ s.SingleInput ∧ s.InputsRegistered) :
    t.Inv ∧ t.SingleInput ∧ t.InputsRegistered := by
  obtain ⟨hinv, hsingle, hreg⟩ := hk
  refine ⟨hinv.of_same h.1 h.2.1 h.2.2, ?_, ?_⟩
  · intro p hp
    rw [h.2.2 p]
    exact hsingle p hp
  · intro c hc
    rw [h.1] at hc
    rw [h.2.2]
    exact hreg c hc

/-- The call of `connect` on two existing connectors keeps the invariant, every
input port with at most one connection, and every edge registered on its
destination connector. -/
theorem GraphManager.connect_wired (s : State) (src dst : ConnectorPtr)
    (hk : s.Inv ∧ s.SingleInput ∧ s.InputsRegistered)
    (hsrc : (s.connector? src).isSome) (hdst : (s.connector? dst).isSome) :
    (GraphManager.connect s (some src) (some dst)).2.Inv ∧
    (GraphManager.connect s (some src) (some dst)).2.SingleInput ∧
    (GraphManager.connect s (some src) (some dst)).2.InputsRegistered := by
  obtain ⟨hinv, hsingle, hreg⟩ := hk
  refine ⟨hinv.connect src dst hsrc, ?_⟩
  cases hcan : GraphManager.canConnect s (some src) (some dst) with
  | false =>
    rw [GraphManager.connect_of_not_canConnect s _ _ hcan]
    exact ⟨hsingle, hreg⟩
  | true =>
    obtain ⟨h1, -, h3, -⟩ := (canConnect_eq_true_iff s src dst).1 hcan
    constructor
    · intro p hp
      rcases GraphManager.getConnections_connect_cases s src dst hcan p with
        heq | ⟨hpd, heq⟩
      · rw [heq]
        exact hsingle p hp
      · rcases hpd with rfl | rfl
        · rw [hp] at h1
          exact ConnectorType.noConfusion h1
        · rw [heq, h3]
          exact Nat.le_refl _
    · intro c hc
      rw [GraphManager.connect_connections_ s src dst hcan] at hc
      rcases List.mem_append.1 hc with hold | hnew
      · have hmem := hreg c hold
        rcases GraphManager.getConnections_connect_cases s src dst hcan c.destination_ with
          heq | ⟨-, heq⟩
        · rw [heq]
          exact hmem
        · rw [heq]
          exact List.mem_append_left _ hmem
      · rw [List.mem_singleton.1 hnew]
        show _ ∈ (GraphManager.connect s (some src) (some dst)).2.getConnections dst
        rw [GraphManager.getConnections_connect_dst s src dst hcan hdst]
        simp

theorem toInt32_le (n : Nat) : toInt32 n ≤ (n : Int) := by
  unfold toInt32
  have h : n % 2 ^ 32 ≤ n := Nat.mod_le _ _
  simp only
  split <;> omega

theorem State.connector?_isSome_of_lt {s : State} {node : NodePtr} {n : Node}
    (hn : s.node? node = some n) (t : ConnectorType) (i : Nat)
    (hi : i < (n.connectors t).length) : (s.connector? ⟨node, t, i⟩).isSome = true := by
  unfold State.connector?
  simp only [hn]
  rw [List.getElem?_eq_getElem hi]
  rfl

/-- One edge record: the state is left as it is, or it is the state after
`connect` on two existing connectors. -/
theorem GraphManager.readConnection_cases (s : State) (bs : List Nat) :
    (GraphManager.readConnection s bs).1 = s ∨
    ∃ src dst : ConnectorPtr, (s.connector? src).isSome = true ∧
      (s.connector? dst).isSome = true ∧
      (GraphManager.readConnection s bs).1 =
        (GraphManager.connect s (some src) (some dst)).2 := by
  unfold GraphManager.readConnection
  simp only []
  split
  · exact Or.inl rfl
  · split
    · next sourceNode destNode _ _ =>
      split
      · next sn dn h3 h4 =>
        split
        · exact Or.inl rfl
        · next hB =>
          right
          have hs := toInt32_le sn.outputConnectors_.length
          have hd := toInt32_le dn.inputConnectors_.length
          refine ⟨_, _, ?_, ?_, rfl⟩
          · apply State.connector?_isSome_of_lt h3
            show _ < sn.outputConnectors_.length
            omega
          · apply State.connector?_isSome_of_lt h4
            show _ < dn.inputConnectors_.length
            omega
      · exact Or.inl rfl
    · exact Or.inl rfl

theorem GraphManager.readConnection_wired (s : State) (bs : List Nat)
    (hk : s.Inv ∧ s.SingleInput ∧ s.InputsRegistered) :
    (GraphManager.readConnection s bs).1.Inv ∧
    (GraphManager.readConnection s bs).1.SingleInput ∧
    (GraphManager.readConnection s bs).1.InputsRegistered := by
  rcases GraphManager.readConnection_cases s bs with h | ⟨src, dst, hsrc, hdst, h⟩
  · rw [h]
    exact hk
  · rw [h]
    exact GraphManager.connect_wired s src dst hk hsrc hdst

theorem GraphManager.readConnectionsLoop_wired (count : Nat) :
    ∀ (s : State) (bs : List Nat), (s.Inv ∧ s.SingleInput ∧ s.InputsRegistered) →
      (GraphManager.readConnectionsLoop count s bs).1.Inv ∧
      (GraphManager.readConnectionsLoop count s bs).1.SingleInput ∧
      (GraphManager.readConnectionsLoop count s bs).1.InputsRegistered := by
  induction count with
  | zero => intro s bs hk; exact hk
  | succ count ih =>
    intro s bs hk
    unfold GraphManager.readConnectionsLoop
    exact ih _ _ (GraphManager.readConnection_wired s bs hk)

theorem GraphManager.clear_wired (s : State) (hinv : s.Inv) (hsingle : s.SingleInput) :
    (GraphManager.clearBody s).Inv ∧ (GraphManager.clearBody s).SingleInput ∧
    (GraphManager.clearBody s).InputsRegistered := by
  refine ⟨hinv.clear, ?_, ?_⟩
  · intro p hp
    exact Nat.le_trans (GraphManager.clear_sublist s p).length_le (hsingle p hp)
  · intro c hc
    rw [GraphManager.clear_connections_] at hc
    exact absurd hc (List.not_mem_nil _)

/-- The state returned by `loadFromFile` of a file with a valid header, when the
call of `clear()` is defined, with the invariant, single inputs and registered
destinations. -/
theorem GraphManager.loadFromFile_wired (pf : Platform) (s : State) (hinv : s.Inv)
    (hsingle : s.SingleInput) (hclear : GraphManager.clearDefined s) (filePath : String)
    (rest : List Nat) :
    ∃ t, GraphManager.loadFromFile pf s filePath (some (GraphManager.fileHeader ++ rest)) =
        some (true, t) ∧
      t.Inv ∧ t.SingleInput ∧ t.InputsRegistered := by
  refine ⟨_, GraphManager.loadFromFile_header pf s filePath rest hclear, ?_⟩
  have h1 := GraphManager.clear_wired s hinv hsingle
  have h2 := State.wired_of_same
    (State.SamePorts.same_readNodesLoop pf (getU32 rest).1 (GraphManager.clearBody s)
      (getU32 rest).2) h1
  have h3 := GraphManager.readConnectionsLoop_wired
    (getU32 (GraphManager.readNodes pf (GraphManager.clearBody s) rest).2).1
    (GraphManager.readNodes pf (GraphManager.clearBody s) rest).1
    (getU32 (GraphManager.readNodes pf (GraphManager.clearBody s) rest).2).2 h2
  have h4 := State.wired_of_same (State.SamePorts.same_processAll pf _) h3
  refine State.wired_of_same ?_ h4
  exact ⟨rfl, rfl, fun p => State.getConnections_congr rfl p⟩

/-- C26: whatever node section and edge records follow a valid header,
`loadFromFile` (called in a state that satisfies the invariant of the reachable
states, has at most one connection on every input port, and in which the call of
`clear()` is defined) returns success, and the graph it leaves is acyclic, has no
edge between two ports of one node, and has at most one connection on every
input port and at most one edge of the edge list into every input port;
`readConnections` changes the state by calls of `connect` only, so a record that
`canConnect` refuses adds no edge. -/
theorem loadFromFile_keeps_invariants (pf : Platform) (s : State) (hinv : s.Inv)
    (hsingle : s.SingleInput) (hclear : GraphManager.clearDefined s) (filePath : String)
    (rest : List Nat) :
    (∃ t, GraphManager.loadFromFile pf s filePath (some (GraphManager.fileHeader ++ rest)) =
        some (true, t) ∧
      t.Acyclic ∧
      (∀ c ∈ t.connections_, c.source_.parent_ ≠ c.destination_.parent_) ∧
      (∀ p : ConnectorPtr, p.type_ = ConnectorType.Input →
        (t.getConnections p).length ≤ 1) ∧
      (∀ p : ConnectorPtr, p.type_ = ConnectorType.Input → (t.edgesInto p).length ≤ 1)) ∧
    (∀ (u : State) (bs : List Nat), (GraphManager.readConnection u bs).1 = u ∨
      ∃ src dst : ConnectorPtr, (GraphManager.readConnection u bs).1 =
        (GraphManager.connect u (some src) (some dst)).2) := by
  obtain ⟨t, ht, ⟨-, -, ⟨hnd, -⟩, hac⟩, hone, hreg⟩ :=
    GraphManager.loadFromFile_wired pf s hinv hsingle hclear filePath rest
  refine ⟨⟨t, ht, hac, ?_, hone, ?_⟩, ?_⟩
  · intro c hc heq
    exact hac c.source_.parent_ (Relation.TransGen.single ⟨c, hc, rfl, heq.symm⟩)
  · intro p hp
    refine Nat.le_trans ?_ (hone p hp)
    apply (List.subperm_of_subset (hnd.filter _) _).length_le
    intro c hc
    obtain ⟨hmem, hdst⟩ := List.mem_filter.1 hc
    have hd : c.destination_ = p := by simpa using hdst
    rw [← hd]
    exact hreg c hmem
  · intro u bs
    rcases GraphManager.readConnection_cases u bs with h | ⟨src, dst, -, -, h⟩
    · exact Or.inl h
    · exact Or.inr ⟨src, dst, h⟩

set_option maxRecDepth 100000 in
theorem loadFromFile_keeps_invariants_witness :
    exampleTwoNodes.Inv ∧ exampleTwoNodes.SingleInput ∧
    GraphManager.clearDefined exampleTwoNodes ∧
    (GraphManager.loadFromFile examplePlatform exampleTwoNodes "p.nip"
      (some (GraphManager.fileHeader ++ exampleFileBody))).map
        (fun r => (r.1, r.2.nodes_, r.2.connections_)) =
      some (true, [2, 3], [⟨0, ⟨2, .Output, 0⟩, ⟨3, .Input, 0⟩⟩]) ∧
    ∃ t, GraphManager.loadFromFile examplePlatform exampleTwoNodes "p.nip"
        (some (GraphManager.fileHeader ++ exampleFileBody)) = some (true, t) ∧
      t.Acyclic ∧
      (∀ c ∈ t.connections_, c.source_.parent_ ≠ c.destination_.parent_) ∧
      (∀ p : ConnectorPtr, p.type_ = ConnectorType.Input →
        (t.getConnections p).length ≤ 1) ∧
      (∀ p : ConnectorPtr, p.type_ = ConnectorType.Input → (t.edgesInto p).length ≤ 1) :=
  ⟨exampleTwoNodes_reachable.inv, exampleTwoNodes_reachable.single_input.1, by decide,
    by decide,
    (loadFromFile_keeps_invariants examplePlatform exampleTwoNodes
      exampleTwoNodes_reachable.inv exampleTwoNodes_reachable.single_input.1 (by decide)
      "p.nip" exampleFileBody).1⟩

/-! ## The output slots stay as the classes keep them -/

theorem State.SlotsOk.slots_of_heap {s t : State} (h : s.heap = t.heap) (hs : s.SlotsOk) :
    t.SlotsOk := by
  intro p n hn
  rw [← State.node?_congr h] at hn
  exact hs p n hn

theorem State.SlotsOk.slots_modifyNode {s : State} (hs : s.SlotsOk) (p : NodePtr)
    (f : Node → Node) (hf : ∀ n : Node, n.SlotsOk → (f n).SlotsOk) :
    (s.modifyNode p f).SlotsOk := by
  intro q m hm
  rw [State.node?_modifyNode] at hm
  by_cases hq : q = p
  · rw [if_pos hq] at hm
    cases hn : s.node? p with
    | none => rw [hn] at hm; exact Option.noConfusion hm
    | some n =>
      rw [hn] at hm
      simp only [Option.map_some', Option.some.injEq] at hm
      exact hm ▸ hf n (hs p n hn)
  · rw [if_neg hq] at hm
    exact hs q m hm

theorem Node.SlotsOk.slots_setConnectors {n : Node} (h : n.SlotsOk) (t : ConnectorType)
    (l : List NodeConnector) (hl : l.length = (n.connectors t).length) :
    (n.setConnectors t l).SlotsOk := by
  obtain ⟨h1, h2, h3⟩ := h
  cases t
  · exact ⟨h1, h2, h3⟩
  · exact ⟨h1.trans hl.symm, hl.trans h2, h3⟩

theorem Node.SlotsOk.slots_dirty {n : Node} (h : n.SlotsOk) (b : Bool) :
    ({ n with dirty_ := b } : Node).SlotsOk := h

theorem State.SlotsOk.slots_modifyConnector {s : State} (hs : s.SlotsOk) (c : ConnectorPtr)
    (f : List Connection → List Connection) : (s.modifyConnector c f).SlotsOk := by
  unfold State.modifyConnector
  apply hs.slots_modifyNode
  intro n hn
  exact hn.slots_setConnectors _ _ (List.length_modify _ _ _)

theorem State.SlotsOk.slots_markDirty {s : State} (hs : s.SlotsOk) (p : NodePtr) :
    (Node.markDirty s p).SlotsOk :=
  hs.slots_modifyNode p _ (fun _ hn => hn.slots_dirty true)

theorem State.SlotsOk.slots_setNone {s : State} (hs : s.SlotsOk) (node : NodePtr) :
    State.SlotsOk { s with heap := s.heap.set node none } := by
  intro q m hm
  rw [State.node?_set_none] at hm
  split at hm
  · exact Option.noConfusion hm
  · exact hs q m hm

theorem State.SlotsOk.slots_destroyLoop (fuel : Nat) (c : ConnectorPtr) :
    ∀ s : State, s.SlotsOk → (NodeConnector.destroyLoop fuel c s).SlotsOk := by
  induction fuel with
  | zero => intro s hs; exact hs
  | succ fuel ih =>
    intro s hs
    unfold NodeConnector.destroyLoop
    split
    · exact hs
    · simp only
      apply ih
      apply State.SlotsOk.slots_modifyConnector
      unfold NodeConnector.removeConnection
      split <;> exact hs.slots_modifyConnector _ _

theorem State.SlotsOk.slots_destroyAll (node : NodePtr) (t : ConnectorType) (l : List Nat) :
    ∀ s : State, s.SlotsOk →
      (l.foldl (fun st i => NodeConnector.destroy st ⟨node, t, i⟩) s).SlotsOk := by
  induction l with
  | nil => intro s hs; exact hs
  | cons i rest ih =>
    intro s hs
    simp only [List.foldl_cons]
    exact ih _ (State.SlotsOk.slots_destroyLoop _ _ _ hs)

theorem State.SlotsOk.slots_delete {s : State} (hs : s.SlotsOk) (node : NodePtr) :
    (Node.delete s node).SlotsOk := by
  unfold Node.delete
  split
  · exact hs
  · simp only
    exact State.SlotsOk.slots_setNone
      (State.SlotsOk.slots_destroyAll _ _ _ _ (State.SlotsOk.slots_destroyAll _ _ _ _ hs)) _

theorem State.SlotsOk.slots_removeNodeLoop (node : NodePtr) (rest : List Connection) :
    ∀ (kept : List Connection) (s : State), s.SlotsOk →
      (GraphManager.removeNodeLoop node kept rest s).SlotsOk := by
  induction rest with
  | nil => intro kept s hs; exact hs.slots_of_heap rfl
  | cons c rest ih =>
    intro kept s hs
    unfold GraphManager.removeNodeLoop
    split
    · apply ih
      refine State.SlotsOk.slots_of_heap (s := NodeConnector.removeConnection
          (NodeConnector.removeConnection
            (if c.destination_.parent_ ≠ node then Node.markDirty s c.destination_.parent_
              else s) c.source_ c) c.destination_ c) rfl ?_
      unfold NodeConnector.removeConnection
      apply State.SlotsOk.slots_modifyConnector
      apply State.SlotsOk.slots_modifyConnector
      split
      · exact hs.slots_markDirty _
      · exact hs
    · exact ih _ _ hs

theorem State.SlotsOk.slots_removeNode {s : State} (hs : s.SlotsOk) (node : Option NodePtr) :
    (GraphManager.removeNode s node).SlotsOk := by
  cases node with
  | none => exact hs
  | some node =>
    unfold GraphManager.removeNode
    simp only
    refine State.SlotsOk.slots_of_heap (s := Node.delete _ node) rfl ?_
    apply State.SlotsOk.slots_delete
    refine State.SlotsOk.slots_of_heap
      (s := GraphManager.removeNodeLoop node [] s.connections_ s) ?_
      (State.SlotsOk.slots_removeNodeLoop _ _ _ _ hs)
    unfold GraphManager.selectNode
    split
    · split <;> rfl
    · rfl

theorem State.SlotsOk.slots_clearFold (l : List NodePtr) :
    ∀ s : State, s.SlotsOk → (l.foldl (fun st node => Node.delete st node) s).SlotsOk := by
  induction l with
  | nil => intro s hs; exact hs
  | cons a rest ih =>
    intro s hs
    simp only [List.foldl_cons]
    exact ih _ (hs.slots_delete a)

theorem State.SlotsOk.slots_clear {s : State} (hs : s.SlotsOk) :
    (GraphManager.clearBody s).SlotsOk := by
  unfold GraphManager.clearBody
  simp only
  refine State.SlotsOk.slots_of_heap (s := List.foldl _ _ _) rfl
    (State.SlotsOk.slots_clearFold _ _ ?_)
  refine hs.slots_of_heap ?_
  unfold GraphManager.selectNode
  split <;> rfl

theorem State.SlotsOk.slots_disconnect {s : State} (hs : s.SlotsOk)
    (connection : Option Connection) : (GraphManager.disconnect s connection).SlotsOk := by
  cases connection with
  | none => exact hs
  | some e =>
    by_cases he : e ∈ s.connections_
    · rw [GraphManager.disconnect_of_mem s e he]
      refine State.SlotsOk.slots_of_heap (s := Node.markDirty _ _) rfl ?_
      apply State.SlotsOk.slots_markDirty
      unfold NodeConnector.removeConnection
      exact (hs.slots_modifyConnector _ _).slots_modifyConnector _ _
    · unfold GraphManager.disconnect
      simp only [he, if_false]
      exact hs

theorem State.SlotsOk.slots_connect {s : State} (hs : s.SlotsOk)
    (source destination : Option ConnectorPtr) :
    (GraphManager.connect s source destination).2.SlotsOk := by
  by_cases hcan : GraphManager.canConnect s source destination = true
  · cases source with
    | none => simp [GraphManager.canConnect] at hcan
    | some src =>
      cases destination with
      | none => simp [GraphManager.canConnect] at hcan
      | some dst =>
        rw [GraphManager.connect_of_canConnect s src dst hcan]
        refine State.SlotsOk.slots_of_heap (s := Node.markDirty _ _) rfl ?_
        apply State.SlotsOk.slots_markDirty
        unfold NodeConnector.addConnection
        apply State.SlotsOk.slots_modifyConnector
        apply State.SlotsOk.slots_modifyConnector
        exact hs.slots_of_heap rfl
  · rw [GraphManager.connect_of_not_canConnect s source destination (by simpa using hcan)]
    exact hs

theorem State.SlotsOk.slots_addNode {s : State} (hs : s.SlotsOk) (node : Option NodePtr) :
    (GraphManager.addNode s node).SlotsOk := by
  cases node with
  | none => exact hs
  | some node =>
    intro q m hm
    rw [GraphManager.addNode_node?] at hm
    by_cases hq : q = node
    · rw [if_pos hq] at hm
      cases hn : s.node? node with
      | none => rw [hn] at hm; exact Option.noConfusion hm
      | some n =>
        rw [hn] at hm
        simp only [Option.map_some', Option.some.injEq] at hm
        rw [← hm]
        split
        · exact hs node n hn
        · exact hs node n hn
    · rw [if_neg hq] at hm
      exact hs q m hm

theorem Node.construct_slotsOk (kind : NodeKind) (id : Int) : (Node.construct kind id).SlotsOk := by
  cases kind <;> exact ⟨rfl, rfl, by intro h; first | rfl | exact NodeKind.noConfusion h⟩

theorem State.SlotsOk.slots_newNode {s : State} (hs : s.SlotsOk) (kind : NodeKind) :
    (s.newNode kind).2.SlotsOk := by
  intro q m hm
  rw [State.node?_newNode] at hm
  split at hm
  · simp only [Option.some.injEq] at hm
    rw [← hm]
    exact Node.construct_slotsOk kind _
  · exact hs q m hm

theorem GraphOp.run_slotsOk (s : State) (op : GraphOp) (hs : s.SlotsOk) : (op.run s).SlotsOk := by
  cases op with
  | newNode kind => exact hs.slots_newNode kind
  | addNode node => exact hs.slots_addNode node
  | removeNode node => exact hs.slots_removeNode node
  | connect source destination => exact hs.slots_connect source destination
  | disconnect connection => exact hs.slots_disconnect connection
  | clear =>
    rcases GraphOp.run_clear s with e | e
    · rw [e]
      exact hs.slots_clear
    · rw [e]
      exact hs

/-- In every state reached through the operations of `GraphManager`, every live
node object keeps its output slots as its class makes them. -/
theorem State.Reachable.slotsOk {s : State} (h : s.Reachable) : s.SlotsOk := by
  induction h with
  | init =>
    intro p n hn
    simp [State.init, State.node?] at hn
  | step s op _ _ ih => exact GraphOp.run_slotsOk s op ih

theorem List.foldl_set_length (f : Nat → Mat) (l : List Nat) :
    ∀ o : List Mat, (l.foldl (fun o i => o.set i (f i)) o).length = o.length := by
  induction l with
  | nil => intro o; rfl
  | cons a rest ih => intro o; simp only [List.foldl_cons]; rw [ih]; simp

theorem Node.processSelf_outputImages_length (pf : Platform) (s : State) (node : NodePtr)
    (n : Node) : (Node.processSelf pf s node n).outputImages_.length = n.outputImages_.length := by
  unfold Node.processSelf Node.clearOutputs
  cases n.kind <;> simp only <;> split <;>
    first
    | rfl
    | exact (congrArg List.length (Node.setOutputImage_outputImages_ _ _ _)).trans
        (List.length_set _ _ _)
    | exact (congrArg List.length (Node.foldl_setOutputImage (fun _ => ([] : Mat)) _ n).1).trans
        (List.foldl_set_length _ _ _)
    | exact (congrArg List.length (Node.foldl_setOutputImage
        (fun i => pf.channel n.parameters (Node.inputImage s n 0) i) _ n).1).trans
        (List.foldl_set_length _ _ _)

theorem Node.processSelf_input (pf : Platform) (s : State) (node : NodePtr) (n : Node)
    (hk : n.kind = NodeKind.InputNode) (hne : n.originalImage_.isEmpty = false) :
    Node.processSelf pf s node n =
      { n.setOutputImage n.originalImage_ 0 with dirty_ := false } := by
  unfold Node.processSelf
  simp only [hk]
  rw [if_pos (by simp [hne])]

theorem Node.setOutputImage_fields (n : Node) (image : Mat) (i : Nat) :
    (n.setOutputImage image i).kind = n.kind ∧
    (n.setOutputImage image i).outputConnectors_ = n.outputConnectors_ ∧
    (n.setOutputImage image i).originalImage_ = n.originalImage_ := by
  unfold Node.setOutputImage
  split <;> exact ⟨rfl, rfl, rfl⟩

theorem Node.SlotsOk.slots_processSelf (pf : Platform) (s : State) (node : NodePtr) {n : Node}
    (h : n.SlotsOk) : (Node.processSelf pf s node n).SlotsOk := by
  obtain ⟨h1, h2, h3⟩ := h
  have hp := Node.processSelf_parameters pf s node n
  have hk : (Node.processSelf pf s node n).kind = n.kind := by
    have := congrArg Node.kind hp
    exact this
  have ho : (Node.processSelf pf s node n).outputConnectors_ = n.outputConnectors_ := by
    have := congrArg Node.outputConnectors_ hp
    exact this
  have hi : (Node.processSelf pf s node n).originalImage_ = n.originalImage_ := by
    have := congrArg Node.originalImage_ hp
    exact this
  refine ⟨?_, ?_, ?_⟩
  · rw [Node.processSelf_outputImages_length, ho]
    exact h1
  · rw [ho, hk]
    exact h2
  · intro hin
    rw [hk] at hin
    rw [hi]
    have h3' := h3 hin
    unfold Node.processSelf
    simp only [hin]
    split
    · show (n.setOutputImage n.originalImage_ 0).outputImages_ = _
      rw [Node.setOutputImage_outputImages_, h3']
      rfl
    · exact h3'

theorem State.SlotsOk.slots_process {s : State} (hs : s.SlotsOk) (pf : Platform)
    (node : NodePtr) : (Node.process pf s node).SlotsOk :=
  hs.slots_modifyNode node _ (fun _ hn => hn.slots_processSelf pf s node)

theorem State.SlotsOk.slots_processNodes (pf : Platform) (l : List NodePtr) :
    ∀ (s : State) (c : List NodePtr), s.SlotsOk →
      (GraphManager.processNodes pf l (s, c)).1.SlotsOk := by
  induction l with
  | nil => intro s c hs; exact hs
  | cons a rest ih =>
    intro s c hs
    rw [GraphManager.processNodes_cons]
    split
    · exact ih _ _ (hs.slots_process pf a)
    · exact ih _ _ hs

theorem State.SlotsOk.slots_processAll {s : State} (hs : s.SlotsOk) (pf : Platform) :
    (GraphManager.processAll pf s).SlotsOk :=
  State.SlotsOk.slots_processNodes pf _ s [] hs

/-- `InputNode::loadImage`, called on an input node, keeps the slots in order:
the loaded image is stored and `process()` copies it into the slot. -/
theorem State.SlotsOk.slots_loadImage {s : State} (hs : s.SlotsOk) (pf : Platform)
    (node : NodePtr) (filePath : String)
    (hkind : ∀ n, s.node? node = some n → n.kind = NodeKind.InputNode) :
    (Node.loadImage pf s node filePath).2.SlotsOk := by
  unfold Node.loadImage
  simp only
  split
  · exact hs
  · next hempty =>
    intro q m hm
    by_cases hq : q = node
    · rw [hq, Node.process_node?_self, State.node?_modifyNode, if_pos rfl] at hm
      cases hn : s.node? node with
      | none => rw [hn] at hm; exact Option.noConfusion hm
      | some n =>
        rw [hn] at hm
        simp only [Option.map_some', Option.some.injEq] at hm
        obtain ⟨h1, h2, h3⟩ := hs node n hn
        have hin := hkind n hn
        rw [Node.processSelf_input pf _ node
          { n with originalImage_ := pf.imread filePath, imagePath_ := filePath, dirty_ := true }
          hin (by simpa using hempty)] at hm
        obtain ⟨f1, f2, f3⟩ := Node.setOutputImage_fields
          { n with originalImage_ := pf.imread filePath, imagePath_ := filePath, dirty_ := true }
          (pf.imread filePath) 0
        have f4 := Node.setOutputImage_outputImages_
          { n with originalImage_ := pf.imread filePath, imagePath_ := filePath, dirty_ := true }
          (pf.imread filePath) 0
        rw [← hm]
        refine ⟨?_, ?_, fun _ => ?_⟩
        · show (Node.setOutputImage _ _ 0).outputImages_.length =
            (Node.setOutputImage _ _ 0).outputConnectors_.length
          rw [f4, f2, List.length_set]
          exact h1
        · show (Node.setOutputImage _ _ 0).outputConnectors_.length =
            (Node.construct (Node.setOutputImage _ _ 0).kind 0).outputConnectors_.length
          rw [f2, f1]
          exact h2
        · show (Node.setOutputImage _ _ 0).outputImages_ =
            [(Node.setOutputImage _ _ 0).originalImage_]
          rw [f4, f3]
          show (n.outputImages_.set 0 (pf.imread filePath)) = [pf.imread filePath]
          rw [h3 hin]
          rfl
    · rw [Node.process_node?_of_ne pf _ node q hq, State.node?_modifyNode, if_neg hq] at hm
      exact hs q m hm

theorem State.SlotsOk.slots_setBrightness {s : State} (hs : s.SlotsOk) (node : NodePtr)
    (brightness : Int) : (Node.setBrightness s node brightness).SlotsOk :=
  hs.slots_modifyNode node _ (fun _ hn => hn)

theorem State.SlotsOk.slots_setContrast {s : State} (hs : s.SlotsOk) (node : NodePtr)
    (contrast : Double) : (Node.setContrast s node contrast).SlotsOk :=
  hs.slots_modifyNode node _ (fun _ hn => hn)

theorem State.SlotsOk.slots_ite {c : Prop} [Decidable c] {a b : State} (ha : a.SlotsOk)
    (hb : b.SlotsOk) : (if c then a else b).SlotsOk := by
  split
  · exact ha
  · exact hb

theorem State.SlotsOk.slots_finishNode {s : State} (hs : s.SlotsOk) (node : NodePtr)
    (nodeName : QString) (position : Int × Int) :
    (GraphManager.finishNode s node nodeName position).SlotsOk := by
  unfold GraphManager.finishNode
  apply State.SlotsOk.slots_addNode
  have h1 : (Node.setName s node nodeName.toStdString).SlotsOk :=
    hs.slots_modifyNode node _ (fun _ hn => hn)
  exact (h1.slots_modifyNode node _ (fun _ hn => hn) :
    (Node.setPosition _ node position.1 position.2).SlotsOk)

theorem State.SlotsOk.slots_readNode {s : State} (hs : s.SlotsOk) (pf : Platform)
    (bs : List Nat) : (GraphManager.readNode pf s bs).1.SlotsOk := by
  unfold GraphManager.readNode
  simp only [apply_ite Prod.fst]
  refine State.SlotsOk.slots_ite ?_ (State.SlotsOk.slots_ite ?_
    (State.SlotsOk.slots_ite (State.SlotsOk.slots_ite ?_ hs) hs))
  · apply State.SlotsOk.slots_finishNode
    refine State.SlotsOk.slots_ite ?_ (hs.slots_newNode _)
    apply State.SlotsOk.slots_loadImage (hs.slots_newNode _)
    intro n hn
    have hnew : (s.newNode NodeKind.InputNode).1 = s.heap.length := rfl
    rw [hnew, State.node?_newNode, if_pos rfl] at hn
    simp only [Option.some.injEq] at hn
    rw [← hn]
    rfl
  · exact State.SlotsOk.slots_finishNode (hs.slots_newNode _) _ _ _
  · apply State.SlotsOk.slots_finishNode
    exact State.SlotsOk.slots_setContrast
      (State.SlotsOk.slots_setBrightness (hs.slots_newNode _) _ _) _ _

theorem State.SlotsOk.slots_readNodesLoop (pf : Platform) (count : Nat) :
    ∀ (s : State) (bs : List Nat), s.SlotsOk →
      (GraphManager.readNodesLoop pf count s bs).1.SlotsOk := by
  induction count with
  | zero => intro s bs hs; exact hs
  | succ count ih =>
    intro s bs hs
    unfold GraphManager.readNodesLoop
    exact ih _ _ (hs.slots_readNode pf bs)

theorem State.SlotsOk.slots_readConnectionsLoop (count : Nat) :
    ∀ (s : State) (bs : List Nat), s.SlotsOk →
      (GraphManager.readConnectionsLoop count s bs).1.SlotsOk := by
  induction count with
  | zero => intro s bs hs; exact hs
  | succ count ih =>
    intro s bs hs
    unfold GraphManager.readConnectionsLoop
    apply ih
    rcases GraphManager.readConnection_cases s bs with h | ⟨src, dst, -, -, h⟩
    · rw [h]; exact hs
    · rw [h]; exact hs.slots_connect _ _

/-- The node objects of a loaded graph keep their output slots in order. -/
theorem State.SlotsOk.slots_loadFromFile {s : State} (hs : s.SlotsOk) (pf : Platform)
    (filePath : String) (file : Option (List Nat)) (r : Bool × State)
    (hr : GraphManager.loadFromFile pf s filePath file = some r) : r.2.SlotsOk := by
  unfold GraphManager.loadFromFile at hr
  cases file with
  | none =>
    cases hr
    exact hs
  | some bs =>
    simp only at hr
    by_cases h1 : (getQString bs).1 ≠ QString.fromStdString "NIP"
    · rw [if_pos h1] at hr
      cases hr
      exact hs
    · rw [if_neg h1] at hr
      by_cases h2 : (getU32 (getQString bs).2).1 ≠ 1
      · rw [if_pos h2] at hr
        cases hr
        exact hs
      · rw [if_neg h2] at hr
        by_cases hc : GraphManager.clearDefined s
        · rw [GraphManager.clear_eq_some s hc] at hr
          cases hr
          refine State.SlotsOk.slots_of_heap (s := GraphManager.processAll pf _) rfl ?_
          apply State.SlotsOk.slots_processAll
          unfold GraphManager.readConnections GraphManager.readNodes
          exact State.SlotsOk.slots_readConnectionsLoop _ _ _
            (State.SlotsOk.slots_readNodesLoop pf _ _ _ hs.slots_clear)
        · rw [GraphManager.clear_eq_none s hc] at hr
          cases hr

/-! ## Connection objects are new when they are made -/

theorem GraphOp.nextConn_run (s : State) (op : GraphOp) : s.nextConn ≤ (op.run s).nextConn := by
  cases op with
  | newNode kind => exact Nat.le_refl _
  | addNode node =>
    show _ ≤ (GraphManager.addNode s node).nextConn
    rw [GraphManager.addNode_nextConn]
  | removeNode node =>
    cases node with
    | none => exact Nat.le_refl _
    | some node =>
      show _ ≤ (GraphManager.removeNode s (some node)).nextConn
      rw [GraphManager.removeNode_nextConn]
  | connect source destination =>
    show _ ≤ (GraphManager.connect s source destination).2.nextConn
    by_cases hcan : GraphManager.canConnect s source destination = true
    · cases source with
      | none => simp [GraphManager.canConnect] at hcan
      | some src =>
        cases destination with
        | none => simp [GraphManager.canConnect] at hcan
        | some dst =>
          rw [GraphManager.connect_nextConn s src dst hcan]
          exact Nat.le_succ _
    · rw [GraphManager.connect_of_not_canConnect s source destination (by simpa using hcan)]
  | disconnect connection =>
    show _ ≤ (GraphManager.disconnect s connection).nextConn
    cases connection with
    | none => exact Nat.le_refl _
    | some e =>
      by_cases he : e ∈ s.connections_
      · rw [GraphManager.disconnect_of_mem s e he]
        show _ ≤ (Node.markDirty _ _).nextConn
        rw [(GraphManager.disconnect_heapOnly s e).nextConn]
      · unfold GraphManager.disconnect
        simp only [he, if_false]
        exact Nat.le_refl _
  | clear =>
    rcases GraphOp.run_clear s with e | e
    · rw [e, GraphManager.clear_nextConn]
    · rw [e]

/-- In a reachable state every connection held by a port was made before the
next connection object. -/
theorem State.Reachable.ports_fresh {s : State} (h : s.Reachable) :
    ∀ (p : ConnectorPtr) (c : Connection), c ∈ s.getConnections p → c.addr < s.nextConn := by
  induction h with
  | init =>
    intro p c hc
    simp [State.init, State.getConnections, State.connector?, State.node?] at hc
  | step s op _ _ ih =>
    intro p c hc
    rcases GraphOp.getConnections_run s op p with hsub | ⟨src, dst, hop, hcan, -, heq⟩
    · exact Nat.lt_of_lt_of_le (ih p c (hsub.subset hc)) (GraphOp.nextConn_run s op)
    · rw [heq] at hc
      rw [hop]
      show c.addr < (GraphManager.connect s (some src) (some dst)).2.nextConn
      rw [GraphManager.connect_nextConn s src dst hcan]
      rcases List.mem_append.1 hc with hold | hnew
      · exact Nat.lt_succ_of_lt (ih p c hold)
      · rw [List.mem_singleton.1 hnew]
        exact Nat.lt_succ_self _

/-- In a reachable state the connection object that `connect` makes is on no port
and not in the edge list. -/
theorem State.Reachable.connection_new {s : State} (h : s.Reachable) (src dst : ConnectorPtr) :
    (⟨s.nextConn, src, dst⟩ : Connection) ∉ s.connections_ ∧
    ∀ p, (⟨s.nextConn, src, dst⟩ : Connection) ∉ s.getConnections p := by
  constructor
  · intro hmem
    exact Nat.lt_irrefl _ (h.inv.2.2.1.2 _ hmem)
  · intro p hmem
    exact Nat.lt_irrefl _ (h.ports_fresh p _ hmem)

/-! ## Results of a pass, without assumptions on the shape of the graph -/

theorem State.inputsListed_of_agree (s : State) (hagree : s.PortsAgree)
    (htyped : s.EdgesTyped) : s.InputsListed :=
  fun n r hn k hk c hc => State.upstream_edge s hagree htyped n r hn k hk c hc

/-- C6 (amended): in a graph in which every connection held by an input port of
a node is an edge of the edge list that ends in this node, after `processAll()`
returns, every node whose callback was invoked during this call and whose dirty
flag is clear holds in its output slots what its processing callback produces
from the current output values of its upstream nodes and its own current
parameters; every node whose callback was not invoked is left exactly as it was
before the call (in every graph). -/
theorem processAll_invoked_fresh (pf : Platform) (hpf : pf.MapOrderOk) (s : State) :
    (s.InputsListed →
      ∀ n ∈ (GraphManager.processAllCalls pf s).2,
        Node.isDirty (GraphManager.processAll pf s) n = false →
        Node.Fresh pf (GraphManager.processAll pf s) n) ∧
    (∀ n, n ∉ (GraphManager.processAllCalls pf s).2 →
      (GraphManager.processAll pf s).node? n = s.node? n) := by
  obtain ⟨-, hnd, -, hbefore⟩ := GraphManager.calculateProcessingOrder_sound pf hpf s
  refine ⟨?_, ?_⟩
  · intro hlisted n hcalled hclean
    unfold GraphManager.processAll at hclean ⊢
    unfold GraphManager.processAllCalls at hcalled hclean ⊢
    generalize GraphManager.calculateProcessingOrder pf s = order at *
    obtain ⟨pre, post, sk, ck, hl, hpre, hdirty, hfin⟩ :=
      GraphManager.processNodes_split pf order s [] n (List.not_mem_nil _) hcalled
    subst hl
    rw [hfin] at hclean ⊢
    have hnpost : n ∉ post := (List.nodup_cons.1 (List.nodup_append.1 hnd).2.1).1
    -- the object at the moment of its callback
    unfold Node.isDirty at hdirty
    cases hsk : sk.node? n with
    | none => rw [hsk] at hdirty; exact Bool.noConfusion hdirty
    | some r =>
      rw [hsk] at hdirty
      simp only at hdirty
      -- its connectors are those it had before the pass
      have hpar := GraphManager.processNodes_parameters pf pre s [] n
      rw [hpre] at hpar
      simp only [hsk, Option.map_some'] at hpar
      cases hs : s.node? n with
      | none => rw [hs] at hpar; exact Option.noConfusion hpar
      | some r0 =>
        rw [hs] at hpar
        simp only [Option.map_some', Option.some.injEq] at hpar
        have hconn0 := (Node.parameters_fields hpar).2.1
        -- the object at the end of the pass
        have hsf : (GraphManager.processNodes pf post
            (Node.process pf sk n, ck ++ [n])).1.node? n =
              some (Node.processSelf pf sk n r) := by
          rw [GraphManager.processNodes_node?_of_not_mem pf post _ _ n hnpost,
            Node.process_node?_self, hsk]
          rfl
        have hready : Node.isReady sk n = true := by
          unfold Node.isDirty at hclean
          rw [hsf] at hclean
          simp only at hclean
          rw [Node.processSelf_dirty_ pf sk n r hsk] at hclean
          cases hr : Node.isReady sk n with
          | true => rfl
          | false =>
            rw [hr, hdirty] at hclean
            exact Bool.noConfusion hclean
        have hsame : sk.SameInputs (GraphManager.processNodes pf post
            (Node.process pf sk n, ck ++ [n])).1 r := by
          intro k hk c hc
          have hk0 : k ∈ r0.inputConnectors_ := by rw [← hconn0]; exact hk
          obtain ⟨hcm, hdst⟩ := hlisted n r0 hs k hk0 c hc
          have hb := hbefore c hcm (by rw [hdst]; simp)
          rw [hdst] at hb
          obtain ⟨hun, hup⟩ := Before.not_mem_tail hnd hb
          unfold Node.getOutputImage
          rw [GraphManager.processNodes_node?_of_not_mem pf post _ _ _ hup,
            Node.process_node?_of_ne pf sk n _ hun]
        obtain ⟨hkind, hconn, -, horig⟩ :=
          Node.parameters_fields (Node.processSelf_parameters pf sk n r)
        unfold Node.Fresh Node.outputs
        rw [Node.process_node?_self, hsf]
        simp only [Option.map_some']
        rw [Node.processSelf_idem pf sk _ n r hsk hsf hready hsame hkind hconn horig]
  · intro n hn
    exact GraphManager.processNodes_node?_of_not_called pf _ s [] n hn

theorem processAll_invoked_fresh_witness :
    examplePlatform.MapOrderOk ∧ exampleLoaded.InputsListed ∧
    (GraphManager.processAllCalls examplePlatform exampleLoaded).2 = [1] ∧
    Node.isDirty (GraphManager.processAll examplePlatform exampleLoaded) 1 = false ∧
    Node.Fresh examplePlatform (GraphManager.processAll examplePlatform exampleLoaded) 1 ∧
    (GraphManager.processAll examplePlatform exampleLoaded).node? 0 = exampleLoaded.node? 0 :=
  ⟨examplePlatform_mapOrderOk,
    State.inputsListed_of_agree exampleLoaded (by decide) (by decide), by decide, by decide,
    (processAll_invoked_fresh examplePlatform examplePlatform_mapOrderOk exampleLoaded).1
      (State.inputsListed_of_agree exampleLoaded (by decide) (by decide)) 1 (by decide)
      (by decide),
    (processAll_invoked_fresh examplePlatform examplePlatform_mapOrderOk exampleLoaded).2
      0 (by decide)⟩

/-- C6 (as stated) fails twice over. After the image of the input node of
`exampleReloaded` was replaced and `processAll()` ran, no callback was invoked
and the clean brightness/contrast node downstream still holds the result
computed from the old image. In `exampleBypass`, where node 2 is joined to node
1 by `Node::connectTo`, `processAll()` invokes the callback of node 2 before
that of node 1: node 2 is clean afterwards and holds the old result `[1]` of
node 1, which holds `[2, 3]` now. -/
theorem processAll_leaves_downstream_stale :
    ((GraphManager.processAllCalls examplePlatform exampleReloaded).2 = [] ∧
      Node.isDirty (GraphManager.processAll examplePlatform exampleReloaded) 1 = false ∧
      Node.getOutputImage (GraphManager.processAll examplePlatform exampleReloaded) 0 0 =
        [2, 3] ∧
      Node.getOutputImage (GraphManager.processAll examplePlatform exampleReloaded) 1 0 =
        [1] ∧
      ¬ Node.Fresh examplePlatform
        (GraphManager.processAll examplePlatform exampleReloaded) 1) ∧
    (exampleBypass.connections_ = [⟨0, ⟨0, .Output, 0⟩, ⟨1, .Input, 0⟩⟩] ∧
      exampleBypass.getConnections ⟨2, .Input, 0⟩ = [⟨1, ⟨1, .Output, 0⟩, ⟨2, .Input, 0⟩⟩] ∧
      (GraphManager.processAllCalls examplePlatform exampleBypass).2 = [2, 1] ∧
      Node.isDirty (GraphManager.processAll examplePlatform exampleBypass) 2 = false ∧
      Node.getOutputImage (GraphManager.processAll examplePlatform exampleBypass) 1 0 =
        [2, 3] ∧
      Node.getOutputImage (GraphManager.processAll examplePlatform exampleBypass) 2 0 =
        [1] ∧
      ¬ Node.Fresh examplePlatform (GraphManager.processAll examplePlatform exampleBypass) 2) := by
  unfold Node.Fresh
  decide

/-! ## Evaluations on states outside the graph invariants -/

theorem exampleListedTwice_reachable : exampleListedTwice.Reachable := by
  unfold exampleListedTwice
  refine State.Reachable.step _ _ exampleTwoNodes_reachable ?_
  intro p hp
  cases hp
  decide

/-- C8 (as stated) fails. After `addNode` was called twice for node 0,
`removeNode` erases the first listing only: the node list `[0, 1, 0]` becomes
`[1, 0]` and still names the deleted node. In `exampleDoubleEdge`, where the
input port of node 1 holds two connections made by `Node::connectTo` that are
not in the edge list, `removeNode` of node 0 removes no edge from the edge list
and the port of the surviving node 1 loses both connections. -/
theorem removeNode_keeps_second_listing :
    (exampleListedTwice.Reachable ∧ exampleListedTwice.nodes_ = [0, 1, 0] ∧
      (GraphManager.removeNode exampleListedTwice (some 0)).nodes_ = [1, 0] ∧
      (GraphManager.removeNode exampleListedTwice (some 0)).node? 0 = none) ∧
    (exampleDoubleEdge.ReachablePublic ∧ exampleDoubleEdge.connections_ = [] ∧
      (exampleDoubleEdge.getConnections ⟨1, .Input, 0⟩).length = 2 ∧
      (GraphManager.removeNode exampleDoubleEdge (some 0)).connections_ = [] ∧
      (GraphManager.removeNode exampleDoubleEdge (some 0)).getConnections ⟨1, .Input, 0⟩ =
        []) :=
  ⟨⟨exampleListedTwice_reachable, by decide, by decide, by decide⟩,
    ⟨exampleDoubleEdge_reachable, by decide, by decide, by decide, by decide⟩⟩

theorem GraphManager.fileContents_eq (pf : Platform) (s : State) :
    GraphManager.fileContents pf s =
      GraphManager.fileHeader ++
        (GraphManager.writeNodes pf s ++ GraphManager.writeConnections s) := by
  unfold GraphManager.fileContents GraphManager.fileHeader
  simp only [List.append_assoc]

set_option maxRecDepth 100000 in
/-- The graph with one blur node, saved, cleared and loaded: no node is read. -/
theorem exampleBlur_reload :
    ((GraphManager.clear (GraphManager.saveToFile exampleBlur "p.nip" true).2).bind
      (fun t => GraphManager.loadFromFile examplePlatform t "p.nip"
        (some (GraphManager.fileContents examplePlatform exampleBlur)))).map
      (fun r => (r.1, r.2.nodes_)) = some (true, []) := by
  have h1 := GraphManager.clear_eq_some (GraphManager.saveToFile exampleBlur "p.nip" true).2
    (by decide)
  have h2 := GraphManager.loadFromFile_header examplePlatform
    (GraphManager.clearBody (GraphManager.saveToFile exampleBlur "p.nip" true).2) "p.nip"
    (GraphManager.writeNodes examplePlatform exampleBlur ++
      GraphManager.writeConnections exampleBlur) (by decide)
  have h3 := GraphManager.loadFromFile_header_nodes_ examplePlatform
    (GraphManager.clearBody (GraphManager.saveToFile exampleBlur "p.nip" true).2) "p.nip"
    (GraphManager.writeNodes examplePlatform exampleBlur ++
      GraphManager.writeConnections exampleBlur)
  have h4 : (GraphManager.readNodes examplePlatform
      (GraphManager.clearBody (GraphManager.clearBody
        (GraphManager.saveToFile exampleBlur "p.nip" true).2))
      (GraphManager.writeNodes examplePlatform exampleBlur ++
        GraphManager.writeConnections exampleBlur)).1.nodes_ = [] := by decide
  rw [h1, Option.some_bind, GraphManager.fileContents_eq, h2, Option.map_some']
  exact congrArg (fun l => some (true, l)) (h3.trans h4)

set_option maxRecDepth 100000 in
/-- C9: the code evaluated on three graphs. For `exampleChain` (an input node
and a brightness/contrast node joined by one edge) the call of `clear()` behind
`saveToFile` is not defined: it deletes the connection and then the nodes, whose
connectors read and delete the connection again. For `exampleTwoNodes` (the same
two nodes, no edge) the three calls return success and the graph read back has
two input nodes: `writeNodes` writes the position as a `QPointF`, `readNodes`
reads a `QPoint`. For `exampleBlur` (one blur node) the graph read back has no
node: `readNodes` creates input, output and brightness/contrast nodes only. -/
theorem save_clear_load_diverges :
    GraphManager.clear (GraphManager.saveToFile exampleChain "p.nip" true).2 = none ∧
    exampleTwoNodes.nodes_.map (fun p => (exampleTwoNodes.node? p).map (fun n => n.kind)) =
      [some NodeKind.InputNode, some NodeKind.BrightnessContrastNode] ∧
    ((GraphManager.clear (GraphManager.saveToFile exampleTwoNodes "p.nip" true).2).bind
      (fun t => GraphManager.loadFromFile examplePlatform t "p.nip"
        (some (GraphManager.fileContents examplePlatform exampleTwoNodes)))).map
      (fun r => (r.1, r.2.nodes_.map (fun p => (r.2.node? p).map (fun n => n.kind)))) =
      some (true, [some NodeKind.InputNode, some NodeKind.InputNode]) ∧
    exampleBlur.nodes_.map (fun p => (exampleBlur.node? p).map (fun n => n.kind)) =
      [some NodeKind.BlurNode] ∧
    ((GraphManager.clear (GraphManager.saveToFile exampleBlur "p.nip" true).2).bind
      (fun t => GraphManager.loadFromFile examplePlatform t "p.nip"
        (some (GraphManager.fileContents examplePlatform exampleBlur)))).map
      (fun r => (r.1, r.2.nodes_)) = some (true, []) :=
  ⟨by decide, by decide, by decide, by decide, exampleBlur_reload⟩

/-- C17 (amended): for a node of a class that uses the default readiness
predicate, `isReady()` is true exactly when every input port has at least one
incident edge and the output image of the source node at the ordinal of the
source port of each of these edges is not empty; in a state where every input
port of the node has at most one incident edge, that is: exactly when every
input port has exactly one incident edge with a non-empty source image. -/
theorem isReady_default_iff (s : State) (node : NodePtr) (n : Node)
    (hn : s.node? node = some n)
    (hinput : n.kind ≠ NodeKind.InputNode) (hblend : n.kind ≠ NodeKind.BlendNode) :
    (Node.isReady s node = true ↔
      ∀ k ∈ n.inputConnectors_, 1 ≤ k.connections_.length ∧
        ∀ c ∈ k.connections_,
          Node.getOutputImage s c.source_.parent_ c.source_.index_ ≠ []) ∧
    ((∀ k ∈ n.inputConnectors_, k.connections_.length ≤ 1) →
      (Node.isReady s node = true ↔
        ∀ k ∈ n.inputConnectors_, k.connections_.length = 1 ∧
          ∀ c ∈ k.connections_,
            Node.getOutputImage s c.source_.parent_ c.source_.index_ ≠ [])) := by
  have key : Node.isReady s node = true ↔
      ∀ k ∈ n.inputConnectors_, 1 ≤ k.connections_.length ∧
        ∀ c ∈ k.connections_,
          Node.getOutputImage s c.source_.parent_ c.source_.index_ ≠ [] := by
    unfold Node.isReady
    rw [hn]
    simp only
    rw [Node.isReadyObject_default s n hinput hblend, Node.isReadyDefault_iff]
    constructor
    · intro h k hk
      refine ⟨?_, (h k hk).2⟩
      exact Nat.pos_of_ne_zero (fun h0 => (h k hk).1 (List.length_eq_zero.1 h0))
    · intro h k hk
      refine ⟨?_, (h k hk).2⟩
      intro he
      have := (h k hk).1
      rw [he] at this
      exact absurd this (by decide)
  refine ⟨key, fun hsingle => key.trans ?_⟩
  constructor
  · intro h k hk
    exact ⟨Nat.le_antisymm (hsingle k hk) (h k hk).1, (h k hk).2⟩
  · intro h k hk
    exact ⟨Nat.le_of_eq (h k hk).1.symm, (h k hk).2⟩

theorem isReady_default_iff_witness :
    exampleProcessed.node? 1 = some exampleProcessedNode ∧
    exampleProcessedNode.kind ≠ NodeKind.InputNode ∧
    exampleProcessedNode.kind ≠ NodeKind.BlendNode ∧
    (∀ k ∈ exampleProcessedNode.inputConnectors_, k.connections_.length ≤ 1) ∧
    Node.isReady exampleProcessed 1 = true ∧
    (∀ k ∈ exampleProcessedNode.inputConnectors_, k.connections_.length = 1 ∧
      ∀ c ∈ k.connections_,
        Node.getOutputImage exampleProcessed c.source_.parent_ c.source_.index_ ≠ []) :=
  ⟨by decide, by decide, by decide, by decide, by decide,
    ((isReady_default_iff exampleProcessed 1 exampleProcessedNode (by decide) (by decide)
      (by decide)).2 (by decide)).1 (by decide)⟩

/-- C17 (as stated) fails: in `exampleDoubleLoaded` the only input port of the
brightness/contrast node 1 holds two connections, not exactly one, and
`isReady()` is true. -/
theorem isReady_with_two_edges :
    (exampleDoubleLoaded.node? 1).map (fun n => n.kind) =
      some NodeKind.BrightnessContrastNode ∧
    (exampleDoubleLoaded.node? 1).map
      (fun n => n.inputConnectors_.map (fun k => k.connections_.length)) = some [2] ∧
    Node.isReady exampleDoubleLoaded 1 = true := by
  decide

/-- C18 (as stated) fails: in `exampleSecondSource` the input port of node 1
holds the edge from node 0 made by `connect` and a connection from node 2 made
by `Node::connectTo`; after `removeNode` of node 0 the port still holds the
second one and node 1 is ready. -/
theorem removeNode_successor_still_ready :
    exampleSecondSource.connections_ = [⟨0, ⟨0, .Output, 0⟩, ⟨1, .Input, 0⟩⟩] ∧
    exampleSecondSource.getConnections ⟨1, .Input, 0⟩ =
      [⟨0, ⟨0, .Output, 0⟩, ⟨1, .Input, 0⟩⟩, ⟨1, ⟨2, .Output, 0⟩, ⟨1, .Input, 0⟩⟩] ∧
    (GraphManager.removeNode exampleSecondSource (some 0)).nodes_ = [1, 2] ∧
    (GraphManager.removeNode exampleSecondSource (some 0)).getConnections ⟨1, .Input, 0⟩ =
      [⟨1, ⟨2, .Output, 0⟩, ⟨1, .Input, 0⟩⟩] ∧
    Node.isReady (GraphManager.removeNode exampleSecondSource (some 0)) 1 = true := by
  decide

theorem exampleOrphan_reachable : exampleOrphan.Reachable := by
  unfold exampleOrphan
  refine State.Reachable.step _ _ (State.Reachable.step _ _ (State.Reachable.step _ _
    (State.Reachable.step _ _ State.Reachable.init ?_) ?_) ?_) ⟨?_, ?_⟩
  · trivial
  · intro p hp
    cases hp
    decide
  · trivial
  · intro c hc
    cases hc
    decide
  · intro c hc
    cases hc
    decide

/-- C28 (as stated) fails: `exampleOrphan` is acyclic, its only edge leads from
an input node that was never added to the listed node 0. The processing order
is empty, so no callback is invoked (every invoked callback finds its node
ready), and node 0 is dirty after the pass. -/
theorem processAll_skips_blocked_node :
    exampleOrphan.Reachable ∧ exampleOrphan.Acyclic ∧ exampleOrphan.nodes_ = [0] ∧
    exampleOrphan.connections_ = [⟨0, ⟨1, .Output, 0⟩, ⟨0, .Input, 0⟩⟩] ∧
    GraphManager.calculateProcessingOrder examplePlatform exampleOrphan = [] ∧
    GraphManager.AllReady examplePlatform
      (GraphManager.calculateProcessingOrder examplePlatform exampleOrphan) exampleOrphan ∧
    (GraphManager.processAllCalls examplePlatform exampleOrphan).2 = [] ∧
    Node.isDirty (GraphManager.processAll examplePlatform exampleOrphan) 0 = true :=
  ⟨exampleOrphan_reachable, exampleOrphan_reachable.inv.2.2.2, by decide, by decide,
    by decide, by decide, by decide, by decide⟩
